import Mathlib

/-!
# Alignment kernels and Cigar of `tools/skesa/glb_align.cpp`

A shallow embedding of the affine-gap alignment kernels (`GlbAlign`, `LclAlign`,
`LclAlign` with pin flags, `VariBandAlign`), of the traceback (`BackTrack`) and of
the `CCigar` operations, and of `CReadsGetter::InsertRead` of
`tools/skesa/readsgetter.hpp`, followed by the properties proved about them.

Conventions of the embedding.

* Machine integers are `Int`; a `CScore` is the packed 64-bit word itself
  (`score * 2^32 + tiebreak`), compared and added as an integer.
* A `const char*` sequence is a `List Nat` of byte values, its length the list length.
  Reading a sequence or the traceback bitmap outside its buffer has no value (`none`).
* A scoring matrix `const char delta[256][256]` is a function `delta : Nat → Nat → Int`
  read at the byte values of the two bases. The source converts the plain `char` to
  `int` (`int ai = a[i]`, `matrix[(int)b[j]]`): for a byte below 128 that is the byte
  value; for a byte of 128 or more it is negative where `char` is signed, and the
  read lies outside the table. The embedding follows the source for sequences of
  bytes below 128; at a larger byte it reads `delta` at the byte value, where the
  source reads outside the table.
* `CCigar.Score` sums in `Int`; `CCigar.Score32` is the same loop with every
  intermediate result held in an `int`, without a value when one overflows.
* The score rows `s`, `sm`, `gapb` are lists; the inner loop of a kernel walks them
  in step with `b`, producing the new row, the new `gapb` and the bitmap cells it
  writes, in the order in which the source writes them through `*(++m)`.
* Loops whose termination is not structural carry a fuel argument; the callers
  supply a fuel that is provably sufficient.
-/

namespace DeBruijn

/-! ## Cigar -/

/-- Struct `CCigar::SElement`: a run length and a kind character. -/
structure SElement where
  m_len : Int
  m_type : Char
deriving DecidableEq

/-- Class `CCigar`: the run list with the query and subject span. -/
structure CCigar where
  m_elements : List SElement
  m_qfrom : Int
  m_qto : Int
  m_sfrom : Int
  m_sto : Int
deriving DecidableEq

/-- Modelled from the spec: the constructor `CCigar(ia, ib)` is declared in
`glb_align.hpp`, which is not part of the sources at hand. A fresh Cigar for
`(ia, ib)` has `qfrom = ia+1`, `qto = ia`, `sfrom = ib+1`, `sto = ib` and no
elements. -/
def CCigar.init (ia ib : Int) : CCigar :=
  { m_elements := [], m_qfrom := ia + 1, m_qto := ia, m_sfrom := ib + 1, m_sto := ib }

/-- The element list after `PushFront`: a new first element, or a longer one. -/
def pushFrontList (el : SElement) : List SElement → List SElement
  | [] => [el]
  | f :: rest =>
    if f.m_type ≠ el.m_type then el :: f :: rest
    else { f with m_len := f.m_len + el.m_len } :: rest

/-- Method `CCigar::PushFront`, field by field. -/
def CCigar.PushFront (c : CCigar) (el : SElement) : CCigar :=
  { m_elements := pushFrontList el c.m_elements
    m_qfrom :=
      if el.m_type = 'M' then c.m_qfrom - el.m_len
      else if el.m_type = 'D' then c.m_qfrom
      else c.m_qfrom - el.m_len
    m_qto := c.m_qto
    m_sfrom :=
      if el.m_type = 'M' then c.m_sfrom - el.m_len
      else if el.m_type = 'D' then c.m_sfrom - el.m_len
      else c.m_sfrom
    m_sto := c.m_sto }

/-- The element list after `PushBack`: a new last element, or a longer one. -/
def pushBackList (el : SElement) (l : List SElement) : List SElement :=
  match l.getLast? with
  | none => l ++ [el]
  | some x =>
    if x.m_type ≠ el.m_type then l ++ [el]
    else l.dropLast ++ [{ x with m_len := x.m_len + el.m_len }]

/-- Method `CCigar::PushBack`, field by field. -/
def CCigar.PushBack (c : CCigar) (el : SElement) : CCigar :=
  { m_elements := pushBackList el c.m_elements
    m_qfrom := c.m_qfrom
    m_qto :=
      if el.m_type = 'M' then c.m_qto + el.m_len
      else if el.m_type = 'D' then c.m_qto
      else c.m_qto + el.m_len
    m_sfrom := c.m_sfrom
    m_sto :=
      if el.m_type = 'M' then c.m_sto + el.m_len
      else if el.m_type = 'D' then c.m_sto + el.m_len
      else c.m_sto }

/-- Decimal digit character of a number below ten. -/
def digitChar (d : Nat) : Char := Char.ofNat (48 + d)

/-- Decimal digits of a natural number, most significant first; the first
argument bounds the number of digits produced. -/
def decimalAux : Nat → Nat → List Char → List Char
  | 0, _, acc => acc
  | f + 1, n, acc =>
    if n / 10 = 0 then digitChar (n % 10) :: acc
    else decimalAux f (n / 10) (digitChar (n % 10) :: acc)

/-- Decimal rendering of a natural number. -/
def decimal (n : Nat) : List Char := decimalAux (n + 1) n []

/-- Function `std::to_string(int)`: decimal rendering with a sign for negatives. -/
def to_string (n : Int) : List Char :=
  if n < 0 then '-' :: decimal n.natAbs else decimal n.toNat

/-- The loop of `CigarString` over the elements: `to_string(len) + type` for each. -/
def CCigar.elementChars : List SElement → List Char
  | [] => []
  | el :: rest => to_string el.m_len ++ el.m_type :: CCigar.elementChars rest

/-- Method `CCigar::CigarString`, as a character list. -/
def CCigar.CigarChars (c : CCigar) (qstart qlen : Int) : List Char :=
  let cigar := CCigar.elementChars c.m_elements
  let missingstart := qstart + c.m_qfrom
  let cigar := if missingstart > 0 then to_string missingstart ++ 'S' :: cigar else cigar
  let missingend := qlen - 1 - c.m_qto - qstart
  if missingend > 0 then cigar ++ (to_string missingend ++ ['S']) else cigar

/-- Method `CCigar::CigarString`. -/
def CCigar.CigarString (c : CCigar) (qstart qlen : Int) : String :=
  String.mk (c.CigarChars qstart qlen)

/-- Read `*p` where `p` points `i` bytes after the start of `buf`. -/
def deref (buf : List Nat) (i : Int) : Option Nat :=
  if i < 0 then none else buf[i.toNat]?

/-- The inner `for` loop of `Matches` over one `M` element. -/
def CCigar.matchesRun (query subject : List Nat) : Nat → Int → Int → Int → Option Int
  | 0, _, _, acc => some acc
  | n + 1, q, s, acc =>
    match deref query q, deref subject s with
    | some x, some y =>
      CCigar.matchesRun query subject n (q + 1) (s + 1) (if x = y then acc + 1 else acc)
    | _, _ => none

/-- The element loop of `Matches`. -/
def CCigar.matchesLoop (query subject : List Nat) : List SElement → Int → Int → Int → Option Int
  | [], _, _, acc => some acc
  | el :: rest, q, s, acc =>
    if el.m_type = 'M' then
      match CCigar.matchesRun query subject el.m_len.toNat q s acc with
      | none => none
      | some acc1 =>
        CCigar.matchesLoop query subject rest (q + el.m_len.toNat) (s + el.m_len.toNat) acc1
    else if el.m_type = 'D' then
      CCigar.matchesLoop query subject rest q (s + el.m_len) acc
    else
      CCigar.matchesLoop query subject rest (q + el.m_len) s acc

/-- Method `CCigar::Matches`. -/
def CCigar.Matches (c : CCigar) (query subject : List Nat) : Option Int :=
  CCigar.matchesLoop query subject c.m_elements c.m_qfrom c.m_sfrom 0

/-- The inner `for` loop of `Distance` over one `M` element. -/
def CCigar.distanceRun (query subject : List Nat) : Nat → Int → Int → Int → Option Int
  | 0, _, _, acc => some acc
  | n + 1, q, s, acc =>
    match deref query q, deref subject s with
    | some x, some y =>
      CCigar.distanceRun query subject n (q + 1) (s + 1) (if x ≠ y then acc + 1 else acc)
    | _, _ => none

/-- The element loop of `Distance`. -/
def CCigar.distanceLoop (query subject : List Nat) : List SElement → Int → Int → Int → Option Int
  | [], _, _, acc => some acc
  | el :: rest, q, s, acc =>
    if el.m_type = 'M' then
      match CCigar.distanceRun query subject el.m_len.toNat q s acc with
      | none => none
      | some acc1 =>
        CCigar.distanceLoop query subject rest (q + el.m_len.toNat) (s + el.m_len.toNat) acc1
    else if el.m_type = 'D' then
      CCigar.distanceLoop query subject rest q (s + el.m_len) (acc + el.m_len)
    else
      CCigar.distanceLoop query subject rest (q + el.m_len) s (acc + el.m_len)

/-- Method `CCigar::Distance`. -/
def CCigar.Distance (c : CCigar) (query subject : List Nat) : Option Int :=
  CCigar.distanceLoop query subject c.m_elements c.m_qfrom c.m_sfrom 0

/-- The inner `for` loop of `Score` over one `M` element. -/
def CCigar.scoreRun (query subject : List Nat) (delta : Nat → Nat → Int) :
    Nat → Int → Int → Int → Option Int
  | 0, _, _, acc => some acc
  | n + 1, q, s, acc =>
    match deref query q, deref subject s with
    | some x, some y =>
      CCigar.scoreRun query subject delta n (q + 1) (s + 1) (acc + delta x y)
    | _, _ => none

/-- The element loop of `Score`. -/
def CCigar.scoreLoop (query subject : List Nat) (gopen gapextend : Int)
    (delta : Nat → Nat → Int) : List SElement → Int → Int → Int → Option Int
  | [], _, _, acc => some acc
  | el :: rest, q, s, acc =>
    if el.m_type = 'M' then
      match CCigar.scoreRun query subject delta el.m_len.toNat q s acc with
      | none => none
      | some acc1 =>
        CCigar.scoreLoop query subject gopen gapextend delta rest
          (q + el.m_len.toNat) (s + el.m_len.toNat) acc1
    else if el.m_type = 'D' then
      CCigar.scoreLoop query subject gopen gapextend delta rest q (s + el.m_len)
        (acc - (gopen + gapextend * el.m_len))
    else
      CCigar.scoreLoop query subject gopen gapextend delta rest (q + el.m_len) s
        (acc - (gopen + gapextend * el.m_len))

/-- Method `CCigar::Score`, the sum taken in `Int`: the value of the source's
`int score` as long as that does not overflow (`CCigar.Score32`). -/
def CCigar.Score (c : CCigar) (query subject : List Nat) (gopen gapextend : Int)
    (delta : Nat → Nat → Int) : Option Int :=
  CCigar.scoreLoop query subject gopen gapextend delta c.m_elements c.m_qfrom c.m_sfrom 0

/-! ## Traceback -/

/-- Bitmap flag `Agap`. -/
def Agap : Nat := 1

/-- Bitmap flag `Bgap`. -/
def Bgap : Nat := 2

/-- Bitmap flag `Astart`. -/
def Astart : Nat := 4

/-- Bitmap flag `Bstart`. -/
def Bstart : Nat := 8

/-- Bitmap flag `Zero`. -/
def Zero : Nat := 16

/-- The two inner loops of `BackTrack`, `while(!(*m&flag)) { ++len; m -= step; }`,
with `flag = Astart, step = 1` and `flag = Bstart, step = nb+1`. -/
def BackTrack.walk (mtrx : List Nat) (flag : Nat) (step : Int) :
    Nat → Int → Int → Option (Int × Int)
  | 0, _, _ => none
  | f + 1, m, len =>
    match deref mtrx m with
    | none => none
    | some v =>
      if v &&& flag ≠ 0 then some (m, len)
      else BackTrack.walk mtrx flag step f (m - step) (len + 1)

/-- The outer loop of `BackTrack`. -/
def BackTrack.loop (mtrx : List Nat) (nb : Int) : Nat → Int → Int → Int → CCigar → Option CCigar
  | 0, _, _, _, _ => none
  | f + 1, ia, ib, m, track =>
    if ia ≥ 0 ∨ ib ≥ 0 then
      match deref mtrx m with
      | none => none
      | some v =>
        if v &&& Zero ≠ 0 then some track
        else if v &&& Agap ≠ 0 then
          match BackTrack.walk mtrx Astart 1 (m.toNat + 1) m 1 with
          | none => none
          | some (m1, len) =>
            BackTrack.loop mtrx nb f ia (ib - len) (m1 - 1) (track.PushFront ⟨len, 'D'⟩)
        else if v &&& Bgap ≠ 0 then
          match BackTrack.walk mtrx Bstart (nb + 1) (m.toNat + 1) m 1 with
          | none => none
          | some (m1, len) =>
            BackTrack.loop mtrx nb f (ia - len) ib (m1 - (nb + 1)) (track.PushFront ⟨len, 'I'⟩)
        else
          BackTrack.loop mtrx nb f (ia - 1) (ib - 1) (m - (nb + 2)) (track.PushFront ⟨1, 'M'⟩)
    else some track

/-- Function `BackTrack(ia, ib, m, nb)`; the pointer `m` is the bitmap together
with an index into it. Every iteration moves `m` down, so `m + 2` rounds suffice. -/
def BackTrack (ia ib : Int) (mtrx : List Nat) (m : Int) (nb : Int) : Option CCigar :=
  BackTrack.loop mtrx nb (m.toNat + 2) ia ib m (CCigar.init ia ib)

/-! ## Compound score -/

/-- Class `CScore`: the packed word `m_score`. -/
abbrev CScore := Int

/-- Constructor `CScore(score, breaker)`: `(int64_t(score) << 32) + breaker`. -/
def CScore.mk2 (score breaker : Int) : Int := score * 4294967296 + breaker

/-- Constructor `CScore()`. -/
def CScore.zero : Int := 0

/-- Method `CScore::Score`: `m_score >> 32`, an arithmetic shift. -/
def CScore.Score (x : Int) : Int := x / 4294967296

/-- The constant `CScore bignegative(numeric_limits<int>::min()/2, 0)`. -/
def bignegative : Int := CScore.mk2 (-1073741824) 0

/-! ## Kernels -/

/-- Values a cell computation leaves behind: the running `gapa`, the updated
`gapb[j+1]`, the score stored through `*(++sp)` and the bitmap byte `*m`. -/
structure CellOut where
  gapa : Int
  gapbj : Int
  sp : Int
  bits : Nat
deriving DecidableEq

/-- Body of the inner loop of `GlbAlign` for one cell: `smj = sm[j]`,
`smj1 = sm[j+1]`, `sp = *sp`, `d = matrix[b[j]]`. -/
def GlbAlign.cell (rsa rsb : Int) (sigma d : Int) (smj smj1 sp gapa gapbj : Int) :
    CellOut :=
  let m : Nat := 0
  let ss := smj + CScore.mk2 d 1
  let gapa := gapa + CScore.mk2 (-sigma) 0
  let ga : Int × Nat := if sp + rsa > gapa then (sp + rsa, m ||| Astart) else (gapa, m)
  let gapbj := gapbj + CScore.mk2 (-sigma) 1
  let gb : Int × Nat :=
    if smj1 + rsb > gapbj then (smj1 + rsb, ga.2 ||| Bstart) else (gapbj, ga.2)
  if ga.1 > gb.1 then
    if ss > ga.1 then ⟨ga.1, gb.1, ss, gb.2⟩
    else ⟨ga.1, gb.1, ga.1, gb.2 ||| Agap⟩
  else
    if ss > gb.1 then ⟨ga.1, gb.1, ss, gb.2⟩
    else ⟨ga.1, gb.1, gb.1, gb.2 ||| Bgap⟩

/-- Inner loop of `GlbAlign` over the columns `j`: the arguments are the rest of
`b` from `j`, the rest of `sm` from `j`, the rest of `gapb` from `j+1`, `*sp` and
`gapa`. Returns the rest of the new row from `j+1`, of `gapb` from `j+1`, and
the bitmap bytes written. -/
def GlbAlign.cols (rsa rsb : Int) (sigma : Int) (matrix : Nat → Int) :
    List Nat → List Int → List Int → Int → Int →
      List Int × List Int × List Nat
  | bj :: bs, smj :: smj1 :: sms, gbj :: gbs, sp, gapa =>
    let c := GlbAlign.cell rsa rsb sigma (matrix bj) smj smj1 sp gapa gbj
    let r := GlbAlign.cols rsa rsb sigma matrix bs (smj1 :: sms) gbs c.sp c.gapa
    (c.sp :: r.1, c.gapbj :: r.2.1, c.bits :: r.2.2)
  | _, _, _, _, _ => ([], [], [])

/-- Outer loop of `GlbAlign` over the rows: the state is `sm`, `s[0]`, `gapb`
and the bitmap written so far. Returns the final `sm` and the bitmap. The row of
the matrix is `delta ai` for the byte `ai` (the source's `delta[ai]` with
`int ai = a[i]`, the same for a byte below 128). -/
def GlbAlign.rows (rsa rsb : Int) (sigma : Int) (delta : Nat → Nat → Int) (b : List Nat) :
    List Nat → List Int → Int → List Int → List Nat → List Int × List Nat
  | [], sm, _, _, mtrx => (sm, mtrx)
  | ai :: as, sm, s0, gapb, mtrx =>
    let r := GlbAlign.cols rsa rsb sigma (delta ai) b sm gapb.tail s0 bignegative
    GlbAlign.rows rsa rsb sigma delta b as (s0 :: r.1) (s0 + CScore.mk2 (-sigma) 1)
      (gapb.take 1 ++ r.2.1) (mtrx ++ (Bstart ||| Bgap) :: r.2.2)

/-- The loop `for(i = 2; i <= nb; ++i) sm[i] = sm[i-1]+CScore(-sigma, 0)`:
the entries that follow `prev`. -/
def GlbAlign.initRow (sigma : Int) : Nat → Int → List Int
  | 0, _ => []
  | n + 1, prev => (prev + CScore.mk2 (-sigma) 0) :: GlbAlign.initRow sigma n (prev + CScore.mk2 (-sigma) 0)

/-- The table filling part of `GlbAlign`, for `nb ≥ 1`: the final `sm` and the bitmap. -/
def GlbAlign.fill (a b : List Nat) (rho sigma : Int) (delta : Nat → Nat → Int) :
    List Int × List Nat :=
  let nb := b.length
  let rsa := CScore.mk2 (-rho - sigma) 0
  let rsb := CScore.mk2 (-rho - sigma) 1
  let sm := CScore.zero :: rsa :: GlbAlign.initRow sigma (nb - 1) rsa
  let gapb := List.replicate (nb + 1) bignegative
  let mtrx := 0 :: (Agap ||| Astart) :: List.replicate (nb - 1) Agap
  GlbAlign.rows rsa rsb sigma delta b a sm rsb gapb mtrx

/-- Function `GlbAlign`. For `nb = 0` the source stores `sm[1]` and `mtrx[1]`
past the end of one-element buffers; that call has no result. -/
def GlbAlign (a b : List Nat) (rho sigma : Int) (delta : Nat → Nat → Int) : Option CCigar :=
  if b.length = 0 then none
  else
    let na : Int := a.length
    let nb : Int := b.length
    BackTrack (na - 1) (nb - 1) (GlbAlign.fill a b rho sigma delta).2
      ((na + 1) * (nb + 1) - 1) nb

/-- The score the kernel holds for the terminal cell: `sm[nb].Score()` after the last swap. -/
def GlbAlign.terminalScore (a b : List Nat) (rho sigma : Int) (delta : Nat → Nat → Int) :
    Option Int :=
  ((GlbAlign.fill a b rho sigma delta).1[b.length]?).map CScore.Score

/-- State the local kernel threads through its cells besides the rows:
the maximum seen and the bitmap index of the cell holding it. -/
structure MaxState where
  max_score : Int
  max_ptr : Nat
deriving DecidableEq

/-- Body of the inner loop of `LclAlign` for one cell; `m` is the index of the
cell in the bitmap. -/
def LclAlign.cell (rsa rsb : Int) (sigma d : Int) (smj smj1 sp gapa gapbj : Int)
    (mx : MaxState) (m : Nat) : CellOut × MaxState :=
  let bits : Nat := 0
  let ss := smj + CScore.mk2 d 1
  let gapa := gapa + CScore.mk2 (-sigma) 0
  let ga : Int × Nat := if sp + rsa > gapa then (sp + rsa, bits ||| Astart) else (gapa, bits)
  let gapbj := gapbj + CScore.mk2 (-sigma) 1
  let gb : Int × Nat :=
    if smj1 + rsb > gapbj then (smj1 + rsb, ga.2 ||| Bstart) else (gapbj, ga.2)
  let w : Int × Nat × MaxState :=
    if ga.1 > gb.1 then
      if ss > ga.1 then
        (ss, gb.2, if ss > mx.max_score then ⟨ss, m⟩ else mx)
      else (ga.1, gb.2 ||| Agap, mx)
    else
      if ss > gb.1 then
        (ss, gb.2, if ss > mx.max_score then ⟨ss, m⟩ else mx)
      else (gb.1, gb.2 ||| Bgap, mx)
  if CScore.Score w.1 ≤ 0 then (⟨ga.1, gb.1, CScore.zero, w.2.1 ||| Zero⟩, w.2.2)
  else (⟨ga.1, gb.1, w.1, w.2.1⟩, w.2.2)

/-- Inner loop of `LclAlign` over the columns; `m` is the bitmap index of the
cell written last. -/
def LclAlign.cols (rsa rsb : Int) (sigma : Int) (matrix : Nat → Int) :
    List Nat → List Int → List Int → Int → Int → MaxState → Nat →
      List Int × List Int × List Nat × MaxState
  | bj :: bs, smj :: smj1 :: sms, gbj :: gbs, sp, gapa, mx, m =>
    let c := LclAlign.cell rsa rsb sigma (matrix bj) smj smj1 sp gapa gbj mx (m + 1)
    let r := LclAlign.cols rsa rsb sigma matrix bs (smj1 :: sms) gbs c.1.sp c.1.gapa c.2 (m + 1)
    (c.1.sp :: r.1, c.1.gapbj :: r.2.1, c.1.bits :: r.2.2.1, r.2.2.2)
  | _, _, _, _, _, mx, _ => ([], [], [], mx)

/-- Outer loop of `LclAlign` over the rows: the state is `sm`, `gapb`, the
maximum and the bitmap written so far (`s[0]` stays `CScore()`). The row of the
matrix is `delta ai` for the byte `ai` (the source's `delta[ai]` with
`int ai = a[i]`, the same for a byte below 128). -/
def LclAlign.rows (rsa rsb : Int) (sigma : Int) (delta : Nat → Nat → Int) (b : List Nat) :
    List Nat → List Int → List Int → MaxState → List Nat → MaxState × List Nat
  | [], _, _, mx, mtrx => (mx, mtrx)
  | ai :: as, sm, gapb, mx, mtrx =>
    let r := LclAlign.cols rsa rsb sigma (delta ai) b sm gapb.tail CScore.zero CScore.zero
      mx mtrx.length
    LclAlign.rows rsa rsb sigma delta b as (CScore.zero :: r.1) (gapb.take 1 ++ r.2.1)
      r.2.2.2 (mtrx ++ Zero :: r.2.2.1)

/-- The table filling part of `LclAlign`: the maximum with its cell, and the bitmap. -/
def LclAlign.fill (a b : List Nat) (rho sigma : Int) (delta : Nat → Nat → Int) :
    MaxState × List Nat :=
  let nb := b.length
  let rsa := CScore.mk2 (-rho - sigma) 0
  let rsb := CScore.mk2 (-rho - sigma) 1
  LclAlign.rows rsa rsb sigma delta b a (List.replicate (nb + 1) CScore.zero)
    (List.replicate (nb + 1) CScore.zero) ⟨CScore.zero, 0⟩ (List.replicate (nb + 1) Zero)

/-- Function `LclAlign` (the overload without pin flags). -/
def LclAlign (a b : List Nat) (rho sigma : Int) (delta : Nat → Nat → Int) : Option CCigar :=
  let nb : Int := b.length
  let f := LclAlign.fill a b rho sigma delta
  let p : Int := f.1.max_ptr
  BackTrack (p / (nb + 1) - 1) (p % (nb + 1) - 1) f.2 p nb

/-! ## Scoring matrices -/

/-- Function `toupper` of the C locale on an `int`. -/
def toupper (c : Nat) : Nat := if 97 ≤ c ∧ c ≤ 122 then c - 32 else c

/-- Function `tolower` of the C locale on an `int`. -/
def tolower (c : Nat) : Nat := if 65 ≤ c ∧ c ≤ 90 then c + 32 else c

/-- Conversion of an `int` to the `char` entry of a matrix: the low eight bits, signed. -/
def toInt8 (x : Int) : Int := (x + 128) % 256 - 128

/-- Constructor `SMatrix::SMatrix(int match, int mismatch)` for DNA: entry `[i][j]`. -/
def SMatrix.dna (mtch mismatch : Int) (i j : Nat) : Int :=
  let c := toupper i
  if c ≠ 78 ∧ c = toupper j then toInt8 mtch else toInt8 (-mismatch)

/-- The string `aa("ARNDCQEGHILKMFPSTWYVBZX*")` of the protein constructor, as bytes. -/
def SMatrix.aa : List Nat :=
  [65, 82, 78, 68, 67, 81, 69, 71, 72, 73, 76, 75, 77, 70, 80, 83, 84, 87, 89, 86, 66, 90, 88, 42]

/-- The array `scores` of the protein constructor, one source line per row. -/
def SMatrix.scores : List Int :=
  List.flatten [
    [4, -1, -2, -2, 0, -1, -1, 0, -2, -1, -1, -1, -1, -2, -1, 1, 0, -3, -2, 0, -2, -1, 0, -4],
    [-1, 5, 0, -2, -3, 1, 0, -2, 0, -3, -2, 2, -1, -3, -2, -1, -1, -3, -2, -3, -1, 0, -1, -4],
    [-2, 0, 6, 1, -3, 0, 0, 0, 1, -3, -3, 0, -2, -3, -2, 1, 0, -4, -2, -3, 3, 0, -1, -4],
    [-2, -2, 1, 6, -3, 0, 2, -1, -1, -3, -4, -1, -3, -3, -1, 0, -1, -4, -3, -3, 4, 1, -1, -4],
    [0, -3, -3, -3, 9, -3, -4, -3, -3, -1, -1, -3, -1, -2, -3, -1, -1, -2, -2, -1, -3, -3, -2, -4],
    [-1, 1, 0, 0, -3, 5, 2, -2, 0, -3, -2, 1, 0, -3, -1, 0, -1, -2, -1, -2, 0, 3, -1, -4],
    [-1, 0, 0, 2, -4, 2, 5, -2, 0, -3, -3, 1, -2, -3, -1, 0, -1, -3, -2, -2, 1, 4, -1, -4],
    [0, -2, 0, -1, -3, -2, -2, 6, -2, -4, -4, -2, -3, -3, -2, 0, -2, -2, -3, -3, -1, -2, -1, -4],
    [-2, 0, 1, -1, -3, 0, 0, -2, 8, -3, -3, -1, -2, -1, -2, -1, -2, -2, 2, -3, 0, 0, -1, -4],
    [-1, -3, -3, -3, -1, -3, -3, -4, -3, 4, 2, -3, 1, 0, -3, -2, -1, -3, -1, 3, -3, -3, -1, -4],
    [-1, -2, -3, -4, -1, -2, -3, -4, -3, 2, 4, -2, 2, 0, -3, -2, -1, -2, -1, 1, -4, -3, -1, -4],
    [-1, 2, 0, -1, -3, 1, 1, -2, -1, -3, -2, 5, -1, -3, -1, 0, -1, -3, -2, -2, 0, 1, -1, -4],
    [-1, -1, -2, -3, -1, 0, -2, -3, -2, 1, 2, -1, 5, 0, -2, -1, -1, -1, -1, 1, -3, -1, -1, -4],
    [-2, -3, -3, -3, -2, -3, -3, -3, -1, 0, 0, -3, 0, 6, -4, -2, -2, 1, 3, -1, -3, -3, -1, -4],
    [-1, -2, -2, -1, -3, -1, -1, -2, -2, -3, -3, -1, -2, -4, 7, -1, -1, -4, -3, -2, -2, -1, -2, -4],
    [1, -1, 1, 0, -1, 0, 0, 0, -1, -2, -2, 0, -1, -2, -1, 4, 1, -3, -2, -2, 0, 0, 0, -4],
    [0, -1, 0, -1, -1, -1, -1, -2, -2, -1, -1, -1, -1, -2, -1, 1, 5, -2, -2, 0, -1, -1, 0, -4],
    [-3, -3, -4, -4, -2, -2, -3, -2, -2, -3, -2, -3, -1, 1, -4, -3, -2, 11, 2, -3, -4, -3, -2, -4],
    [-2, -2, -2, -3, -2, -1, -2, -3, 2, -1, -1, -2, -1, 3, -3, -2, -2, 2, 7, -1, -3, -2, -1, -4],
    [0, -3, -3, -3, -1, -2, -2, -3, -3, 3, 1, -2, 1, -1, -2, -2, 0, -3, -1, 4, -3, -2, -1, -4],
    [-2, -1, 3, 4, -3, 0, 1, -1, 0, -3, -4, 0, -3, -3, -2, 0, -1, -4, -3, -3, 4, 1, -1, -4],
    [-1, 0, 0, 1, -3, 3, 4, -2, 0, -3, -3, 1, -1, -3, -1, 0, -1, -3, -2, -2, 1, 4, -1, -4],
    [0, -1, -1, -1, -2, -1, -1, -1, -1, -1, -1, -1, -1, -1, -2, 0, 0, -2, -1, -1, -1, -1, -1, -4],
    [-4, -4, -4, -4, -4, -4, -4, -4, -4, -4, -4, -4, -4, -4, -4, -4, -4, -4, -4, -4, -4, -4, -4, 1]]

/-- Index in `aa` of the residue a byte stands for: the byte is `aa[k]` or
`tolower(aa[k])`. -/
def SMatrix.aaIndex (c : Nat) : Option Nat :=
  SMatrix.aa.findIdx? (fun x => decide (x = c) || decide (tolower x = c))

/-- The store `matrix[c][d] = v` into a table. -/
def SMatrix.store (M : Nat → Nat → Int) (c d : Nat) (v : Int) : Nat → Nat → Int :=
  fun x y => if x = c ∧ y = d then v else M x y

/-- The inner loop `for(int j = 0; j < num; ++j)` of the protein constructor for
the row letter `aa[i]`, over the values of `j` that remain: four stores each. -/
def SMatrix.proteinInner (i : Nat) : (Nat → Nat → Int) → List Nat → Nat → Nat → Int
  | M, [] => M
  | M, j :: js =>
    let num := SMatrix.aa.length
    let c := SMatrix.aa.getD i 0
    let score := SMatrix.scores.getD (num * j + i) 0
    let d := SMatrix.aa.getD j 0
    SMatrix.proteinInner i
      (SMatrix.store (SMatrix.store (SMatrix.store (SMatrix.store M c d score)
        (tolower c) (tolower d) score) c (tolower d) score) (tolower c) d score) js

/-- The outer loop `for(int i = 0; i < num; ++i)` of the protein constructor, over
the values of `i` that remain. -/
def SMatrix.proteinOuter : (Nat → Nat → Int) → List Nat → Nat → Nat → Int
  | M, [] => M
  | M, i :: is =>
    SMatrix.proteinOuter (SMatrix.proteinInner i M (List.range SMatrix.aa.length)) is

/-- Constructor `SMatrix::SMatrix()` for proteins: the table is zeroed, then the
double loop over `aa` stores every score in the four case combinations. -/
def SMatrix.protein : Nat → Nat → Int :=
  SMatrix.proteinOuter (fun _ _ => 0) (List.range SMatrix.aa.length)

/-- Closed form of an entry of the protein table: `scores[num*j+i]` when `c` stands
for `aa[i]` and `d` for `aa[j]`, and `0` otherwise. -/
def SMatrix.proteinClosed (c d : Nat) : Int :=
  match SMatrix.aaIndex c, SMatrix.aaIndex d with
  | some i, some j => SMatrix.scores.getD (SMatrix.aa.length * j + i) 0
  | _, _ => 0

/-- Sum of the lengths of the elements whose kind satisfies `p`. -/
def sumLen (p : Char → Bool) : List SElement → Int
  | [] => 0
  | el :: rest => (if p el.m_type then el.m_len else 0) + sumLen p rest

/-- Bases of the query an element list consumes: the `M` and `I` lengths. -/
def sumMI (l : List SElement) : Int := sumLen (fun t => t = 'M' || t = 'I') l

/-- Bases of the subject an element list consumes: the `M` and `D` lengths. -/
def sumMD (l : List SElement) : Int := sumLen (fun t => t = 'M' || t = 'D') l

/-- The span invariant of a Cigar. -/
def CCigar.SpanOK (c : CCigar) : Prop :=
  sumMI c.m_elements = c.m_qto - c.m_qfrom + 1 ∧ sumMD c.m_elements = c.m_sto - c.m_sfrom + 1

/-- Kinds of the data model. -/
def SElement.KindOK (el : SElement) : Prop := el.m_type = 'M' ∨ el.m_type = 'I' ∨ el.m_type = 'D'

/-- A call of `PushFront` or of `PushBack`. -/
inductive Push where
  | front (el : SElement)
  | back (el : SElement)

/-- The element a call pushes. -/
def Push.el : Push → SElement
  | .front el => el
  | .back el => el

/-- A sequence of calls applied in order. -/
def CCigar.pushAll : CCigar → List Push → CCigar
  | c, [] => c
  | c, .front el :: ops => CCigar.pushAll (c.PushFront el) ops
  | c, .back el :: ops => CCigar.pushAll (c.PushBack el) ops

/-- No two adjacent elements have the same kind. -/
def NoAdjacent (l : List SElement) : Prop := List.Chain' (fun x y => x.m_type ≠ y.m_type) l

/-- The aligned pairs `(query position, subject position)` of one `M` run. -/
def runPositions : Nat → Int → Int → List (Int × Int)
  | 0, _, _ => []
  | n + 1, q, s => (q, s) :: runPositions n (q + 1) (s + 1)

/-- The aligned pairs of all `M` elements of an element list laid out from `(q, s)`. -/
def mPositions : List SElement → Int → Int → List (Int × Int)
  | [], _, _ => []
  | el :: rest, q, s =>
    if el.m_type = 'M' then
      runPositions el.m_len.toNat q s ++ mPositions rest (q + el.m_len) (s + el.m_len)
    else if el.m_type = 'D' then mPositions rest q (s + el.m_len)
    else mPositions rest (q + el.m_len) s

/-- Number of `M` positions of a Cigar whose two bases differ. -/
def CCigar.mismatchesInM (c : CCigar) (query subject : List Nat) : Int :=
  ((mPositions c.m_elements c.m_qfrom c.m_sfrom).filter
    (fun p => deref query p.1 ≠ deref subject p.2)).length

/-- The sequences are long enough for the bases a Cigar consumes from its start. -/
def CCigar.Covered (c : CCigar) (query subject : List Nat) : Prop :=
  0 ≤ c.m_qfrom ∧ c.m_qfrom + sumMI c.m_elements ≤ query.length ∧
  0 ≤ c.m_sfrom ∧ c.m_sfrom + sumMD c.m_elements ≤ subject.length

/-- Sum of the lengths of the elements of one kind. -/
def sumKind (t : Char) (l : List SElement) : Int := sumLen (fun x => x = t) l

/-- Value of a decimal digit character. -/
def digitVal (c : Char) : Nat := c.toNat - 48

/-- Reads the digits at the start of a text, continuing the number `v`;
returns the number and the text after the digits. -/
def parseNumber : List Char → Nat → Nat × List Char
  | [], v => (v, [])
  | c :: cs, v => if c.isDigit then parseNumber cs (10 * v + digitVal c) else (v, c :: cs)

/-- Parses a text as a sequence of tokens, each a decimal length followed by an
operation character; the first argument bounds the number of tokens. -/
def parseCigar : Nat → List Char → Option (List SElement)
  | _, [] => some []
  | 0, _ :: _ => none
  | f + 1, c :: cs =>
    if c.isDigit then
      match parseNumber cs (digitVal c) with
      | (v, op :: rest) => (parseCigar f rest).map (fun l => ⟨(v : Int), op⟩ :: l)
      | (_, []) => none
    else none

/-- Drops a leading soft-clip token. -/
def dropLeadingS : List SElement → List SElement
  | [] => []
  | el :: rest => if el.m_type = 'S' then rest else el :: rest

/-- Drops a leading and a trailing soft-clip token. -/
def stripS (l : List SElement) : List SElement :=
  (dropLeadingS (dropLeadingS l).reverse).reverse

/-! ## Alignment paths

A path is a list of unit columns, each `'M'`, `'I'` or `'D'`; pushing its columns
to the front of a track, last column first, is what `BackTrack` does. -/

/-- Pushes the columns of a path to the front of a track, last column first. -/
def pushOps (U : List Char) (T : CCigar) : CCigar :=
  U.foldr (fun op acc => acc.PushFront ⟨1, op⟩) T

/-- Query bases a column consumes: one unless it is a `D`. -/
def dq (op : Char) : Nat := if op = 'D' then 0 else 1

/-- Subject bases a column consumes: one if it is an `M` or a `D`. -/
def ds (op : Char) : Nat := if op = 'M' ∨ op = 'D' then 1 else 0

/-- Number of query bases a path consumes. -/
def rowsOf : List Char → Nat
  | [] => 0
  | op :: U => dq op + rowsOf U

/-- Number of subject bases a path consumes. -/
def colsOf : List Char → Nat
  | [] => 0
  | op :: U => ds op + colsOf U

/-- Affine score of a path laid out from query position `q` and subject position
`s`: the matrix entry of every `M` column, `-sigma` for every gap column and
`-rho` more for the last column of every gap run. -/
def pathScore (a b : List Nat) (rho sigma : Int) (delta : Nat → Nat → Int) :
    Nat → Nat → List Char → Int
  | _, _, [] => 0
  | q, s, op :: U =>
    (if op = 'M' then delta (a.getD q 0) (b.getD s 0)
     else if U.head? = some op then -sigma else -(rho + sigma)) +
      pathScore a b rho sigma delta (q + dq op) (s + ds op) U

/-- All columns of a path are `M`, `I` or `D`. -/
def PathOK (U : List Char) : Prop := ∀ op ∈ U, op = 'M' ∨ op = 'I' ∨ op = 'D'

/-! ## Traceback invariants -/

/-- Index of cell `(r, c)` of the bitmap, rows of `nb + 1` cells. -/
def idx (nb r c : Nat) : Int := (r : Int) * ((nb : Int) + 1) + (c : Int)

/-- The traceback started at cell `(r, c)`, which holds the score `v`, follows
the path `U`: it pushes the columns of `U` and stops, and `v` packs the affine
score of `U` with the number of query bases `U` consumes. In a global kernel
(`lcl = false`) the path starts at the origin. -/
def Traced (a b : List Nat) (rho sigma : Int) (delta : Nat → Nat → Int) (lcl : Bool)
    (mtrx : List Nat) (r c : Nat) (v : Int) (U : List Char) : Prop :=
  rowsOf U ≤ r ∧ colsOf U ≤ c ∧ (lcl = false → rowsOf U = r ∧ colsOf U = c) ∧
  v = CScore.mk2 (pathScore a b rho sigma delta (r - rowsOf U) (c - colsOf U) U) (rowsOf U) ∧
  ∀ (ext : List Nat) (fuel : Nat) (T : CCigar), r + c + 1 ≤ fuel →
    BackTrack.loop (mtrx ++ ext) b.length fuel ((r : Int) - 1) ((c : Int) - 1)
      (idx b.length r c) T = some (pushOps U T)

/-- The running `gapa` at cell `(r, c)` is the score of a gap in the first
sequence that was opened at column `k` of the row, after a traced cell whose path
does not end in such a gap; the walk to `Astart` finds column `k`. -/
def GapA (a b : List Nat) (rho sigma : Int) (delta : Nat → Nat → Int) (lcl : Bool)
    (mtrx : List Nat) (r c : Nat) (v : Int) : Prop :=
  ∃ (k : Nat) (U : List Char) (v0 : Int), k ≤ c ∧
    Traced a b rho sigma delta lcl mtrx r k v0 U ∧ U.getLast? ≠ some 'D' ∧
    v = v0 + CScore.mk2 (-rho - sigma * ((c : Int) - k)) 0 ∧ k < c ∧
    ∀ (ext : List Nat) (fuel : Nat) (L : Int), c - k ≤ fuel →
      BackTrack.walk (mtrx ++ ext) Astart 1 fuel (idx b.length r c) L =
        some (idx b.length r (k + 1), L + ((c : Int) - k - 1))

/-- The value of `gapb[c]` after row `r` is the score of a gap in the second
sequence that was opened at row `k` of the column, after a traced cell whose path
does not end in such a gap; the walk to `Bstart` finds row `k`. -/
def GapB (a b : List Nat) (rho sigma : Int) (delta : Nat → Nat → Int) (lcl : Bool)
    (mtrx : List Nat) (r c : Nat) (v : Int) : Prop :=
  ∃ (k : Nat) (U : List Char) (v0 : Int), k ≤ r ∧
    Traced a b rho sigma delta lcl mtrx k c v0 U ∧ U.getLast? ≠ some 'I' ∧
    v = v0 + CScore.mk2 (-rho - sigma * ((r : Int) - k)) ((r : Int) - k) ∧ k < r ∧
    ∀ (ext : List Nat) (fuel : Nat) (L : Int), r - k ≤ fuel →
      BackTrack.walk (mtrx ++ ext) Bstart ((b.length : Int) + 1) fuel (idx b.length r c) L =
        some (idx b.length (k + 1) c, L + ((r : Int) - k - 1))

/-- What a kernel stores for a cell: in a local kernel a cell whose score is not
positive is reset and marked `Zero`. -/
def cellOutcome (lcl : Bool) (g : CellOut) : CellOut :=
  if lcl = true ∧ CScore.Score g.sp ≤ 0 then ⟨g.gapa, g.gapbj, CScore.zero, g.bits ||| Zero⟩
  else g

/-- The cells one row of a kernel computes, in column order: the inner loop
shared by the kernels (`lcl` selects the reset of cells that are not positive). -/
def colsG (lcl : Bool) (rho sigma : Int) (matrix : Nat → Int) :
    List Nat → List Int → List Int → Int → Int → List CellOut
  | bj :: bs, smj :: smj1 :: sms, gbj :: gbs, sp, gapa =>
    let g := cellOutcome lcl (GlbAlign.cell (CScore.mk2 (-rho - sigma) 0)
      (CScore.mk2 (-rho - sigma) 1) sigma (matrix bj) smj smj1 sp gapa gbj)
    g :: colsG lcl rho sigma matrix bs (smj1 :: sms) gbs g.sp g.gapa
  | _, _, _, _, _ => []

/-- The bitmap byte a kernel writes at the start of a row. -/
def firstCell (lcl : Bool) : Nat := if lcl = true then Zero else Bstart ||| Bgap

/-- The rows a kernel computes: the outer loop shared by `GlbAlign` (`lcl = false`)
and `LclAlign` (`lcl = true`), without the maximum the local kernel tracks.
Returns the final `sm`, `gapb` and bitmap. -/
def rowsG (lcl : Bool) (rho sigma : Int) (delta : Nat → Nat → Int) (b : List Nat) :
    List Nat → List Int → Int → List Int → List Nat → List Int × List Int × List Nat
  | [], sm, _, gapb, mtrx => (sm, gapb, mtrx)
  | ai :: as, sm, s0, gapb, mtrx =>
    let outs := colsG lcl rho sigma (delta ai) b sm gapb.tail s0
      (if lcl = true then CScore.zero else bignegative)
    rowsG lcl rho sigma delta b as (s0 :: outs.map CellOut.sp)
      (if lcl = true then s0 else s0 + CScore.mk2 (-sigma) 1)
      (gapb.take 1 ++ outs.map CellOut.gapbj) (mtrx ++ firstCell lcl :: outs.map CellOut.bits)

/-- The state of a kernel after `r` rows: lengths of the buffers, every entry of
`sm` is the score of a traced cell of row `r`, every entry of `gapb` is a real
gap (or will be opened at the next row, or is not positive in a local kernel),
and the first cell of the next row is traced with score `s0`. -/
def RowInv (a b : List Nat) (rho sigma : Int) (delta : Nat → Nat → Int) (lcl : Bool)
    (r : Nat) (sm : List Int) (s0 : Int) (gapb : List Int) (mtrx : List Nat) : Prop :=
  (mtrx.length : Int) = idx b.length (r + 1) 0 ∧ sm.length = b.length + 1 ∧
  gapb.length = b.length + 1 ∧
  (∀ c s, sm[c]? = some s → ∃ U, Traced a b rho sigma delta lcl mtrx r c s U ∧
    (∀ g, 1 ≤ c → gapb[c]? = some g → U.getLast? = some 'I' → s = g)) ∧
  (∀ c g s, 1 ≤ c → gapb[c]? = some g → sm[c]? = some s →
    GapB a b rho sigma delta lcl mtrx r c g ∨
      s + CScore.mk2 (-rho - sigma) 1 > g + CScore.mk2 (-sigma) 1 ∨ (lcl = true ∧ g ≤ 0)) ∧
  (∃ U0, Traced a b rho sigma delta lcl (mtrx ++ [firstCell lcl]) (r + 1) 0 s0 U0 ∧
    (lcl = false → U0.getLast? = some 'I') ∧ (lcl = true → U0 = [])) ∧
  (lcl = false → s0 = CScore.mk2 (-rho - sigma * ((r : Int) + 1)) ((r : Int) + 1)) ∧
  (lcl = true → s0 = 0)

/-- The first row of the bitmap of the global kernel. -/
def glbRow0 (nb : Nat) : List Nat := 0 :: (Agap ||| Astart) :: List.replicate (nb - 1) Agap

/-- The maximum the local kernel tracks belongs to a traced cell of the first
`R` rows: the bitmap index is the one of the cell, and the score the cell holds
has the same score component as the tracked maximum. -/
def MaxInv (a b : List Nat) (rho sigma : Int) (delta : Nat → Nat → Int) (R : Nat)
    (mtrx : List Nat) (mx : MaxState) : Prop :=
  0 ≤ mx.max_score ∧
  ∃ (r c : Nat) (v : Int) (U : List Char), (mx.max_ptr : Int) = idx b.length r c ∧
    r ≤ R ∧ c ≤ b.length ∧ Traced a b rho sigma delta true mtrx r c v U ∧
    CScore.Score v = CScore.Score mx.max_score

/-! ## Optimality invariants -/

/-- The score held for cell `(r, c)` bounds the affine score of every path that
ends in the cell (in a global kernel: of every path from the origin to the cell). -/
def OptS (a b : List Nat) (rho sigma : Int) (delta : Nat → Nat → Int) (lcl : Bool)
    (r c : Nat) (s : Int) : Prop :=
  ∀ U, PathOK U → rowsOf U ≤ r → colsOf U ≤ c → (lcl = false → rowsOf U = r ∧ colsOf U = c) →
    pathScore a b rho sigma delta (r - rowsOf U) (c - colsOf U) U ≤ CScore.Score s

/-- The gap score held for cell `(r, c)` bounds the affine score of every path
that ends in the cell with a column of kind `op`. -/
def OptG (a b : List Nat) (rho sigma : Int) (delta : Nat → Nat → Int) (lcl : Bool)
    (op : Char) (r c : Nat) (g : Int) : Prop :=
  ∀ U, PathOK U → U.getLast? = some op → rowsOf U ≤ r → colsOf U ≤ c →
    (lcl = false → rowsOf U = r ∧ colsOf U = c) →
    pathScore a b rho sigma delta (r - rowsOf U) (c - colsOf U) U ≤ CScore.Score g

/-- Optimality of the state of a kernel after `r` rows. -/
def RowOpt (a b : List Nat) (rho sigma : Int) (delta : Nat → Nat → Int) (lcl : Bool)
    (r : Nat) (sm : List Int) (s0 : Int) (gapb : List Int) : Prop :=
  sm.length = b.length + 1 ∧ gapb.length = b.length + 1 ∧
  (∀ c s, sm[c]? = some s → OptS a b rho sigma delta lcl r c s) ∧
  (∀ c g, 1 ≤ c → gapb[c]? = some g → OptG a b rho sigma delta lcl 'I' r c g) ∧
  OptS a b rho sigma delta lcl (r + 1) 0 s0 ∧ (lcl = true → s0 = 0)

/-- The score component of `m` bounds the affine score of every path that ends
in a cell of the first `R` rows. -/
def OptAll (a b : List Nat) (rho sigma : Int) (delta : Nat → Nat → Int) (R : Nat) (m : Int) :
    Prop :=
  ∀ r c U, r ≤ R → c ≤ b.length → PathOK U → rowsOf U ≤ r → colsOf U ≤ c →
    pathScore a b rho sigma delta (r - rowsOf U) (c - colsOf U) U ≤ CScore.Score m

/-- The unit columns of an element list, one column per aligned position. -/
def expand : List SElement → List Char
  | [] => []
  | e :: rest => List.replicate e.m_len.toNat e.m_type ++ expand rest

/-- A column with the roles of the two sequences exchanged. -/
def mirrorOp (op : Char) : Char := if op = 'I' then 'D' else if op = 'D' then 'I' else op

/-- A path with the roles of the two sequences exchanged. -/
def mirror (U : List Char) : List Char := U.map mirrorOp

/-! ## The sums a global alignment forms -/

/-- The compound scores the body of the inner loop of `GlbAlign` forms for one
cell, in program order: `sm[j]+CScore(matrix[b[j]], 1)`, `gapa += CScore(-sigma, 0)`,
`*sp+rsa`, `gapbj += CScore(-sigma, 1)` and `sm[j]+rsb` (after `++j`). -/
def GlbAlign.cellSums (rsa rsb : Int) (sigma d : Int) (smj smj1 sp gapa gapbj : Int) :
    List Int :=
  [smj + CScore.mk2 d 1, gapa + CScore.mk2 (-sigma) 0, sp + rsa,
    gapbj + CScore.mk2 (-sigma) 1, smj1 + rsb]

/-- The compound scores the inner loop of `GlbAlign` forms over the columns of a
row; the arguments are those of `GlbAlign.cols`. -/
def GlbAlign.colsSums (rsa rsb : Int) (sigma : Int) (matrix : Nat → Int) :
    List Nat → List Int → List Int → Int → Int → List Int
  | bj :: bs, smj :: smj1 :: sms, gbj :: gbs, sp, gapa =>
    let c := GlbAlign.cell rsa rsb sigma (matrix bj) smj smj1 sp gapa gbj
    GlbAlign.cellSums rsa rsb sigma (matrix bj) smj smj1 sp gapa gbj ++
      GlbAlign.colsSums rsa rsb sigma matrix bs (smj1 :: sms) gbs c.sp c.gapa
  | _, _, _, _, _ => []

/-- The compound scores the outer loop of `GlbAlign` forms: those of every row
and `*sm+CScore(-sigma, 1)` after the swap; the arguments are those of
`GlbAlign.rows`. -/
def GlbAlign.rowsSums (rsa rsb : Int) (sigma : Int) (delta : Nat → Nat → Int) (b : List Nat) :
    List Nat → List Int → Int → List Int → List Int
  | [], _, _, _ => []
  | ai :: as, sm, s0, gapb =>
    let r := GlbAlign.cols rsa rsb sigma (delta ai) b sm gapb.tail s0 bignegative
    GlbAlign.colsSums rsa rsb sigma (delta ai) b sm gapb.tail s0 bignegative ++
      (s0 + CScore.mk2 (-sigma) 1) ::
        GlbAlign.rowsSums rsa rsb sigma delta b as (s0 :: r.1) (s0 + CScore.mk2 (-sigma) 1)
          (gapb.take 1 ++ r.2.1)

/-- Every compound score a call of `GlbAlign` holds or forms: the constants
`rsa`, `rsb` and `bignegative`, the first row, and the sums of the loops. -/
def GlbAlign.sums (a b : List Nat) (rho sigma : Int) (delta : Nat → Nat → Int) : List Int :=
  let nb := b.length
  let rsa := CScore.mk2 (-rho - sigma) 0
  let rsb := CScore.mk2 (-rho - sigma) 1
  let sm := CScore.zero :: rsa :: GlbAlign.initRow sigma (nb - 1) rsa
  let gapb := List.replicate (nb + 1) bignegative
  rsa :: rsb :: bignegative :: sm ++ GlbAlign.rowsSums rsa rsb sigma delta b a sm rsb gapb

/-- The score part of a compound score is a 32-bit integer. -/
abbrev CScore.InRange (x : Int) : Prop :=
  -2147483648 ≤ CScore.Score x ∧ CScore.Score x ≤ 2147483647

/-- The relation `reverseRole` of the symmetry property: every `I` becomes a `D`
and every `D` an `I`, in the same order with the same lengths, and the query and
subject coordinates are exchanged. -/
def CCigar.reverseRole (c : CCigar) : CCigar :=
  { m_elements := c.m_elements.map (fun e => { e with m_type := mirrorOp e.m_type })
    m_qfrom := c.m_sfrom
    m_qto := c.m_sto
    m_sfrom := c.m_qfrom
    m_sto := c.m_qto }

/-- Sum of all element lengths. -/
def sumAll (l : List SElement) : Int := sumLen (fun _ => true) l

/-! ## Detailed rendering -/

/-- The inner `for` loop of `DetailedCigarString` over one `M` element: the state
is the string so far, `is_match` and `len`. -/
def CCigar.detailedRun (query subject : List Nat) :
    Nat → Int → Int → List Char → Bool → Int → Option (List Char × Bool × Int)
  | 0, _, _, cigar, is_match, len => some (cigar, is_match, len)
  | n + 1, q, s, cigar, is_match, len =>
    match deref query q, deref subject s with
    | some x, some y =>
      if decide (x = y) = is_match then
        CCigar.detailedRun query subject n (q + 1) (s + 1) cigar is_match (len + 1)
      else
        CCigar.detailedRun query subject n (q + 1) (s + 1)
          (cigar ++ (to_string len ++ [if is_match then '=' else 'X'])) (!is_match) 1
    | _, _ => none

/-- The element loop of `DetailedCigarString`. -/
def CCigar.detailedLoop (query subject : List Nat) :
    List SElement → Int → Int → List Char → Option (List Char)
  | [], _, _, cigar => some cigar
  | el :: rest, q, s, cigar =>
    if el.m_type = 'M' then
      match deref query q, deref subject s with
      | some x, some y =>
        match CCigar.detailedRun query subject el.m_len.toNat q s cigar (decide (x = y)) 0 with
        | none => none
        | some (cigar1, is_match, len) =>
          CCigar.detailedLoop query subject rest (q + el.m_len.toNat) (s + el.m_len.toNat)
            (cigar1 ++ (to_string len ++ [if is_match then '=' else 'X']))
      | _, _ => none
    else if el.m_type = 'D' then
      CCigar.detailedLoop query subject rest q (s + el.m_len)
        (cigar ++ (to_string el.m_len ++ [el.m_type]))
    else
      CCigar.detailedLoop query subject rest (q + el.m_len) s
        (cigar ++ (to_string el.m_len ++ [el.m_type]))

/-- Method `CCigar::DetailedCigarString`; reading either sequence outside its
buffer has no value. -/
def CCigar.DetailedCigarString (c : CCigar) (qstart qlen : Int) (query subject : List Nat) :
    Option String :=
  match CCigar.detailedLoop query subject c.m_elements c.m_qfrom c.m_sfrom [] with
  | none => none
  | some cigar =>
    let missingstart := qstart + c.m_qfrom
    let cigar := if missingstart > 0 then to_string missingstart ++ 'S' :: cigar else cigar
    let missingend := qlen - 1 - c.m_qto - qstart
    some (String.mk (if missingend > 0 then cigar ++ (to_string missingend ++ ['S']) else cigar))

/-! ## Semi-global kernel -/

/-- Body of the inner loop of `LclAlign` with pin flags for one cell; `m` is the
index of the cell in the bitmap. A cell that is not positive is reset unless the
left end is pinned. -/
def LclAlignPin.cell (pinleft : Bool) (rsa rsb : Int) (sigma d : Int)
    (smj smj1 sp gapa gapbj : Int) (mx : MaxState) (m : Nat) : CellOut × MaxState :=
  let bits : Nat := 0
  let ss := smj + CScore.mk2 d 1
  let gapa := gapa + CScore.mk2 (-sigma) 0
  let ga : Int × Nat := if sp + rsa > gapa then (sp + rsa, bits ||| Astart) else (gapa, bits)
  let gapbj := gapbj + CScore.mk2 (-sigma) 1
  let gb : Int × Nat :=
    if smj1 + rsb > gapbj then (smj1 + rsb, ga.2 ||| Bstart) else (gapbj, ga.2)
  let w : Int × Nat × MaxState :=
    if ga.1 > gb.1 then
      if ss > ga.1 then
        (ss, gb.2, if ss > mx.max_score then ⟨ss, m⟩ else mx)
      else (ga.1, gb.2 ||| Agap, mx)
    else
      if ss > gb.1 then
        (ss, gb.2, if ss > mx.max_score then ⟨ss, m⟩ else mx)
      else (gb.1, gb.2 ||| Bgap, mx)
  if CScore.Score w.1 ≤ 0 ∧ pinleft = false then
    (⟨ga.1, gb.1, CScore.zero, w.2.1 ||| Zero⟩, w.2.2)
  else (⟨ga.1, gb.1, w.1, w.2.1⟩, w.2.2)

/-- Inner loop of `LclAlign` with pin flags over the columns; `m` is the bitmap
index of the cell written last. -/
def LclAlignPin.cols (pinleft : Bool) (rsa rsb : Int) (sigma : Int) (matrix : Nat → Int) :
    List Nat → List Int → List Int → Int → Int → MaxState → Nat →
      List Int × List Int × List Nat × MaxState
  | bj :: bs, smj :: smj1 :: sms, gbj :: gbs, sp, gapa, mx, m =>
    let c := LclAlignPin.cell pinleft rsa rsb sigma (matrix bj) smj smj1 sp gapa gbj mx (m + 1)
    let r := LclAlignPin.cols pinleft rsa rsb sigma matrix bs (smj1 :: sms) gbs c.1.sp c.1.gapa
      c.2 (m + 1)
    (c.1.sp :: r.1, c.1.gapbj :: r.2.1, c.1.bits :: r.2.2.1, r.2.2.2)
  | _, _, _, _, _, mx, _ => ([], [], [], mx)

/-- Outer loop of `LclAlign` with pin flags over the rows: the state is `sm`,
`s[0]`, `gapb`, the maximum and the bitmap written so far. Returns the final
`sm`, the maximum and the bitmap. -/
def LclAlignPin.rows (pinleft : Bool) (rsa rsb : Int) (sigma : Int) (delta : Nat → Nat → Int)
    (b : List Nat) :
    List Nat → List Int → Int → List Int → MaxState → List Nat →
      List Int × MaxState × List Nat
  | [], sm, _, _, mx, mtrx => (sm, mx, mtrx)
  | ai :: as, sm, s0, gapb, mx, mtrx =>
    let r := LclAlignPin.cols pinleft rsa rsb sigma (delta ai) b sm gapb.tail s0 bignegative
      mx mtrx.length
    LclAlignPin.rows pinleft rsa rsb sigma delta b as (s0 :: r.1)
      (if pinleft = true then s0 + CScore.mk2 (-sigma) 1 else s0)
      (gapb.take 1 ++ r.2.1) r.2.2.2
      (mtrx ++ (if pinleft = true then Bstart ||| Bgap else Zero) :: r.2.2.1)

/-- The first row of `sm` in `LclAlign` with pin flags. -/
def LclAlignPin.sm0 (pinleft : Bool) (nb : Nat) (rsa sigma : Int) : List Int :=
  if pinleft = true then
    if nb > 0 then CScore.zero :: rsa :: GlbAlign.initRow sigma (nb - 1) rsa
    else [CScore.zero]
  else CScore.zero :: List.replicate nb CScore.zero

/-- The first row of the bitmap in `LclAlign` with pin flags. -/
def LclAlignPin.mtrx0 (pinleft : Bool) (nb : Nat) : List Nat :=
  if pinleft = true then
    if nb > 0 then 0 :: (Astart ||| Agap) :: List.replicate (nb - 1) Agap
    else [0]
  else 0 :: List.replicate nb Zero

/-- The table filling part of `LclAlign` with pin flags: the final `sm`, the
maximum with its cell, and the bitmap. -/
def LclAlignPin.fill (a b : List Nat) (rho sigma : Int) (pinleft : Bool)
    (delta : Nat → Nat → Int) : List Int × MaxState × List Nat :=
  let nb := b.length
  let rsa := CScore.mk2 (-rho - sigma) 0
  let rsb := CScore.mk2 (-rho - sigma) 1
  LclAlignPin.rows pinleft rsa rsb sigma delta b a (LclAlignPin.sm0 pinleft nb rsa sigma)
    (if pinleft = true then rsb else CScore.zero) (List.replicate (nb + 1) bignegative)
    ⟨CScore.zero, 0⟩ (LclAlignPin.mtrx0 pinleft nb)

/-- Function `LclAlign` with the flags `pinleft` and `pinright`. With `pinright`
the traceback starts at the last cell, where `m` stands after the loops. -/
def LclAlignPin (a b : List Nat) (rho sigma : Int) (pinleft pinright : Bool)
    (delta : Nat → Nat → Int) : Option CCigar :=
  let na : Int := a.length
  let nb : Int := b.length
  let f := LclAlignPin.fill a b rho sigma pinleft delta
  if pinright = true then
    BackTrack (na - 1) (nb - 1) f.2.2 (nb + na * (nb + 1)) nb
  else
    let p : Int := f.2.1.max_ptr
    BackTrack (p / (nb + 1) - 1) (p % (nb + 1) - 1) f.2.2 p nb

/-- Run-length encoding of a path, as `PushFront` builds it on an empty track. -/
def rle (U : List Char) : List SElement := U.foldr (fun op L => pushFrontList ⟨1, op⟩ L) []

/-! ## Variable-band kernel -/

/-- A `for` loop that stores `v` at the `n` places of a buffer from index `k` on. -/
def fillFrom {α : Type} (v : α) : Nat → Nat → List α → List α
  | 0, _, l => l
  | n + 1, k, l => fillFrom v n (k + 1) (l.set k v)

/-- Inner loop of `VariBandAlign` over the columns `j` of the band of one row;
the body is the one of `LclAlign`, line for line. The arguments are the number
of columns left, `j` (`sp` points at `s[j]`), the buffers `s`, `gapb` and the
bitmap, `gapa`, the maximum, and the index `m` of the bitmap cell written last. -/
def VariBandAlign.cols (rsa rsb : Int) (sigma : Int) (matrix : Nat → Int) (b : List Nat)
    (sm : List Int) :
    Nat → Nat → List Int → List Int → List Nat → Int → MaxState → Nat →
      List Int × List Int × List Nat × MaxState
  | 0, _, s, gapb, mtrx, _, mx, _ => (s, gapb, mtrx, mx)
  | n + 1, j, s, gapb, mtrx, gapa, mx, m =>
    let c := LclAlign.cell rsa rsb sigma (matrix (b.getD j 0)) (sm.getD j 0) (sm.getD (j + 1) 0)
      (s.getD j 0) gapa (gapb.getD (j + 1) 0) mx (m + 1)
    VariBandAlign.cols rsa rsb sigma matrix b sm n (j + 1) (s.set (j + 1) c.1.sp)
      (gapb.set (j + 1) c.1.gapbj) (mtrx.set (m + 1) c.1.bits) c.1.gapa c.2 (m + 1)

/-- Outer loop of `VariBandAlign`: one round per base of `a` and band limit. The
state is `s`, `sm`, `gapb`, the bitmap, the maximum and the index `m` of the end
of the previous row. After a row that is not the last the buffers are swapped
and cleaned up for the limits of the next row. -/
def VariBandAlign.rows (rsa rsb : Int) (sigma : Int) (delta : Nat → Nat → Int) (b : List Nat) :
    List Nat → List (Nat × Nat) → List Int → List Int → List Int → List Nat → MaxState → Nat →
      MaxState × List Nat
  | ai :: as, (bleft, bright) :: bl, s, sm, gapb, mtrx, mx, m =>
    let nb := b.length
    let r := VariBandAlign.cols rsa rsb sigma (delta ai) b sm (bright + 1 - bleft) bleft
      (s.set bleft CScore.zero) gapb (mtrx.set (m + bleft + 1) Zero) CScore.zero mx
      (m + bleft + 1)
    match as, bl with
    | _ :: _, (nextl, nextr) :: _ =>
      let m0 := m + 1
      let mtrx1 := fillFrom Zero (nextr - bright) (m0 + (bright + 2)) r.2.2.1
      let gapb1 := fillFrom CScore.zero (bright - nextr) (nextr + 2) r.2.1
      let sm1 := fillFrom CScore.zero (bright - nextr) (nextr + 2) r.1
      let gapb2 := fillFrom CScore.zero (bleft + 1 - nextl) nextl gapb1
      let sm2 := fillFrom CScore.zero (bleft + 1 - nextl) nextl sm1
      let mtrx2 := fillFrom Zero (bleft + 1 - nextl) (m0 + nextl) mtrx1
      VariBandAlign.rows rsa rsb sigma delta b as bl sm sm2 gapb2 mtrx2 r.2.2.2 (m0 + nb)
    | _, _ => (r.2.2.2, r.2.2.1)
  | _, _, _, _, _, mtrx, mx, _ => (mx, mtrx)

/-- The table filling part of `VariBandAlign`: the maximum with its cell, and the
bitmap. The bitmap comes from `new char[(na+1)*(nb+1)]`; only its first row is
initialised, and `junk` is what the rest of it holds. -/
def VariBandAlign.fill (a b : List Nat) (rho sigma : Int) (delta : Nat → Nat → Int)
    (blimits : List (Nat × Nat)) (junk : List Nat) : MaxState × List Nat :=
  let nb := b.length
  let rsa := CScore.mk2 (-rho - sigma) 0
  let rsb := CScore.mk2 (-rho - sigma) 1
  VariBandAlign.rows rsa rsb sigma delta b a blimits (List.replicate (nb + 1) CScore.zero)
    (List.replicate (nb + 1) CScore.zero) (List.replicate (nb + 1) CScore.zero)
    (List.replicate (nb + 1) Zero ++ junk) ⟨CScore.zero, 0⟩ nb

/-- Function `VariBandAlign`; `blimits` holds the limits `(first, second)` of every
row. The loop reads `a[0]` and `blimits[0]` before any test, so the call has no
result for an empty `a` or for fewer limits than rows. -/
def VariBandAlign (a b : List Nat) (rho sigma : Int) (delta : Nat → Nat → Int)
    (blimits : List (Nat × Nat)) (junk : List Nat) : Option CCigar :=
  if a.length = 0 ∨ blimits.length < a.length then none
  else
    let nb : Int := b.length
    let f := VariBandAlign.fill a b rho sigma delta blimits junk
    let p : Int := f.1.max_ptr
    BackTrack (p / (nb + 1) - 1) (p % (nb + 1) - 1) f.2 p nb

/-! ## Band invariants of the variable-band kernel -/

/-- Every `M` column of a path laid out from query position `q` and subject
position `s` pairs a query position with a subject position inside the limits of
its row. -/
def InBand (lims : List (Nat × Nat)) : Nat → Nat → List Char → Prop
  | _, _, [] => True
  | q, s, op :: U =>
    (op = 'M' → ∃ l, lims[q]? = some l ∧ l.1 ≤ s ∧ s ≤ l.2) ∧
      InBand lims (q + dq op) (s + ds op) U

/-- Two bitmaps hold the same bits at the places `P`. -/
def AgreeOn (P : Int → Prop) (M M' : List Nat) : Prop := ∀ i, P i → deref M' i = deref M i

/-- The traceback started at cell `(r, c)` follows the path `U`, whose `M` columns
are inside the band, whatever the bitmap holds outside the places `P`. -/
def BandTraced (lims : List (Nat × Nat)) (nb : Nat) (P : Int → Prop) (M : List Nat)
    (r c : Nat) (U : List Char) : Prop :=
  PathOK U ∧ rowsOf U ≤ r ∧ colsOf U ≤ c ∧ InBand lims (r - rowsOf U) (c - colsOf U) U ∧
  ∀ (M' : List Nat) (fuel : Nat) (T : CCigar), AgreeOn P M M' → r + c + 1 ≤ fuel →
    BackTrack.loop M' nb fuel ((r : Int) - 1) ((c : Int) - 1) (idx nb r c) T =
      some (pushOps U T)

/-- The range `[p, p + n)` of a buffer, as `insert(end, p, p + n)` reads it; reading
outside the buffer or a negative count has no value. -/
def slice (buf : List Nat) (p n : Int) : Option (List Nat) :=
  if 0 ≤ p ∧ 0 ≤ n ∧ p + n ≤ buf.length then some ((buf.drop p.toNat).take n.toNat) else none

/-- The element loop of `ToAlign`; `'-'` is the byte 45. -/
def CCigar.toAlignLoop (query subject : List Nat) :
    List SElement → Int → Int → List Nat × List Nat → Option (List Nat × List Nat)
  | [], _, _, align => some align
  | el :: rest, q, s, align =>
    if el.m_type = 'M' then
      match slice query q el.m_len, slice subject s el.m_len with
      | some x, some y =>
        CCigar.toAlignLoop query subject rest (q + el.m_len) (s + el.m_len)
          (align.1 ++ x, align.2 ++ y)
      | _, _ => none
    else if el.m_type = 'D' then
      match slice subject s el.m_len with
      | some y =>
        CCigar.toAlignLoop query subject rest q (s + el.m_len)
          (align.1 ++ List.replicate el.m_len.toNat 45, align.2 ++ y)
      | none => none
    else
      match slice query q el.m_len with
      | some x =>
        CCigar.toAlignLoop query subject rest (q + el.m_len) s
          (align.1 ++ x, align.2 ++ List.replicate el.m_len.toNat 45)
      | none => none

/-- Method `CCigar::ToAlign`. -/
def CCigar.ToAlign (c : CCigar) (query subject : List Nat) : Option (List Nat × List Nat) :=
  CCigar.toAlignLoop query subject c.m_elements c.m_qfrom c.m_sfrom ([], [])

/-- A row of an alignment as the claim describes it: over the columns `U`, the
byte `'-'` at every column of kind `gap` and the next byte of `src` at every
other column. -/
def alignRow (gap : Char) : List Char → List Nat → List Nat
  | [], _ => []
  | op :: U, src =>
    if op = gap then 45 :: alignRow gap U src
    else src.headD 0 :: alignRow gap U src.tail

/-! ## Tokens of the renderings -/

/-- The soft-clip token of `CigarString` for `n` missing bases, if any. -/
def softClip (n : Int) : List SElement := if n > 0 then [⟨n, 'S'⟩] else []

/-- The tokens of `CigarString(qstart, qlen)`. -/
def CCigar.cigarTokens (c : CCigar) (qstart qlen : Int) : List SElement :=
  softClip (qstart + c.m_qfrom) ++ c.m_elements ++ softClip (qlen - 1 - c.m_qto - qstart)

/-- The character `=` or `X` of a run of equal or of different bases. -/
def runSym (is_match : Bool) : Char := if is_match then '=' else 'X'

/-- The tokens the inner loop of `DetailedCigarString` emits for the `n` positions
left of an `M` element, the token of the final run included. -/
def runTokens (query subject : List Nat) : Nat → Int → Int → Bool → Int → Option (List SElement)
  | 0, _, _, is_match, len => some [⟨len, runSym is_match⟩]
  | n + 1, q, s, is_match, len =>
    match deref query q, deref subject s with
    | some x, some y =>
      if decide (x = y) = is_match then runTokens query subject n (q + 1) (s + 1) is_match (len + 1)
      else
        (runTokens query subject n (q + 1) (s + 1) (!is_match) 1).map
          (fun t => ⟨len, runSym is_match⟩ :: t)
    | _, _ => none

/-- The tokens `DetailedCigarString` emits for a list of elements. -/
def detailedTokens (query subject : List Nat) : List SElement → Int → Int → Option (List SElement)
  | [], _, _ => some []
  | el :: rest, q, s =>
    if el.m_type = 'M' then
      match deref query q, deref subject s with
      | some x, some y =>
        match runTokens query subject el.m_len.toNat q s (decide (x = y)) 0,
            detailedTokens query subject rest (q + el.m_len.toNat) (s + el.m_len.toNat) with
        | some t, some r => some (t ++ r)
        | _, _ => none
      | _, _ => none
    else if el.m_type = 'D' then
      (detailedTokens query subject rest q (s + el.m_len)).map (fun r => el :: r)
    else
      (detailedTokens query subject rest (q + el.m_len) s).map (fun r => el :: r)

/-- Replaces a `=` or `X` token by an `M` token of the same length. -/
def replaceEqX (t : SElement) : SElement :=
  if t.m_type = '=' ∨ t.m_type = 'X' then ⟨t.m_len, 'M'⟩ else t

/-- Puts a token in front of a merged token list: an `M` token in front of an `M`
token becomes one token. -/
def mergeStep (t : SElement) (acc : List SElement) : List SElement :=
  match acc with
  | h :: r => if t.m_type = 'M' ∧ h.m_type = 'M' then ⟨t.m_len + h.m_len, 'M'⟩ :: r else t :: acc
  | [] => [t]

/-- Merges adjacent `M` tokens. -/
def mergeM (l : List SElement) : List SElement := l.foldr mergeStep []

/-- Constant `string::npos`, the largest `size_t`. -/
def npos : Nat := 18446744073709551615

/-- Conversion of an integer to `int`: the low 32 bits, signed. -/
def toInt32 (x : Int) : Int := (x + 2147483648) % 4294967296 - 2147483648

/-- Membership in the string `"ACGT"`. -/
def isACGT (c : Nat) : Bool := c = 65 || c = 67 || c = 71 || c = 84

/-- Membership in the string `"ACGTYRWSKMDVHBXN-"`. -/
def isReadChar (c : Nat) : Bool :=
  [65, 67, 71, 84, 89, 82, 87, 83, 75, 77, 68, 86, 72, 66, 88, 78, 45].contains c

/-- First index, counted from `i` at the head of the list, of a byte with `p`;
`npos` when there is none. -/
def findAt (p : Nat → Bool) : List Nat → Nat → Nat
  | [], _ => npos
  | c :: cs, i => if p c then i else findAt p cs (i + 1)

/-- Function `string::find_first_of(set, pos)`. -/
def find_first_of (set : Nat → Bool) (s : List Nat) (pos : Nat) : Nat :=
  findAt set (s.drop pos) pos

/-- Function `string::find_first_not_of(set, pos)`. -/
def find_first_not_of (set : Nat → Bool) (s : List Nat) (pos : Nat) : Nat :=
  findAt (fun c => !set c) (s.drop pos) pos

/-- Function `string::substr(pos, n)`, which throws when `pos` is past the end. -/
def substr (s : List Nat) (pos n : Nat) : Except String (List Nat) :=
  if pos > s.length then .error "out_of_range" else .ok ((s.drop pos).take n)

/-- The `while` loop of `InsertRead` over `start`, `best_start`, `best_len`; `len`
is an `int` that receives a `size_t` difference. -/
def InsertRead.loop (read : List Nat) : Nat → Nat → Nat → Int → Option (Nat × Int)
  | 0, _, _, _ => none
  | fuel + 1, start, best_start, best_len =>
    if start < read.length then
      let stop := min read.length (find_first_not_of isACGT read start)
      let len := toInt32 (((stop : Int) - (start : Int)) % 18446744073709551616)
      let start1 := find_first_of isACGT read stop
      if len > best_len then InsertRead.loop read fuel start1 start len
      else InsertRead.loop read fuel start1 best_start best_len
    else some (best_start, best_len)

/-- Function `CReadsGetter::InsertRead`. The holder is of a class defined outside
this file and enters through its `PushBack`; the result is the read as the caller
sees it afterwards, the holder, and whether an exception left the function. -/
def InsertRead {H : Type} (PushBack : H → List Nat → H) (read : List Nat) (rholder : H)
    (source_name : String) : Option (List Nat × H × Except String Unit) :=
  let read := read.map toupper
  if find_first_not_of isReadChar read 0 ≠ npos then
    some (read, rholder, .error ("Invalid sequence in " ++ source_name))
  else
    match InsertRead.loop read (read.length + 1) 0 0 0 with
    | none => none
    | some (best_start, best_len) =>
      if best_len > 0 then
        match substr read best_start (best_len % 18446744073709551616).toNat with
        | .ok s => some (read, PushBack rholder s, .ok ())
        | .error e => some (read, rholder, .error e)
      else some (read, PushBack rholder [], .ok ())

/-- All `m` bytes of `r` from index `j` are of `ACGT`. -/
def AllACGT (r : List Nat) (j m : Nat) : Prop :=
  ∀ k, j ≤ k → k < j + m → isACGT (r.getD k 0) = true

/-- What the loop of `InsertRead` knows at its head: `start` stands at the left
end of a stretch, the best stretch so far is maximal and ends before `start`, and no
stretch that ends before `start` is longer, or as long and further left. -/
def InsertRead.Inv (r : List Nat) (start best_start : Nat) (best_len : Int) : Prop :=
  (start ≤ r.length → start = 0 ∨ isACGT (r.getD (start - 1) 0) = false) ∧
  0 ≤ best_len ∧
  (0 < best_len → best_start + best_len.toNat ≤ start ∧ AllACGT r best_start best_len.toNat ∧
    (best_start = 0 ∨ isACGT (r.getD (best_start - 1) 0) = false) ∧
    isACGT (r.getD (best_start + best_len.toNat) 0) = false) ∧
  (∀ j m, 0 < m → j + m ≤ start → AllACGT r j m →
    (m : Int) ≤ best_len ∧ ((m : Int) = best_len → best_start ≤ j))

/-! ## Two bitmaps with the same tracebacks -/

/-- The tracebacks started at cell `(r, c)` of two bitmaps give the same result. -/
def JointTraced (mL mP : List Nat) (nb r c : Nat) : Prop :=
  ∀ (e1 e2 : List Nat) (fuel : Nat) (T : CCigar),
    BackTrack.loop (mL ++ e1) nb fuel ((r : Int) - 1) ((c : Int) - 1) (idx nb r c) T =
      BackTrack.loop (mP ++ e2) nb fuel ((r : Int) - 1) ((c : Int) - 1) (idx nb r c) T

/-- In both bitmaps the walk to `Astart` from cell `(r, c)` ends at the same
column `k + 1`, and the tracebacks from cell `(r, k)` agree. -/
def JointGapA (mL mP : List Nat) (nb r c : Nat) : Prop :=
  ∃ k, k < c ∧ JointTraced mL mP nb r k ∧
    (∀ (e : List Nat) (fuel : Nat) (L : Int), c - k ≤ fuel →
      BackTrack.walk (mL ++ e) Astart 1 fuel (idx nb r c) L =
        some (idx nb r (k + 1), L + ((c : Int) - k - 1))) ∧
    (∀ (e : List Nat) (fuel : Nat) (L : Int), c - k ≤ fuel →
      BackTrack.walk (mP ++ e) Astart 1 fuel (idx nb r c) L =
        some (idx nb r (k + 1), L + ((c : Int) - k - 1)))

/-- In both bitmaps the walk to `Bstart` from cell `(r, c)` ends at the same row
`k + 1`, and the tracebacks from cell `(k, c)` agree. -/
def JointGapB (mL mP : List Nat) (nb r c : Nat) : Prop :=
  ∃ k, k < r ∧ JointTraced mL mP nb k c ∧
    (∀ (e : List Nat) (fuel : Nat) (L : Int), r - k ≤ fuel →
      BackTrack.walk (mL ++ e) Bstart ((nb : Int) + 1) fuel (idx nb r c) L =
        some (idx nb (k + 1) c, L + ((r : Int) - k - 1))) ∧
    (∀ (e : List Nat) (fuel : Nat) (L : Int), r - k ≤ fuel →
      BackTrack.walk (mP ++ e) Bstart ((nb : Int) + 1) fuel (idx nb r c) L =
        some (idx nb (k + 1) c, L + ((r : Int) - k - 1)))

/-- The maximum two kernels track is not negative and sits in a cell from which
the tracebacks of the two bitmaps agree. -/
def JointMax (mL mP : List Nat) (nb : Nat) (mx : MaxState) : Prop :=
  0 ≤ mx.max_score ∧
    ∃ r c : Nat, (mx.max_ptr : Int) = idx nb r c ∧ c ≤ nb ∧ JointTraced mL mP nb r c

/-- The state of the two kernels after `r` rows: the same scores and bitmaps of
the same size, agreeing tracebacks from every cell of row `r`, and entries of
`gapb` that are equal with agreeing walks or not positive in both. -/
def JointRow (nb r : Nat) (sm gbL gbP : List Int) (ML MP : List Nat) : Prop :=
  (ML.length : Int) = idx nb (r + 1) 0 ∧ (MP.length : Int) = idx nb (r + 1) 0 ∧
  sm.length = nb + 1 ∧ gbL.length = nb + 1 ∧ gbP.length = nb + 1 ∧
  (∀ c, c ≤ nb → JointTraced ML MP nb r c) ∧
  (∀ c gL gP, 1 ≤ c → gbL[c]? = some gL → gbP[c]? = some gP →
    (gL = gP ∧ JointGapB ML MP nb r c) ∨ (gL ≤ 0 ∧ gP ≤ 0))

/-! ## Jobs of reads -/

/-- Type `TSlice`, a `tuple<string,size_t,size_t>`: run name, first and last read. -/
abbrev TSlice := String × Nat × Nat

/-- Type `TReadJob`, a `list<TSlice>`. -/
abbrev TReadJob := List TSlice

/-- Sum of two `size_t`. -/
def add64 (x y : Nat) : Nat := (x + y) % 18446744073709551616

/-- Difference of two `size_t`. -/
def sub64 (x y : Nat) : Nat := (x + 18446744073709551616 - y % 18446744073709551616) %
  18446744073709551616

/-- Element `v[i]` of a vector for an `int` index; outside the vector it has no value. -/
def vecAt {α : Type} (v : List α) (i : Int) : Option α :=
  if i < 0 then none else v[i.toNat]?

/-- Inner `while` loop of `ReadJobInputs`: fills the job at the back of
`job_inputs`. The state is `assigned_length`, `file_num` (an `int`),
`assigned_length_from_file`, `current_job_length` and the job. -/
def ReadJobInputs.inner (total_length job_length : Nat) (file_list : List String)
    (file_length : List Nat) :
    Nat → Nat → Int → Nat → Nat → TReadJob → Option (Nat × Int × Nat × TReadJob)
  | 0, _, _, _, _, _ => none
  | fuel + 1, assigned_length, file_num, assigned_length_from_file, current_job_length, job =>
    if current_job_length < job_length ∧ assigned_length < total_length then
      match vecAt file_length file_num, vecAt file_list file_num with
      | some flen, some name =>
        let max_chunk := sub64 flen assigned_length_from_file
        if add64 current_job_length max_chunk ≤ job_length then
          ReadJobInputs.inner total_length job_length file_list file_length fuel
            (add64 assigned_length max_chunk) (toInt32 (file_num + 1)) 0
            (add64 current_job_length max_chunk)
            (job ++ [(name, assigned_length_from_file, sub64 flen 1)])
        else
          let chunk := sub64 job_length current_job_length
          ReadJobInputs.inner total_length job_length file_list file_length fuel
            (add64 assigned_length chunk) file_num (add64 assigned_length_from_file chunk)
            job_length
            (job ++ [(name, assigned_length_from_file,
              sub64 (add64 assigned_length_from_file chunk) 1)])
      | _, _ => none
    else some (assigned_length, file_num, assigned_length_from_file, job)

/-- Outer `while` loop of `ReadJobInputs`: one job per round. -/
def ReadJobInputs.outer (total_length job_length : Nat) (file_list : List String)
    (file_length : List Nat) :
    Nat → Nat → Int → Nat → List TReadJob → Option (List TReadJob)
  | 0, _, _, _, _ => none
  | fuel + 1, assigned_length, file_num, assigned_length_from_file, job_inputs =>
    if assigned_length < total_length then
      match ReadJobInputs.inner total_length job_length file_list file_length
          (total_length + 1) assigned_length file_num assigned_length_from_file 0 [] with
      | none => none
      | some (assigned1, file_num1, from_file1, job) =>
        ReadJobInputs.outer total_length job_length file_list file_length fuel assigned1
          file_num1 from_file1 (job_inputs ++ [job])
    else some job_inputs

/-- Function `CReadsGetter::ReadJobInputs`: the jobs appended to `job_inputs`. Every
round of either loop assigns at least one read when it can go on at all, so
`total_length + 1` rounds suffice. -/
def ReadJobInputs (total_length job_length : Nat) (file_list : List String)
    (file_length : List Nat) (job_inputs : List TReadJob) : Option (List TReadJob) :=
  ReadJobInputs.outer total_length job_length file_list file_length (total_length + 1) 0 0 0
    job_inputs

/-- Number of reads of a slice, `to - from + 1`. -/
def sliceReads (s : TSlice) : Nat := s.2.2 + 1 - s.2.1

/-- Number of reads of a job. -/
def jobReads (job : TReadJob) : Nat := (job.map sliceReads).sum

/-- The slices, in order, cover the files from read `o` of the first file to the
end of the last: every slice lies in one file with `from ≤ to`, starts where the
one before it stopped, and the next file starts when a file is finished. -/
def Covers : List (String × Nat) → Nat → List TSlice → Prop
  | files, o, [] => files = [] ∧ o = 0
  | [], _, _ :: _ => False
  | (n, len) :: fs, o, (name, f, t) :: rest =>
    name = n ∧ f = o ∧ f ≤ t ∧ t < len ∧
      ((t + 1 = len ∧ Covers fs 0 rest) ∨ (t + 1 < len ∧ Covers ((n, len) :: fs) (t + 1) rest))

/-- What the loops of `ReadJobInputs` know: `file_num` is a file or the end, the
reads assigned and those left add up to `total_length`, and the offset lies in the
file at hand. -/
def JobInv (total_length : Nat) (file_length : List Nat) (a k o : Nat) : Prop :=
  k ≤ file_length.length ∧ a + ((file_length.drop k).sum - o) = total_length ∧
    (∀ flen, file_length[k]? = some flen → o < flen) ∧ (file_length.length ≤ k → o = 0)

/-- The reads of a slice, each as the pair of the run name and the index in the run. -/
def sliceIdx (s : TSlice) : List (String × Nat) :=
  (List.range' s.2.1 (sliceReads s)).map (fun i => (s.1, i))

/-- All reads of the files in file order: for every file the indices `0 .. len-1`. -/
def fileIdx (files : List (String × Nat)) : List (String × Nat) :=
  files.flatMap (fun f => (List.range f.2).map (fun i => (f.1, i)))

/-! ## Score in `int` arithmetic -/

/-- The value of an `int` expression whose exact result is `x`: a result outside
the 32-bit range is a signed overflow and has no value. -/
def int32 (x : Int) : Option Int :=
  if -2147483648 ≤ x ∧ x ≤ 2147483647 then some x else none

/-- The inner `for` loop of `Score` over one `M` element, with the sum
`score += delta[(int)*query][(int)*subject]` formed in `int`. -/
def CCigar.scoreRun32 (query subject : List Nat) (delta : Nat → Nat → Int) :
    Nat → Int → Int → Int → Option Int
  | 0, _, _, acc => some acc
  | n + 1, q, s, acc =>
    match deref query q, deref subject s with
    | some x, some y =>
      match int32 (acc + delta x y) with
      | none => none
      | some acc1 => CCigar.scoreRun32 query subject delta n (q + 1) (s + 1) acc1
    | _, _ => none

/-- The statement `score -= gopen+gapextend*element.m_len` of `Score`, each of the
product, the sum and the difference formed in `int`. -/
def CCigar.gapStep32 (gopen gapextend len acc : Int) : Option Int :=
  match int32 (gapextend * len) with
  | none => none
  | some e =>
    match int32 (gopen + e) with
    | none => none
    | some g => int32 (acc - g)

/-- The element loop of `Score` with the accumulator `int score`. -/
def CCigar.scoreLoop32 (query subject : List Nat) (gopen gapextend : Int)
    (delta : Nat → Nat → Int) : List SElement → Int → Int → Int → Option Int
  | [], _, _, acc => some acc
  | el :: rest, q, s, acc =>
    if el.m_type = 'M' then
      match CCigar.scoreRun32 query subject delta el.m_len.toNat q s acc with
      | none => none
      | some acc1 =>
        CCigar.scoreLoop32 query subject gopen gapextend delta rest
          (q + el.m_len.toNat) (s + el.m_len.toNat) acc1
    else if el.m_type = 'D' then
      match CCigar.gapStep32 gopen gapextend el.m_len acc with
      | none => none
      | some acc1 =>
        CCigar.scoreLoop32 query subject gopen gapextend delta rest q (s + el.m_len) acc1
    else
      match CCigar.gapStep32 gopen gapextend el.m_len acc with
      | none => none
      | some acc1 =>
        CCigar.scoreLoop32 query subject gopen gapextend delta rest (q + el.m_len) s acc1

/-- Method `CCigar::Score` as the code computes it, in `int`: it has a value when
every read is inside its sequence and no intermediate result leaves the 32-bit
range, and the value is then the one of `CCigar.Score`. -/
def CCigar.Score32 (c : CCigar) (query subject : List Nat) (gopen gapextend : Int)
    (delta : Nat → Nat → Int) : Option Int :=
  CCigar.scoreLoop32 query subject gopen gapextend delta c.m_elements c.m_qfrom c.m_sfrom 0

/-- A bound on the size of every intermediate result of `Score` over an element
list: 128 for each `M` column, `gopen + gapextend*len` for each gap element. -/
def scoreWeight (gopen gapextend : Int) : List SElement → Int
  | [] => 0
  | el :: rest =>
    (if el.m_type = 'M' then 128 * el.m_len else gopen + gapextend * el.m_len) +
      scoreWeight gopen gapextend rest

/-! ## Lemmas and theorems -/

theorem sumLen_append (p : Char → Bool) (l₁ l₂ : List SElement) :
    sumLen p (l₁ ++ l₂) = sumLen p l₁ + sumLen p l₂ := by
  induction l₁ with
  | nil => simp [sumLen]
  | cons x xs ih => simp [sumLen, ih]; ring

theorem sumLen_pushFrontList (p : Char → Bool) (el : SElement) (l : List SElement) :
    sumLen p (pushFrontList el l) = (if p el.m_type then el.m_len else 0) + sumLen p l := by
  cases l with
  | nil => simp [pushFrontList, sumLen]
  | cons f rest =>
    simp only [pushFrontList]
    split_ifs with h1 h2 h2
    · simp [sumLen, h2]
    · simp [sumLen, h2]
    · simp only [ne_eq, not_not] at h1
      simp [sumLen, h1, h2]; ring
    · simp only [ne_eq, not_not] at h1
      simp [sumLen, h1, h2]

theorem sumLen_pushBackList (p : Char → Bool) (el : SElement) (l : List SElement) :
    sumLen p (pushBackList el l) = (if p el.m_type then el.m_len else 0) + sumLen p l := by
  unfold pushBackList
  cases hl : l.getLast? with
  | none => simp [sumLen_append, sumLen]; ring
  | some x =>
    have hx : l = l.dropLast ++ [x] := by
      have := List.dropLast_append_getLast? x (by simpa using hl)
      exact this.symm
    simp only
    split_ifs with h1 h2 h2
    · simp [sumLen_append, sumLen, h2]; ring
    · simp [sumLen_append, sumLen, h2]
    · simp only [ne_eq, not_not] at h1
      conv_rhs => rw [hx]
      simp [sumLen_append, sumLen, h1, h2]; ring
    · simp only [ne_eq, not_not] at h1
      conv_rhs => rw [hx]
      simp [sumLen_append, sumLen, h1, h2]

theorem PushFront_span (c : CCigar) (el : SElement) (hk : el.KindOK) (h : c.SpanOK) :
    (c.PushFront el).SpanOK := by
  unfold CCigar.SpanOK sumMI sumMD at *
  simp only [CCigar.PushFront, sumLen_pushFrontList]
  rcases hk with hk | hk | hk <;> simp [hk] <;> omega

theorem PushBack_span (c : CCigar) (el : SElement) (hk : el.KindOK) (h : c.SpanOK) :
    (c.PushBack el).SpanOK := by
  unfold CCigar.SpanOK sumMI sumMD at *
  simp only [CCigar.PushBack, sumLen_pushBackList]
  rcases hk with hk | hk | hk <;> simp [hk] <;> omega

theorem init_span (ia ib : Int) : (CCigar.init ia ib).SpanOK := by
  simp [CCigar.SpanOK, CCigar.init, sumMI, sumMD, sumLen]

theorem pushAll_span (ops : List Push) (c : CCigar) (hk : ∀ op ∈ ops, op.el.KindOK)
    (h : c.SpanOK) : (c.pushAll ops).SpanOK := by
  induction ops generalizing c with
  | nil => simpa [CCigar.pushAll] using h
  | cons op ops ih =>
    have hop := hk op (List.mem_cons_self _ _)
    have hrest : ∀ o ∈ ops, o.el.KindOK := fun o ho => hk o (List.mem_cons_of_mem _ ho)
    cases op with
    | front el => exact ih _ hrest (PushFront_span c el hop h)
    | back el => exact ih _ hrest (PushBack_span c el hop h)

theorem BackTrack.walk_len (mtrx : List Nat) (flag : Nat) (step : Int) (f : Nat) :
    ∀ (m len m1 len1 : Int), BackTrack.walk mtrx flag step f m len = some (m1, len1) →
      len ≤ len1 := by
  induction f with
  | zero => intro m len m1 len1 h; simp [BackTrack.walk] at h
  | succ f ih =>
    intro m len m1 len1 h
    unfold BackTrack.walk at h
    cases hd : deref mtrx m with
    | none => simp [hd] at h
    | some v =>
      simp only [hd] at h
      split_ifs at h with hv
      · simp only [Option.some.injEq, Prod.mk.injEq] at h; omega
      · have := ih _ _ _ _ h; omega

/-- What `BackTrack` preserves: any property of the track kept by pushing an
`M`, `I` or `D` element of positive length to the front. -/
theorem BackTrack.loop_preserves (P : CCigar → Prop)
    (hP : ∀ c el, P c → el.KindOK → 0 < el.m_len → P (c.PushFront el))
    (mtrx : List Nat) (nb : Int) (f : Nat) :
    ∀ (ia ib m : Int) (track c : CCigar), P track →
      BackTrack.loop mtrx nb f ia ib m track = some c → P c := by
  induction f with
  | zero => intro ia ib m track c _ h; simp [BackTrack.loop] at h
  | succ f ih =>
    intro ia ib m track c hT h
    unfold BackTrack.loop at h
    split_ifs at h with hcond
    · cases hd : deref mtrx m with
      | none => simp [hd] at h
      | some v =>
        simp only [hd] at h
        split_ifs at h with hz ha hb
        · simp only [Option.some.injEq] at h; exact h ▸ hT
        · cases hw : BackTrack.walk mtrx Astart 1 (m.toNat + 1) m 1 with
          | none => simp [hw] at h
          | some r =>
            obtain ⟨m1, len⟩ := r
            simp only [hw] at h
            have hl := BackTrack.walk_len _ _ _ _ _ _ _ _ hw
            exact ih _ _ _ _ _ (hP _ _ hT (Or.inr (Or.inr rfl)) (by simpa using (by omega : 0 < len))) h
        · cases hw : BackTrack.walk mtrx Bstart (nb + 1) (m.toNat + 1) m 1 with
          | none => simp [hw] at h
          | some r =>
            obtain ⟨m1, len⟩ := r
            simp only [hw] at h
            have hl := BackTrack.walk_len _ _ _ _ _ _ _ _ hw
            exact ih _ _ _ _ _ (hP _ _ hT (Or.inr (Or.inl rfl)) (by simpa using (by omega : 0 < len))) h
        · exact ih _ _ _ _ _ (hP _ _ hT (Or.inl rfl) (by simp)) h
    · simp only [Option.some.injEq] at h; exact h ▸ hT

theorem pushFrontList_noAdjacent (el : SElement) (l : List SElement) (h : NoAdjacent l) :
    NoAdjacent (pushFrontList el l) := by
  unfold NoAdjacent at *
  cases l with
  | nil => simp [pushFrontList]
  | cons f rest =>
    simp only [pushFrontList]
    split_ifs with h1
    · exact List.Chain'.cons (fun e => h1 e.symm) h
    · cases rest with
      | nil => simp
      | cons g rest2 =>
        rw [List.chain'_cons] at h ⊢
        exact ⟨h.1, h.2⟩

theorem pushBackList_noAdjacent (el : SElement) (l : List SElement) (h : NoAdjacent l) :
    NoAdjacent (pushBackList el l) := by
  unfold NoAdjacent pushBackList at *
  cases hl : l.getLast? with
  | none =>
    have : l = [] := by simpa using hl
    subst this; simp
  | some x =>
    have hx : l = l.dropLast ++ [x] := (List.dropLast_append_getLast? x (by simpa using hl)).symm
    simp only
    split_ifs with h1
    · rw [List.chain'_append]
      refine ⟨h, by simp, ?_⟩
      intro y hy z hz
      simp only [List.head?_cons, Option.mem_def, Option.some.injEq] at hz
      rw [hl] at hy
      simp only [Option.mem_def, Option.some.injEq] at hy
      subst hy hz
      exact h1
    · rw [hx, List.chain'_append] at h
      rw [List.chain'_append]
      refine ⟨h.1, by simp, ?_⟩
      intro y hy z hz
      simp only [List.head?_cons, Option.mem_def, Option.some.injEq] at hz
      subst hz
      exact h.2.2 y hy x (by simp)

theorem pushAll_noAdjacent (ops : List Push) (c : CCigar) (h : NoAdjacent c.m_elements) :
    NoAdjacent (c.pushAll ops).m_elements := by
  induction ops generalizing c with
  | nil => simpa [CCigar.pushAll] using h
  | cons op ops ih =>
    cases op with
    | front el => exact ih _ (pushFrontList_noAdjacent el _ h)
    | back el => exact ih _ (pushBackList_noAdjacent el _ h)

theorem deref_some (buf : List Nat) (i : Int) (h0 : 0 ≤ i) (h1 : i < buf.length) :
    ∃ x, deref buf i = some x := by
  unfold deref
  rw [if_neg (by omega)]
  have : i.toNat < buf.length := by omega
  exact ⟨buf[i.toNat], List.getElem?_eq_getElem this⟩

theorem matches_distance_run (query subject : List Nat) (n : Nat) :
    ∀ (q s am ad : Int), 0 ≤ q → q + n ≤ query.length → 0 ≤ s → s + n ≤ subject.length →
      ∃ k : Int, 0 ≤ k ∧ k ≤ n ∧
        CCigar.matchesRun query subject n q s am = some (am + (n - k)) ∧
        CCigar.distanceRun query subject n q s ad = some (ad + k) ∧
        (((runPositions n q s).filter
          (fun p => deref query p.1 ≠ deref subject p.2)).length : Int) = k := by
  induction n with
  | zero =>
    intro q s am ad _ _ _ _
    exact ⟨0, by simp [CCigar.matchesRun, CCigar.distanceRun, runPositions]⟩
  | succ n ih =>
    intro q s am ad hq0 hq1 hs0 hs1
    obtain ⟨x, hx⟩ := deref_some query q hq0 (by push_cast at hq1; omega)
    obtain ⟨y, hy⟩ := deref_some subject s hs0 (by push_cast at hs1; omega)
    by_cases hxy : x = y
    · obtain ⟨k, hk0, hk1, hm, hd, hc⟩ := ih (q + 1) (s + 1) (am + 1) ad (by omega)
        (by push_cast at hq1; omega) (by omega) (by push_cast at hs1; omega)
      refine ⟨k, hk0, by push_cast; omega, ?_, ?_, ?_⟩
      · simp only [CCigar.matchesRun, hx, hy, hxy, if_true, hm]
        congr 1; push_cast; ring
      · simp only [CCigar.distanceRun, hx, hy, hxy, ne_eq, not_true_eq_false, if_false, hd]
      · simp only [runPositions, List.filter_cons, hx, hy, hxy, ne_eq, not_true_eq_false,
          decide_False]
        simpa using hc
    · obtain ⟨k, hk0, hk1, hm, hd, hc⟩ := ih (q + 1) (s + 1) am (ad + 1) (by omega)
        (by push_cast at hq1; omega) (by omega) (by push_cast at hs1; omega)
      refine ⟨k + 1, by omega, by push_cast; omega, ?_, ?_, ?_⟩
      · simp only [CCigar.matchesRun, hx, hy, hxy, if_false, hm]
        congr 1; push_cast; ring
      · simp only [CCigar.distanceRun, hx, hy, hxy, ne_eq, not_false_eq_true, if_true, hd]
        congr 1; ring
      · simp only [runPositions, List.filter_cons, hx, hy, ne_eq, Option.some.injEq, hxy,
          not_false_eq_true, decide_True, if_true, List.length_cons]
        push_cast
        simpa using hc

theorem matches_distance_loop (query subject : List Nat) (l : List SElement) :
    ∀ (q s am ad : Int), (∀ el ∈ l, 0 ≤ el.m_len ∧ el.KindOK) →
      0 ≤ q → q + sumMI l ≤ query.length → 0 ≤ s → s + sumMD l ≤ subject.length →
      ∃ k : Int,
        CCigar.matchesLoop query subject l q s am = some (am + (sumKind 'M' l - k)) ∧
        CCigar.distanceLoop query subject l q s ad =
          some (ad + (k + sumKind 'I' l + sumKind 'D' l)) ∧
        (((mPositions l q s).filter
          (fun p => deref query p.1 ≠ deref subject p.2)).length : Int) = k := by
  induction l with
  | nil =>
    intro q s am ad _ _ _ _ _
    exact ⟨0, by simp [CCigar.matchesLoop, CCigar.distanceLoop, mPositions, sumKind, sumLen]⟩
  | cons el rest ih =>
    intro q s am ad hall hq0 hq1 hs0 hs1
    have hel := hall el (List.mem_cons_self _ _)
    have hrest : ∀ e ∈ rest, 0 ≤ e.m_len ∧ e.KindOK :=
      fun e he => hall e (List.mem_cons_of_mem _ he)
    have hnnI : 0 ≤ sumMI rest := by
      clear ih hq1 hs1
      induction rest with
      | nil => simp [sumMI, sumLen]
      | cons e r ihr =>
        have h1 := (hrest e (List.mem_cons_self _ _)).1
        have h2 := ihr (fun x hx => hall x (by
          rcases List.mem_cons.1 hx with h | h
          · exact h ▸ List.mem_cons_self _ _
          · exact List.mem_cons_of_mem _ (List.mem_cons_of_mem _ h)))
          (fun x hx => hrest x (List.mem_cons_of_mem _ hx))
        simp only [sumMI, sumLen] at h2 ⊢
        split_ifs <;> omega
    have hnnD : 0 ≤ sumMD rest := by
      clear ih hq1 hs1 hnnI
      induction rest with
      | nil => simp [sumMD, sumLen]
      | cons e r ihr =>
        have h1 := (hrest e (List.mem_cons_self _ _)).1
        have h2 := ihr (fun x hx => hall x (by
          rcases List.mem_cons.1 hx with h | h
          · exact h ▸ List.mem_cons_self _ _
          · exact List.mem_cons_of_mem _ (List.mem_cons_of_mem _ h)))
          (fun x hx => hrest x (List.mem_cons_of_mem _ hx))
        simp only [sumMD, sumLen] at h2 ⊢
        split_ifs <;> omega
    obtain ⟨hlen, hk⟩ := hel
    have htn : (el.m_len.toNat : Int) = el.m_len := Int.toNat_of_nonneg hlen
    rcases hk with hk | hk | hk
    · -- an M element
      simp only [sumMI, sumMD, sumLen, hk] at hq1 hs1
      simp only [sumMI, sumMD] at hnnI hnnD ih
      obtain ⟨k1, hk10, hk11, hm1, hd1, hc1⟩ := matches_distance_run query subject el.m_len.toNat
        q s am ad hq0 (by simp at hq1; omega) hs0 (by simp at hs1; omega)
      rw [htn] at hm1
      obtain ⟨k2, hm2, hd2, hc2⟩ := ih (q + el.m_len) (s + el.m_len)
        (am + (el.m_len - k1)) (ad + k1) hrest (by omega) (by simp at hq1; omega) (by omega)
        (by simp at hs1; omega)
      refine ⟨k1 + k2, ?_, ?_, ?_⟩
      · simp only [CCigar.matchesLoop, hk, if_true, hm1, htn]
        rw [hm2]
        congr 1
        simp only [sumKind, sumLen, hk, decide_True, if_true]
        ring
      · simp only [CCigar.distanceLoop, hk, if_true, hd1, htn]
        rw [hd2]
        congr 1
        simp only [sumKind, sumLen, hk]
        simp
        ring
      · simp only [mPositions, hk, if_true, List.filter_append, List.length_append]
        push_cast
        rw [hc1, hc2]
    · -- an I element
      simp only [sumMI, sumMD, sumLen, hk] at hq1 hs1
      simp only [sumMI, sumMD] at hnnI hnnD ih
      obtain ⟨k2, hm2, hd2, hc2⟩ := ih (q + el.m_len) s am (ad + el.m_len) hrest (by omega)
        (by simp at hq1; omega) (by omega) (by simp at hs1; omega)
      refine ⟨k2, ?_, ?_, ?_⟩
      · simp only [CCigar.matchesLoop, hk]
        rw [if_neg (by decide), if_neg (by decide), hm2]
        congr 1
        simp only [sumKind, sumLen, hk]
        simp
      · simp only [CCigar.distanceLoop, hk]
        rw [if_neg (by decide), if_neg (by decide), hd2]
        congr 1
        simp only [sumKind, sumLen, hk]
        simp
        ring
      · simp only [mPositions, hk]
        rw [if_neg (by decide), if_neg (by decide)]
        exact hc2
    · -- a D element
      simp only [sumMI, sumMD, sumLen, hk] at hq1 hs1
      simp only [sumMI, sumMD] at hnnI hnnD ih
      obtain ⟨k2, hm2, hd2, hc2⟩ := ih q (s + el.m_len) am (ad + el.m_len) hrest (by omega)
        (by simp at hq1; omega) (by omega) (by simp at hs1; omega)
      refine ⟨k2, ?_, ?_, ?_⟩
      · simp only [CCigar.matchesLoop, hk]
        rw [if_neg (by decide), if_pos trivial, hm2]
        congr 1
        simp only [sumKind, sumLen, hk]
        simp
      · simp only [CCigar.distanceLoop, hk]
        rw [if_neg (by decide), if_pos trivial, hd2]
        congr 1
        simp only [sumKind, sumLen, hk]
        simp
        ring
      · simp only [mPositions, hk]
        rw [if_neg (by decide), if_pos trivial]
        exact hc2

theorem digitChar_facts : ∀ d, d < 10 → (digitChar d).isDigit = true ∧ digitVal (digitChar d) = d := by
  decide

theorem parseNumber_decimalAux (f : Nat) :
    ∀ (n : Nat) (acc rest : List Char), n < f →
      ∃ c cs, decimalAux f n acc = c :: cs ∧ c.isDigit = true ∧
        parseNumber (cs ++ rest) (digitVal c) = parseNumber (acc ++ rest) n := by
  induction f with
  | zero => intro n acc rest h; omega
  | succ f ih =>
    intro n acc rest h
    have hd := digitChar_facts (n % 10) (Nat.mod_lt _ (by decide))
    unfold decimalAux
    split_ifs with h0
    · refine ⟨_, _, rfl, hd.1, ?_⟩
      rw [hd.2]
      congr 1
      omega
    · obtain ⟨c, cs, h1, h2, h3⟩ := ih (n / 10) (digitChar (n % 10) :: acc) rest (by omega)
      refine ⟨c, cs, h1, h2, ?_⟩
      rw [h3]
      simp only [List.cons_append, parseNumber, hd.1, if_true, hd.2]
      congr 1
      omega

theorem parseCigar_token (n : Int) (hn : 0 < n) (op : Char) (hop : op.isDigit = false)
    (rest : List Char) (toks : List SElement)
    (hrest : ∀ fuel, rest.length ≤ fuel → parseCigar fuel rest = some toks) :
    ∀ fuel, (to_string n ++ op :: rest).length ≤ fuel →
      parseCigar fuel (to_string n ++ op :: rest) = some (⟨n, op⟩ :: toks) := by
  intro fuel hfuel
  have hts : to_string n = decimal n.toNat := by
    unfold to_string; rw [if_neg (by omega)]
  rw [hts] at hfuel ⊢
  obtain ⟨c, cs, h1, h2, h3⟩ := parseNumber_decimalAux (n.toNat + 1) n.toNat [] (op :: rest)
    (by omega)
  unfold decimal at hfuel ⊢
  rw [h1] at hfuel ⊢
  cases fuel with
  | zero => simp at hfuel
  | succ fuel =>
    have h4 : parseNumber (cs ++ op :: rest) (digitVal c) = (n.toNat, op :: rest) := by
      rw [h3]
      simp [parseNumber, hop]
    simp only [List.cons_append, parseCigar, h2, if_true, List.append_eq, h4]
    rw [hrest fuel (by simp at hfuel; omega)]
    simp only [Option.map_some', Option.some.injEq, List.cons.injEq,
      SElement.mk.injEq, and_true]
    omega

theorem parseCigar_elementChars (els : List SElement)
    (hels : ∀ el ∈ els, 0 < el.m_len ∧ el.KindOK) (tail : List Char) (toks : List SElement)
    (htail : ∀ fuel, tail.length ≤ fuel → parseCigar fuel tail = some toks) :
    ∀ fuel, (CCigar.elementChars els ++ tail).length ≤ fuel →
      parseCigar fuel (CCigar.elementChars els ++ tail) = some (els ++ toks) := by
  induction els with
  | nil => simpa [CCigar.elementChars] using htail
  | cons el rest ih =>
    have hel := hels el (List.mem_cons_self _ _)
    have hop : el.m_type.isDigit = false := by
      rcases hel.2 with h | h | h <;> rw [h] <;> decide
    have := parseCigar_token el.m_len hel.1 el.m_type hop (CCigar.elementChars rest ++ tail)
      (rest ++ toks) (ih (fun e he => hels e (List.mem_cons_of_mem _ he)))
    simpa [CCigar.elementChars] using this

theorem dropLeadingS_kindOK (l : List SElement) (h : ∀ el ∈ l, el.KindOK) :
    dropLeadingS l = l := by
  cases l with
  | nil => rfl
  | cons el rest =>
    have hk := h el (List.mem_cons_self _ _)
    have : el.m_type ≠ 'S' := by
      rcases hk with h | h | h <;> rw [h] <;> decide
    simp [dropLeadingS, this]

theorem stripS_elements (els : List SElement) (h : ∀ el ∈ els, el.KindOK)
    (pre post : List SElement)
    (hpre : pre = [] ∨ ∃ n, pre = [⟨n, 'S'⟩]) (hpost : post = [] ∨ ∃ n, post = [⟨n, 'S'⟩]) :
    stripS (pre ++ els ++ post) = els := by
  have hrev : ∀ el ∈ els.reverse, el.KindOK := fun el he => h el (List.mem_reverse.1 he)
  cases els with
  | nil =>
    rcases hpre with hpre | ⟨n, hpre⟩ <;> rcases hpost with hpost | ⟨k, hpost⟩ <;>
      subst hpre hpost <;> simp [stripS, dropLeadingS]
  | cons e r =>
    have he : e.m_type ≠ 'S' := by
      rcases h e (List.mem_cons_self _ _) with h | h | h <;> rw [h] <;> decide
    have h1 : dropLeadingS (pre ++ (e :: r) ++ post) = (e :: r) ++ post := by
      rcases hpre with hpre | ⟨n, hpre⟩ <;> subst hpre <;> simp [dropLeadingS, he]
    unfold stripS
    rw [h1]
    rcases hpost with hpost | ⟨k, hpost⟩ <;> subst hpost
    · rw [List.append_nil, dropLeadingS_kindOK _ hrev, List.reverse_reverse]
    · rw [List.reverse_append]
      simp [dropLeadingS]

/-- C10. Round trip of the compact rendering: parsing `CigarString(0, qlen)` into
`{decimal length}{op}` tokens and dropping a leading and a trailing `S` token
gives back the element sequence of the Cigar, for elements of positive length
and kind `M`, `I` or `D`. -/
theorem CigarString_roundtrip (c : CCigar) (qlen : Int)
    (hels : ∀ el ∈ c.m_elements, 0 < el.m_len ∧ el.KindOK) :
    ∃ toks, parseCigar (c.CigarString 0 qlen).data.length (c.CigarString 0 qlen).data = some toks ∧
      stripS toks = c.m_elements := by
  have hk : ∀ el ∈ c.m_elements, el.KindOK := fun el he => (hels el he).2
  have hS : ('S' : Char).isDigit = false := by decide
  have hnil : ∀ fuel, ([] : List Char).length ≤ fuel → parseCigar fuel [] = some [] := by
    intro fuel _; cases fuel <;> rfl
  show ∃ toks, parseCigar (c.CigarChars 0 qlen).length (c.CigarChars 0 qlen) = some toks ∧ _
  unfold CCigar.CigarChars
  simp only
  by_cases h1 : 0 + c.m_qfrom > 0 <;> by_cases h2 : qlen - 1 - c.m_qto - 0 > 0
  · rw [if_pos h1, if_pos h2]
    have hend := parseCigar_token _ h2 'S' hS [] [] hnil
    have hmid := parseCigar_elementChars c.m_elements hels _ _ hend
    have hall := parseCigar_token _ h1 'S' hS _ _ hmid
    refine ⟨[⟨0 + c.m_qfrom, 'S'⟩] ++ c.m_elements ++ [⟨qlen - 1 - c.m_qto - 0, 'S'⟩], ?_,
      stripS_elements c.m_elements hk [_] [_] (Or.inr ⟨_, rfl⟩) (Or.inr ⟨_, rfl⟩)⟩
    have := hall _ (le_refl _)
    simpa using this
  · rw [if_pos h1, if_neg h2]
    have hmid := parseCigar_elementChars c.m_elements hels [] [] hnil
    have hall := parseCigar_token _ h1 'S' hS _ _ hmid
    refine ⟨[⟨0 + c.m_qfrom, 'S'⟩] ++ c.m_elements ++ [], ?_,
      stripS_elements c.m_elements hk [_] [] (Or.inr ⟨_, rfl⟩) (Or.inl rfl)⟩
    have := hall _ (le_refl _)
    simpa using this
  · rw [if_neg h1, if_pos h2]
    have hend := parseCigar_token _ h2 'S' hS [] [] hnil
    have hmid := parseCigar_elementChars c.m_elements hels _ _ hend
    refine ⟨[] ++ c.m_elements ++ [⟨qlen - 1 - c.m_qto - 0, 'S'⟩], ?_,
      stripS_elements c.m_elements hk [] [_] (Or.inl rfl) (Or.inr ⟨_, rfl⟩)⟩
    have := hmid _ (le_refl _)
    simpa using this
  · rw [if_neg h1, if_neg h2]
    have hmid := parseCigar_elementChars c.m_elements hels [] [] hnil
    refine ⟨[] ++ c.m_elements ++ [], ?_,
      stripS_elements c.m_elements hk [] [] (Or.inl rfl) (Or.inl rfl)⟩
    have := hmid _ (le_refl _)
    simpa using this

theorem CigarString_roundtrip_witness :
    ∃ toks, parseCigar
        (CCigar.CigarString ⟨[⟨2, 'M'⟩, ⟨1, 'I'⟩, ⟨12, 'M'⟩], 3, 17, 0, 13⟩ 0 20).data.length
        (CCigar.CigarString ⟨[⟨2, 'M'⟩, ⟨1, 'I'⟩, ⟨12, 'M'⟩], 3, 17, 0, 13⟩ 0 20).data = some toks ∧
      stripS toks = [⟨2, 'M'⟩, ⟨1, 'I'⟩, ⟨12, 'M'⟩] :=
  CigarString_roundtrip ⟨[⟨2, 'M'⟩, ⟨1, 'I'⟩, ⟨12, 'M'⟩], 3, 17, 0, 13⟩ 20
    (by simp [SElement.KindOK])

theorem pushOps_append (U V : List Char) (T : CCigar) :
    pushOps (U ++ V) T = pushOps U (pushOps V T) := by
  simp [pushOps, List.foldr_append]

theorem pushFrontList_merge (n : Int) (op : Char) (L : List SElement) :
    pushFrontList ⟨1, op⟩ (pushFrontList ⟨n, op⟩ L) = pushFrontList ⟨n + 1, op⟩ L := by
  cases L with
  | nil => simp [pushFrontList]
  | cons f rest =>
    by_cases h : f.m_type = op
    · simp [pushFrontList, h]; ring
    · simp [pushFrontList, h]

theorem pushOps_replicate (n : Nat) (op : Char) (T : CCigar) :
    pushOps (List.replicate (n + 1) op) T = T.PushFront ⟨(n : Int) + 1, op⟩ := by
  induction n with
  | zero => simp [pushOps]
  | succ n ih =>
    rw [List.replicate_succ]
    show (pushOps (List.replicate (n + 1) op) T).PushFront ⟨1, op⟩ = _
    rw [ih]
    simp only [CCigar.PushFront, pushFrontList_merge]
    push_cast
    congr 1 <;> split_ifs <;> ring

theorem rowsOf_append (U V : List Char) : rowsOf (U ++ V) = rowsOf U + rowsOf V := by
  induction U with
  | nil => simp [rowsOf]
  | cons x xs ih => simp [rowsOf, ih]; ring

theorem colsOf_append (U V : List Char) : colsOf (U ++ V) = colsOf U + colsOf V := by
  induction U with
  | nil => simp [colsOf]
  | cons x xs ih => simp [colsOf, ih]; ring

theorem rowsOf_replicate_D (n : Nat) : rowsOf (List.replicate n 'D') = 0 := by
  induction n with
  | zero => rfl
  | succ n ih => simp [List.replicate_succ, rowsOf, dq, ih]

theorem colsOf_replicate_D (n : Nat) : colsOf (List.replicate n 'D') = n := by
  induction n with
  | zero => rfl
  | succ n ih => simp [List.replicate_succ, colsOf, ds, ih]; ring

theorem rowsOf_replicate_I (n : Nat) : rowsOf (List.replicate n 'I') = n := by
  induction n with
  | zero => rfl
  | succ n ih => simp [List.replicate_succ, rowsOf, dq, ih]; ring

theorem colsOf_replicate_I (n : Nat) : colsOf (List.replicate n 'I') = 0 := by
  induction n with
  | zero => rfl
  | succ n ih => simp [List.replicate_succ, colsOf, ds, ih]

/-- Cost of a column appended at the end of a path that was laid out from `(q, s)`. -/
theorem pathScore_append_one (a b : List Nat) (rho sigma : Int) (delta : Nat → Nat → Int)
    (U : List Char) (op : Char) :
    ∀ q s, pathScore a b rho sigma delta q s (U ++ [op]) =
      pathScore a b rho sigma delta q s U +
        (if op = 'M' then delta (a.getD (q + rowsOf U) 0) (b.getD (s + colsOf U) 0)
         else if U.getLast? = some op then -sigma else -(rho + sigma)) := by
  induction U with
  | nil => intro q s; simp [pathScore, rowsOf, colsOf]
  | cons x xs ih =>
    intro q s
    rw [List.cons_append]
    simp only [pathScore, rowsOf, colsOf]
    rw [ih, Nat.add_assoc, Nat.add_assoc]
    cases xs with
    | nil =>
      simp only [List.nil_append, List.head?_cons, List.head?_nil, List.getLast?_singleton,
        pathScore, Option.some.injEq, rowsOf, colsOf]
      clear ih
      split_ifs <;> first | ring1 | (exfalso; subst_vars; simp_all)
    | cons y ys =>
      simp only [List.cons_append, List.head?_cons, List.getLast?_cons_cons]
      ring

/-- The element list of a path: `pushFrontList` folded over its columns. -/
theorem pushOps_elements (U : List Char) (T : CCigar) :
    (pushOps U T).m_elements = U.foldr (fun op L => pushFrontList ⟨1, op⟩ L) T.m_elements := by
  induction U with
  | nil => rfl
  | cons op U ih =>
    show pushFrontList ⟨1, op⟩ (pushOps U T).m_elements = _
    rw [ih]; rfl

theorem pushOps_qto (U : List Char) (T : CCigar) : (pushOps U T).m_qto = T.m_qto := by
  induction U with
  | nil => rfl
  | cons op U ih => exact ih

theorem pushOps_sto (U : List Char) (T : CCigar) : (pushOps U T).m_sto = T.m_sto := by
  induction U with
  | nil => rfl
  | cons op U ih => exact ih

theorem pushOps_qfrom (U : List Char) (T : CCigar) :
    (pushOps U T).m_qfrom = T.m_qfrom - rowsOf U := by
  induction U with
  | nil => simp [pushOps, rowsOf]
  | cons op U ih =>
    show ((pushOps U T).PushFront ⟨1, op⟩).m_qfrom = _
    simp only [CCigar.PushFront, ih, rowsOf, dq]
    split_ifs <;> simp_all <;> omega

theorem pushOps_sfrom (U : List Char) (T : CCigar) :
    (pushOps U T).m_sfrom = T.m_sfrom - colsOf U := by
  induction U with
  | nil => simp [pushOps, colsOf]
  | cons op U ih =>
    show ((pushOps U T).PushFront ⟨1, op⟩).m_sfrom = _
    simp only [CCigar.PushFront, ih, colsOf, ds]
    split_ifs <;> simp_all <;> omega

theorem rle_head (U : List Char) :
    (U = [] ∧ rle U = []) ∨
      ∃ f rest, rle U = f :: rest ∧ U.head? = some f.m_type ∧ 1 ≤ f.m_len := by
  induction U with
  | nil => exact Or.inl ⟨rfl, rfl⟩
  | cons op U ih =>
    right
    show ∃ f rest, pushFrontList ⟨1, op⟩ (rle U) = f :: rest ∧ _
    rcases ih with ⟨_, h⟩ | ⟨f, rest, h, _, h2⟩
    · rw [h]; exact ⟨_, _, rfl, rfl, le_refl _⟩
    · rw [h]
      by_cases hf : f.m_type = op
      · refine ⟨⟨f.m_len + 1, f.m_type⟩, rest, ?_, by simp [hf], by simp; omega⟩
        simp [pushFrontList, hf]
      · refine ⟨⟨1, op⟩, f :: rest, ?_, rfl, le_refl _⟩
        simp [pushFrontList, hf]

theorem scoreRun_acc (query subject : List Nat) (delta : Nat → Nat → Int) (n : Nat) :
    ∀ (q s acc : Int), CCigar.scoreRun query subject delta n q s acc =
      (CCigar.scoreRun query subject delta n q s 0).map (fun v => v + acc) := by
  induction n with
  | zero => intro q s acc; simp [CCigar.scoreRun]
  | succ n ih =>
    intro q s acc
    unfold CCigar.scoreRun
    cases deref query q <;> cases deref subject s <;> simp only [Option.map_none']
    rw [ih, ih _ _ (0 + _)]
    simp only [Option.map_map]
    congr 1
    funext v
    simp only [Function.comp]
    ring

theorem scoreLoop_acc (query subject : List Nat) (gopen gapextend : Int)
    (delta : Nat → Nat → Int) (l : List SElement) :
    ∀ (q s acc : Int), CCigar.scoreLoop query subject gopen gapextend delta l q s acc =
      (CCigar.scoreLoop query subject gopen gapextend delta l q s 0).map (fun v => v + acc) := by
  induction l with
  | nil => intro q s acc; simp [CCigar.scoreLoop]
  | cons el rest ih =>
    intro q s acc
    unfold CCigar.scoreLoop
    split_ifs with h1 h2
    · rw [scoreRun_acc]
      cases CCigar.scoreRun query subject delta el.m_len.toNat q s 0 with
      | none => simp
      | some v =>
        simp only [Option.map_some']
        rw [ih, ih _ _ v]
        simp only [Option.map_map]
        congr 1
        funext w
        simp only [Function.comp]
        ring
    · rw [ih, ih _ _ (0 - _)]
      simp only [Option.map_map]
      congr 1
      funext w
      simp only [Function.comp]
      ring
    · rw [ih, ih _ _ (0 - _)]
      simp only [Option.map_map]
      congr 1
      funext w
      simp only [Function.comp]
      ring

theorem deref_nat (buf : List Nat) (i : Nat) (h : i < buf.length) :
    deref buf (i : Int) = some (buf.getD i 0) := by
  unfold deref
  rw [if_neg (by omega)]
  simp [List.getD, List.getElem?_eq_getElem h]

theorem pathScore_cons (a b : List Nat) (rho sigma : Int) (delta : Nat → Nat → Int)
    (q s : Nat) (op : Char) (U : List Char) :
    pathScore a b rho sigma delta q s (op :: U) =
      (if op = 'M' then delta (a.getD q 0) (b.getD s 0)
       else if U.head? = some op then -sigma else -(rho + sigma)) +
        pathScore a b rho sigma delta (q + dq op) (s + ds op) U := rfl

/-- Effect on `CCigar::Score` of one more column in front of an element list. -/
theorem scoreLoop_pushFront (a b : List Nat) (rho sigma : Int) (delta : Nat → Nat → Int)
    (L : List SElement) (op : Char) (q s : Nat) (v : Int)
    (hL : L = [] ∨ ∃ f rest, L = f :: rest ∧ 1 ≤ f.m_len)
    (hq : q + dq op ≤ a.length) (hs : s + ds op ≤ b.length)
    (hv : CCigar.scoreLoop a b rho sigma delta L ((q + dq op : Nat) : Int)
      ((s + ds op : Nat) : Int) 0 = some v) :
    CCigar.scoreLoop a b rho sigma delta (pushFrontList ⟨1, op⟩ L) q s 0 =
      some ((if op = 'M' then delta (a.getD q 0) (b.getD s 0)
        else if L.head?.map SElement.m_type = some op then -sigma else -(rho + sigma)) + v) := by
  have h1 : (1 : Int).toNat = 1 := rfl
  rcases hL with hL | ⟨f, rest, hL, hlen⟩
  · subst hL
    simp only [CCigar.scoreLoop, Option.some.injEq] at hv
    subst hv
    simp only [pushFrontList, List.head?_nil, Option.map_none']
    by_cases hM : op = 'M'
    · subst hM
      simp only [dq, ds, if_neg (by decide : ¬ ('M' : Char) = 'D'), true_or, if_true] at hq hs
      simp only [CCigar.scoreLoop, if_true, h1, CCigar.scoreRun, deref_nat a q (by omega),
        deref_nat b s (by omega)]
      simp
    · by_cases hD : op = 'D'
      · subst hD
        simp only [CCigar.scoreLoop, if_neg (by decide : ¬ ('D' : Char) = 'M'), if_true]
        simp only [if_neg (by decide : ¬ (none : Option Char) = some 'D')]
        congr 1; ring
      · simp only [CCigar.scoreLoop, if_neg hM, if_neg hD]
        simp only [if_neg (by simp : ¬ (none : Option Char) = some op)]
        congr 1; ring
  · subst hL
    simp only [List.head?_cons, Option.map_some', Option.some.injEq]
    by_cases hfo : f.m_type = op
    · have hpf : pushFrontList ⟨1, op⟩ (f :: rest) = ⟨f.m_len + 1, f.m_type⟩ :: rest := by
        simp [pushFrontList, hfo]
      have htn : (f.m_len + 1).toNat = f.m_len.toNat + 1 := by omega
      have htn2 : (f.m_len.toNat : Int) = f.m_len := by omega
      rw [hpf, if_pos hfo]
      rw [CCigar.scoreLoop] at hv ⊢
      simp only at hv ⊢
      by_cases hM : op = 'M'
      · subst hM
        simp only [dq, ds, if_neg (by decide : ¬ ('M' : Char) = 'D'), true_or, if_true] at hq hs hv
        simp only [hfo, if_true, htn] at hv ⊢
        rw [CCigar.scoreRun, deref_nat a q (by omega), deref_nat b s (by omega)]
        simp only
        rw [scoreRun_acc]
        push_cast at hv
        cases hrun : CCigar.scoreRun a b delta f.m_len.toNat ((q : Int) + 1) ((s : Int) + 1) 0 with
        | none => rw [hrun] at hv; simp at hv
        | some w =>
          rw [hrun] at hv
          simp only [Option.map_some'] at hv ⊢
          rw [scoreLoop_acc] at hv ⊢
          have e1 : (q : Int) + ↑(f.m_len.toNat + 1) = ↑q + 1 + ↑f.m_len.toNat := by
            push_cast; ring
          have e2 : (s : Int) + ↑(f.m_len.toNat + 1) = ↑s + 1 + ↑f.m_len.toNat := by
            push_cast; ring
          rw [e1, e2]
          cases hloop : CCigar.scoreLoop a b rho sigma delta rest (↑q + 1 + ↑f.m_len.toNat)
            (↑s + 1 + ↑f.m_len.toNat) 0 with
          | none => rw [hloop] at hv; simp at hv
          | some x =>
            rw [hloop] at hv
            simp only [Option.map_some', Option.some.injEq] at hv ⊢
            rw [← hv]; ring
      · by_cases hD : op = 'D'
        · subst hD
          simp only [dq, ds, or_true, if_true] at hq hs hv
          simp only [hfo, if_neg (by decide : ¬ ('D' : Char) = 'M'), if_true] at hv ⊢
          rw [scoreLoop_acc] at hv ⊢
          push_cast at hv
          have e2 : (s : Int) + (f.m_len + 1) = ↑s + 1 + f.m_len := by ring
          rw [e2]
          try simp only [Nat.add_zero, Int.add_zero, add_zero] at hv
          cases hloop : CCigar.scoreLoop a b rho sigma delta rest (↑q) (↑s + 1 + f.m_len) 0 with
          | none => rw [hloop] at hv; simp at hv
          | some x =>
            rw [hloop] at hv
            simp only [Option.map_some', Option.some.injEq] at hv ⊢
            rw [← hv]; ring
        · have hfM : ¬ f.m_type = 'M' := by rw [hfo]; exact hM
          have hfD : ¬ f.m_type = 'D' := by rw [hfo]; exact hD
          have hMD : ¬ (op = 'M' ∨ op = 'D') := by tauto
          simp only [dq, ds, if_neg hM, if_neg hD, if_neg hMD] at hq hs hv
          simp only [if_neg hfM, if_neg hfD, if_neg hM] at hv ⊢
          rw [scoreLoop_acc] at hv ⊢
          push_cast at hv
          have e2 : (q : Int) + (f.m_len + 1) = ↑q + 1 + f.m_len := by ring
          rw [e2]
          try simp only [Nat.add_zero, Int.add_zero, add_zero] at hv
          cases hloop : CCigar.scoreLoop a b rho sigma delta rest (↑q + 1 + f.m_len) (↑s) 0 with
          | none => rw [hloop] at hv; simp at hv
          | some x =>
            rw [hloop] at hv
            simp only [Option.map_some', Option.some.injEq] at hv ⊢
            rw [← hv]; ring
    · have hpf : pushFrontList ⟨1, op⟩ (f :: rest) = ⟨1, op⟩ :: f :: rest := by
        simp [pushFrontList, hfo]
      rw [hpf, if_neg hfo, CCigar.scoreLoop]
      simp only
      by_cases hM : op = 'M'
      · subst hM
        simp only [dq, ds, if_neg (by decide : ¬ ('M' : Char) = 'D'), true_or, if_true] at hq hs hv
        simp only [if_true, h1, CCigar.scoreRun, deref_nat a q (by omega),
          deref_nat b s (by omega)]
        rw [scoreLoop_acc]
        push_cast at hv ⊢
        rw [hv]
        simp only [Option.map_some', Option.some.injEq]
        ring
      · by_cases hD : op = 'D'
        · subst hD
          simp only [dq, ds, or_true, if_true] at hq hs hv
          simp only [if_neg (by decide : ¬ ('D' : Char) = 'M'), if_true]
          rw [scoreLoop_acc]
          push_cast at hv ⊢
          try simp only [Nat.add_zero, Int.add_zero, add_zero] at hv
          rw [hv]
          simp only [Option.map_some', Option.some.injEq]
          ring
        · have hMD : ¬ (op = 'M' ∨ op = 'D') := by tauto
          simp only [dq, ds, if_neg hM, if_neg hD, if_neg hMD] at hq hs hv
          simp only [if_neg hM, if_neg hD]
          rw [scoreLoop_acc]
          push_cast at hv ⊢
          try simp only [Nat.add_zero, Int.add_zero, add_zero] at hv
          rw [hv]
          simp only [Option.map_some', Option.some.injEq]
          ring

/-- The score `CCigar::Score` computes for the run-length encoding of a path
is the affine score of the path. -/
theorem scoreLoop_rle (a b : List Nat) (rho sigma : Int) (delta : Nat → Nat → Int)
    (U : List Char) :
    ∀ (q s : Nat), q + rowsOf U ≤ a.length → s + colsOf U ≤ b.length →
      CCigar.scoreLoop a b rho sigma delta (rle U) q s 0 =
        some (pathScore a b rho sigma delta q s U) := by
  induction U with
  | nil => intro q s _ _; rfl
  | cons op U ih =>
    intro q s hq hs
    simp only [rowsOf, colsOf] at hq hs
    have ih' := ih (q + dq op) (s + ds op) (by omega) (by omega)
    have hL : rle U = [] ∨ ∃ f rest, rle U = f :: rest ∧ 1 ≤ f.m_len := by
      rcases rle_head U with ⟨_, h⟩ | ⟨f, rest, h, _, h2⟩
      · exact Or.inl h
      · exact Or.inr ⟨f, rest, h, h2⟩
    have hhead : (rle U).head?.map SElement.m_type = U.head? := by
      rcases rle_head U with ⟨h0, h⟩ | ⟨f, rest, h, h1, _⟩
      · rw [h, h0]; rfl
      · rw [h, h1]; rfl
    have := scoreLoop_pushFront a b rho sigma delta (rle U) op q s _ hL (by omega) (by omega) ih'
    rw [hhead] at this
    exact this

theorem Score_pushOps (a b : List Nat) (rho sigma : Int) (delta : Nat → Nat → Int)
    (U : List Char) (r c : Nat) (hr : rowsOf U ≤ r) (hc : colsOf U ≤ c)
    (hra : r ≤ a.length) (hcb : c ≤ b.length) :
    (pushOps U (CCigar.init ((r : Int) - 1) ((c : Int) - 1))).Score a b rho sigma delta =
      some (pathScore a b rho sigma delta (r - rowsOf U) (c - colsOf U) U) := by
  unfold CCigar.Score
  rw [pushOps_elements, pushOps_qfrom, pushOps_sfrom]
  have e1 : (CCigar.init ((r : Int) - 1) ((c : Int) - 1)).m_qfrom - (rowsOf U : Int) =
      ((r - rowsOf U : Nat) : Int) := by
    simp only [CCigar.init]; omega
  have e2 : (CCigar.init ((r : Int) - 1) ((c : Int) - 1)).m_sfrom - (colsOf U : Int) =
      ((c - colsOf U : Nat) : Int) := by
    simp only [CCigar.init]; omega
  rw [e1, e2]
  exact scoreLoop_rle a b rho sigma delta U _ _ (by omega) (by omega)

theorem idx_diag (nb r c : Nat) :
    idx nb (r + 1) (c + 1) - ((nb : Int) + 2) = idx nb r c := by
  unfold idx; push_cast; ring

theorem idx_left (nb r c : Nat) : idx nb r (c + 1) - 1 = idx nb r c := by
  unfold idx; push_cast; ring

theorem idx_up (nb r c : Nat) : idx nb (r + 1) c - ((nb : Int) + 1) = idx nb r c := by
  unfold idx; push_cast; ring

theorem idx_nonneg (nb r c : Nat) : 0 ≤ idx nb r c := by
  unfold idx; positivity

theorem idx_ge (nb r c : Nat) : (r : Int) + c ≤ idx nb r c := by
  unfold idx
  have : (0 : Int) ≤ (r : Int) * (nb : Int) := by positivity
  nlinarith

theorem deref_at_length (M0 : List Nat) (β : Nat) (ext : List Nat) (i : Int)
    (h : (M0.length : Int) = i) : deref ((M0 ++ [β]) ++ ext) i = some β := by
  unfold deref
  rw [if_neg (by omega)]
  have : i.toNat = M0.length := by omega
  rw [this, List.append_assoc, List.getElem?_append_right (le_refl _)]
  simp

theorem Traced.extend {a b : List Nat} {rho sigma : Int} {delta : Nat → Nat → Int} {lcl : Bool}
    {mtrx : List Nat} {r c : Nat} {v : Int} {U : List Char}
    (h : Traced a b rho sigma delta lcl mtrx r c v U) (e : List Nat) :
    Traced a b rho sigma delta lcl (mtrx ++ e) r c v U := by
  obtain ⟨h1, h2, h3, h4, h5⟩ := h
  refine ⟨h1, h2, h3, h4, ?_⟩
  intro ext fuel T hf
  rw [List.append_assoc]
  exact h5 _ _ _ hf

theorem GapA.extendA {a b : List Nat} {rho sigma : Int} {delta : Nat → Nat → Int} {lcl : Bool}
    {mtrx : List Nat} {r c : Nat} {v : Int}
    (h : GapA a b rho sigma delta lcl mtrx r c v) (e : List Nat) :
    GapA a b rho sigma delta lcl (mtrx ++ e) r c v := by
  obtain ⟨k, U, v0, h1, h2, h3, h4, h5, h6⟩ := h
  refine ⟨k, U, v0, h1, h2.extend e, h3, h4, h5, ?_⟩
  intro ext fuel L hf
  rw [List.append_assoc]
  exact h6 _ _ _ hf

theorem GapB.extendB {a b : List Nat} {rho sigma : Int} {delta : Nat → Nat → Int} {lcl : Bool}
    {mtrx : List Nat} {r c : Nat} {v : Int}
    (h : GapB a b rho sigma delta lcl mtrx r c v) (e : List Nat) :
    GapB a b rho sigma delta lcl (mtrx ++ e) r c v := by
  obtain ⟨k, U, v0, h1, h2, h3, h4, h5, h6⟩ := h
  refine ⟨k, U, v0, h1, h2.extend e, h3, h4, h5, ?_⟩
  intro ext fuel L hf
  rw [List.append_assoc]
  exact h6 _ _ _ hf

/-- The facts about one cell computation that the invariants use. -/
theorem GlbAlign.cell_facts (rsa rsb : Int) (sigma d : Int)
    (smj smj1 sp gapa gapbj : Int) :
    let g := GlbAlign.cell rsa rsb sigma d smj smj1 sp gapa gapbj
    ((sp + rsa > gapa + CScore.mk2 (-sigma) 0 ∧ g.gapa = sp + rsa ∧ g.bits &&& Astart ≠ 0) ∨
      (¬ sp + rsa > gapa + CScore.mk2 (-sigma) 0 ∧ g.gapa = gapa + CScore.mk2 (-sigma) 0 ∧
        g.bits &&& Astart = 0)) ∧
    ((smj1 + rsb > gapbj + CScore.mk2 (-sigma) 1 ∧ g.gapbj = smj1 + rsb ∧
        g.bits &&& Bstart ≠ 0) ∨
      (¬ smj1 + rsb > gapbj + CScore.mk2 (-sigma) 1 ∧ g.gapbj = gapbj + CScore.mk2 (-sigma) 1 ∧
        g.bits &&& Bstart = 0)) ∧
    ((g.bits &&& Agap ≠ 0 ∧ g.sp = g.gapa) ∨
      (g.bits &&& Agap = 0 ∧ g.bits &&& Bgap ≠ 0 ∧ g.sp = g.gapbj) ∨
      (g.bits &&& Agap = 0 ∧ g.bits &&& Bgap = 0 ∧ g.sp = smj + CScore.mk2 d 1)) ∧
    g.bits &&& Zero = 0 ∧ (g.bits ||| Zero) &&& Zero ≠ 0 ∧
    (g.bits ||| Zero) &&& Astart = g.bits &&& Astart ∧
    (g.bits ||| Zero) &&& Bstart = g.bits &&& Bstart := by
  intro g
  simp only [g, GlbAlign.cell]
  split_ifs <;> simp_all +decide [Astart, Bstart, Agap, Bgap, Zero]

theorem mk2_add (x y x1 y1 : Int) :
    CScore.mk2 x y + CScore.mk2 x1 y1 = CScore.mk2 (x + x1) (y + y1) := by
  unfold CScore.mk2; ring

/-- The running `gapa` after the cell `(r+1, c+1)` has been computed. -/
theorem gapA_step (a b : List Nat) (rho sigma : Int) (delta : Nat → Nat → Int) (lcl : Bool)
    (hrho : 0 ≤ rho) (hsig : 0 < sigma) (M0 : List Nat) (r c : Nat)
    (hlen : (M0.length : Int) = idx b.length (r + 1) (c + 1))
    (sp gapa : Int) (Ul : List Char) (bits : Nat) (ga : Int)
    (hl : Traced a b rho sigma delta lcl M0 (r + 1) c sp Ul)
    (hlD : Ul.getLast? = some 'D' → sp = gapa)
    (hA : GapA a b rho sigma delta lcl M0 (r + 1) c gapa ∨
      sp + CScore.mk2 (-rho - sigma) 0 > gapa + CScore.mk2 (-sigma) 0 ∨
      (lcl = true ∧ gapa ≤ 0))
    (hfact : (sp + CScore.mk2 (-rho - sigma) 0 > gapa + CScore.mk2 (-sigma) 0 ∧
        ga = sp + CScore.mk2 (-rho - sigma) 0 ∧ bits &&& Astart ≠ 0) ∨
      (¬ sp + CScore.mk2 (-rho - sigma) 0 > gapa + CScore.mk2 (-sigma) 0 ∧
        ga = gapa + CScore.mk2 (-sigma) 0 ∧ bits &&& Astart = 0)) :
    GapA a b rho sigma delta lcl (M0 ++ [bits]) (r + 1) (c + 1) ga ∨ (lcl = true ∧ ga ≤ 0) := by
  rcases hfact with ⟨hopen, hga, hbit⟩ | ⟨hno, hga, hbit⟩
  · left
    refine ⟨c, Ul, sp, Nat.le_succ c, hl.extend _, ?_, ?_, Nat.lt_succ_self c, ?_⟩
    · intro hD
      rw [hlD hD] at hopen
      simp only [CScore.mk2] at hopen
      omega
    · rw [hga]; congr 2; push_cast; ring
    · intro ext fuel L hf
      cases fuel with
      | zero => omega
      | succ f =>
        rw [BackTrack.walk, deref_at_length M0 bits ext _ hlen]
        simp only [hbit, ne_eq, not_false_eq_true, if_true]
        congr 2; push_cast; ring
  · rcases hA with hA | hA | ⟨hl1, hneg⟩
    · left
      obtain ⟨k, U, v0, hk, hT, hU, hv, hkc, hw⟩ := hA
      refine ⟨k, U, v0, by omega, hT.extend _, hU, ?_, by omega, ?_⟩
      · rw [hga, hv, add_assoc, mk2_add]; congr 2; push_cast; ring
      · intro ext fuel L hf
        cases fuel with
        | zero => omega
        | succ f =>
          rw [BackTrack.walk, deref_at_length M0 bits ext _ hlen]
          simp only [hbit, ne_eq, not_true_eq_false, if_false]
          rw [idx_left, List.append_assoc, hw _ f (L + 1) (by omega)]
          congr 2; push_cast; ring
    · exact absurd hA hno
    · right
      refine ⟨hl1, ?_⟩
      rw [hga]
      simp only [CScore.mk2]
      omega

/-- The value of `gapb[c+1]` after the cell `(r+1, c+1)` has been computed. -/
theorem gapB_step (a b : List Nat) (rho sigma : Int) (delta : Nat → Nat → Int) (lcl : Bool)
    (hrho : 0 ≤ rho) (hsig : 0 < sigma) (M0 : List Nat) (r c : Nat)
    (hlen : (M0.length : Int) = idx b.length (r + 1) (c + 1))
    (smj1 gapbj : Int) (Uu : List Char) (bits : Nat) (gb : Int)
    (hu : Traced a b rho sigma delta lcl M0 r (c + 1) smj1 Uu)
    (huI : Uu.getLast? = some 'I' → smj1 = gapbj)
    (hB : GapB a b rho sigma delta lcl M0 r (c + 1) gapbj ∨
      smj1 + CScore.mk2 (-rho - sigma) 1 > gapbj + CScore.mk2 (-sigma) 1 ∨
      (lcl = true ∧ gapbj ≤ 0))
    (hfact : (smj1 + CScore.mk2 (-rho - sigma) 1 > gapbj + CScore.mk2 (-sigma) 1 ∧
        gb = smj1 + CScore.mk2 (-rho - sigma) 1 ∧ bits &&& Bstart ≠ 0) ∨
      (¬ smj1 + CScore.mk2 (-rho - sigma) 1 > gapbj + CScore.mk2 (-sigma) 1 ∧
        gb = gapbj + CScore.mk2 (-sigma) 1 ∧ bits &&& Bstart = 0)) :
    GapB a b rho sigma delta lcl (M0 ++ [bits]) (r + 1) (c + 1) gb ∨ (lcl = true ∧ gb ≤ 0) := by
  rcases hfact with ⟨hopen, hgb, hbit⟩ | ⟨hno, hgb, hbit⟩
  · left
    refine ⟨r, Uu, smj1, Nat.le_succ r, hu.extend _, ?_, ?_, Nat.lt_succ_self r, ?_⟩
    · intro hI
      rw [huI hI] at hopen
      simp only [CScore.mk2] at hopen
      omega
    · rw [hgb]; congr 2 <;> push_cast <;> ring
    · intro ext fuel L hf
      cases fuel with
      | zero => omega
      | succ f =>
        rw [BackTrack.walk, deref_at_length M0 bits ext _ hlen]
        simp only [hbit, ne_eq, not_false_eq_true, if_true]
        congr 2; push_cast; ring
  · rcases hB with hB | hB | ⟨hl1, hneg⟩
    · left
      obtain ⟨k, U, v0, hk, hT, hU, hv, hkc, hw⟩ := hB
      refine ⟨k, U, v0, by omega, hT.extend _, hU, ?_, by omega, ?_⟩
      · rw [hgb, hv, add_assoc, mk2_add]; congr 2 <;> push_cast <;> ring
      · intro ext fuel L hf
        cases fuel with
        | zero => omega
        | succ f =>
          rw [BackTrack.walk, deref_at_length M0 bits ext _ hlen]
          simp only [hbit, ne_eq, not_true_eq_false, if_false]
          rw [idx_up, List.append_assoc, hw _ f (L + 1) (by omega)]
          congr 2; push_cast; ring
    · exact absurd hB hno
    · right
      refine ⟨hl1, ?_⟩
      rw [hgb]
      simp only [CScore.mk2]
      omega

theorem getLast?_append_replicate (U : List Char) (n : Nat) (op : Char) :
    (U ++ List.replicate (n + 1) op).getLast? = some op := by
  rw [List.replicate_succ', ← List.append_assoc, List.getLast?_append]
  simp

theorem pathScore_append_gap (a b : List Nat) (rho sigma : Int) (delta : Nat → Nat → Int)
    (U : List Char) (op : Char) (hop : op ≠ 'M') (hU : U.getLast? ≠ some op) (n : Nat) (q s : Nat) :
    pathScore a b rho sigma delta q s (U ++ List.replicate (n + 1) op) =
      pathScore a b rho sigma delta q s U - (rho + sigma * ((n : Int) + 1)) := by
  induction n with
  | zero =>
    simp only [List.replicate_one, zero_add]
    rw [pathScore_append_one, if_neg hop, if_neg hU]
    push_cast; ring
  | succ n ih =>
    rw [List.replicate_succ', ← List.append_assoc, pathScore_append_one, if_neg hop,
      if_pos (getLast?_append_replicate U n op), ih]
    push_cast; ring

theorem Score_nonpos_of_nonpos (x : Int) (h : x ≤ 0) : CScore.Score x ≤ 0 := by
  unfold CScore.Score; omega

/-- The cell `(r+1, c+1)` is traced once it has been computed. -/
theorem traced_step (a b : List Nat) (rho sigma : Int) (delta : Nat → Nat → Int) (lcl : Bool)
    (M0 : List Nat) (r c : Nat)
    (hlen : (M0.length : Int) = idx b.length (r + 1) (c + 1))
    (smj : Int) (Ud : List Char) (G : CellOut)
    (hd : Traced a b rho sigma delta lcl M0 r c smj Ud)
    (hW : (G.bits &&& Agap ≠ 0 ∧ G.sp = G.gapa) ∨
      (G.bits &&& Agap = 0 ∧ G.bits &&& Bgap ≠ 0 ∧ G.sp = G.gapbj) ∨
      (G.bits &&& Agap = 0 ∧ G.bits &&& Bgap = 0 ∧
        G.sp = smj + CScore.mk2 (delta (a.getD r 0) (b.getD c 0)) 1))
    (hZ : G.bits &&& Zero = 0) (hZ2 : (G.bits ||| Zero) &&& Zero ≠ 0)
    (hA : GapA a b rho sigma delta lcl (M0 ++ [(cellOutcome lcl G).bits]) (r + 1) (c + 1) G.gapa ∨
      (lcl = true ∧ G.gapa ≤ 0))
    (hB : GapB a b rho sigma delta lcl (M0 ++ [(cellOutcome lcl G).bits]) (r + 1) (c + 1) G.gapbj ∨
      (lcl = true ∧ G.gapbj ≤ 0)) :
    ∃ U, Traced a b rho sigma delta lcl (M0 ++ [(cellOutcome lcl G).bits]) (r + 1) (c + 1)
        (cellOutcome lcl G).sp U ∧
      (U.getLast? = some 'D' → (cellOutcome lcl G).sp = (cellOutcome lcl G).gapa) ∧
      (U.getLast? = some 'I' → (cellOutcome lcl G).sp = (cellOutcome lcl G).gapbj) := by
  have hia : ((r + 1 : Nat) : Int) - 1 ≥ 0 ∨ ((c + 1 : Nat) : Int) - 1 ≥ 0 := by
    left; push_cast; omega
  by_cases hreset : lcl = true ∧ CScore.Score G.sp ≤ 0
  · -- the cell is reset
    have hout : cellOutcome lcl G = ⟨G.gapa, G.gapbj, CScore.zero, G.bits ||| Zero⟩ := by
      unfold cellOutcome; rw [if_pos hreset]
    rw [hout]
    refine ⟨[], ⟨Nat.zero_le _, Nat.zero_le _, ?_, ?_, ?_⟩, by simp, by simp⟩
    · intro h; rw [hreset.1] at h; exact absurd h (by decide)
    · simp [pathScore, rowsOf, CScore.mk2, CScore.zero]
    · intro ext fuel T hf
      cases fuel with
      | zero => omega
      | succ f =>
        rw [BackTrack.loop, if_pos hia, deref_at_length M0 _ ext _ hlen]
        simp only [hZ2, ne_eq, not_false_eq_true, if_true]
        rfl
  · have hout : cellOutcome lcl G = G := by
      unfold cellOutcome; rw [if_neg hreset]
    rw [hout] at hA hB ⊢
    rcases hW with ⟨hbA, hsp⟩ | ⟨hbA, hbB, hsp⟩ | ⟨hbA, hbB, hsp⟩
    · -- the gap in the first sequence wins
      rcases hA with hA | ⟨hl1, hneg⟩
      swap
      · exact absurd ⟨hl1, hsp ▸ Score_nonpos_of_nonpos _ hneg⟩ hreset
      obtain ⟨k, U, v0, hk, hT, hU, hv, hkc, hw⟩ := hA
      obtain ⟨n, hn⟩ : ∃ n, c + 1 - k = n + 1 := ⟨c - k, by omega⟩
      obtain ⟨h1, h2, h3, h4, h5⟩ := hT
      refine ⟨U ++ List.replicate (n + 1) 'D', ⟨?_, ?_, ?_, ?_, ?_⟩, ?_, ?_⟩
      · rw [rowsOf_append, rowsOf_replicate_D]; omega
      · rw [colsOf_append, colsOf_replicate_D]; omega
      · intro hg
        have := h3 hg
        rw [rowsOf_append, rowsOf_replicate_D, colsOf_append, colsOf_replicate_D]; omega
      · rw [hsp, hv, h4, rowsOf_append, rowsOf_replicate_D, colsOf_append, colsOf_replicate_D,
          pathScore_append_gap a b rho sigma delta U 'D' (by decide) hU, mk2_add]
        have e1 : c + 1 - (colsOf U + (n + 1)) = k - colsOf U := by omega
        have e2 : ((c + 1 : Nat) : Int) - (k : Int) = (n : Int) + 1 := by omega
        rw [e1, Nat.add_zero, e2]
        congr 1; ring_nf
      · intro ext fuel T hf
        cases fuel with
        | zero => omega
        | succ f =>
          rw [BackTrack.loop, if_pos hia, deref_at_length M0 _ ext _ hlen]
          simp only [hZ, hbA, ne_eq, not_true_eq_false, not_false_eq_true, if_true, if_false]
          have hfuel : c + 1 - k ≤ (idx b.length (r + 1) (c + 1)).toNat + 1 := by
            have := idx_ge b.length (r + 1) (c + 1)
            omega
          rw [hw ext _ 1 hfuel]
          simp only
          rw [idx_left, pushOps_append, pushOps_replicate]
          have e2 : (1 : Int) + (((c + 1 : Nat) : Int) - (k : Int) - 1) = (n : Int) + 1 := by omega
          rw [e2]
          have e3 : ((c + 1 : Nat) : Int) - 1 - ((n : Int) + 1) = (k : Int) - 1 := by omega
          rw [e3]
          exact h5 ext f _ (by omega)
      · intro _; exact hsp
      · intro h
        rw [getLast?_append_replicate] at h
        exact absurd h (by decide)
    · -- the gap in the second sequence wins
      rcases hB with hB | ⟨hl1, hneg⟩
      swap
      · exact absurd ⟨hl1, hsp ▸ Score_nonpos_of_nonpos _ hneg⟩ hreset
      obtain ⟨k, U, v0, hk, hT, hU, hv, hkc, hw⟩ := hB
      obtain ⟨n, hn⟩ : ∃ n, r + 1 - k = n + 1 := ⟨r - k, by omega⟩
      obtain ⟨h1, h2, h3, h4, h5⟩ := hT
      refine ⟨U ++ List.replicate (n + 1) 'I', ⟨?_, ?_, ?_, ?_, ?_⟩, ?_, ?_⟩
      · rw [rowsOf_append, rowsOf_replicate_I]; omega
      · rw [colsOf_append, colsOf_replicate_I]; omega
      · intro hg
        have := h3 hg
        rw [rowsOf_append, rowsOf_replicate_I, colsOf_append, colsOf_replicate_I]; omega
      · rw [hsp, hv, h4, rowsOf_append, rowsOf_replicate_I, colsOf_append, colsOf_replicate_I,
          pathScore_append_gap a b rho sigma delta U 'I' (by decide) hU, mk2_add]
        have e1 : r + 1 - (rowsOf U + (n + 1)) = k - rowsOf U := by omega
        have e2 : ((r + 1 : Nat) : Int) - (k : Int) = (n : Int) + 1 := by omega
        rw [e1, Nat.add_zero, e2]
        congr 1; ring_nf
      · intro ext fuel T hf
        cases fuel with
        | zero => omega
        | succ f =>
          rw [BackTrack.loop, if_pos hia, deref_at_length M0 _ ext _ hlen]
          simp only [hZ, hbA, hbB, ne_eq, not_true_eq_false, not_false_eq_true, if_true, if_false]
          have hfuel : r + 1 - k ≤ (idx b.length (r + 1) (c + 1)).toNat + 1 := by
            have := idx_ge b.length (r + 1) (c + 1)
            omega
          rw [hw ext _ 1 hfuel]
          simp only
          rw [idx_up, pushOps_append, pushOps_replicate]
          have e2 : (1 : Int) + (((r + 1 : Nat) : Int) - (k : Int) - 1) = (n : Int) + 1 := by omega
          rw [e2]
          have e3 : ((r + 1 : Nat) : Int) - 1 - ((n : Int) + 1) = (k : Int) - 1 := by omega
          rw [e3]
          exact h5 ext f _ (by omega)
      · intro h
        rw [getLast?_append_replicate] at h
        exact absurd h (by decide)
      · intro _; exact hsp
    · -- the diagonal wins
      obtain ⟨h1, h2, h3, h4, h5⟩ := hd
      refine ⟨Ud ++ ['M'], ⟨?_, ?_, ?_, ?_, ?_⟩, ?_, ?_⟩
      · rw [rowsOf_append]; simp [rowsOf, dq]; omega
      · rw [colsOf_append]; simp [colsOf, ds]; omega
      · intro hg
        have := h3 hg
        rw [rowsOf_append, colsOf_append]; simp [rowsOf, colsOf, dq, ds]; omega
      · have er : rowsOf (Ud ++ ['M']) = rowsOf Ud + 1 := by
          rw [rowsOf_append]; simp [rowsOf, dq]
        have ec : colsOf (Ud ++ ['M']) = colsOf Ud + 1 := by
          rw [colsOf_append]; simp [colsOf, ds]
        rw [hsp, h4, er, ec, pathScore_append_one, if_pos rfl, mk2_add]
        have e1 : r + 1 - (rowsOf Ud + 1) = r - rowsOf Ud := by omega
        have e2 : c + 1 - (colsOf Ud + 1) = c - colsOf Ud := by omega
        have e3 : r - rowsOf Ud + rowsOf Ud = r := by omega
        have e4 : c - colsOf Ud + colsOf Ud = c := by omega
        rw [e1, e2, e3, e4]
        congr 1
      · intro ext fuel T hf
        cases fuel with
        | zero => omega
        | succ f =>
          rw [BackTrack.loop, if_pos hia, deref_at_length M0 _ ext _ hlen]
          simp only [hZ, hbA, hbB, ne_eq, not_true_eq_false, not_false_eq_true, if_true, if_false]
          rw [idx_diag, pushOps_append]
          have e1 : ((r + 1 : Nat) : Int) - 1 - 1 = (r : Int) - 1 := by omega
          have e2 : ((c + 1 : Nat) : Int) - 1 - 1 = (c : Int) - 1 := by omega
          rw [e1, e2, List.append_assoc]
          exact h5 _ f _ (by omega)
      · intro h; simp at h
      · intro h; simp at h

theorem cellOutcome_false (g : CellOut) : cellOutcome false g = g := by
  simp [cellOutcome]

theorem GlbAlign.cols_eq (rho sigma : Int) (matrix : Nat → Int) :
    ∀ (bs : List Nat) (sm gapb : List Int) (sp gapa : Int),
      GlbAlign.cols (CScore.mk2 (-rho - sigma) 0) (CScore.mk2 (-rho - sigma) 1) sigma matrix
          bs sm gapb sp gapa =
        ((colsG false rho sigma matrix bs sm gapb sp gapa).map CellOut.sp,
         (colsG false rho sigma matrix bs sm gapb sp gapa).map CellOut.gapbj,
         (colsG false rho sigma matrix bs sm gapb sp gapa).map CellOut.bits) := by
  intro bs
  induction bs with
  | nil => intro sm gapb sp gapa; simp [GlbAlign.cols, colsG]
  | cons bj bs ih =>
    intro sm gapb sp gapa
    match sm, gapb with
    | [], _ => simp [GlbAlign.cols, colsG]
    | [_], _ => simp [GlbAlign.cols, colsG]
    | _ :: _ :: _, [] => simp [GlbAlign.cols, colsG]
    | smj :: smj1 :: sms, gbj :: gbs =>
      simp only [GlbAlign.cols, colsG, cellOutcome_false, ih, List.map_cons]

theorem GlbAlign.rows_eq (rho sigma : Int) (delta : Nat → Nat → Int) (b : List Nat) :
    ∀ (as : List Nat) (sm : List Int) (s0 : Int) (gapb : List Int) (mtrx : List Nat),
      GlbAlign.rows (CScore.mk2 (-rho - sigma) 0) (CScore.mk2 (-rho - sigma) 1) sigma delta b
          as sm s0 gapb mtrx =
        ((rowsG false rho sigma delta b as sm s0 gapb mtrx).1,
         (rowsG false rho sigma delta b as sm s0 gapb mtrx).2.2) := by
  intro as
  induction as with
  | nil => intro sm s0 gapb mtrx; rfl
  | cons ai as ih =>
    intro sm s0 gapb mtrx
    simp only [GlbAlign.rows, rowsG, GlbAlign.cols_eq, ih, firstCell]
    rfl

theorem idx_succ (nb r c : Nat) : idx nb r (c + 1) = idx nb r c + 1 := by
  unfold idx; push_cast; ring

theorem cellOutcome_gapa (lcl : Bool) (g : CellOut) : (cellOutcome lcl g).gapa = g.gapa := by
  unfold cellOutcome; split_ifs <;> rfl

theorem cellOutcome_gapbj (lcl : Bool) (g : CellOut) : (cellOutcome lcl g).gapbj = g.gapbj := by
  unfold cellOutcome; split_ifs <;> rfl

theorem cellOutcome_bits (lcl : Bool) (g : CellOut) :
    (cellOutcome lcl g).bits = g.bits ∨ (cellOutcome lcl g).bits = g.bits ||| Zero := by
  unfold cellOutcome; split_ifs
  · right; rfl
  · left; rfl

/-- The invariants of one row: every cell the inner loop computes is traced and
its `gapb` entry is a real gap (or, in a local kernel, not positive). -/
theorem colsG_spec (a b : List Nat) (rho sigma : Int) (delta : Nat → Nat → Int) (lcl : Bool)
    (hrho : 0 ≤ rho) (hsig : 0 < sigma) (r : Nat) :
    ∀ (bs : List Nat) (j : Nat) (sm gapb : List Int) (sp gapa : Int) (M0 : List Nat)
      (Ul : List Char),
      (∀ i x, bs[i]? = some x → b.getD (j + i) 0 = x) →
      (M0.length : Int) = idx b.length (r + 1) (j + 1) →
      sm.length = bs.length + 1 → gapb.length = bs.length →
      (∀ i s, sm[i]? = some s → ∃ U, Traced a b rho sigma delta lcl M0 r (j + i) s U ∧
        (∀ g, 1 ≤ i → gapb[i - 1]? = some g → U.getLast? = some 'I' → s = g)) →
      (∀ i g s, gapb[i]? = some g → sm[i + 1]? = some s →
        GapB a b rho sigma delta lcl M0 r (j + 1 + i) g ∨
          s + CScore.mk2 (-rho - sigma) 1 > g + CScore.mk2 (-sigma) 1 ∨
          (lcl = true ∧ g ≤ 0)) →
      Traced a b rho sigma delta lcl M0 (r + 1) j sp Ul →
      (Ul.getLast? = some 'D' → sp = gapa) →
      (GapA a b rho sigma delta lcl M0 (r + 1) j gapa ∨
        sp + CScore.mk2 (-rho - sigma) 0 > gapa + CScore.mk2 (-sigma) 0 ∨
        (lcl = true ∧ gapa ≤ 0)) →
      (colsG lcl rho sigma (delta (a.getD r 0)) bs sm gapb sp gapa).length = bs.length ∧
      ∀ i g, (colsG lcl rho sigma (delta (a.getD r 0)) bs sm gapb sp gapa)[i]? = some g →
        (∃ U, Traced a b rho sigma delta lcl
            (M0 ++ (colsG lcl rho sigma (delta (a.getD r 0)) bs sm gapb sp gapa).map CellOut.bits)
            (r + 1) (j + 1 + i) g.sp U ∧
          (U.getLast? = some 'I' → g.sp = g.gapbj)) ∧
        (GapB a b rho sigma delta lcl
            (M0 ++ (colsG lcl rho sigma (delta (a.getD r 0)) bs sm gapb sp gapa).map CellOut.bits)
            (r + 1) (j + 1 + i) g.gapbj ∨
          (lcl = true ∧ g.gapbj ≤ 0)) := by
  intro bs
  induction bs with
  | nil =>
    intro j sm gapb sp gapa M0 Ul _ _ _ _ _ _ _ _ _
    simp [colsG]
  | cons bj bs ih =>
    intro j sm gapb sp gapa M0 Ul hb hlen hsmlen hgblen hT hB hl hlD hA
    match sm, gapb, hsmlen, hgblen with
    | smj :: smj1 :: sms, gbj :: gbs, hsmlen, hgblen =>
      have hbj : b.getD j 0 = bj := by simpa using hb 0 bj (by simp)
      simp only [colsG]
      set G := GlbAlign.cell (CScore.mk2 (-rho - sigma) 0) (CScore.mk2 (-rho - sigma) 1) sigma
        (delta (a.getD r 0) bj) smj smj1 sp gapa gbj with hG
      obtain ⟨fA, fB, fW, fZ, fZ2, fZA, fZB⟩ := GlbAlign.cell_facts (CScore.mk2 (-rho - sigma) 0)
        (CScore.mk2 (-rho - sigma) 1) sigma (delta (a.getD r 0) bj) smj smj1 sp gapa gbj
      rw [← hG] at fA fB fW fZ fZ2 fZA fZB
      have hbA : (cellOutcome lcl G).bits &&& Astart = G.bits &&& Astart := by
        rcases cellOutcome_bits lcl G with h | h <;> rw [h]
        exact fZA
      have hbB : (cellOutcome lcl G).bits &&& Bstart = G.bits &&& Bstart := by
        rcases cellOutcome_bits lcl G with h | h <;> rw [h]
        exact fZB
      obtain ⟨Ud, hd, -⟩ := hT 0 smj (by simp)
      obtain ⟨Uu, hu, huI⟩ := hT 1 smj1 (by simp)
      have hA1 := gapA_step a b rho sigma delta lcl hrho hsig M0 r j hlen sp gapa Ul
        (cellOutcome lcl G).bits G.gapa hl hlD hA (by rw [hbA]; exact fA)
      have hB1 := gapB_step a b rho sigma delta lcl hrho hsig M0 r j hlen smj1 gbj Uu
        (cellOutcome lcl G).bits G.gapbj hu (huI gbj (le_refl _) (by simp))
        (by simpa using hB 0 gbj smj1 (by simp) (by simp)) (by rw [hbB]; exact fB)
      have hTr := traced_step a b rho sigma delta lcl M0 r j hlen smj Ud G
        (by simpa using hd) (by rw [hbj]; exact fW) fZ fZ2 hA1 hB1
      obtain ⟨U1, hU1, hU1D, hU1I⟩ := hTr
      have ih' := ih (j + 1) (smj1 :: sms) gbs (cellOutcome lcl G).sp (cellOutcome lcl G).gapa
        (M0 ++ [(cellOutcome lcl G).bits]) U1
        (by
          intro i x hx
          have := hb (i + 1) x (by simpa using hx)
          rw [← this]; congr 1; omega)
        (by rw [List.length_append, idx_succ]; push_cast; simp; omega)
        (by simp at hsmlen ⊢; omega) (by simp at hgblen ⊢; omega)
        (by
          intro i s hs
          obtain ⟨U, hU, hUI⟩ := hT (i + 1) s (by simpa using hs)
          refine ⟨U, ?_, ?_⟩
          · have := hU.extend [(cellOutcome lcl G).bits]
            rw [show j + (i + 1) = j + 1 + i by omega] at this
            exact this
          · intro g hi hg
            refine hUI g (by omega) ?_
            obtain ⟨i', rfl⟩ : ∃ i', i = i' + 1 := ⟨i - 1, by omega⟩
            simpa using hg)
        (by
          intro i g s hg hs
          have := hB (i + 1) g s (by simpa using hg) (by simpa using hs)
          rcases this with h | h | h
          · left
            have := h.extendB [(cellOutcome lcl G).bits]
            rw [show j + 1 + (i + 1) = j + 1 + 1 + i by omega] at this
            exact this
          · right; left; exact h
          · right; right; exact h)
        hU1 hU1D
        (by
          rw [cellOutcome_gapa]
          rcases hA1 with h | h
          · left; exact h
          · right; right; exact h)
      obtain ⟨ihlen, ihall⟩ := ih'
      refine ⟨by simp only [List.length_cons, ihlen], ?_⟩
      intro i g hg
      have happ : M0 ++ List.map CellOut.bits (cellOutcome lcl G ::
          colsG lcl rho sigma (delta (a.getD r 0)) bs (smj1 :: sms) gbs (cellOutcome lcl G).sp
            (cellOutcome lcl G).gapa) =
          (M0 ++ [(cellOutcome lcl G).bits]) ++ List.map CellOut.bits
            (colsG lcl rho sigma (delta (a.getD r 0)) bs (smj1 :: sms) gbs (cellOutcome lcl G).sp
              (cellOutcome lcl G).gapa) := by
        simp
      rw [happ]
      cases i with
      | zero =>
        simp only [List.getElem?_cons_zero, Option.some.injEq] at hg
        subst hg
        refine ⟨⟨U1, hU1.extend _, hU1I⟩, ?_⟩
        rw [cellOutcome_gapbj]
        rcases hB1 with h | h
        · left; exact h.extendB _
        · right; exact h
      | succ i =>
        have := ihall i g (by simpa using hg)
        rw [show j + 1 + (i + 1) = j + 1 + 1 + i by omega]
        exact this

/-- The first cell of a row of the global kernel continues the gap that runs
down the left column. -/
theorem first_cell_glb (a b : List Nat) (rho sigma : Int) (delta : Nat → Nat → Int)
    (M : List Nat) (r : Nat) (v : Int) (U : List Char)
    (hlen : (M.length : Int) = idx b.length (r + 1) 0)
    (hT : Traced a b rho sigma delta false M r 0 v U) :
    Traced a b rho sigma delta false (M ++ [firstCell false]) (r + 1) 0
      (v + (if U.getLast? = some 'I' then CScore.mk2 (-sigma) 1
        else CScore.mk2 (-rho - sigma) 1)) (U ++ ['I']) := by
  obtain ⟨h1, h2, h3, h4, h5⟩ := hT
  have h3' := h3 rfl
  have er : rowsOf (U ++ ['I']) = rowsOf U + 1 := by
    rw [rowsOf_append]; simp [rowsOf, dq]
  have ec : colsOf (U ++ ['I']) = colsOf U := by
    rw [colsOf_append]; simp [colsOf, ds]
  refine ⟨by omega, by omega, fun _ => ⟨by omega, by omega⟩, ?_, ?_⟩
  · rw [h4, er, ec, pathScore_append_one, if_neg (by decide : ¬ ('I' : Char) = 'M')]
    have e1 : r + 1 - (rowsOf U + 1) = r - rowsOf U := by omega
    rw [e1]
    by_cases hI : U.getLast? = some 'I'
    · rw [if_pos hI, if_pos hI, mk2_add]
      congr 1
    · rw [if_neg hI, if_neg hI, mk2_add]
      congr 1
      ring
  · intro ext fuel T hf
    cases fuel with
    | zero => omega
    | succ f =>
      have hia : ((r + 1 : Nat) : Int) - 1 ≥ 0 ∨ ((0 : Nat) : Int) - 1 ≥ 0 := by
        left; push_cast; omega
      rw [BackTrack.loop, if_pos hia, deref_at_length M _ ext _ hlen]
      have hb1 : firstCell false &&& Zero = 0 := by decide
      have hb2 : firstCell false &&& Agap = 0 := by decide
      have hb3 : firstCell false &&& Bgap ≠ 0 := by decide
      have hb4 : firstCell false &&& Bstart ≠ 0 := by decide
      simp only [hb1, hb2, hb3, ne_eq, not_true_eq_false, not_false_eq_true, if_true, if_false]
      rw [BackTrack.walk, deref_at_length M _ ext _ hlen]
      simp only [hb4, ne_eq, not_false_eq_true, if_true]
      rw [idx_up, pushOps_append, List.append_assoc]
      have e1 : ((r + 1 : Nat) : Int) - 1 - 1 = (r : Int) - 1 := by omega
      rw [e1]
      exact h5 _ f _ (by omega)

/-- The first cell of a row of the local kernel stops the traceback. -/
theorem first_cell_lcl (a b : List Nat) (rho sigma : Int) (delta : Nat → Nat → Int)
    (M : List Nat) (r c : Nat) (hlen : (M.length : Int) = idx b.length r c) :
    Traced a b rho sigma delta true (M ++ [Zero]) r c 0 [] := by
  refine ⟨Nat.zero_le _, Nat.zero_le _, fun h => absurd h (by decide), ?_, ?_⟩
  · simp [pathScore, rowsOf, CScore.mk2]
  · intro ext fuel T hf
    cases fuel with
    | zero => omega
    | succ f =>
      rw [BackTrack.loop]
      split_ifs with hia
      · rw [deref_at_length M _ ext _ hlen]
        have hb1 : Zero &&& Zero ≠ 0 := by decide
        simp only [hb1, ne_eq, not_false_eq_true, if_true]
        rfl
      · rfl

theorem getElem?_map_some {α β : Type} (f : α → β) (l : List α) (i : Nat) (y : β)
    (h : (l.map f)[i]? = some y) : ∃ x, l[i]? = some x ∧ f x = y := by
  rw [List.getElem?_map] at h
  cases hx : l[i]? with
  | none => rw [hx] at h; simp at h
  | some x => rw [hx] at h; exact ⟨x, rfl, by simpa using h⟩

/-- One more row keeps the row invariant. -/
theorem rowsG_step (a b : List Nat) (rho sigma : Int) (delta : Nat → Nat → Int) (lcl : Bool)
    (hrho : 0 ≤ rho) (hsig : 0 < sigma) (r : Nat) (sm : List Int) (s0 : Int) (gapb : List Int)
    (mtrx : List Nat) (hmag : lcl = false → 2 * rho + sigma * ((r : Int) + 1) ≤ 1073741824)
    (hinv : RowInv a b rho sigma delta lcl r sm s0 gapb mtrx) :
    RowInv a b rho sigma delta lcl (r + 1)
      (s0 :: (colsG lcl rho sigma (delta (a.getD r 0)) b sm gapb.tail s0
        (if lcl = true then CScore.zero else bignegative)).map CellOut.sp)
      (if lcl = true then s0 else s0 + CScore.mk2 (-sigma) 1)
      (gapb.take 1 ++ (colsG lcl rho sigma (delta (a.getD r 0)) b sm gapb.tail s0
        (if lcl = true then CScore.zero else bignegative)).map CellOut.gapbj)
      (mtrx ++ firstCell lcl :: (colsG lcl rho sigma (delta (a.getD r 0)) b sm gapb.tail s0
        (if lcl = true then CScore.zero else bignegative)).map CellOut.bits) := by
  obtain ⟨hlen, hsm, hgb, hT, hB, ⟨U0, hU0, hU0g, hU0l⟩, hs0g, hs0l⟩ := hinv
  have hU0D : U0.getLast? ≠ some 'D' := by
    cases lcl with
    | false => rw [hU0g rfl]; decide
    | true => rw [hU0l rfl]; simp
  have hlen1 : ((mtrx ++ [firstCell lcl]).length : Int) = idx b.length (r + 1) (0 + 1) := by
    rw [List.length_append, idx_succ]; push_cast; simp; omega
  have hgt : ∀ i, gapb.tail[i]? = gapb[i + 1]? := by
    intro i
    cases gapb with
    | nil => simp
    | cons x xs => simp
  have spec := colsG_spec a b rho sigma delta lcl hrho hsig r b 0 sm gapb.tail s0
    (if lcl = true then CScore.zero else bignegative) (mtrx ++ [firstCell lcl]) U0
    (by
      intro i x hx
      rw [Nat.zero_add, List.getD_eq_getElem?_getD, hx]; rfl)
    hlen1 hsm (by rw [List.length_tail, hgb]; rfl)
    (by
      intro i s hs
      obtain ⟨U, hU, hUI⟩ := hT i s hs
      refine ⟨U, ?_, ?_⟩
      · rw [Nat.zero_add]; exact hU.extend _
      · intro g hi hg
        refine hUI g hi ?_
        rw [hgt] at hg
        rw [← hg]; congr 1; omega)
    (by
      intro i g s hg hs
      rw [hgt] at hg
      rcases hB (i + 1) g s (by omega) hg hs with h | h | h
      · left
        have := h.extendB [firstCell lcl]
        rw [show 0 + 1 + i = i + 1 by omega]
        exact this
      · right; left; exact h
      · right; right; exact h)
    hU0 (fun h => absurd h hU0D)
    (by
      cases lcl with
      | true => right; right; exact ⟨rfl, by simp [CScore.zero]⟩
      | false =>
        right; left
        have hm := hmag rfl
        rw [hs0g rfl]
        simp only [CScore.mk2, bignegative, Bool.false_eq_true, if_false]
        have : (0 : Int) ≤ (r : Int) := by positivity
        nlinarith)
  obtain ⟨slen, sall⟩ := spec
  set outs := colsG lcl rho sigma (delta (a.getD r 0)) b sm gapb.tail s0
    (if lcl = true then CScore.zero else bignegative) with houts
  have happ : mtrx ++ firstCell lcl :: outs.map CellOut.bits =
      (mtrx ++ [firstCell lcl]) ++ outs.map CellOut.bits := by simp
  have hlen2 : ((mtrx ++ firstCell lcl :: outs.map CellOut.bits).length : Int) =
      idx b.length (r + 1 + 1) 0 := by
    rw [List.length_append, List.length_cons, List.length_map, slen]
    unfold idx at hlen ⊢
    push_cast at hlen ⊢
    rw [hlen]; ring
  have htake : (gapb.take 1).length = 1 := by
    rw [List.length_take, hgb]; omega
  refine ⟨hlen2, by simp [slen], by rw [List.length_append, htake, List.length_map, slen]; omega,
    ?_, ?_, ?_, ?_, ?_⟩
  · intro c s hs
    cases c with
    | zero =>
      simp only [List.getElem?_cons_zero, Option.some.injEq] at hs
      subst hs
      refine ⟨U0, ?_, fun g h => absurd h (by decide)⟩
      rw [happ]; exact hU0.extend _
    | succ i =>
      rw [List.getElem?_cons_succ] at hs
      obtain ⟨g0, hg0, hsp⟩ := getElem?_map_some _ _ _ _ hs
      obtain ⟨⟨U, hU, hUI⟩, -⟩ := sall i g0 hg0
      refine ⟨U, ?_, ?_⟩
      · rw [happ, ← hsp, show i + 1 = 0 + 1 + i by omega]; exact hU
      · intro g _ hg hl
        rw [List.getElem?_append_right (by rw [htake]; omega), htake, Nat.add_sub_cancel,
          List.getElem?_map, hg0] at hg
        simp only [Option.map_some', Option.some.injEq] at hg
        rw [← hsp, ← hg]
        exact hUI hl
  · intro c g s hc hg hs
    obtain ⟨i, rfl⟩ : ∃ i, c = i + 1 := ⟨c - 1, by omega⟩
    rw [List.getElem?_append_right (by rw [htake]; omega), htake, Nat.add_sub_cancel] at hg
    obtain ⟨g0, hg0, hgg⟩ := getElem?_map_some _ _ _ _ hg
    obtain ⟨-, hGB⟩ := sall i g0 hg0
    rw [happ, ← hgg, show i + 1 = 0 + 1 + i by omega]
    rcases hGB with h | h
    · left; exact h
    · right; right; exact h
  · cases lcl with
    | true =>
      refine ⟨[], ?_, fun h => absurd h (by decide), fun _ => rfl⟩
      rw [if_pos rfl, hs0l rfl]
      exact first_cell_lcl a b rho sigma delta _ _ _ hlen2
    | false =>
      refine ⟨U0 ++ ['I'], ?_, fun _ => by simp, fun h => absurd h (by decide)⟩
      have := first_cell_glb a b rho sigma delta _ (r + 1) s0 U0 hlen2
        (by rw [happ]; exact hU0.extend _)
      rw [if_pos (hU0g rfl)] at this
      simpa using this
  · intro hl
    subst hl
    rw [hs0g rfl, if_neg (by decide), mk2_add]
    congr 1
    · push_cast; ring
  · intro hl
    subst hl
    rw [if_pos rfl]; exact hs0l rfl

/-- All rows keep the row invariant. -/
theorem rowsG_spec (a b : List Nat) (rho sigma : Int) (delta : Nat → Nat → Int) (lcl : Bool)
    (hrho : 0 ≤ rho) (hsig : 0 < sigma) :
    ∀ (as : List Nat) (r : Nat) (sm : List Int) (s0 : Int) (gapb : List Int) (mtrx : List Nat),
      (∀ i x, as[i]? = some x → a.getD (r + i) 0 = x) →
      (lcl = false → 2 * rho + sigma * ((r : Int) + as.length) ≤ 1073741824) →
      RowInv a b rho sigma delta lcl r sm s0 gapb mtrx →
      ∃ s1, RowInv a b rho sigma delta lcl (r + as.length)
        (rowsG lcl rho sigma delta b as sm s0 gapb mtrx).1 s1
        (rowsG lcl rho sigma delta b as sm s0 gapb mtrx).2.1
        (rowsG lcl rho sigma delta b as sm s0 gapb mtrx).2.2 := by
  intro as
  induction as with
  | nil =>
    intro r sm s0 gapb mtrx _ _ hinv
    exact ⟨s0, hinv⟩
  | cons ai as ih =>
    intro r sm s0 gapb mtrx ha hmag hinv
    have hai : a.getD r 0 = ai := by simpa using ha 0 ai (by simp)
    have hstep := rowsG_step a b rho sigma delta lcl hrho hsig r sm s0 gapb mtrx
      (by
        intro hl
        have := hmag hl
        simp only [List.length_cons] at this
        push_cast at this
        have h0 : (0 : Int) ≤ (as.length : Int) := by positivity
        nlinarith)
      hinv
    rw [hai] at hstep
    obtain ⟨s1, h1⟩ := ih (r + 1) _ _ _ _
      (by
        intro i x hx
        have := ha (i + 1) x (by simpa using hx)
        rw [← this]; congr 1; omega)
      (by
        intro hl
        have := hmag hl
        simp only [List.length_cons] at this
        push_cast at this ⊢
        linarith)
      hstep
    refine ⟨s1, ?_⟩
    rw [show r + (ai :: as).length = r + 1 + as.length by simp; omega]
    exact h1

theorem initRow_length (sigma : Int) (n : Nat) :
    ∀ prev, (GlbAlign.initRow sigma n prev).length = n := by
  induction n with
  | zero => intro prev; rfl
  | succ n ih => intro prev; simp [GlbAlign.initRow, ih]

theorem initRow_get (sigma : Int) (n : Nat) :
    ∀ (prev : Int) (i : Nat) (s : Int), (GlbAlign.initRow sigma n prev)[i]? = some s →
      s = prev + CScore.mk2 (-sigma * ((i : Int) + 1)) 0 := by
  induction n with
  | zero => intro prev i s h; simp [GlbAlign.initRow] at h
  | succ n ih =>
    intro prev i s h
    cases i with
    | zero =>
      simp only [GlbAlign.initRow, List.getElem?_cons_zero, Option.some.injEq] at h
      rw [← h]; simp
    | succ i =>
      simp only [GlbAlign.initRow, List.getElem?_cons_succ] at h
      rw [ih _ i s h, add_assoc, mk2_add]
      congr 2
      push_cast; ring

theorem glbRow0_deref_one (nb : Nat) (ext : List Nat) :
    deref (glbRow0 nb ++ ext) 1 = some (Agap ||| Astart) := by
  simp [deref, glbRow0]

theorem glbRow0_deref (nb : Nat) (ext : List Nat) (c : Nat) (hc : c + 2 ≤ nb) :
    deref (glbRow0 nb ++ ext) ((c + 2 : Nat) : Int) = some Agap := by
  unfold deref glbRow0
  rw [if_neg (by omega)]
  have : (((c + 2 : Nat) : Int)).toNat = c + 2 := by omega
  rw [this]
  simp only [List.cons_append, List.getElem?_cons_succ]
  rw [List.getElem?_append_left (by simp; omega)]
  simp [List.getElem?_replicate]
  omega

theorem glbRow0_walk (nb : Nat) (ext : List Nat) :
    ∀ (c : Nat), c + 1 ≤ nb → ∀ (fuel : Nat) (L : Int), c + 1 ≤ fuel →
      BackTrack.walk (glbRow0 nb ++ ext) Astart 1 fuel ((c + 1 : Nat) : Int) L =
        some (1, L + (c : Int)) := by
  intro c
  induction c with
  | zero =>
    intro _ fuel L hf
    cases fuel with
    | zero => omega
    | succ f =>
      rw [BackTrack.walk]
      simp only [zero_add, Nat.cast_one, glbRow0_deref_one]
      have : (Agap ||| Astart) &&& Astart ≠ 0 := by decide
      simp [this]
  | succ c ih =>
    intro hc fuel L hf
    cases fuel with
    | zero => omega
    | succ f =>
      rw [BackTrack.walk, glbRow0_deref nb ext c (by omega)]
      have : ¬ (Agap &&& Astart ≠ 0) := by decide
      simp only [this, if_false]
      have e : ((c + 1 + 1 : Nat) : Int) - 1 = ((c + 1 : Nat) : Int) := by push_cast; ring
      rw [e, ih (by omega) f (L + 1) (by omega)]
      congr 2; push_cast; ring

theorem idx_zero_row (nb c : Nat) : idx nb 0 c = (c : Int) := by
  unfold idx; simp

/-- The cells of row 0 of the global kernel are traced: a leading gap. -/
theorem glbRow0_traced (a b : List Nat) (rho sigma : Int) (delta : Nat → Nat → Int)
    (c : Nat) (hc : c ≤ b.length) :
    Traced a b rho sigma delta false (glbRow0 b.length) 0 c
      (if c = 0 then 0 else CScore.mk2 (-rho - sigma * (c : Int)) 0) (List.replicate c 'D') := by
  refine ⟨by rw [rowsOf_replicate_D], by rw [colsOf_replicate_D],
    fun _ => ⟨rowsOf_replicate_D c, colsOf_replicate_D c⟩, ?_, ?_⟩
  · rw [rowsOf_replicate_D, colsOf_replicate_D]
    cases c with
    | zero => simp [pathScore, CScore.mk2]
    | succ n =>
      have := pathScore_append_gap a b rho sigma delta [] 'D' (by decide) (by simp) n 0 0
      have h0 : pathScore a b rho sigma delta 0 0 [] = 0 := rfl
      rw [List.nil_append, h0] at this
      rw [Nat.sub_self, Nat.sub_self, this, if_neg (by omega)]
      congr 1; push_cast; ring
  · intro ext fuel T hf
    cases fuel with
    | zero => omega
    | succ f =>
      rw [BackTrack.loop]
      cases c with
      | zero =>
        rw [if_neg (by simp)]
        rfl
      | succ n =>
        rw [if_pos (by right; push_cast; omega), idx_zero_row]
        have hd : ∃ v, deref (glbRow0 b.length ++ ext) ((n + 1 : Nat) : Int) = some v ∧
            v &&& Zero = 0 ∧ v &&& Agap ≠ 0 := by
          cases n with
          | zero => exact ⟨_, glbRow0_deref_one _ _, by decide, by decide⟩
          | succ m => exact ⟨_, glbRow0_deref _ _ m (by omega), by decide, by decide⟩
        obtain ⟨v, hv, hz, ha⟩ := hd
        rw [hv]
        simp only [hz, ha, ne_eq, not_true_eq_false, not_false_eq_true, if_true, if_false]
        rw [glbRow0_walk b.length ext n (by omega) _ 1 (by omega)]
        simp only
        cases f with
        | zero => omega
        | succ f2 =>
          have hcond : ¬ (((0 : Nat) : Int) - 1 ≥ 0 ∨
              ((n + 1 : Nat) : Int) - 1 - (1 + (n : Int)) ≥ 0) := by
            omega
          rw [BackTrack.loop, if_neg hcond, pushOps_replicate]
          congr 3
          ring

/-- The state of the global kernel before its first row satisfies the row invariant. -/
theorem glb_init (a b : List Nat) (rho sigma : Int) (delta : Nat → Nat → Int)
    (hb : 1 ≤ b.length) (hsig : 0 < sigma)
    (hmag : 2 * rho + sigma * (b.length : Int) < 1073741824) :
    RowInv a b rho sigma delta false 0
      (CScore.zero :: CScore.mk2 (-rho - sigma) 0 ::
        GlbAlign.initRow sigma (b.length - 1) (CScore.mk2 (-rho - sigma) 0))
      (CScore.mk2 (-rho - sigma) 1) (List.replicate (b.length + 1) bignegative)
      (glbRow0 b.length) := by
  have hsmval : ∀ c s, (CScore.zero :: CScore.mk2 (-rho - sigma) 0 ::
      GlbAlign.initRow sigma (b.length - 1) (CScore.mk2 (-rho - sigma) 0))[c]? = some s →
      c ≤ b.length ∧ s = (if c = 0 then 0 else CScore.mk2 (-rho - sigma * (c : Int)) 0) := by
    intro c s hs
    have hlt : c < b.length + 1 := by
      have := (List.getElem?_eq_some_iff.1 hs).1
      simp [initRow_length] at this
      omega
    refine ⟨by omega, ?_⟩
    match c, hs with
    | 0, hs => simpa [CScore.zero] using hs.symm
    | 1, hs =>
      simp only [List.getElem?_cons_succ, List.getElem?_cons_zero, Option.some.injEq] at hs
      rw [← hs]; simp
    | i + 2, hs =>
      simp only [List.getElem?_cons_succ] at hs
      rw [initRow_get _ _ _ _ _ hs, mk2_add, if_neg (by omega)]
      congr 1; push_cast; ring
  have hT0 := glbRow0_traced a b rho sigma delta 0 (Nat.zero_le _)
  have hlen0 : ((glbRow0 b.length).length : Int) = idx b.length (0 + 1) 0 := by
    unfold glbRow0 idx
    simp only [List.length_cons, List.length_replicate]
    push_cast
    omega
  refine ⟨hlen0, by simp [initRow_length]; omega, by simp, ?_, ?_, ?_, ?_, ?_⟩
  · intro c s hs
    obtain ⟨hc, hval⟩ := hsmval c s hs
    refine ⟨List.replicate c 'D', ?_, ?_⟩
    · rw [hval]; exact glbRow0_traced a b rho sigma delta c hc
    · intro g hc1 _ hl
      obtain ⟨n, rfl⟩ : ∃ n, c = n + 1 := ⟨c - 1, by omega⟩
      rw [List.replicate_succ', List.getLast?_append] at hl
      simp at hl
  · intro c g s hc hg hs
    right; left
    obtain ⟨hcb, hval⟩ := hsmval c s hs
    have hg' : g = bignegative := by
      rw [List.getElem?_replicate] at hg
      split_ifs at hg
      exact (Option.some.inj hg).symm
    rw [hval, if_neg (by omega), hg']
    simp only [CScore.mk2, bignegative]
    have h1 : sigma * (c : Int) ≤ sigma * (b.length : Int) :=
      mul_le_mul_of_nonneg_left (by exact_mod_cast hcb) (le_of_lt hsig)
    linarith
  · refine ⟨['I'], ?_, fun _ => rfl, fun h => absurd h (by decide)⟩
    have := first_cell_glb a b rho sigma delta (glbRow0 b.length) 0 0 [] hlen0
      (by simpa using hT0)
    simpa using this
  · intro _; congr 1; push_cast; ring
  · intro h; exact absurd h (by decide)

/-- The traceback of the global kernel: the Cigar is the one of a path from the
origin to the last cell whose packed score the kernel holds in `sm[nb]`. -/
theorem GlbAlign_traced (a b : List Nat) (rho sigma : Int) (delta : Nat → Nat → Int)
    (hb : 1 ≤ b.length) (hrho : 0 ≤ rho) (hsig : 0 < sigma)
    (hmag : 2 * rho + sigma * ((a.length : Int) + (b.length : Int)) < 1073741824) :
    ∃ U, GlbAlign a b rho sigma delta =
        some (pushOps U (CCigar.init ((a.length : Int) - 1) ((b.length : Int) - 1))) ∧
      rowsOf U = a.length ∧ colsOf U = b.length ∧
      (GlbAlign.fill a b rho sigma delta).1[b.length]? =
        some (CScore.mk2 (pathScore a b rho sigma delta 0 0 U) (a.length : Int)) := by
  have hna : (0 : Int) ≤ (a.length : Int) := by positivity
  have hnb : (0 : Int) ≤ (b.length : Int) := by positivity
  have hinit := glb_init a b rho sigma delta hb hsig (by nlinarith)
  obtain ⟨s1, hfin⟩ := rowsG_spec a b rho sigma delta false hrho hsig a 0 _ _ _ _
    (by intro i x hx; rw [Nat.zero_add, List.getD_eq_getElem?_getD, hx]; rfl)
    (by intro _; push_cast; nlinarith) hinit
  rw [Nat.zero_add] at hfin
  obtain ⟨hlen, hsm, hgb, hT, -⟩ := hfin
  have hfill : GlbAlign.fill a b rho sigma delta =
      ((rowsG false rho sigma delta b a (CScore.zero :: CScore.mk2 (-rho - sigma) 0 ::
        GlbAlign.initRow sigma (b.length - 1) (CScore.mk2 (-rho - sigma) 0))
        (CScore.mk2 (-rho - sigma) 1) (List.replicate (b.length + 1) bignegative)
        (glbRow0 b.length)).1,
       (rowsG false rho sigma delta b a (CScore.zero :: CScore.mk2 (-rho - sigma) 0 ::
        GlbAlign.initRow sigma (b.length - 1) (CScore.mk2 (-rho - sigma) 0))
        (CScore.mk2 (-rho - sigma) 1) (List.replicate (b.length + 1) bignegative)
        (glbRow0 b.length)).2.2) := by
    unfold GlbAlign.fill
    simp only
    rw [GlbAlign.rows_eq]
    rfl
  have hex : ∃ s, (GlbAlign.fill a b rho sigma delta).1[b.length]? = some s := by
    rw [hfill]
    exact ⟨_, List.getElem?_eq_getElem (by rw [hsm]; omega)⟩
  obtain ⟨s, hs⟩ := hex
  obtain ⟨U, ⟨h1, h2, h3, h4, h5⟩, -⟩ := hT b.length s (by rw [hfill] at hs; exact hs)
  obtain ⟨hr, hc⟩ := h3 rfl
  refine ⟨U, ?_, hr, hc, ?_⟩
  · unfold GlbAlign
    rw [if_neg (by omega)]
    simp only
    unfold BackTrack
    have hidx : ((a.length : Int) + 1) * ((b.length : Int) + 1) - 1 =
        idx b.length a.length b.length := by
      unfold idx; ring
    rw [hidx, hfill]
    have := h5 [] ((idx b.length a.length b.length).toNat + 2)
      (CCigar.init ((a.length : Int) - 1) ((b.length : Int) - 1))
      (by have := idx_ge b.length a.length b.length; omega)
    rw [List.append_nil] at this
    exact this
  · rw [hs, h4, hr, hc, Nat.sub_self, Nat.sub_self]

theorem LclAlign.cell_eq_aux (rsa rsb sigma d : Int) (smj smj1 sp gapa gapbj : Int)
    (mx : MaxState) (m : Nat) :
    LclAlign.cell rsa rsb sigma d smj smj1 sp gapa gapbj mx m =
      (cellOutcome true (GlbAlign.cell rsa rsb sigma d smj smj1 sp gapa gapbj),
       if ((GlbAlign.cell rsa rsb sigma d smj smj1 sp gapa gapbj).bits &&& Agap = 0 ∧
            (GlbAlign.cell rsa rsb sigma d smj smj1 sp gapa gapbj).bits &&& Bgap = 0) ∧
          smj + CScore.mk2 d 1 > mx.max_score
        then ⟨smj + CScore.mk2 d 1, m⟩ else mx) := by
  unfold LclAlign.cell GlbAlign.cell cellOutcome
  simp only
  generalize smj + CScore.mk2 d 1 = ss
  generalize sp + rsa = oa
  generalize gapa + CScore.mk2 (-sigma) 0 = ea
  generalize smj1 + rsb = ob
  generalize gapbj + CScore.mk2 (-sigma) 1 = eb
  by_cases h1 : oa > ea <;> by_cases h2 : ob > eb <;>
    simp only [h1, h2, if_true, if_false] <;>
    [(by_cases h3 : oa > ob <;> simp only [h3, if_true, if_false] <;>
      [by_cases h4 : ss > oa; by_cases h4 : ss > ob]);
     (by_cases h3 : oa > eb <;> simp only [h3, if_true, if_false] <;>
      [by_cases h4 : ss > oa; by_cases h4 : ss > eb]);
     (by_cases h3 : ea > ob <;> simp only [h3, if_true, if_false] <;>
      [by_cases h4 : ss > ea; by_cases h4 : ss > ob]);
     (by_cases h3 : ea > eb <;> simp only [h3, if_true, if_false] <;>
      [by_cases h4 : ss > ea; by_cases h4 : ss > eb])] <;>
    simp only [h4, if_true, if_false] <;>
    by_cases h5 : ss > mx.max_score <;>
    simp +decide only [h5, if_true, if_false, Astart, Bstart, Agap, Bgap, Zero, true_and,
      and_true, and_self, and_false, false_and] <;>
    split_ifs <;> rfl

theorem Score_zero : CScore.Score 0 = 0 := by
  unfold CScore.Score; rfl

theorem Score_nonneg_of_nonneg (x : Int) (h : 0 ≤ x) : 0 ≤ CScore.Score x := by
  unfold CScore.Score; omega

/-- The inner loop of the local kernel computes the shared cells, and its
maximum either stays or moves to one of the cells of the row. -/
theorem LclAlign.cols_eq_lcl (rho sigma : Int) (matrix : Nat → Int) :
    ∀ (bs : List Nat) (sm gapb : List Int) (sp gapa : Int) (mx : MaxState) (m : Nat),
      (LclAlign.cols (CScore.mk2 (-rho - sigma) 0) (CScore.mk2 (-rho - sigma) 1) sigma matrix
          bs sm gapb sp gapa mx m).1 =
        (colsG true rho sigma matrix bs sm gapb sp gapa).map CellOut.sp ∧
      (LclAlign.cols (CScore.mk2 (-rho - sigma) 0) (CScore.mk2 (-rho - sigma) 1) sigma matrix
          bs sm gapb sp gapa mx m).2.1 =
        (colsG true rho sigma matrix bs sm gapb sp gapa).map CellOut.gapbj ∧
      (LclAlign.cols (CScore.mk2 (-rho - sigma) 0) (CScore.mk2 (-rho - sigma) 1) sigma matrix
          bs sm gapb sp gapa mx m).2.2.1 =
        (colsG true rho sigma matrix bs sm gapb sp gapa).map CellOut.bits ∧
      (0 ≤ mx.max_score →
        mx.max_score ≤ (LclAlign.cols (CScore.mk2 (-rho - sigma) 0)
          (CScore.mk2 (-rho - sigma) 1) sigma matrix bs sm gapb sp gapa mx m).2.2.2.max_score ∧
        ((LclAlign.cols (CScore.mk2 (-rho - sigma) 0) (CScore.mk2 (-rho - sigma) 1) sigma
            matrix bs sm gapb sp gapa mx m).2.2.2 = mx ∨
          ∃ i g, (colsG true rho sigma matrix bs sm gapb sp gapa)[i]? = some g ∧
            (LclAlign.cols (CScore.mk2 (-rho - sigma) 0) (CScore.mk2 (-rho - sigma) 1) sigma
              matrix bs sm gapb sp gapa mx m).2.2.2.max_ptr = m + 1 + i ∧
            CScore.Score g.sp = CScore.Score (LclAlign.cols (CScore.mk2 (-rho - sigma) 0)
              (CScore.mk2 (-rho - sigma) 1) sigma matrix bs sm gapb sp gapa mx
              m).2.2.2.max_score)) := by
  intro bs
  induction bs with
  | nil => intro sm gapb sp gapa mx m; simp [LclAlign.cols, colsG]
  | cons bj bs ih =>
    intro sm gapb sp gapa mx m
    match sm, gapb with
    | [], _ => simp [LclAlign.cols, colsG]
    | [_], _ => simp [LclAlign.cols, colsG]
    | _ :: _ :: _, [] => simp [LclAlign.cols, colsG]
    | smj :: smj1 :: sms, gbj :: gbs =>
      simp only [LclAlign.cols, colsG, LclAlign.cell_eq_aux, List.map_cons]
      set G := GlbAlign.cell (CScore.mk2 (-rho - sigma) 0) (CScore.mk2 (-rho - sigma) 1) sigma
        (matrix bj) smj smj1 sp gapa gbj with hG
      set mx1 : MaxState := if (G.bits &&& Agap = 0 ∧ G.bits &&& Bgap = 0) ∧
        smj + CScore.mk2 (matrix bj) 1 > mx.max_score
        then ⟨smj + CScore.mk2 (matrix bj) 1, m + 1⟩ else mx with hmx1
      obtain ⟨e1, e2, e3, e4⟩ := ih (smj1 :: sms) gbs (cellOutcome true G).sp
        (cellOutcome true G).gapa mx1 (m + 1)
      refine ⟨by rw [e1], by rw [e2], by rw [e3], ?_⟩
      intro h0
      obtain ⟨-, -, fW, -⟩ := GlbAlign.cell_facts (CScore.mk2 (-rho - sigma) 0)
        (CScore.mk2 (-rho - sigma) 1) sigma (matrix bj) smj smj1 sp gapa gbj
      rw [← hG] at fW
      by_cases hc : (G.bits &&& Agap = 0 ∧ G.bits &&& Bgap = 0) ∧
          smj + CScore.mk2 (matrix bj) 1 > mx.max_score
      · have hm1 : mx1 = ⟨smj + CScore.mk2 (matrix bj) 1, m + 1⟩ := by
          rw [hmx1, if_pos hc]
        have hge : mx.max_score ≤ mx1.max_score := by
          rw [hm1]; exact le_of_lt hc.2
        obtain ⟨h1, h2⟩ := e4 (le_trans h0 hge)
        refine ⟨le_trans hge h1, ?_⟩
        right
        rcases h2 with h2 | ⟨i, g, hg, hp, hs⟩
        · refine ⟨0, cellOutcome true G, by simp, ?_, ?_⟩
          · rw [h2, hm1]
          · rw [h2, hm1]
            have hsp : G.sp = smj + CScore.mk2 (matrix bj) 1 := by
              rcases fW with ⟨h, _⟩ | ⟨_, h, _⟩ | ⟨_, _, h⟩
              · exact absurd hc.1.1 h
              · exact absurd hc.1.2 h
              · exact h
            show CScore.Score (cellOutcome true G).sp = CScore.Score (smj + CScore.mk2 (matrix bj) 1)
            unfold cellOutcome
            split_ifs with hr
            · have h3 := Score_nonneg_of_nonneg (smj + CScore.mk2 (matrix bj) 1)
                (le_trans h0 (le_of_lt hc.2))
              rw [hsp] at hr
              show CScore.Score CScore.zero = _
              unfold CScore.zero
              rw [Score_zero]
              omega
            · rw [hsp]
        · exact ⟨i + 1, g, by simpa using hg, by rw [hp]; omega, hs⟩
      · have hm1 : mx1 = mx := by rw [hmx1, if_neg hc]
        rw [hm1] at e4 ⊢
        obtain ⟨h1, h2⟩ := e4 h0
        refine ⟨h1, ?_⟩
        rcases h2 with h2 | ⟨i, g, hg, hp, hs⟩
        · left; exact h2
        · right; exact ⟨i + 1, g, by simpa using hg, by rw [hp]; omega, hs⟩

theorem MaxInv.mono {a b : List Nat} {rho sigma : Int} {delta : Nat → Nat → Int} {R : Nat}
    {mtrx : List Nat} {mx : MaxState} (h : MaxInv a b rho sigma delta R mtrx mx)
    (e : List Nat) : MaxInv a b rho sigma delta (R + 1) (mtrx ++ e) mx := by
  obtain ⟨h0, r, c, v, U, h1, h2, h3, h4, h5⟩ := h
  exact ⟨h0, r, c, v, U, h1, by omega, h3, h4.extend e, h5⟩

/-- The rows of the local kernel keep the row invariant and the invariant of the
tracked maximum. -/
theorem LclAlign.rows_spec (a b : List Nat) (rho sigma : Int) (delta : Nat → Nat → Int)
    (hrho : 0 ≤ rho) (hsig : 0 < sigma) :
    ∀ (as : List Nat) (r : Nat) (sm gapb : List Int) (mx : MaxState) (mtrx : List Nat),
      (∀ i x, as[i]? = some x → a.getD (r + i) 0 = x) →
      RowInv a b rho sigma delta true r sm 0 gapb mtrx →
      MaxInv a b rho sigma delta r mtrx mx →
      MaxInv a b rho sigma delta (r + as.length)
        (LclAlign.rows (CScore.mk2 (-rho - sigma) 0) (CScore.mk2 (-rho - sigma) 1) sigma delta b
          as sm gapb mx mtrx).2
        (LclAlign.rows (CScore.mk2 (-rho - sigma) 0) (CScore.mk2 (-rho - sigma) 1) sigma delta b
          as sm gapb mx mtrx).1 := by
  intro as
  induction as with
  | nil =>
    intro r sm gapb mx mtrx _ _ hmx
    exact hmx
  | cons ai as ih =>
    intro r sm gapb mx mtrx ha hinv hmx
    have hai : a.getD r 0 = ai := by simpa using ha 0 ai (by simp)
    have hstep := rowsG_step a b rho sigma delta true hrho hsig r sm 0 gapb mtrx
      (fun h => absurd h (by decide)) hinv
    simp only [if_true, hai] at hstep
    obtain ⟨e1, e2, e3, e4⟩ := LclAlign.cols_eq_lcl rho sigma (delta ai) b sm gapb.tail
      CScore.zero CScore.zero mx mtrx.length
    have hz : CScore.zero = 0 := rfl
    have hfc : firstCell true = Zero := rfl
    rw [hz] at e1 e2 e3 e4
    rw [hz, hfc] at hstep
    simp only [LclAlign.rows]
    rw [hz, e1, e2, e3]
    rw [show r + (ai :: as).length = r + 1 + as.length by simp; omega]
    refine ih (r + 1) _ _ _ _ ?_ hstep ?_
    · intro i x hx
      have := ha (i + 1) x (by simpa using hx)
      rw [← this]; congr 1; omega
    · obtain ⟨hge, hcase⟩ := e4 hmx.1
      rcases hcase with hsame | ⟨i, g, hg, hp, hs⟩
      · rw [hsame]; exact hmx.mono _
      · refine ⟨le_trans hmx.1 hge, r + 1, i + 1, g.sp, ?_⟩
        obtain ⟨hlen2, hsm2, -, hT2, -⟩ := hstep
        have hsm' : (0 :: (colsG true rho sigma (delta ai) b sm gapb.tail 0 0).map
            CellOut.sp)[i + 1]? = some g.sp := by
          rw [List.getElem?_cons_succ, List.getElem?_map, hg]; rfl
        obtain ⟨U, hU, -⟩ := hT2 (i + 1) g.sp hsm'
        have hi : i + 1 < b.length + 1 := by
          have := (List.getElem?_eq_some_iff.1 hsm').1
          rw [hsm2] at this
          exact this
        refine ⟨U, ?_, le_refl _, by omega, hU, hs⟩
        rw [hp]
        obtain ⟨hlen, -⟩ := hinv
        push_cast
        rw [hlen]
        unfold idx
        push_cast
        ring

theorem lclRow0_traced (a b : List Nat) (rho sigma : Int) (delta : Nat → Nat → Int)
    (c : Nat) (hc : c ≤ b.length) :
    Traced a b rho sigma delta true (List.replicate (b.length + 1) Zero) 0 c 0 [] := by
  have hsplit : List.replicate (b.length + 1) Zero =
      (List.replicate c Zero ++ [Zero]) ++ List.replicate (b.length - c) Zero := by
    rw [← List.replicate_succ', ← List.replicate_add]
    congr 1; omega
  rw [hsplit]
  exact (first_cell_lcl a b rho sigma delta (List.replicate c Zero) 0 c
    (by rw [idx_zero_row]; simp)).extend _

/-- The state of the local kernel before its first row satisfies the row invariant. -/
theorem lcl_init (a b : List Nat) (rho sigma : Int) (delta : Nat → Nat → Int) :
    RowInv a b rho sigma delta true 0 (List.replicate (b.length + 1) 0) 0
      (List.replicate (b.length + 1) 0) (List.replicate (b.length + 1) Zero) := by
  have hlen0 : ((List.replicate (b.length + 1) Zero).length : Int) = idx b.length (0 + 1) 0 := by
    unfold idx; simp
  refine ⟨hlen0, by simp, by simp, ?_, ?_, ?_, fun h => absurd h (by decide), fun _ => rfl⟩
  · intro c s hs
    rw [List.getElem?_replicate] at hs
    split_ifs at hs with hc
    have : s = 0 := (Option.some.inj hs).symm
    subst this
    exact ⟨[], lclRow0_traced a b rho sigma delta c (by omega), fun g _ _ h => by simp at h⟩
  · intro c g s _ hg _
    right; right
    rw [List.getElem?_replicate] at hg
    split_ifs at hg
    exact ⟨rfl, le_of_eq (Option.some.inj hg).symm⟩
  · exact ⟨[], first_cell_lcl a b rho sigma delta _ 1 0 hlen0, fun h => absurd h (by decide),
      fun _ => rfl⟩

theorem idx_div (nb r c : Nat) (hc : c ≤ nb) : idx nb r c / ((nb : Int) + 1) = r := by
  unfold idx
  rw [add_comm, Int.add_mul_ediv_right _ _ (by omega), Int.ediv_eq_zero_of_lt (by omega) (by omega)]
  simp

theorem idx_mod (nb r c : Nat) (hc : c ≤ nb) : idx nb r c % ((nb : Int) + 1) = c := by
  unfold idx
  rw [add_comm, Int.add_mul_emod_self, Int.emod_eq_of_lt (by omega) (by omega)]

/-- The traceback of the local kernel: the Cigar is the one of a path that ends in
the cell of the tracked maximum and has the score component of the maximum. -/
theorem LclAlign_traced (a b : List Nat) (rho sigma : Int) (delta : Nat → Nat → Int)
    (hrho : 0 ≤ rho) (hsig : 0 < sigma) :
    ∃ (r c : Nat) (v : Int) (U : List Char),
      ((LclAlign.fill a b rho sigma delta).1.max_ptr : Int) = idx b.length r c ∧
      r ≤ a.length ∧ c ≤ b.length ∧
      Traced a b rho sigma delta true (LclAlign.fill a b rho sigma delta).2 r c v U ∧
      CScore.Score v = CScore.Score (LclAlign.fill a b rho sigma delta).1.max_score ∧
      0 ≤ (LclAlign.fill a b rho sigma delta).1.max_score ∧
      LclAlign a b rho sigma delta =
        some (pushOps U (CCigar.init ((r : Int) - 1) ((c : Int) - 1))) := by
  have hmx0 : MaxInv a b rho sigma delta 0 (List.replicate (b.length + 1) Zero) ⟨0, 0⟩ :=
    ⟨le_refl _, 0, 0, 0, [], by simp [idx], le_refl _, Nat.zero_le _,
      lclRow0_traced a b rho sigma delta 0 (Nat.zero_le _), rfl⟩
  have hfin := LclAlign.rows_spec a b rho sigma delta hrho hsig a 0 _ _ _ _
    (by intro i x hx; rw [Nat.zero_add, List.getD_eq_getElem?_getD, hx]; rfl)
    (lcl_init a b rho sigma delta) hmx0
  rw [Nat.zero_add] at hfin
  have hfill : LclAlign.fill a b rho sigma delta =
      LclAlign.rows (CScore.mk2 (-rho - sigma) 0) (CScore.mk2 (-rho - sigma) 1) sigma delta b a
        (List.replicate (b.length + 1) 0) (List.replicate (b.length + 1) 0) ⟨0, 0⟩
        (List.replicate (b.length + 1) Zero) := rfl
  rw [← hfill] at hfin
  obtain ⟨h0, r, c, v, U, h1, h2, h3, h4, h5⟩ := hfin
  refine ⟨r, c, v, U, h1, h2, h3, h4, h5, h0, ?_⟩
  unfold LclAlign
  simp only
  rw [h1, idx_div _ _ _ h3, idx_mod _ _ _ h3]
  unfold BackTrack
  have := h4.2.2.2.2 [] ((idx b.length r c).toNat + 2)
    (CCigar.init ((r : Int) - 1) ((c : Int) - 1))
    (by have := idx_ge b.length r c; omega)
  rw [List.append_nil] at this
  exact this

theorem GlbAlign.cell_max_facts (rsa rsb : Int) (sigma d : Int)
    (smj smj1 sp gapa gapbj : Int) :
    let g := GlbAlign.cell rsa rsb sigma d smj smj1 sp gapa gapbj
    gapa + CScore.mk2 (-sigma) 0 ≤ g.gapa ∧ sp + rsa ≤ g.gapa ∧
    gapbj + CScore.mk2 (-sigma) 1 ≤ g.gapbj ∧ smj1 + rsb ≤ g.gapbj ∧
    smj + CScore.mk2 d 1 ≤ g.sp ∧ g.gapa ≤ g.sp ∧ g.gapbj ≤ g.sp := by
  intro g
  simp only [g, GlbAlign.cell]
  generalize smj + CScore.mk2 d 1 = ss
  generalize sp + rsa = oa
  generalize gapa + CScore.mk2 (-sigma) 0 = ea
  generalize smj1 + rsb = ob
  generalize gapbj + CScore.mk2 (-sigma) 1 = eb
  split_ifs <;> simp only [] <;> omega

theorem Score_mono (x y : Int) (h : x ≤ y) : CScore.Score x ≤ CScore.Score y := by
  unfold CScore.Score; omega

theorem Score_add_ge (x d t : Int) (ht : 0 ≤ t) :
    CScore.Score x + d ≤ CScore.Score (x + CScore.mk2 d t) := by
  unfold CScore.Score CScore.mk2; omega

theorem cellOutcome_sp_ge (lcl : Bool) (g : CellOut) :
    CScore.Score g.sp ≤ CScore.Score (cellOutcome lcl g).sp ∧
      (lcl = true → 0 ≤ CScore.Score (cellOutcome lcl g).sp) := by
  unfold cellOutcome
  split_ifs with h
  · refine ⟨?_, fun _ => ?_⟩
    · show _ ≤ CScore.Score 0
      rw [Score_zero]; exact h.2
    · show 0 ≤ CScore.Score 0
      rw [Score_zero]
  · refine ⟨le_refl _, fun hl => ?_⟩
    have : ¬ CScore.Score g.sp ≤ 0 := fun h2 => h ⟨hl, h2⟩
    omega

theorem PathOK.append_one {U : List Char} {op : Char} (h : PathOK (U ++ [op])) :
    PathOK U ∧ (op = 'M' ∨ op = 'I' ∨ op = 'D') :=
  ⟨fun x hx => h x (List.mem_append_left _ hx), h op (by simp)⟩

theorem rowsOf_append_one (U : List Char) (op : Char) :
    rowsOf (U ++ [op]) = rowsOf U + dq op := by
  rw [rowsOf_append]; simp [rowsOf]

theorem colsOf_append_one (U : List Char) (op : Char) :
    colsOf (U ++ [op]) = colsOf U + ds op := by
  rw [colsOf_append]; simp [colsOf]

theorem list_nil_or_snoc (U : List Char) : U = [] ∨ ∃ V op, U = V ++ [op] := by
  rcases List.eq_nil_or_concat U with h | ⟨V, x, h⟩
  · exact Or.inl h
  · exact Or.inr ⟨V, x, by rw [h, List.concat_eq_append]⟩

theorem getLast?_snoc (V : List Char) (op : Char) : (V ++ [op]).getLast? = some op := by
  rw [List.getLast?_append]; simp

/-- A path that ends with a column of kind `D` consumes a subject base. -/
theorem colsOf_pos_of_last_D (U : List Char) (h : U.getLast? = some 'D') : 1 ≤ colsOf U := by
  rcases list_nil_or_snoc U with rfl | ⟨V, x, rfl⟩
  · simp at h
  · rw [getLast?_snoc] at h
    have : x = 'D' := Option.some.inj h
    subst this
    rw [colsOf_append_one]; simp [ds]

/-- A path that ends with a column of kind `I` consumes a query base. -/
theorem rowsOf_pos_of_last_I (U : List Char) (h : U.getLast? = some 'I') : 1 ≤ rowsOf U := by
  rcases list_nil_or_snoc U with rfl | ⟨V, x, rfl⟩
  · simp at h
  · rw [getLast?_snoc] at h
    have : x = 'I' := Option.some.inj h
    subst this
    rw [rowsOf_append_one]; simp [dq]

/-- Gap score of a cell: optimality for paths that end with a gap column of kind
`op` (`D` with the neighbour to the left, `I` with the neighbour above). -/
theorem optG_step (a b : List Nat) (rho sigma : Int) (delta : Nat → Nat → Int) (lcl : Bool)
    (op : Char) (hop : op = 'D' ∨ op = 'I') (t : Int) (ht : 0 ≤ t)
    (r c r0 c0 : Nat) (hr : r = r0 + dq op) (hc : c = c0 + ds op)
    (sp gold gnew : Int)
    (hS : OptS a b rho sigma delta lcl r0 c0 sp)
    (hG : OptG a b rho sigma delta lcl op r0 c0 gold)
    (h1 : gold + CScore.mk2 (-sigma) t ≤ gnew)
    (h2 : sp + CScore.mk2 (-rho - sigma) t ≤ gnew) :
    OptG a b rho sigma delta lcl op r c gnew := by
  intro U hU hlast hru hcu hglb
  rcases list_nil_or_snoc U with rfl | ⟨V, x, rfl⟩
  · simp at hlast
  rw [getLast?_snoc] at hlast
  have hx : x = op := Option.some.inj hlast
  subst hx
  obtain ⟨hV, -⟩ := hU.append_one
  have hnM : x ≠ 'M' := by rcases hop with h | h <;> rw [h] <;> decide
  rw [rowsOf_append_one] at hru hglb ⊢
  rw [colsOf_append_one] at hcu hglb ⊢
  rw [pathScore_append_one, if_neg hnM]
  have e1 : r - (rowsOf V + dq x) = r0 - rowsOf V := by omega
  have e2 : c - (colsOf V + ds x) = c0 - colsOf V := by omega
  rw [e1, e2]
  have hVr : rowsOf V ≤ r0 := by omega
  have hVc : colsOf V ≤ c0 := by omega
  have hVg : lcl = false → rowsOf V = r0 ∧ colsOf V = c0 := by
    intro h; have := hglb h; omega
  by_cases hl : V.getLast? = some x
  · rw [if_pos hl]
    have := hG V hV hl hVr hVc hVg
    have h3 := Score_add_ge gold (-sigma) t ht
    have h4 := Score_mono _ _ h1
    omega
  · rw [if_neg hl]
    have := hS V hV hVr hVc hVg
    have h3 := Score_add_ge sp (-rho - sigma) t ht
    have h4 := Score_mono _ _ h2
    omega

/-- Optimality of the cell `(r+1, c+1)` once it has been computed. -/
theorem opt_step (a b : List Nat) (rho sigma : Int) (delta : Nat → Nat → Int) (lcl : Bool)
    (r c : Nat) (smj smj1 sp gapa gapbj : Int)
    (hd : OptS a b rho sigma delta lcl r c smj)
    (hl : OptS a b rho sigma delta lcl (r + 1) c sp)
    (hu : OptS a b rho sigma delta lcl r (c + 1) smj1)
    (hA : OptG a b rho sigma delta lcl 'D' (r + 1) c gapa)
    (hB : OptG a b rho sigma delta lcl 'I' r (c + 1) gapbj) :
    OptS a b rho sigma delta lcl (r + 1) (c + 1)
      (cellOutcome lcl (GlbAlign.cell (CScore.mk2 (-rho - sigma) 0)
        (CScore.mk2 (-rho - sigma) 1) sigma (delta (a.getD r 0) (b.getD c 0))
        smj smj1 sp gapa gapbj)).sp ∧
    OptG a b rho sigma delta lcl 'D' (r + 1) (c + 1)
      (GlbAlign.cell (CScore.mk2 (-rho - sigma) 0)
        (CScore.mk2 (-rho - sigma) 1) sigma (delta (a.getD r 0) (b.getD c 0))
        smj smj1 sp gapa gapbj).gapa ∧
    OptG a b rho sigma delta lcl 'I' (r + 1) (c + 1)
      (GlbAlign.cell (CScore.mk2 (-rho - sigma) 0)
        (CScore.mk2 (-rho - sigma) 1) sigma (delta (a.getD r 0) (b.getD c 0))
        smj smj1 sp gapa gapbj).gapbj := by
  obtain ⟨f1, f2, f3, f4, f5, f6, f7⟩ := GlbAlign.cell_max_facts (CScore.mk2 (-rho - sigma) 0)
    (CScore.mk2 (-rho - sigma) 1) sigma (delta (a.getD r 0) (b.getD c 0)) smj smj1 sp gapa gapbj
  set G := GlbAlign.cell (CScore.mk2 (-rho - sigma) 0)
    (CScore.mk2 (-rho - sigma) 1) sigma (delta (a.getD r 0) (b.getD c 0)) smj smj1 sp gapa gapbj
  have hGA : OptG a b rho sigma delta lcl 'D' (r + 1) (c + 1) G.gapa :=
    optG_step a b rho sigma delta lcl 'D' (Or.inl rfl) 0 (le_refl _) (r + 1) (c + 1) (r + 1) c
      (by simp [dq]) (by simp [ds]) sp gapa G.gapa hl hA f1 f2
  have hGB : OptG a b rho sigma delta lcl 'I' (r + 1) (c + 1) G.gapbj :=
    optG_step a b rho sigma delta lcl 'I' (Or.inr rfl) 1 (by decide) (r + 1) (c + 1) r (c + 1)
      (by simp [dq]) (by simp [ds]) smj1 gapbj G.gapbj hu hB f3 f4
  refine ⟨?_, hGA, hGB⟩
  obtain ⟨hout, hout0⟩ := cellOutcome_sp_ge lcl G
  intro U hU hru hcu hglb
  rcases list_nil_or_snoc U with rfl | ⟨V, x, rfl⟩
  · cases lcl with
    | false =>
      have := (hglb rfl).1
      simp [rowsOf] at this
    | true =>
      have := hout0 rfl
      simpa [pathScore] using this
  · obtain ⟨hV, hx⟩ := hU.append_one
    rcases hx with hx | hx | hx
    · subst hx
      rw [rowsOf_append_one] at hru hglb ⊢
      rw [colsOf_append_one] at hcu hglb ⊢
      simp only [dq, ds, if_neg (by decide : ¬ ('M' : Char) = 'D'), true_or, if_true]
        at hru hcu hglb ⊢
      rw [pathScore_append_one, if_pos rfl]
      have e1 : r + 1 - (rowsOf V + 1) = r - rowsOf V := by omega
      have e2 : c + 1 - (colsOf V + 1) = c - colsOf V := by omega
      have e3 : r - rowsOf V + rowsOf V = r := by omega
      have e4 : c - colsOf V + colsOf V = c := by omega
      rw [e1, e2, e3, e4]
      have := hd V hV (by omega) (by omega) (by intro h; have := hglb h; omega)
      have h3 := Score_add_ge smj (delta (a.getD r 0) (b.getD c 0)) 1 (by decide)
      have h4 := Score_mono _ _ f5
      omega
    · subst hx
      have := hGB (V ++ ['I']) hU (getLast?_snoc _ _) hru hcu hglb
      have h4 := Score_mono _ _ f7
      omega
    · subst hx
      have := hGA (V ++ ['D']) hU (getLast?_snoc _ _) hru hcu hglb
      have h4 := Score_mono _ _ f6
      omega

/-- Optimality of the cells of one row. -/
theorem colsG_opt (a b : List Nat) (rho sigma : Int) (delta : Nat → Nat → Int) (lcl : Bool)
    (r : Nat) :
    ∀ (bs : List Nat) (j : Nat) (sm gapb : List Int) (sp gapa : Int),
      (∀ i x, bs[i]? = some x → b.getD (j + i) 0 = x) →
      sm.length = bs.length + 1 → gapb.length = bs.length →
      (∀ i s, sm[i]? = some s → OptS a b rho sigma delta lcl r (j + i) s) →
      (∀ i g, gapb[i]? = some g → OptG a b rho sigma delta lcl 'I' r (j + 1 + i) g) →
      OptS a b rho sigma delta lcl (r + 1) j sp →
      OptG a b rho sigma delta lcl 'D' (r + 1) j gapa →
      ∀ i g, (colsG lcl rho sigma (delta (a.getD r 0)) bs sm gapb sp gapa)[i]? = some g →
        OptS a b rho sigma delta lcl (r + 1) (j + 1 + i) g.sp ∧
        OptG a b rho sigma delta lcl 'I' (r + 1) (j + 1 + i) g.gapbj := by
  intro bs
  induction bs with
  | nil =>
    intro j sm gapb sp gapa _ _ _ _ _ _ _ i g hg
    simp [colsG] at hg
  | cons bj bs ih =>
    intro j sm gapb sp gapa hb hsmlen hgblen hS hB hl hA i g hg
    match sm, gapb, hsmlen, hgblen with
    | smj :: smj1 :: sms, gbj :: gbs, hsmlen, hgblen =>
      have hbj : b.getD j 0 = bj := by simpa using hb 0 bj (by simp)
      simp only [colsG] at hg
      have hstep := opt_step a b rho sigma delta lcl r j smj smj1 sp gapa gbj
        (by simpa using hS 0 smj (by simp)) hl (by simpa using hS 1 smj1 (by simp)) hA
        (by simpa using hB 0 gbj (by simp))
      rw [hbj] at hstep
      obtain ⟨h1, h2, h3⟩ := hstep
      cases i with
      | zero =>
        simp only [List.getElem?_cons_zero, Option.some.injEq] at hg
        subst hg
        exact ⟨h1, by rw [cellOutcome_gapbj]; exact h3⟩
      | succ i =>
        rw [List.getElem?_cons_succ] at hg
        have := ih (j + 1) (smj1 :: sms) gbs _ _
          (by
            intro i x hx
            have := hb (i + 1) x (by simpa using hx)
            rw [← this]; congr 1; omega)
          (by simp at hsmlen ⊢; omega) (by simp at hgblen ⊢; omega)
          (by
            intro i s hs
            have := hS (i + 1) s (by simpa using hs)
            rw [show j + 1 + i = j + (i + 1) by omega]; exact this)
          (by
            intro i g hg
            have := hB (i + 1) g (by simpa using hg)
            rw [show j + 1 + 1 + i = j + 1 + (i + 1) by omega]; exact this)
          h1 (by rw [cellOutcome_gapa]; exact h2) i g hg
        rw [show j + 1 + (i + 1) = j + 1 + 1 + i by omega]
        exact this

/-- A path without subject bases is a run of `I` columns. -/
theorem pathScore_col0 (a b : List Nat) (rho sigma : Int) (delta : Nat → Nat → Int)
    (U : List Char) (hU : PathOK U) (hc : colsOf U = 0)
    (q s : Nat) :
    pathScore a b rho sigma delta q s U =
      if U = [] then 0 else -(rho + sigma * (rowsOf U : Int)) := by
  induction U using List.reverseRecOn with
  | nil => simp [pathScore]
  | append_singleton V x ih =>
    obtain ⟨hV, hx⟩ := hU.append_one
    rw [colsOf_append_one] at hc
    have hxI : x = 'I' := by
      rcases hx with h | h | h
      · rw [h] at hc; simp [ds] at hc
      · exact h
      · rw [h] at hc; simp [ds] at hc
    subst hxI
    have hcV : colsOf V = 0 := by omega
    rw [pathScore_append_one, if_neg (by decide), ih hV hcV, rowsOf_append_one]
    simp only [List.append_eq_nil, List.cons_ne_self, and_false, if_false, dq,
      if_neg (by decide : ¬ ('I' : Char) = 'D')]
    rcases list_nil_or_snoc V with rfl | ⟨W, y, rfl⟩
    · simp [rowsOf]
    · obtain ⟨-, hy⟩ := hV.append_one
      rw [colsOf_append_one] at hcV
      have hyI : y = 'I' := by
        rcases hy with h | h | h
        · rw [h] at hcV; simp [ds] at hcV
        · exact h
        · rw [h] at hcV; simp [ds] at hcV
      subst hyI
      rw [if_neg (by simp), if_pos (getLast?_snoc _ _)]
      push_cast; ring

/-- A path without query bases is a run of `D` columns. -/
theorem pathScore_row0 (a b : List Nat) (rho sigma : Int) (delta : Nat → Nat → Int)
    (U : List Char) (hU : PathOK U) (hr : rowsOf U = 0) (q s : Nat) :
    pathScore a b rho sigma delta q s U =
      if U = [] then 0 else -(rho + sigma * (colsOf U : Int)) := by
  induction U using List.reverseRecOn with
  | nil => simp [pathScore]
  | append_singleton V x ih =>
    obtain ⟨hV, hx⟩ := hU.append_one
    rw [rowsOf_append_one] at hr
    have hxD : x = 'D' := by
      rcases hx with h | h | h
      · rw [h] at hr; simp [dq] at hr
      · rw [h] at hr; simp [dq] at hr
      · exact h
    subst hxD
    have hrV : rowsOf V = 0 := by omega
    rw [pathScore_append_one, if_neg (by decide), ih hV hrV, colsOf_append_one]
    simp only [List.append_eq_nil, List.cons_ne_self, and_false, if_false, ds, or_true, if_true]
    rcases list_nil_or_snoc V with rfl | ⟨W, y, rfl⟩
    · simp [colsOf]
    · obtain ⟨-, hy⟩ := hV.append_one
      rw [rowsOf_append_one] at hrV
      have hyD : y = 'D' := by
        rcases hy with h | h | h
        · rw [h] at hrV; simp [dq] at hrV
        · rw [h] at hrV; simp [dq] at hrV
        · exact h
      subst hyD
      rw [if_neg (by simp), if_pos (getLast?_snoc _ _)]
      push_cast; ring

theorem colsG_length (lcl : Bool) (rho sigma : Int) (matrix : Nat → Int) :
    ∀ (bs : List Nat) (sm gapb : List Int) (sp gapa : Int),
      sm.length = bs.length + 1 → gapb.length = bs.length →
      (colsG lcl rho sigma matrix bs sm gapb sp gapa).length = bs.length := by
  intro bs
  induction bs with
  | nil => intro sm gapb sp gapa _ _; simp [colsG]
  | cons bj bs ih =>
    intro sm gapb sp gapa h1 h2
    match sm, gapb, h1, h2 with
    | smj :: smj1 :: sms, gbj :: gbs, h1, h2 =>
      simp only [colsG, List.length_cons]
      rw [ih _ _ _ _ (by simp at h1 ⊢; omega) (by simp at h2 ⊢; omega)]

theorem PathOK_replicate (n : Nat) (op : Char) (hop : op = 'M' ∨ op = 'I' ∨ op = 'D') :
    PathOK (List.replicate n op) := by
  intro x hx
  rw [List.mem_replicate] at hx
  rw [hx.2]; exact hop

/-- One more row keeps the optimality of the state. -/
theorem rowsG_opt_step (a b : List Nat) (rho sigma : Int) (delta : Nat → Nat → Int)
    (lcl : Bool) (hrho : 0 ≤ rho) (hsig : 0 ≤ sigma) (r : Nat) (sm : List Int) (s0 : Int)
    (gapb : List Int) (hinv : RowOpt a b rho sigma delta lcl r sm s0 gapb) :
    RowOpt a b rho sigma delta lcl (r + 1)
      (s0 :: (colsG lcl rho sigma (delta (a.getD r 0)) b sm gapb.tail s0
        (if lcl = true then CScore.zero else bignegative)).map CellOut.sp)
      (if lcl = true then s0 else s0 + CScore.mk2 (-sigma) 1)
      (gapb.take 1 ++ (colsG lcl rho sigma (delta (a.getD r 0)) b sm gapb.tail s0
        (if lcl = true then CScore.zero else bignegative)).map CellOut.gapbj) := by
  obtain ⟨hsm, hgb, hS, hB, hs0, hs0l⟩ := hinv
  have hgt : ∀ i, gapb.tail[i]? = gapb[i + 1]? := by
    intro i
    cases gapb with
    | nil => simp
    | cons x xs => simp
  have hlen := colsG_length lcl rho sigma (delta (a.getD r 0)) b sm gapb.tail s0
    (if lcl = true then CScore.zero else bignegative) hsm (by rw [List.length_tail, hgb]; rfl)
  have hopt := colsG_opt a b rho sigma delta lcl r b 0 sm gapb.tail s0
    (if lcl = true then CScore.zero else bignegative)
    (by intro i x hx; rw [Nat.zero_add, List.getD_eq_getElem?_getD, hx]; rfl)
    hsm (by rw [List.length_tail, hgb]; rfl)
    (by intro i s hs; rw [Nat.zero_add]; exact hS i s hs)
    (by
      intro i g hg
      rw [hgt] at hg
      rw [show 0 + 1 + i = i + 1 by omega]
      exact hB (i + 1) g (by omega) hg)
    hs0
    (by
      intro U _ hlast _ hc _
      have := colsOf_pos_of_last_D U hlast
      omega)
  set outs := colsG lcl rho sigma (delta (a.getD r 0)) b sm gapb.tail s0
    (if lcl = true then CScore.zero else bignegative)
  have htake : (gapb.take 1).length = 1 := by
    rw [List.length_take, hgb]; omega
  refine ⟨by simp [hlen], by rw [List.length_append, htake, List.length_map, hlen]; omega,
    ?_, ?_, ?_, ?_⟩
  · intro c s hs
    cases c with
    | zero =>
      simp only [List.getElem?_cons_zero, Option.some.injEq] at hs
      subst hs; exact hs0
    | succ i =>
      rw [List.getElem?_cons_succ] at hs
      obtain ⟨g0, hg0, hsp⟩ := getElem?_map_some _ _ _ _ hs
      rw [← hsp, show i + 1 = 0 + 1 + i by omega]
      exact (hopt i g0 hg0).1
  · intro c g hc hg
    obtain ⟨i, rfl⟩ : ∃ i, c = i + 1 := ⟨c - 1, by omega⟩
    rw [List.getElem?_append_right (by rw [htake]; omega), htake, Nat.add_sub_cancel] at hg
    obtain ⟨g0, hg0, hgg⟩ := getElem?_map_some _ _ _ _ hg
    rw [← hgg, show i + 1 = 0 + 1 + i by omega]
    exact (hopt i g0 hg0).2
  · intro U hU hru hcu hglb
    have hc0 : colsOf U = 0 := by omega
    rw [pathScore_col0 a b rho sigma delta U hU hc0]
    cases lcl with
    | true =>
      rw [if_pos rfl, hs0l rfl, Score_zero]
      split_ifs
      · exact le_refl _
      · have : (0 : Int) ≤ sigma * (rowsOf U : Int) := by positivity
        omega
    | false =>
      obtain ⟨hr2, -⟩ := hglb rfl
      have hne : U ≠ [] := by
        rintro rfl
        simp [rowsOf] at hr2
      rw [if_neg hne, if_neg (by decide), hr2]
      have h1 := hs0 (List.replicate (r + 1) 'I') (PathOK_replicate _ _ (Or.inr (Or.inl rfl)))
        (by rw [rowsOf_replicate_I]) (by rw [colsOf_replicate_I])
        (fun _ => ⟨rowsOf_replicate_I _, colsOf_replicate_I _⟩)
      rw [pathScore_col0 a b rho sigma delta _ (PathOK_replicate _ _ (Or.inr (Or.inl rfl)))
        (colsOf_replicate_I _), if_neg (by simp), rowsOf_replicate_I] at h1
      have h2 := Score_add_ge s0 (-sigma) 1 (by decide)
      push_cast at h1 ⊢
      have e : sigma * ((r : Int) + 1 + 1) = sigma * ((r : Int) + 1) + sigma := by ring
      rw [e]
      omega
  · intro hl
    subst hl
    rw [if_pos rfl]; exact hs0l rfl

/-- All rows keep the optimality of the state. -/
theorem rowsG_opt (a b : List Nat) (rho sigma : Int) (delta : Nat → Nat → Int) (lcl : Bool)
    (hrho : 0 ≤ rho) (hsig : 0 ≤ sigma) :
    ∀ (as : List Nat) (r : Nat) (sm : List Int) (s0 : Int) (gapb : List Int) (mtrx : List Nat),
      (∀ i x, as[i]? = some x → a.getD (r + i) 0 = x) →
      RowOpt a b rho sigma delta lcl r sm s0 gapb →
      ∃ s1, RowOpt a b rho sigma delta lcl (r + as.length)
        (rowsG lcl rho sigma delta b as sm s0 gapb mtrx).1 s1
        (rowsG lcl rho sigma delta b as sm s0 gapb mtrx).2.1 := by
  intro as
  induction as with
  | nil =>
    intro r sm s0 gapb mtrx _ hinv
    exact ⟨s0, hinv⟩
  | cons ai as ih =>
    intro r sm s0 gapb mtrx ha hinv
    have hai : a.getD r 0 = ai := by simpa using ha 0 ai (by simp)
    have hstep := rowsG_opt_step a b rho sigma delta lcl hrho hsig r sm s0 gapb hinv
    rw [hai] at hstep
    obtain ⟨s1, h1⟩ := ih (r + 1) _ _ _ (mtrx ++ firstCell lcl ::
        (colsG lcl rho sigma (delta ai) b sm gapb.tail s0
          (if lcl = true then CScore.zero else bignegative)).map CellOut.bits)
      (by
        intro i x hx
        have := ha (i + 1) x (by simpa using hx)
        rw [← this]; congr 1; omega)
      hstep
    refine ⟨s1, ?_⟩
    rw [show r + (ai :: as).length = r + 1 + as.length by simp; omega]
    exact h1

/-- Every score the inner loop of the local kernel stores is at most the
maximum it tracks. -/
theorem LclAlign.cols_bound (rho sigma : Int) (hrho : 0 ≤ rho) (hsig : 0 < sigma)
    (matrix : Nat → Int) :
    ∀ (bs : List Nat) (sm gapb : List Int) (sp gapa : Int) (mx : MaxState) (m : Nat),
      0 ≤ mx.max_score → sp ≤ mx.max_score → gapa ≤ mx.max_score →
      (∀ s ∈ sm, s ≤ mx.max_score) → (∀ g ∈ gapb, g ≤ mx.max_score) →
      mx.max_score ≤ (LclAlign.cols (CScore.mk2 (-rho - sigma) 0)
        (CScore.mk2 (-rho - sigma) 1) sigma matrix bs sm gapb sp gapa mx m).2.2.2.max_score ∧
      (∀ s ∈ (LclAlign.cols (CScore.mk2 (-rho - sigma) 0)
          (CScore.mk2 (-rho - sigma) 1) sigma matrix bs sm gapb sp gapa mx m).1,
        s ≤ (LclAlign.cols (CScore.mk2 (-rho - sigma) 0)
          (CScore.mk2 (-rho - sigma) 1) sigma matrix bs sm gapb sp gapa mx m).2.2.2.max_score) ∧
      (∀ g ∈ (LclAlign.cols (CScore.mk2 (-rho - sigma) 0)
          (CScore.mk2 (-rho - sigma) 1) sigma matrix bs sm gapb sp gapa mx m).2.1,
        g ≤ (LclAlign.cols (CScore.mk2 (-rho - sigma) 0)
          (CScore.mk2 (-rho - sigma) 1) sigma matrix bs sm gapb sp gapa mx m).2.2.2.max_score) := by
  intro bs
  induction bs with
  | nil => intro sm gapb sp gapa mx m _ _ _ _ _; simp [LclAlign.cols]
  | cons bj bs ih =>
    intro sm gapb sp gapa mx m h0 hsp hga hsm hgb
    match sm, gapb, hsm, hgb with
    | [], _, _, _ => simp [LclAlign.cols]
    | [_], _, _, _ => simp [LclAlign.cols]
    | _ :: _ :: _, [], _, _ => simp [LclAlign.cols]
    | smj :: smj1 :: sms, gbj :: gbs, hsm, hgb =>
      simp only [LclAlign.cols, LclAlign.cell_eq_aux]
      obtain ⟨fA, fB, fW, -⟩ := GlbAlign.cell_facts (CScore.mk2 (-rho - sigma) 0)
        (CScore.mk2 (-rho - sigma) 1) sigma (matrix bj) smj smj1 sp gapa gbj
      set G := GlbAlign.cell (CScore.mk2 (-rho - sigma) 0) (CScore.mk2 (-rho - sigma) 1) sigma
        (matrix bj) smj smj1 sp gapa gbj with hG
      set mx1 : MaxState := if (G.bits &&& Agap = 0 ∧ G.bits &&& Bgap = 0) ∧
        smj + CScore.mk2 (matrix bj) 1 > mx.max_score
        then ⟨smj + CScore.mk2 (matrix bj) 1, m + 1⟩ else mx with hmx1
      have hsmj1 : smj1 ≤ mx.max_score := hsm smj1 (by simp)
      have hgbj : gbj ≤ mx.max_score := hgb gbj (by simp)
      have hge : mx.max_score ≤ mx1.max_score := by
        rw [hmx1]; split_ifs with hc
        · exact le_of_lt hc.2
        · exact le_refl _
      have hGa : G.gapa ≤ mx.max_score := by
        rcases fA with ⟨-, h, -⟩ | ⟨-, h, -⟩ <;> rw [h] <;> simp only [CScore.mk2] <;> omega
      have hGb : G.gapbj ≤ mx.max_score := by
        rcases fB with ⟨-, h, -⟩ | ⟨-, h, -⟩ <;> rw [h] <;> simp only [CScore.mk2] <;> omega
      have hGs : (cellOutcome true G).sp ≤ mx1.max_score := by
        unfold cellOutcome
        split_ifs with hr
        · exact le_trans h0 hge
        · rcases fW with ⟨-, h⟩ | ⟨-, -, h⟩ | ⟨h1, h2, h⟩
          · rw [h]; exact le_trans hGa hge
          · rw [h]; exact le_trans hGb hge
          · rw [h, hmx1]
            split_ifs with hc
            · exact le_refl _
            · have : ¬ smj + CScore.mk2 (matrix bj) 1 > mx.max_score := fun h3 => hc ⟨⟨h1, h2⟩, h3⟩
              omega
      obtain ⟨i1, i2, i3⟩ := ih (smj1 :: sms) gbs (cellOutcome true G).sp
        (cellOutcome true G).gapa mx1 (m + 1) (le_trans h0 hge) hGs
        (by rw [cellOutcome_gapa]; exact le_trans hGa hge)
        (fun s hs => le_trans (hsm s (List.mem_cons_of_mem _ hs)) hge)
        (fun g hg => le_trans (hgb g (List.mem_cons_of_mem _ hg)) hge)
      refine ⟨le_trans hge i1, ?_, ?_⟩
      · intro s hs
        rcases List.mem_cons.1 hs with h | h
        · rw [h]; exact le_trans hGs i1
        · exact i2 s h
      · intro g hg
        rcases List.mem_cons.1 hg with h | h
        · rw [h, cellOutcome_gapbj]; exact le_trans (le_trans hGb hge) i1
        · exact i3 g h

/-- The state of the local kernel before its first row is optimal. -/
theorem lcl_opt_init (a b : List Nat) (rho sigma : Int) (delta : Nat → Nat → Int)
    (hrho : 0 ≤ rho) (hsig : 0 ≤ sigma) :
    RowOpt a b rho sigma delta true 0 (List.replicate (b.length + 1) 0) 0
      (List.replicate (b.length + 1) 0) ∧ OptAll a b rho sigma delta 0 0 := by
  have hrow0 : ∀ (c : Nat) (U : List Char), PathOK U → rowsOf U ≤ 0 →
      pathScore a b rho sigma delta (0 - rowsOf U) (c - colsOf U) U ≤ CScore.Score 0 := by
    intro c U hU hr
    rw [pathScore_row0 a b rho sigma delta U hU (by omega), Score_zero]
    split_ifs
    · exact le_refl _
    · have : (0 : Int) ≤ sigma * (colsOf U : Int) := by positivity
      omega
  refine ⟨⟨by simp, by simp, ?_, ?_, ?_, fun _ => rfl⟩, ?_⟩
  · intro c s hs
    rw [List.getElem?_replicate] at hs
    split_ifs at hs
    have : s = 0 := (Option.some.inj hs).symm
    subst this
    intro U hU hr _ _
    exact hrow0 c U hU hr
  · intro c g _ _ U _ hlast hr _ _
    have := rowsOf_pos_of_last_I U hlast
    omega
  · intro U hU _ hc _
    rw [pathScore_col0 a b rho sigma delta U hU (by omega), Score_zero]
    split_ifs
    · exact le_refl _
    · have : (0 : Int) ≤ sigma * (rowsOf U : Int) := by positivity
      omega
  · intro r c U hr _ hU hru _
    have hr0 : r = 0 := by omega
    subst hr0
    exact hrow0 c U hU hru

/-- The rows of the local kernel keep the tracked maximum above the score of
every path that ends in a cell computed so far. -/
theorem LclAlign.rows_opt (a b : List Nat) (rho sigma : Int) (delta : Nat → Nat → Int)
    (hrho : 0 ≤ rho) (hsig : 0 < sigma) :
    ∀ (as : List Nat) (r : Nat) (sm gapb : List Int) (mx : MaxState) (mtrx : List Nat),
      (∀ i x, as[i]? = some x → a.getD (r + i) 0 = x) →
      RowOpt a b rho sigma delta true r sm 0 gapb →
      0 ≤ mx.max_score → (∀ s ∈ sm, s ≤ mx.max_score) → (∀ g ∈ gapb, g ≤ mx.max_score) →
      OptAll a b rho sigma delta r mx.max_score →
      OptAll a b rho sigma delta (r + as.length)
        (LclAlign.rows (CScore.mk2 (-rho - sigma) 0) (CScore.mk2 (-rho - sigma) 1) sigma delta b
          as sm gapb mx mtrx).1.max_score := by
  intro as
  induction as with
  | nil =>
    intro r sm gapb mx mtrx _ _ _ _ _ hall
    exact hall
  | cons ai as ih =>
    intro r sm gapb mx mtrx ha hinv h0 hsm hgb hall
    have hai : a.getD r 0 = ai := by simpa using ha 0 ai (by simp)
    have hstep := rowsG_opt_step a b rho sigma delta true hrho (le_of_lt hsig) r sm 0 gapb hinv
    simp only [if_true, hai] at hstep
    obtain ⟨e1, e2, e3, -⟩ := LclAlign.cols_eq_lcl rho sigma (delta ai) b sm gapb.tail
      CScore.zero CScore.zero mx mtrx.length
    obtain ⟨b1, b2, b3⟩ := LclAlign.cols_bound rho sigma hrho hsig (delta ai) b sm gapb.tail
      CScore.zero CScore.zero mx mtrx.length h0 h0 h0 hsm
      (fun g hg => hgb g (List.mem_of_mem_tail hg))
    have hz : CScore.zero = 0 := rfl
    rw [hz] at e1 e2 e3 b1 b2 b3
    rw [hz] at hstep
    simp only [LclAlign.rows]
    rw [hz]
    rw [show r + (ai :: as).length = r + 1 + as.length by simp; omega]
    set R := LclAlign.cols (CScore.mk2 (-rho - sigma) 0) (CScore.mk2 (-rho - sigma) 1) sigma
      (delta ai) b sm gapb.tail 0 0 mx mtrx.length with hR
    have hstep' : RowOpt a b rho sigma delta true (r + 1) (0 :: R.1) 0
        (List.take 1 gapb ++ R.2.1) := by
      rw [e1, e2]; exact hstep
    refine ih (r + 1) _ _ _ _ ?_ hstep' (le_trans h0 b1) ?_ ?_ ?_
    · intro i x hx
      have := ha (i + 1) x (by simpa using hx)
      rw [← this]; congr 1; omega
    · intro s hs
      rcases List.mem_cons.1 hs with h | h
      · rw [h]; exact le_trans h0 b1
      · exact b2 s h
    · intro g hg
      rcases List.mem_append.1 hg with h | h
      · exact le_trans (hgb g (List.mem_of_mem_take h)) b1
      · exact b3 g h
    · intro r0 c U hr0 hc hU hru hcu
      by_cases hlt : r0 ≤ r
      · exact le_trans (hall r0 c U hlt hc hU hru hcu) (Score_mono _ _ b1)
      · have hr1 : r0 = r + 1 := by omega
        subst hr1
        obtain ⟨hl1, -, hS, -⟩ := hstep'
        have hex : ∃ s, (0 :: R.1)[c]? = some s :=
          ⟨_, List.getElem?_eq_getElem (by rw [hl1]; omega)⟩
        obtain ⟨s, hs⟩ := hex
        have h1 := hS c s hs U hU hru hcu (fun h => absurd h (by decide))
        have h2 : s ≤ R.2.2.2.max_score := by
          have hmem := List.mem_iff_getElem?.2 ⟨c, hs⟩
          rcases List.mem_cons.1 hmem with h | h
          · rw [h]; exact le_trans h0 b1
          · exact b2 s h
        exact le_trans h1 (Score_mono _ _ h2)

theorem rle_append_replicate (n : Nat) (t : Char) (V : List Char) :
    rle (List.replicate (n + 1) t ++ V) = pushFrontList ⟨(n : Int) + 1, t⟩ (rle V) := by
  induction n with
  | zero => simp [rle]
  | succ n ih =>
    rw [List.replicate_succ, List.cons_append]
    show pushFrontList ⟨1, t⟩ (rle (List.replicate (n + 1) t ++ V)) = _
    rw [ih, pushFrontList_merge]
    push_cast
    rfl

/-- Run-length encoding undoes the expansion of a merged element list. -/
theorem rle_expand (l : List SElement) (hpos : ∀ e ∈ l, 0 < e.m_len) (hadj : NoAdjacent l) :
    rle (expand l) = l := by
  induction l with
  | nil => rfl
  | cons e rest ih =>
    have he := hpos e (List.mem_cons_self _ _)
    have hrest := ih (fun x hx => hpos x (List.mem_cons_of_mem _ hx))
      (by unfold NoAdjacent at *; exact hadj.tail)
    obtain ⟨n, hn⟩ : ∃ n : Nat, e.m_len.toNat = n + 1 := ⟨e.m_len.toNat - 1, by omega⟩
    have hlen : ((n : Int) + 1) = e.m_len := by omega
    show rle (List.replicate e.m_len.toNat e.m_type ++ expand rest) = _
    rw [hn, rle_append_replicate, hrest, hlen]
    cases rest with
    | nil => rfl
    | cons g rest2 =>
      unfold NoAdjacent at hadj
      rw [List.chain'_cons] at hadj
      simp only [pushFrontList]
      rw [if_pos (fun h => hadj.1 h.symm)]

theorem rowsOf_replicate (n : Nat) (t : Char) :
    rowsOf (List.replicate n t) = if t = 'D' then 0 else n := by
  induction n with
  | zero => simp [rowsOf]
  | succ n ih =>
    rw [List.replicate_succ]
    simp only [rowsOf, dq, ih]
    split_ifs <;> omega

theorem colsOf_replicate (n : Nat) (t : Char) :
    colsOf (List.replicate n t) = if t = 'M' ∨ t = 'D' then n else 0 := by
  induction n with
  | zero => simp [colsOf]
  | succ n ih =>
    rw [List.replicate_succ]
    simp only [colsOf, ds, ih]
    split_ifs <;> omega

theorem rowsOf_expand (l : List SElement) (hpos : ∀ e ∈ l, 0 < e.m_len)
    (hkind : ∀ e ∈ l, e.KindOK) : (rowsOf (expand l) : Int) = sumMI l := by
  induction l with
  | nil => rfl
  | cons e rest ih =>
    have he := hpos e (List.mem_cons_self _ _)
    have hk := hkind e (List.mem_cons_self _ _)
    have hrest := ih (fun x hx => hpos x (List.mem_cons_of_mem _ hx))
      (fun x hx => hkind x (List.mem_cons_of_mem _ hx))
    show (rowsOf (List.replicate e.m_len.toNat e.m_type ++ expand rest) : Int) = _
    rw [rowsOf_append, rowsOf_replicate]
    unfold sumMI at hrest ⊢
    simp only [sumLen]
    push_cast
    rw [hrest]
    rcases hk with h | h | h <;> simp +decide [h] <;> omega

theorem colsOf_expand (l : List SElement) (hpos : ∀ e ∈ l, 0 < e.m_len)
    (hkind : ∀ e ∈ l, e.KindOK) : (colsOf (expand l) : Int) = sumMD l := by
  induction l with
  | nil => rfl
  | cons e rest ih =>
    have he := hpos e (List.mem_cons_self _ _)
    have hk := hkind e (List.mem_cons_self _ _)
    have hrest := ih (fun x hx => hpos x (List.mem_cons_of_mem _ hx))
      (fun x hx => hkind x (List.mem_cons_of_mem _ hx))
    show (colsOf (List.replicate e.m_len.toNat e.m_type ++ expand rest) : Int) = _
    rw [colsOf_append, colsOf_replicate]
    unfold sumMD at hrest ⊢
    simp only [sumLen]
    push_cast
    rw [hrest]
    rcases hk with h | h | h <;> simp +decide [h] <;> omega

theorem PathOK_expand (l : List SElement) (hkind : ∀ e ∈ l, e.KindOK) : PathOK (expand l) := by
  induction l with
  | nil => intro op h; cases h
  | cons e rest ih =>
    intro op h
    have h2 : op ∈ List.replicate e.m_len.toNat e.m_type ++ expand rest := h
    rcases List.mem_append.1 h2 with h3 | h3
    · rw [(List.mem_replicate.1 h3).2]
      exact hkind e (List.mem_cons_self _ _)
    · exact ih (fun x hx => hkind x (List.mem_cons_of_mem _ hx)) op h3

/-- The score of a well-formed Cigar that stays inside the sequences is the
affine score of its unit columns. -/
theorem Score_expand (a b : List Nat) (rho sigma : Int) (delta : Nat → Nat → Int)
    (C : CCigar) (hpos : ∀ e ∈ C.m_elements, 0 < e.m_len)
    (hkind : ∀ e ∈ C.m_elements, e.KindOK) (hadj : NoAdjacent C.m_elements)
    (hcov : C.Covered a b) :
    C.Score a b rho sigma delta =
      some (pathScore a b rho sigma delta C.m_qfrom.toNat C.m_sfrom.toNat
        (expand C.m_elements)) := by
  obtain ⟨hq0, hq1, hs0, hs1⟩ := hcov
  have hr := rowsOf_expand _ hpos hkind
  have hc := colsOf_expand _ hpos hkind
  have h := scoreLoop_rle a b rho sigma delta (expand C.m_elements) C.m_qfrom.toNat
    C.m_sfrom.toNat (by omega) (by omega)
  rw [rle_expand _ hpos hadj] at h
  unfold CCigar.Score
  rw [← h]
  congr 1 <;> omega

/-- Helper for the optimality of the local kernel: the tracked maximum bounds
the score of every well-formed Cigar inside the sequences. -/
theorem LclAlign_max_bound (a b : List Nat) (rho sigma : Int) (delta : Nat → Nat → Int)
    (hrho : 0 < rho) (hsig : 0 < sigma)
    (C : CCigar) (hpos : ∀ e ∈ C.m_elements, 0 < e.m_len)
    (hkind : ∀ e ∈ C.m_elements, e.KindOK) (hadj : NoAdjacent C.m_elements)
    (hcov : C.Covered a b) :
    ∃ s, C.Score a b rho sigma delta = some s ∧
      s ≤ CScore.Score (LclAlign.fill a b rho sigma delta).1.max_score := by
  refine ⟨_, Score_expand a b rho sigma delta C hpos hkind hadj hcov, ?_⟩
  obtain ⟨hq0, hq1, hs0, hs1⟩ := hcov
  have hr := rowsOf_expand _ hpos hkind
  have hc := colsOf_expand _ hpos hkind
  obtain ⟨i1, i2⟩ := lcl_opt_init a b rho sigma delta (le_of_lt hrho) (le_of_lt hsig)
  have hz : CScore.zero = 0 := rfl
  have hall := LclAlign.rows_opt a b rho sigma delta (le_of_lt hrho) hsig a 0
    (List.replicate (b.length + 1) 0) (List.replicate (b.length + 1) 0) ⟨0, 0⟩
    (List.replicate (b.length + 1) Zero)
    (fun i x hx => by
      rw [Nat.zero_add, List.getD_eq_getElem?_getD, hx]; rfl)
    i1 (le_refl _) (fun s hs => by rw [List.eq_of_mem_replicate hs])
    (fun s hs => by rw [List.eq_of_mem_replicate hs]) i2
  have h := hall (C.m_qfrom.toNat + rowsOf (expand C.m_elements))
    (C.m_sfrom.toNat + colsOf (expand C.m_elements)) (expand C.m_elements)
    (by omega) (by omega) (PathOK_expand _ hkind) (by omega) (by omega)
  simp only [Nat.add_sub_cancel] at h
  unfold LclAlign.fill
  simp only [hz]
  exact h

theorem mirror_facts (U : List Char) (hU : PathOK U) :
    PathOK (mirror U) ∧ rowsOf (mirror U) = colsOf U ∧ colsOf (mirror U) = rowsOf U := by
  induction U with
  | nil => exact ⟨(by intro op h; cases h), rfl, rfl⟩
  | cons op U ih =>
    obtain ⟨i1, i2, i3⟩ := ih (fun x hx => hU x (List.mem_cons_of_mem _ hx))
    have hop := hU op (List.mem_cons_self _ _)
    refine ⟨?_, ?_, ?_⟩
    · intro x hx
      have hx2 : x ∈ mirrorOp op :: mirror U := hx
      rcases List.mem_cons.1 hx2 with h | h
      · rw [h]
        rcases hop with h1 | h1 | h1 <;> rw [h1] <;> simp +decide [mirrorOp]
      · exact i1 x h
    · show dq (mirrorOp op) + rowsOf (mirror U) = ds op + colsOf U
      rw [i2]
      rcases hop with h1 | h1 | h1 <;> rw [h1] <;> simp +decide [mirrorOp, dq, ds]
    · show ds (mirrorOp op) + colsOf (mirror U) = dq op + rowsOf U
      rw [i3]
      rcases hop with h1 | h1 | h1 <;> rw [h1] <;> simp +decide [mirrorOp, dq, ds]

theorem mirror_head (U : List Char) (hU : PathOK U) (op : Char)
    (hop : op = 'M' ∨ op = 'I' ∨ op = 'D') :
    ((mirror U).head? = some (mirrorOp op)) ↔ (U.head? = some op) := by
  cases U with
  | nil => simp [mirror]
  | cons x U =>
    have hx := hU x (List.mem_cons_self _ _)
    simp only [mirror, List.map_cons, List.head?_cons, Option.some.injEq]
    rcases hx with h1 | h1 | h1 <;> rcases hop with h2 | h2 | h2 <;> rw [h1, h2] <;>
      simp +decide [mirrorOp]

/-- The affine score of a path is the one of its mirror image under the
transposed scoring function. -/
theorem pathScore_mirror (a b : List Nat) (rho sigma : Int) (delta delta2 : Nat → Nat → Int)
    (hsym : ∀ x y, delta2 y x = delta x y) (U : List Char) (hU : PathOK U) :
    ∀ q s, pathScore b a rho sigma delta2 s q (mirror U) =
      pathScore a b rho sigma delta q s U := by
  induction U with
  | nil => intro q s; rfl
  | cons op U ih =>
    intro q s
    have hU2 : PathOK U := fun x hx => hU x (List.mem_cons_of_mem _ hx)
    have hop := hU op (List.mem_cons_self _ _)
    have hh := mirror_head U hU2 op hop
    show pathScore b a rho sigma delta2 s q (mirrorOp op :: mirror U) = _
    rw [pathScore_cons, pathScore_cons, ih hU2]
    by_cases h : U.head? = some op
    · rw [if_pos (hh.2 h), if_pos h]
      rcases hop with h1 | h1 | h1 <;> rw [h1] <;> simp +decide [mirrorOp, dq, ds, hsym]
    · rw [if_neg (fun h2 => h (hh.1 h2)), if_neg h]
      rcases hop with h1 | h1 | h1 <;> rw [h1] <;> simp +decide [mirrorOp, dq, ds, hsym]

/-- The state of the global kernel before its first row is optimal. -/
theorem glb_opt_init (a b : List Nat) (rho sigma : Int) (delta : Nat → Nat → Int)
    (hb : 1 ≤ b.length) (hrho : 0 ≤ rho) (hsig : 0 ≤ sigma) :
    RowOpt a b rho sigma delta false 0
      (CScore.zero :: CScore.mk2 (-rho - sigma) 0 ::
        GlbAlign.initRow sigma (b.length - 1) (CScore.mk2 (-rho - sigma) 0))
      (CScore.mk2 (-rho - sigma) 1) (List.replicate (b.length + 1) bignegative) := by
  refine ⟨?_, by simp, ?_, ?_, ?_, fun h => by cases h⟩
  · simp [initRow_length]; omega
  · intro c s hs U hU hr hc hrc
    obtain ⟨hr0, hc0⟩ := hrc rfl
    rw [pathScore_row0 a b rho sigma delta U hU (by omega)]
    have hsc : (0 : Int) ≤ sigma * (colsOf U : Int) := by positivity
    cases c with
    | zero =>
      have : s = 0 := by
        simp only [List.getElem?_cons_zero, Option.some.injEq] at hs
        rw [← hs]; rfl
      rw [this, Score_zero]
      split_ifs
      · exact le_refl _
      · omega
    | succ c =>
      have hne : U ≠ [] := by
        intro h; rw [h] at hc0; simp [colsOf] at hc0
      rw [if_neg hne, hc0]
      cases c with
      | zero =>
        simp only [List.getElem?_cons_succ, List.getElem?_cons_zero, Option.some.injEq] at hs
        rw [← hs]
        unfold CScore.Score CScore.mk2
        push_cast
        omega
      | succ c =>
        simp only [List.getElem?_cons_succ] at hs
        have := initRow_get sigma _ _ c s hs
        rw [this]
        unfold CScore.Score CScore.mk2
        push_cast
        have e : -sigma * ((c : Int) + 1) = -(sigma * (c : Int)) - sigma := by ring
        have e2 : sigma * ((c : Int) + 1 + 1) = sigma * (c : Int) + sigma + sigma := by ring
        rw [e, e2]
        generalize sigma * (c : Int) = z
        omega
  · intro c g _ _ U _ hlast hr _ _
    have := rowsOf_pos_of_last_I U hlast
    omega
  · intro U hU hr hc hrc
    obtain ⟨hr0, hc0⟩ := hrc rfl
    rw [pathScore_col0 a b rho sigma delta U hU (by omega)]
    have hne : U ≠ [] := by
      intro h; rw [h] at hr0; simp [rowsOf] at hr0
    rw [if_neg hne, hr0]
    unfold CScore.Score CScore.mk2
    push_cast
    omega

/-- The score the global kernel holds for the last cell bounds the affine score
of every path from the origin to the last cell. -/
theorem GlbAlign_terminal_opt (a b : List Nat) (rho sigma : Int) (delta : Nat → Nat → Int)
    (hb : 1 ≤ b.length) (hrho : 0 ≤ rho) (hsig : 0 ≤ sigma)
    (U : List Char) (hU : PathOK U) (hr : rowsOf U = a.length) (hc : colsOf U = b.length) :
    ∃ s, (GlbAlign.fill a b rho sigma delta).1[b.length]? = some s ∧
      pathScore a b rho sigma delta 0 0 U ≤ CScore.Score s := by
  have hinit := glb_opt_init a b rho sigma delta hb hrho hsig
  obtain ⟨s1, hfin⟩ := rowsG_opt a b rho sigma delta false hrho hsig a 0 _ _ _
    (glbRow0 b.length)
    (by intro i x hx; rw [Nat.zero_add, List.getD_eq_getElem?_getD, hx]; rfl) hinit
  rw [Nat.zero_add] at hfin
  obtain ⟨hsm, -, hS, -⟩ := hfin
  have hfill : (GlbAlign.fill a b rho sigma delta).1 =
      (rowsG false rho sigma delta b a (CScore.zero :: CScore.mk2 (-rho - sigma) 0 ::
        GlbAlign.initRow sigma (b.length - 1) (CScore.mk2 (-rho - sigma) 0))
        (CScore.mk2 (-rho - sigma) 1) (List.replicate (b.length + 1) bignegative)
        (glbRow0 b.length)).1 := by
    unfold GlbAlign.fill
    simp only
    rw [GlbAlign.rows_eq]
    rfl
  have hex : ∃ s, (GlbAlign.fill a b rho sigma delta).1[b.length]? = some s := by
    rw [hfill]
    exact ⟨_, List.getElem?_eq_getElem (by rw [hsm]; omega)⟩
  obtain ⟨s, hs⟩ := hex
  refine ⟨s, hs, ?_⟩
  have h := hS b.length s (by rw [hfill] at hs; exact hs) U hU (by omega) (by omega)
    (fun _ => ⟨hr, hc⟩)
  rw [hr, hc, Nat.sub_self, Nat.sub_self] at h
  exact h

theorem rle_types (U : List Char) : ∀ op ∈ U, ∃ e ∈ rle U, e.m_type = op := by
  induction U with
  | nil => intro op h; cases h
  | cons x U ih =>
    have hcons : rle (x :: U) = pushFrontList ⟨1, x⟩ (rle U) := rfl
    have hkeep : ∀ e ∈ rle U, ∃ e2 ∈ rle (x :: U), e2.m_type = e.m_type := by
      intro e he
      rw [hcons]
      cases hL : rle U with
      | nil => rw [hL] at he; cases he
      | cons f rest =>
        rw [hL] at he
        simp only [pushFrontList]
        split_ifs with h1
        · exact ⟨e, List.mem_cons_of_mem _ he, rfl⟩
        · rcases List.mem_cons.1 he with h | h
          · exact ⟨_, List.mem_cons_self _ _, by rw [h]⟩
          · exact ⟨e, List.mem_cons_of_mem _ h, rfl⟩
    have hnew : ∃ e ∈ rle (x :: U), e.m_type = x := by
      rw [hcons]
      cases hL : rle U with
      | nil => exact ⟨_, List.mem_cons_self _ _, rfl⟩
      | cons f rest =>
        simp only [pushFrontList]
        split_ifs with h1
        · exact ⟨_, List.mem_cons_self _ _, rfl⟩
        · simp only [ne_eq, not_not] at h1
          exact ⟨_, List.mem_cons_self _ _, h1⟩
    intro op hop
    rcases List.mem_cons.1 hop with h | h
    · rw [h]; exact hnew
    · obtain ⟨e, he, het⟩ := ih op h
      obtain ⟨e2, he2, het2⟩ := hkeep e he
      exact ⟨e2, he2, by rw [het2, het]⟩

theorem Score_mk2 (x y : Int) (h0 : 0 ≤ y) (h1 : y < 4294967296) :
    CScore.Score (CScore.mk2 x y) = x := by
  unfold CScore.Score CScore.mk2; omega

theorem pushFrontList_mem (el : SElement) (l : List SElement) (P : SElement → Prop)
    (hel : P el) (hl : ∀ e ∈ l, P e)
    (hmerge : ∀ f ∈ l, f.m_type = el.m_type → P { f with m_len := f.m_len + el.m_len }) :
    ∀ e ∈ pushFrontList el l, P e := by
  cases l with
  | nil =>
    intro e he
    simp only [pushFrontList, List.mem_singleton] at he
    rw [he]; exact hel
  | cons f rest =>
    intro e he
    simp only [pushFrontList] at he
    split_ifs at he with h1
    · rcases List.mem_cons.1 he with h | h
      · rw [h]; exact hel
      · exact hl e h
    · simp only [ne_eq, not_not] at h1
      rcases List.mem_cons.1 he with h | h
      · rw [h]; exact hmerge f (List.mem_cons_self _ _) h1
      · exact hl e (List.mem_cons_of_mem _ h)

/-- The well-formedness of a Cigar: the span invariant, no two adjacent elements
of the same kind, and elements of kind `M`, `I` or `D` with positive lengths. -/
theorem PushFront_wf (c : CCigar) (el : SElement) (hk : el.KindOK) (hlen : 0 < el.m_len)
    (h : c.SpanOK ∧ NoAdjacent c.m_elements ∧ ∀ e ∈ c.m_elements, e.KindOK ∧ 0 < e.m_len) :
    (c.PushFront el).SpanOK ∧ NoAdjacent (c.PushFront el).m_elements ∧
      ∀ e ∈ (c.PushFront el).m_elements, e.KindOK ∧ 0 < e.m_len := by
  obtain ⟨h1, h2, h3⟩ := h
  refine ⟨PushFront_span c el hk h1, pushFrontList_noAdjacent el _ h2, ?_⟩
  refine pushFrontList_mem el c.m_elements (fun e => e.KindOK ∧ 0 < e.m_len) ⟨hk, hlen⟩ h3 ?_
  intro f hf _
  obtain ⟨f1, f2⟩ := h3 f hf
  exact ⟨f1, by show 0 < f.m_len + el.m_len; omega⟩

/-- Every Cigar `BackTrack` returns is well formed. -/
theorem BackTrack_wf (ia ib : Int) (mtrx : List Nat) (m nb : Int) (C : CCigar)
    (h : BackTrack ia ib mtrx m nb = some C) :
    C.SpanOK ∧ NoAdjacent C.m_elements ∧ ∀ e ∈ C.m_elements, e.KindOK ∧ 0 < e.m_len := by
  unfold BackTrack at h
  refine BackTrack.loop_preserves
    (fun c => c.SpanOK ∧ NoAdjacent c.m_elements ∧ ∀ e ∈ c.m_elements, e.KindOK ∧ 0 < e.m_len)
    (fun c el hc hk hl => PushFront_wf c el hk hl hc) mtrx nb _ ia ib m _ C ?_ h
  refine ⟨init_span ia ib, ?_, ?_⟩
  · simp [NoAdjacent, CCigar.init]
  · intro e he; simp [CCigar.init] at he

theorem GlbAlign_wf (a b : List Nat) (rho sigma : Int) (delta : Nat → Nat → Int) (C : CCigar)
    (h : GlbAlign a b rho sigma delta = some C) :
    C.SpanOK ∧ NoAdjacent C.m_elements ∧ ∀ e ∈ C.m_elements, e.KindOK ∧ 0 < e.m_len := by
  unfold GlbAlign at h
  split_ifs at h
  exact BackTrack_wf _ _ _ _ _ C h

theorem LclAlign_wf (a b : List Nat) (rho sigma : Int) (delta : Nat → Nat → Int) (C : CCigar)
    (h : LclAlign a b rho sigma delta = some C) :
    C.SpanOK ∧ NoAdjacent C.m_elements ∧ ∀ e ∈ C.m_elements, e.KindOK ∧ 0 < e.m_len := by
  unfold LclAlign at h
  exact BackTrack_wf _ _ _ _ _ C h

/-- A path whose columns `BackTrack` pushed has kinds `M`, `I` and `D` only. -/
theorem PathOK_of_pushOps (U : List Char) (ia ib : Int)
    (h : ∀ e ∈ (pushOps U (CCigar.init ia ib)).m_elements, e.KindOK) : PathOK U := by
  intro op hop
  obtain ⟨e, he, het⟩ := rle_types U op hop
  have := h e (by rw [pushOps_elements]; exact he)
  rw [← het]; exact this

theorem SMatrix.dna_symm (mtch mismatch : Int) (i j : Nat) :
    SMatrix.dna mtch mismatch j i = SMatrix.dna mtch mismatch i j := by
  unfold SMatrix.dna
  simp only
  by_cases h : toupper i = toupper j
  · rw [h]
  · rw [if_neg (fun hh => h hh.2.symm), if_neg (fun hh => h hh.2)]

/-- Helper for the symmetry of the global kernel: under a symmetric scoring
function the two orders of the sequences give Cigars of the same score. -/
theorem GlbAlign_score_symm (a b : List Nat) (rho sigma : Int) (delta : Nat → Nat → Int)
    (hsym : ∀ x y, delta y x = delta x y)
    (ha : 1 ≤ a.length) (hb : 1 ≤ b.length) (hrho : 0 < rho) (hsig : 0 < sigma)
    (hmag : 2 * rho + sigma * ((a.length : Int) + (b.length : Int)) < 1073741824) :
    ∃ C D s, GlbAlign a b rho sigma delta = some C ∧ GlbAlign b a rho sigma delta = some D ∧
      C.Score a b rho sigma delta = some s ∧ D.Score b a rho sigma delta = some s ∧
      C.m_qfrom = 0 ∧ C.m_sfrom = 0 ∧ C.m_qto = (a.length : Int) - 1 ∧
      C.m_sto = (b.length : Int) - 1 ∧
      D.m_qfrom = 0 ∧ D.m_sfrom = 0 ∧ D.m_qto = (b.length : Int) - 1 ∧
      D.m_sto = (a.length : Int) - 1 := by
  have hna : (0 : Int) ≤ (a.length : Int) := by positivity
  have hnb : (0 : Int) ≤ (b.length : Int) := by positivity
  have hmag2 : 2 * rho + sigma * ((b.length : Int) + (a.length : Int)) < 1073741824 := by
    rw [add_comm (b.length : Int)]; exact hmag
  obtain ⟨U, hC, hUr, hUc, hUs⟩ :=
    GlbAlign_traced a b rho sigma delta hb (le_of_lt hrho) hsig hmag
  obtain ⟨V, hD, hVr, hVc, hVs⟩ :=
    GlbAlign_traced b a rho sigma delta ha (le_of_lt hrho) hsig hmag2
  have hUok : PathOK U := PathOK_of_pushOps U _ _
    (fun e he => ((GlbAlign_wf a b rho sigma delta _ hC).2.2 e he).1)
  have hVok : PathOK V := PathOK_of_pushOps V _ _
    (fun e he => ((GlbAlign_wf b a rho sigma delta _ hD).2.2 e he).1)
  have hle : ∀ (a b : List Nat) (U V : List Char), PathOK U → rowsOf U = a.length →
      colsOf U = b.length → 1 ≤ a.length →
      2 * rho + sigma * ((b.length : Int) + (a.length : Int)) < 1073741824 →
      (GlbAlign.fill b a rho sigma delta).1[a.length]? =
        some (CScore.mk2 (pathScore b a rho sigma delta 0 0 V) (b.length : Int)) →
      pathScore a b rho sigma delta 0 0 U ≤ pathScore b a rho sigma delta 0 0 V := by
    intro a b U V hU hr hc ha hm hs
    have hna : (0 : Int) ≤ (a.length : Int) := by positivity
    have hnb : (0 : Int) ≤ (b.length : Int) := by positivity
    obtain ⟨m1, m2, m3⟩ := mirror_facts U hU
    obtain ⟨s, hs1, hs2⟩ := GlbAlign_terminal_opt b a rho sigma delta ha (le_of_lt hrho)
      (le_of_lt hsig) (mirror U) m1 (by rw [m2, hc]) (by rw [m3, hr])
    rw [hs] at hs1
    rw [← Option.some.inj hs1, Score_mk2 _ _ hnb (by nlinarith),
      pathScore_mirror a b rho sigma delta delta hsym U hU 0 0] at hs2
    exact hs2
  have h1 := hle a b U V hUok hUr hUc ha hmag2 hVs
  have h2 := hle b a V U hVok hVr hVc hb hmag hUs
  have hSC := Score_pushOps a b rho sigma delta U a.length b.length (by omega) (by omega)
    (le_refl _) (le_refl _)
  rw [hUr, hUc, Nat.sub_self, Nat.sub_self] at hSC
  have hSD := Score_pushOps b a rho sigma delta V b.length a.length (by omega) (by omega)
    (le_refl _) (le_refl _)
  rw [hVr, hVc, Nat.sub_self, Nat.sub_self] at hSD
  refine ⟨_, _, pathScore a b rho sigma delta 0 0 U, hC, hD, hSC, ?_, ?_, ?_, ?_, ?_, ?_, ?_,
    ?_, ?_⟩
  · rw [hSD]; congr 1; omega
  · rw [pushOps_qfrom, hUr]; simp [CCigar.init]
  · rw [pushOps_sfrom, hUc]; simp [CCigar.init]
  · rw [pushOps_qto]; rfl
  · rw [pushOps_sto]; rfl
  · rw [pushOps_qfrom, hVr]; simp [CCigar.init]
  · rw [pushOps_sfrom, hVc]; simp [CCigar.init]
  · rw [pushOps_qto]; rfl
  · rw [pushOps_sto]; rfl

/-- Helper for the score of the local kernel: the Cigar it returns scores the
score component of the tracked maximum. -/
theorem LclAlign_score_eq (a b : List Nat) (rho sigma : Int) (delta : Nat → Nat → Int)
    (hrho : 0 < rho) (hsig : 0 < sigma) (hna : a.length < 4294967296) :
    ∃ C, LclAlign a b rho sigma delta = some C ∧
      C.Score a b rho sigma delta =
        some (CScore.Score (LclAlign.fill a b rho sigma delta).1.max_score) := by
  obtain ⟨r, c, v, U, -, hr, hc, hT, hv, -, hC⟩ :=
    LclAlign_traced a b rho sigma delta (le_of_lt hrho) hsig
  obtain ⟨h1, h2, -, h4, -⟩ := hT
  refine ⟨_, hC, ?_⟩
  rw [Score_pushOps a b rho sigma delta U r c h1 h2 hr hc, ← hv, h4,
    Score_mk2 _ _ (by positivity) (by omega)]

theorem sumAll_kinds (l : List SElement) (hk : ∀ e ∈ l, e.KindOK) :
    sumAll l = sumKind 'M' l + sumKind 'I' l + sumKind 'D' l := by
  induction l with
  | nil => rfl
  | cons e rest ih =>
    have h := ih (fun x hx => hk x (List.mem_cons_of_mem _ hx))
    unfold sumAll sumKind at h ⊢
    simp only [sumLen]
    rw [h]
    rcases hk e (List.mem_cons_self _ _) with h1 | h1 | h1 <;> rw [h1] <;> simp +decide <;> ring

theorem SMatrix.aaIndex_spec (x k : Nat) (h : SMatrix.aaIndex x = some k) :
    k < 24 ∧ (x = SMatrix.aa.getD k 0 ∨ x = tolower (SMatrix.aa.getD k 0)) := by
  unfold SMatrix.aaIndex at h
  have h2 := List.findIdx?_of_eq_some h
  cases hk : SMatrix.aa[k]? with
  | none => rw [hk] at h2; simp at h2
  | some v =>
    rw [hk] at h2
    have hlt : k < SMatrix.aa.length := by
      rcases Nat.lt_or_ge k SMatrix.aa.length with h3 | h3
      · exact h3
      · rw [List.getElem?_eq_none h3] at hk; cases hk
    have hv : SMatrix.aa.getD k 0 = v := by
      rw [List.getD_eq_getElem?_getD, hk]; rfl
    refine ⟨hlt, ?_⟩
    rw [hv]
    simp only [Bool.or_eq_true, decide_eq_true_eq] at h2
    rcases h2 with e | e
    · left; exact e.symm
    · right; exact e.symm

theorem SMatrix.aaIndex_letters :
    ∀ k < 24, SMatrix.aaIndex (SMatrix.aa.getD k 0) = some k ∧
      SMatrix.aaIndex (tolower (SMatrix.aa.getD k 0)) = some k := by
  decide

/-- A byte stands for `aa[k]` exactly when it is `aa[k]` or its lower case. -/
theorem SMatrix.aaIndex_iff (x k : Nat) (hk : k < 24) :
    (x = SMatrix.aa.getD k 0 ∨ x = tolower (SMatrix.aa.getD k 0)) ↔
      SMatrix.aaIndex x = some k := by
  constructor
  · rintro (h | h)
    · rw [h]; exact (SMatrix.aaIndex_letters k hk).1
    · rw [h]; exact (SMatrix.aaIndex_letters k hk).2
  · intro h; exact (SMatrix.aaIndex_spec x k h).2

theorem SMatrix.store4_gen (M : Nat → Nat → Int) (c lc d ld : Nat) (v : Int) (x y : Nat) :
    SMatrix.store (SMatrix.store (SMatrix.store (SMatrix.store M c d v) lc ld v) c ld v)
        lc d v x y =
      if (x = c ∨ x = lc) ∧ (y = d ∨ y = ld) then v else M x y := by
  simp only [SMatrix.store]
  by_cases h1 : x = c <;> by_cases h2 : x = lc <;> by_cases h3 : y = d <;>
    by_cases h4 : y = ld <;> simp [h1, h2, h3, h4]

/-- The four stores of one round of the inner loop. -/
theorem SMatrix.store4 (M : Nat → Nat → Int) (i j : Nat) (hi : i < 24) (hj : j < 24)
    (v : Int) (x y : Nat) :
    SMatrix.store (SMatrix.store (SMatrix.store (SMatrix.store M (SMatrix.aa.getD i 0)
        (SMatrix.aa.getD j 0) v) (tolower (SMatrix.aa.getD i 0)) (tolower (SMatrix.aa.getD j 0)) v)
        (SMatrix.aa.getD i 0) (tolower (SMatrix.aa.getD j 0)) v)
        (tolower (SMatrix.aa.getD i 0)) (SMatrix.aa.getD j 0) v x y =
      if SMatrix.aaIndex x = some i ∧ SMatrix.aaIndex y = some j then v else M x y := by
  rw [SMatrix.store4_gen]
  have hx := SMatrix.aaIndex_iff x i hi
  have hy := SMatrix.aaIndex_iff y j hj
  by_cases h : SMatrix.aaIndex x = some i ∧ SMatrix.aaIndex y = some j
  · rw [if_pos h, if_pos ⟨hx.2 h.1, hy.2 h.2⟩]
  · rw [if_neg h, if_neg (fun hh => h ⟨hx.1 hh.1, hy.1 hh.2⟩)]

theorem SMatrix.proteinInner_spec (i : Nat) (hi : i < 24) (x y : Nat) :
    ∀ (js : List Nat) (M : Nat → Nat → Int), (∀ j ∈ js, j < 24) →
      SMatrix.proteinInner i M js x y =
        match SMatrix.aaIndex x, SMatrix.aaIndex y with
        | some i', some j' =>
          if i' = i ∧ j' ∈ js then SMatrix.scores.getD (24 * j' + i) 0 else M x y
        | _, _ => M x y := by
  intro js
  induction js with
  | nil =>
    intro M _
    simp only [SMatrix.proteinInner, List.not_mem_nil, and_false, if_false]
    cases SMatrix.aaIndex x <;> cases SMatrix.aaIndex y <;> rfl
  | cons j js ih =>
    intro M hjs
    have hj := hjs j (List.mem_cons_self _ _)
    simp only [SMatrix.proteinInner]
    rw [ih _ (fun k hk => hjs k (List.mem_cons_of_mem _ hk))]
    have hlen : SMatrix.aa.length = 24 := rfl
    rw [hlen, SMatrix.store4 M i j hi hj]
    cases hx : SMatrix.aaIndex x with
    | none => simp
    | some i' =>
      cases hy : SMatrix.aaIndex y with
      | none => simp
      | some j' =>
        simp only [Option.some.injEq, List.mem_cons]
        by_cases h1 : i' = i
        · by_cases h2 : j' ∈ js
          · simp [h1, h2]
          · by_cases h3 : j' = j
            · simp [h1, h3]
            · simp [h1, h2, h3]
        · simp [h1]

theorem SMatrix.proteinOuter_spec (x y : Nat) :
    ∀ (is : List Nat) (M : Nat → Nat → Int), (∀ i ∈ is, i < 24) →
      SMatrix.proteinOuter M is x y =
        match SMatrix.aaIndex x, SMatrix.aaIndex y with
        | some i', some j' =>
          if i' ∈ is then SMatrix.scores.getD (24 * j' + i') 0 else M x y
        | _, _ => M x y := by
  intro is
  induction is with
  | nil =>
    intro M _
    simp only [SMatrix.proteinOuter, List.not_mem_nil, if_false]
    cases SMatrix.aaIndex x <;> cases SMatrix.aaIndex y <;> rfl
  | cons i is ih =>
    intro M his
    have hi := his i (List.mem_cons_self _ _)
    simp only [SMatrix.proteinOuter]
    rw [ih _ (fun k hk => his k (List.mem_cons_of_mem _ hk))]
    have hlen : SMatrix.aa.length = 24 := rfl
    rw [hlen, SMatrix.proteinInner_spec i hi x y (List.range 24) M
      (fun j hj => List.mem_range.1 hj)]
    cases hx : SMatrix.aaIndex x with
    | none => simp
    | some i' =>
      cases hy : SMatrix.aaIndex y with
      | none => simp
      | some j' =>
        have hj' := (SMatrix.aaIndex_spec y j' hy).1
        simp only [List.mem_cons, List.mem_range]
        by_cases h1 : i' ∈ is
        · simp [h1]
        · by_cases h2 : i' = i
          · simp [h2, hj']
          · simp [h1, h2]

/-- The table the protein constructor builds, entry by entry. -/
theorem SMatrix.protein_closed (x y : Nat) : SMatrix.protein x y = SMatrix.proteinClosed x y := by
  unfold SMatrix.protein SMatrix.proteinClosed
  have hlen : SMatrix.aa.length = 24 := rfl
  rw [hlen, SMatrix.proteinOuter_spec x y (List.range 24) _ (fun i hi => List.mem_range.1 hi)]
  cases hx : SMatrix.aaIndex x with
  | none => rfl
  | some i' =>
    cases hy : SMatrix.aaIndex y with
    | none => rfl
    | some j' =>
      have hi' := (SMatrix.aaIndex_spec x i' hx).1
      simp [hi']

set_option maxRecDepth 100000 in
/-- The array `scores` is symmetric. -/
theorem SMatrix.scores_symm :
    ∀ i < 24, ∀ j < 24, SMatrix.scores.getD (24 * j + i) 0 = SMatrix.scores.getD (24 * i + j) 0 := by
  decide

theorem toupper_toupper (i : Nat) : toupper (toupper i) = toupper i := by
  unfold toupper; split_ifs <;> omega

theorem toupper_tolower (i : Nat) : toupper (tolower i) = toupper i := by
  unfold toupper tolower; split_ifs <;> omega

theorem SMatrix.dna_upper (mtch mismatch : Int) (i j i2 j2 : Nat)
    (hi : toupper i2 = toupper i) (hj : toupper j2 = toupper j) :
    SMatrix.dna mtch mismatch i2 j2 = SMatrix.dna mtch mismatch i j := by
  unfold SMatrix.dna
  simp only [hi, hj]

theorem SMatrix.protein_symm (i j : Nat) : SMatrix.protein i j = SMatrix.protein j i := by
  rw [SMatrix.protein_closed, SMatrix.protein_closed]
  unfold SMatrix.proteinClosed
  cases hi : SMatrix.aaIndex i with
  | none => cases hj : SMatrix.aaIndex j <;> rfl
  | some k =>
    cases hj : SMatrix.aaIndex j with
    | none => rfl
    | some l =>
      have hk := (SMatrix.aaIndex_spec i k hi).1
      have hl := (SMatrix.aaIndex_spec j l hj).1
      exact SMatrix.scores_symm k hk l hl

theorem SMatrix.aaIndex_none (i : Nat)
    (h : ∀ k < 24, i ≠ SMatrix.aa.getD k 0 ∧ i ≠ tolower (SMatrix.aa.getD k 0)) :
    SMatrix.aaIndex i = none := by
  cases hi : SMatrix.aaIndex i with
  | none => rfl
  | some k =>
    obtain ⟨hk, hx⟩ := SMatrix.aaIndex_spec i k hi
    rcases hx with e | e
    · exact absurd e (h k hk).1
    · exact absurd e (h k hk).2

theorem SMatrix.protein_entry (x y k l : Nat) (hx : SMatrix.aaIndex x = some k)
    (hy : SMatrix.aaIndex y = some l) :
    SMatrix.protein x y = SMatrix.scores.getD (24 * l + k) 0 := by
  rw [SMatrix.protein_closed]
  unfold SMatrix.proteinClosed
  rw [hx, hy]
  rfl

theorem LclAlignPin.cell_false (rsa rsb sigma d : Int) (smj smj1 sp gapa gapbj : Int)
    (mx : MaxState) (m : Nat) :
    LclAlignPin.cell false rsa rsb sigma d smj smj1 sp gapa gapbj mx m =
      LclAlign.cell rsa rsb sigma d smj smj1 sp gapa gapbj mx m := by
  unfold LclAlignPin.cell LclAlign.cell
  simp only [and_true]

theorem LclAlignPin.cell_true (rsa rsb sigma d : Int) (smj smj1 sp gapa gapbj : Int)
    (mx : MaxState) (m : Nat) :
    LclAlignPin.cell true rsa rsb sigma d smj smj1 sp gapa gapbj mx m =
      (GlbAlign.cell rsa rsb sigma d smj smj1 sp gapa gapbj,
       if ((GlbAlign.cell rsa rsb sigma d smj smj1 sp gapa gapbj).bits &&& Agap = 0 ∧
            (GlbAlign.cell rsa rsb sigma d smj smj1 sp gapa gapbj).bits &&& Bgap = 0) ∧
          smj + CScore.mk2 d 1 > mx.max_score
        then ⟨smj + CScore.mk2 d 1, m⟩ else mx) := by
  unfold LclAlignPin.cell GlbAlign.cell
  simp only [Bool.true_eq_false, and_false, if_false]
  generalize smj + CScore.mk2 d 1 = ss
  generalize sp + rsa = oa
  generalize gapa + CScore.mk2 (-sigma) 0 = ea
  generalize smj1 + rsb = ob
  generalize gapbj + CScore.mk2 (-sigma) 1 = eb
  by_cases h1 : oa > ea <;> by_cases h2 : ob > eb <;>
    simp only [h1, h2, if_true, if_false] <;>
    [(by_cases h3 : oa > ob <;> simp only [h3, if_true, if_false] <;>
      [by_cases h4 : ss > oa; by_cases h4 : ss > ob]);
     (by_cases h3 : oa > eb <;> simp only [h3, if_true, if_false] <;>
      [by_cases h4 : ss > oa; by_cases h4 : ss > eb]);
     (by_cases h3 : ea > ob <;> simp only [h3, if_true, if_false] <;>
      [by_cases h4 : ss > ea; by_cases h4 : ss > ob]);
     (by_cases h3 : ea > eb <;> simp only [h3, if_true, if_false] <;>
      [by_cases h4 : ss > ea; by_cases h4 : ss > eb])] <;>
    simp only [h4, if_true, if_false] <;>
    by_cases h5 : ss > mx.max_score <;>
    simp +decide only [h5, if_true, if_false, Astart, Bstart, Agap, Bgap, Zero, true_and,
      and_true, and_self, and_false, false_and]

/-- The cell of the semi-global kernel is the shared cell, reset as in a local
kernel unless the left end is pinned, and the maximum moves only to a cell that
extends the diagonal. -/
theorem LclAlignPin.cell_eq (pinleft : Bool) (rsa rsb sigma d : Int)
    (smj smj1 sp gapa gapbj : Int) (mx : MaxState) (m : Nat) :
    LclAlignPin.cell pinleft rsa rsb sigma d smj smj1 sp gapa gapbj mx m =
      (cellOutcome (!pinleft) (GlbAlign.cell rsa rsb sigma d smj smj1 sp gapa gapbj),
       if ((GlbAlign.cell rsa rsb sigma d smj smj1 sp gapa gapbj).bits &&& Agap = 0 ∧
            (GlbAlign.cell rsa rsb sigma d smj smj1 sp gapa gapbj).bits &&& Bgap = 0) ∧
          smj + CScore.mk2 d 1 > mx.max_score
        then ⟨smj + CScore.mk2 d 1, m⟩ else mx) := by
  cases pinleft with
  | false => rw [LclAlignPin.cell_false, LclAlign.cell_eq_aux]; rfl
  | true => rw [LclAlignPin.cell_true]; simp only [Bool.not_true, cellOutcome_false]

/-- The inner loop of the semi-global kernel computes the shared cells, and its
maximum either stays or moves to one of the cells of the row. -/
theorem LclAlignPin.cols_eq_pin (pinleft : Bool) (rho sigma : Int) (matrix : Nat → Int) :
    ∀ (bs : List Nat) (sm gapb : List Int) (sp gapa : Int) (mx : MaxState) (m : Nat),
      (LclAlignPin.cols pinleft (CScore.mk2 (-rho - sigma) 0) (CScore.mk2 (-rho - sigma) 1)
          sigma matrix bs sm gapb sp gapa mx m).1 =
        (colsG (!pinleft) rho sigma matrix bs sm gapb sp gapa).map CellOut.sp ∧
      (LclAlignPin.cols pinleft (CScore.mk2 (-rho - sigma) 0) (CScore.mk2 (-rho - sigma) 1)
          sigma matrix bs sm gapb sp gapa mx m).2.1 =
        (colsG (!pinleft) rho sigma matrix bs sm gapb sp gapa).map CellOut.gapbj ∧
      (LclAlignPin.cols pinleft (CScore.mk2 (-rho - sigma) 0) (CScore.mk2 (-rho - sigma) 1)
          sigma matrix bs sm gapb sp gapa mx m).2.2.1 =
        (colsG (!pinleft) rho sigma matrix bs sm gapb sp gapa).map CellOut.bits ∧
      ((LclAlignPin.cols pinleft (CScore.mk2 (-rho - sigma) 0) (CScore.mk2 (-rho - sigma) 1)
          sigma matrix bs sm gapb sp gapa mx m).2.2.2 = mx ∨
        ∃ i, i < (colsG (!pinleft) rho sigma matrix bs sm gapb sp gapa).length ∧
          (LclAlignPin.cols pinleft (CScore.mk2 (-rho - sigma) 0)
            (CScore.mk2 (-rho - sigma) 1) sigma matrix bs sm gapb sp gapa mx m).2.2.2.max_ptr =
              m + 1 + i) := by
  intro bs
  induction bs with
  | nil => intro sm gapb sp gapa mx m; simp [LclAlignPin.cols, colsG]
  | cons bj bs ih =>
    intro sm gapb sp gapa mx m
    match sm, gapb with
    | [], _ => simp [LclAlignPin.cols, colsG]
    | [_], _ => simp [LclAlignPin.cols, colsG]
    | _ :: _ :: _, [] => simp [LclAlignPin.cols, colsG]
    | smj :: smj1 :: sms, gbj :: gbs =>
      simp only [LclAlignPin.cols, colsG, LclAlignPin.cell_eq, List.map_cons]
      set G := GlbAlign.cell (CScore.mk2 (-rho - sigma) 0) (CScore.mk2 (-rho - sigma) 1) sigma
        (matrix bj) smj smj1 sp gapa gbj with hG
      set mx1 : MaxState := if (G.bits &&& Agap = 0 ∧ G.bits &&& Bgap = 0) ∧
        smj + CScore.mk2 (matrix bj) 1 > mx.max_score
        then ⟨smj + CScore.mk2 (matrix bj) 1, m + 1⟩ else mx with hmx1
      obtain ⟨e1, e2, e3, e4⟩ := ih (smj1 :: sms) gbs (cellOutcome (!pinleft) G).sp
        (cellOutcome (!pinleft) G).gapa mx1 (m + 1)
      refine ⟨by rw [e1], by rw [e2], by rw [e3], ?_⟩
      rcases e4 with h | ⟨i, hi, hp⟩
      · rw [h]
        by_cases hc : (G.bits &&& Agap = 0 ∧ G.bits &&& Bgap = 0) ∧
            smj + CScore.mk2 (matrix bj) 1 > mx.max_score
        · right
          refine ⟨0, by simp, ?_⟩
          rw [hmx1, if_pos hc]
        · left
          rw [hmx1, if_neg hc]
      · right
        refine ⟨i + 1, by simpa using hi, ?_⟩
        rw [hp]; omega

/-- Started before the first base of both sequences, `BackTrack` returns the
fresh Cigar. -/
theorem BackTrack_origin (mtrx : List Nat) (m nb : Int) :
    BackTrack (-1) (-1) mtrx m nb = some (CCigar.init (-1) (-1)) := by
  unfold BackTrack
  rw [BackTrack.loop]
  rw [if_neg (by omega)]

/-- Started at a cell marked `Zero`, `BackTrack` returns the fresh Cigar. -/
theorem BackTrack_zero (ia ib : Int) (mtrx : List Nat) (m nb : Int)
    (h : deref mtrx m = some Zero) :
    BackTrack ia ib mtrx m nb = some (CCigar.init ia ib) := by
  unfold BackTrack
  rw [BackTrack.loop]
  split_ifs with hc
  · rw [h]
    have hb1 : Zero &&& Zero ≠ 0 := by decide
    simp only [hb1, ne_eq, not_false_eq_true, if_true]
  · rfl

theorem LclAlign.cols_nil (rsa rsb sigma : Int) (matrix : Nat → Int) (sm gapb : List Int)
    (sp gapa : Int) (mx : MaxState) (m : Nat) :
    LclAlign.cols rsa rsb sigma matrix [] sm gapb sp gapa mx m = ([], [], [], mx) := by
  unfold LclAlign.cols; rfl

theorem LclAlignPin.cols_nil_pin (pinleft : Bool) (rsa rsb sigma : Int) (matrix : Nat → Int)
    (sm gapb : List Int) (sp gapa : Int) (mx : MaxState) (m : Nat) :
    LclAlignPin.cols pinleft rsa rsb sigma matrix [] sm gapb sp gapa mx m = ([], [], [], mx) := by
  unfold LclAlignPin.cols; rfl

theorem LclAlign.rows_nil_b (rsa rsb sigma : Int) (delta : Nat → Nat → Int) :
    ∀ (as : List Nat) (sm gapb : List Int) (mx : MaxState) (mtrx : List Nat),
      LclAlign.rows rsa rsb sigma delta [] as sm gapb mx mtrx =
        (mx, mtrx ++ List.replicate as.length Zero) := by
  intro as
  induction as with
  | nil => intro sm gapb mx mtrx; simp [LclAlign.rows]
  | cons ai as ih =>
    intro sm gapb mx mtrx
    simp only [LclAlign.rows, LclAlign.cols_nil]
    rw [ih]
    simp [List.replicate_succ]

theorem LclAlignPin.rows_nil_pin (pinleft : Bool) (rsa rsb sigma : Int)
    (delta : Nat → Nat → Int) :
    ∀ (as : List Nat) (sm : List Int) (s0 : Int) (gapb : List Int) (mx : MaxState)
      (mtrx : List Nat),
      (LclAlignPin.rows pinleft rsa rsb sigma delta [] as sm s0 gapb mx mtrx).2 =
        (mx, mtrx ++ List.replicate as.length
          (if pinleft = true then Bstart ||| Bgap else Zero)) := by
  intro as
  induction as with
  | nil => intro sm s0 gapb mx mtrx; simp [LclAlignPin.rows]
  | cons ai as ih =>
    intro sm s0 gapb mx mtrx
    simp only [LclAlignPin.rows, LclAlignPin.cols_nil_pin]
    rw [ih]
    simp [List.replicate_succ]

/-- The local kernel returns the fresh Cigar when a sequence is empty, whatever
the gap parameters. -/
theorem LclAlign_empty (a b : List Nat) (rho sigma : Int) (delta : Nat → Nat → Int)
    (h : a = [] ∨ b = []) :
    LclAlign a b rho sigma delta = some (CCigar.init (-1) (-1)) := by
  have hp : (LclAlign.fill a b rho sigma delta).1.max_ptr = 0 := by
    rcases h with h | h
    · subst h; rfl
    · subst h
      unfold LclAlign.fill
      simp only
      rw [LclAlign.rows_nil_b]
  unfold LclAlign
  simp only
  rw [hp]
  have e1 : ((0 : Nat) : Int) / ((b.length : Int) + 1) - 1 = -1 := by simp
  have e2 : ((0 : Nat) : Int) % ((b.length : Int) + 1) - 1 = -1 := by simp
  rw [e1, e2]
  exact BackTrack_origin _ _ _

/-- The semi-global kernel with a free right end returns the fresh Cigar when a
sequence is empty, whatever the gap parameters. -/
theorem LclAlignPin_empty_free (a b : List Nat) (rho sigma : Int) (pinleft : Bool)
    (delta : Nat → Nat → Int) (h : a = [] ∨ b = []) :
    LclAlignPin a b rho sigma pinleft false delta = some (CCigar.init (-1) (-1)) := by
  have hp : (LclAlignPin.fill a b rho sigma pinleft delta).2.1.max_ptr = 0 := by
    rcases h with h | h
    · subst h; rfl
    · subst h
      unfold LclAlignPin.fill
      simp only
      rw [LclAlignPin.rows_nil_pin]
  unfold LclAlignPin
  simp only [Bool.false_eq_true, if_false]
  rw [hp]
  have e1 : ((0 : Nat) : Int) / ((b.length : Int) + 1) - 1 = -1 := by simp
  have e2 : ((0 : Nat) : Int) % ((b.length : Int) + 1) - 1 = -1 := by simp
  rw [e1, e2]
  exact BackTrack_origin _ _ _

/-- The semi-global kernel with a free left end and a pinned right end returns a
Cigar with no element when a sequence is empty. -/
theorem LclAlignPin_empty_right (a b : List Nat) (rho sigma : Int)
    (delta : Nat → Nat → Int) (h : a = [] ∨ b = []) :
    LclAlignPin a b rho sigma false true delta =
      some (CCigar.init ((a.length : Int) - 1) ((b.length : Int) - 1)) := by
  unfold LclAlignPin
  simp only [if_true]
  by_cases h0 : a = [] ∧ b = []
  · obtain ⟨ha, hb⟩ := h0
    subst ha; subst hb
    exact BackTrack_origin _ _ _
  · apply BackTrack_zero
    rcases h with h | h
    · subst h
      have hb : b ≠ [] := fun hb => h0 ⟨rfl, hb⟩
      have hl : 0 < b.length := List.length_pos.2 hb
      have hf : (LclAlignPin.fill [] b rho sigma false delta).2.2 =
          0 :: List.replicate b.length Zero := rfl
      rw [hf]
      unfold deref
      simp only [List.length_nil, Nat.cast_zero, zero_mul, add_zero]
      rw [if_neg (by omega), Int.toNat_ofNat]
      obtain ⟨n, hn⟩ : ∃ n, b.length = n + 1 := ⟨b.length - 1, by omega⟩
      rw [hn, List.getElem?_cons_succ, List.getElem?_replicate, if_pos (by omega)]
    · subst h
      have ha : a ≠ [] := fun ha => h0 ⟨ha, rfl⟩
      have hl : 0 < a.length := List.length_pos.2 ha
      have hf : (LclAlignPin.fill a [] rho sigma false delta).2.2 =
          [0] ++ List.replicate a.length Zero := by
        unfold LclAlignPin.fill
        simp only
        rw [LclAlignPin.rows_nil_pin]
        rfl
      rw [hf]
      unfold deref
      simp only [List.length_nil, Nat.cast_zero, zero_add, mul_one]
      rw [if_neg (by omega), Int.toNat_ofNat]
      obtain ⟨n, hn⟩ : ∃ n, a.length = n + 1 := ⟨a.length - 1, by omega⟩
      rw [hn, List.singleton_append, List.getElem?_cons_succ, List.getElem?_replicate,
        if_pos (by omega)]

/-- The traceback from the last cell of the first row of the global bitmap: one
`D` element over the whole of `b`. -/
theorem glbRow0_backtrack (b : List Nat) (hb : 1 ≤ b.length) :
    BackTrack (-1) ((b.length : Int) - 1) (glbRow0 b.length) (b.length : Int) (b.length : Int) =
      some ⟨[⟨(b.length : Int), 'D'⟩], 0, -1, 0, (b.length : Int) - 1⟩ := by
  obtain ⟨-, -, -, -, h5⟩ := glbRow0_traced [] b 0 0 (fun _ _ => 0) b.length (le_refl _)
  have := h5 [] ((b.length : Int).toNat + 2) (CCigar.init (-1) ((b.length : Int) - 1))
    (by simp)
  rw [List.append_nil, idx_zero_row] at this
  unfold BackTrack
  have e0 : (((0 : Nat) : Int) - 1) = -1 := by simp
  rw [e0] at this
  rw [this]
  obtain ⟨n, hn⟩ : ∃ n, b.length = n + 1 := ⟨b.length - 1, by omega⟩
  rw [hn, pushOps_replicate]
  simp [CCigar.PushFront, CCigar.init, pushFrontList]

/-- With no row the global kernel returns one `D` element over the whole of `b`,
whatever the gap parameters. -/
theorem GlbAlign_empty_a (b : List Nat) (rho sigma : Int) (delta : Nat → Nat → Int)
    (hb : 1 ≤ b.length) :
    GlbAlign [] b rho sigma delta =
      some ⟨[⟨(b.length : Int), 'D'⟩], 0, -1, 0, (b.length : Int) - 1⟩ := by
  unfold GlbAlign
  rw [if_neg (by omega)]
  simp only [List.length_nil, Nat.cast_zero, zero_sub, zero_add, one_mul, add_sub_cancel_right]
  have hf : (GlbAlign.fill [] b rho sigma delta).2 = glbRow0 b.length := rfl
  rw [hf]
  exact glbRow0_backtrack b hb

/-- With no row the semi-global kernel with both ends pinned returns one `D`
element over the whole of `b`, whatever the gap parameters. -/
theorem LclAlignPin_empty_a (b : List Nat) (rho sigma : Int) (delta : Nat → Nat → Int)
    (hb : 1 ≤ b.length) :
    LclAlignPin [] b rho sigma true true delta =
      some ⟨[⟨(b.length : Int), 'D'⟩], 0, -1, 0, (b.length : Int) - 1⟩ := by
  unfold LclAlignPin
  simp only [if_true, List.length_nil, Nat.cast_zero, zero_sub, zero_mul, add_zero]
  have hf : (LclAlignPin.fill [] b rho sigma true delta).2.2 = glbRow0 b.length := by
    show LclAlignPin.mtrx0 true b.length = glbRow0 b.length
    unfold LclAlignPin.mtrx0 glbRow0
    rw [if_pos rfl, if_pos (by omega)]
    rfl
  rw [hf]
  exact glbRow0_backtrack b hb

/-- The traceback down the first column of a bitmap without columns: a run of
`I` columns. -/
theorem col0_backtrack (n : Nat) :
    ∀ (r fuel : Nat) (T : CCigar), r ≤ n → r + 1 ≤ fuel →
      BackTrack.loop ([0] ++ List.replicate n (Bstart ||| Bgap)) 0 fuel ((r : Int) - 1) (-1)
        (r : Int) T = some (pushOps (List.replicate r 'I') T) := by
  intro r
  induction r with
  | zero =>
    intro fuel T _ hf
    cases fuel with
    | zero => omega
    | succ f =>
      rw [BackTrack.loop]
      rw [if_neg (by simp)]
      rfl
  | succ r ih =>
    intro fuel T hr hf
    cases fuel with
    | zero => omega
    | succ f =>
      rw [BackTrack.loop]
      have hd : deref ([0] ++ List.replicate n (Bstart ||| Bgap)) ((r + 1 : Nat) : Int) =
          some (Bstart ||| Bgap) := by
        unfold deref
        rw [if_neg (by omega), Int.toNat_ofNat, List.singleton_append, List.getElem?_cons_succ,
          List.getElem?_replicate, if_pos (by omega)]
      rw [if_pos (by left; push_cast; omega), hd]
      have b1 : ¬ ((Bstart ||| Bgap) &&& Zero ≠ 0) := by decide
      have b2 : ¬ ((Bstart ||| Bgap) &&& Agap ≠ 0) := by decide
      have b3 : (Bstart ||| Bgap) &&& Bgap ≠ 0 := by decide
      have b4 : (Bstart ||| Bgap) &&& Bstart ≠ 0 := by decide
      simp only [b1, b2, b3, if_true, if_false]
      have hw : BackTrack.walk ([0] ++ List.replicate n (Bstart ||| Bgap)) Bstart (0 + 1)
          (((r + 1 : Nat) : Int).toNat + 1) ((r + 1 : Nat) : Int) 1 =
            some (((r + 1 : Nat) : Int), 1) := by
        rw [BackTrack.walk, hd]
        exact if_pos b4
      rw [hw]
      simp only
      have e1 : ((r + 1 : Nat) : Int) - 1 - 1 = (r : Int) - 1 := by push_cast; omega
      have e2 : ((r + 1 : Nat) : Int) - (0 + 1) = (r : Int) := by push_cast; omega
      rw [e1, e2, ih f _ (by omega) (by omega)]
      rw [List.replicate_succ', pushOps_append]
      rfl

/-- Without columns the semi-global kernel with both ends pinned returns one `I`
element over the whole of `a`, whatever the gap parameters. -/
theorem LclAlignPin_empty_b (a : List Nat) (rho sigma : Int) (delta : Nat → Nat → Int)
    (ha : 1 ≤ a.length) :
    LclAlignPin a [] rho sigma true true delta =
      some ⟨[⟨(a.length : Int), 'I'⟩], 0, (a.length : Int) - 1, 0, -1⟩ := by
  unfold LclAlignPin
  simp only [if_true, List.length_nil, Nat.cast_zero, zero_sub, zero_add, mul_one]
  have hf : (LclAlignPin.fill a [] rho sigma true delta).2.2 =
      [0] ++ List.replicate a.length (Bstart ||| Bgap) := by
    unfold LclAlignPin.fill
    simp only
    rw [LclAlignPin.rows_nil_pin]
    rfl
  rw [hf]
  unfold BackTrack
  rw [col0_backtrack a.length a.length _ _ (le_refl _) (by simp)]
  obtain ⟨n, hn⟩ : ∃ n, a.length = n + 1 := ⟨a.length - 1, by omega⟩
  rw [hn, pushOps_replicate]
  simp [CCigar.PushFront, CCigar.init, pushFrontList]

/-- The compact rendering of a Cigar with no element: soft clips only. -/
theorem CigarChars_empty (C : CCigar) (qstart qlen : Int) (h : C.m_elements = []) :
    C.CigarChars qstart qlen =
      (if qstart + C.m_qfrom > 0 then to_string (qstart + C.m_qfrom) ++ ['S'] else []) ++
        (if qlen - 1 - C.m_qto - qstart > 0 then to_string (qlen - 1 - C.m_qto - qstart) ++ ['S']
          else []) := by
  unfold CCigar.CigarChars
  simp only [h, CCigar.elementChars]
  split_ifs <;> simp

/-- A cell marked `Zero` is traced by the empty path. -/
theorem BandTraced.zero (lims : List (Nat × Nat)) (nb : Nat) (P : Int → Prop) (M : List Nat)
    (r c : Nat) (v : Nat) (hP : P (idx nb r c)) (hv : deref M (idx nb r c) = some v)
    (hz : v &&& Zero ≠ 0) : BandTraced lims nb P M r c [] := by
  refine ⟨fun _ h => absurd h (List.not_mem_nil _), Nat.zero_le _, Nat.zero_le _, trivial, ?_⟩
  intro M' fuel T hA hf
  cases fuel with
  | zero => omega
  | succ f =>
    rw [BackTrack.loop, hA _ hP, hv]
    simp only [hz, ne_eq, not_false_eq_true, if_true]
    split_ifs <;> rfl

theorem getD_set_self (l : List Int) (k : Nat) (v d : Int) (h : k < l.length) :
    (l.set k v).getD k d = v := by
  simp [List.getD_eq_getElem?_getD, List.getElem?_set, h]

theorem idx_cast (nb r c : Nat) : idx nb r c = ((r * (nb + 1) + c : Nat) : Int) := by
  unfold idx; push_cast; ring

theorem rle_cons (op : Char) (U : List Char) : rle (op :: U) = pushFrontList ⟨1, op⟩ (rle U) :=
  rfl

/-- With the left end pinned the inner loop of the semi-global kernel computes
what the inner loop of `GlbAlign` computes. -/
theorem LclAlignPin.cols_true_glb (rho sigma : Int) (matrix : Nat → Int)
    (bs : List Nat) (sm gapb : List Int) (sp gapa : Int) (mx : MaxState) (m : Nat) :
    ((LclAlignPin.cols true (CScore.mk2 (-rho - sigma) 0) (CScore.mk2 (-rho - sigma) 1)
        sigma matrix bs sm gapb sp gapa mx m).1,
     (LclAlignPin.cols true (CScore.mk2 (-rho - sigma) 0) (CScore.mk2 (-rho - sigma) 1)
        sigma matrix bs sm gapb sp gapa mx m).2.1,
     (LclAlignPin.cols true (CScore.mk2 (-rho - sigma) 0) (CScore.mk2 (-rho - sigma) 1)
        sigma matrix bs sm gapb sp gapa mx m).2.2.1) =
      GlbAlign.cols (CScore.mk2 (-rho - sigma) 0) (CScore.mk2 (-rho - sigma) 1) sigma matrix
        bs sm gapb sp gapa := by
  obtain ⟨e1, e2, e3, -⟩ := LclAlignPin.cols_eq_pin true rho sigma matrix bs sm gapb sp gapa mx m
  rw [GlbAlign.cols_eq, e1, e2, e3]
  rfl

/-- With the left end pinned the outer loop of the semi-global kernel leaves the
row `sm` and the bitmap that the outer loop of `GlbAlign` leaves. -/
theorem LclAlignPin.rows_true_glb (rho sigma : Int) (delta : Nat → Nat → Int) (b : List Nat) :
    ∀ (as : List Nat) (sm : List Int) (s0 : Int) (gapb : List Int) (mx : MaxState)
      (mtrx : List Nat),
      ((LclAlignPin.rows true (CScore.mk2 (-rho - sigma) 0) (CScore.mk2 (-rho - sigma) 1)
          sigma delta b as sm s0 gapb mx mtrx).1,
       (LclAlignPin.rows true (CScore.mk2 (-rho - sigma) 0) (CScore.mk2 (-rho - sigma) 1)
          sigma delta b as sm s0 gapb mx mtrx).2.2) =
        GlbAlign.rows (CScore.mk2 (-rho - sigma) 0) (CScore.mk2 (-rho - sigma) 1) sigma delta b
          as sm s0 gapb mtrx := by
  intro as
  induction as with
  | nil => intro sm s0 gapb mx mtrx; rfl
  | cons ai as ih =>
    intro sm s0 gapb mx mtrx
    have h := LclAlignPin.cols_true_glb rho sigma (delta ai) b sm gapb.tail s0 bignegative mx
      mtrx.length
    have h1 := congrArg Prod.fst h
    have h2 := congrArg (fun x => x.2.1) h
    have h3 := congrArg (fun x => x.2.2) h
    simp only at h1 h2 h3
    simp only [LclAlignPin.rows, GlbAlign.rows, if_true]
    rw [h1, h2, h3]
    exact ih _ _ _ _ _

/-- The kernel with both ends pinned is `GlbAlign`: same bitmap, same result. -/
theorem LclAlignPin_both_glb (a b : List Nat) (rho sigma : Int) (delta : Nat → Nat → Int)
    (hb : 1 ≤ b.length) :
    (LclAlignPin.fill a b rho sigma true delta).2.2 = (GlbAlign.fill a b rho sigma delta).2 ∧
      (LclAlignPin.fill a b rho sigma true delta).1 = (GlbAlign.fill a b rho sigma delta).1 ∧
      LclAlignPin a b rho sigma true true delta = GlbAlign a b rho sigma delta := by
  have hfill : ((LclAlignPin.fill a b rho sigma true delta).1,
      (LclAlignPin.fill a b rho sigma true delta).2.2) = GlbAlign.fill a b rho sigma delta := by
    unfold LclAlignPin.fill GlbAlign.fill LclAlignPin.sm0 LclAlignPin.mtrx0
    simp only [if_true, if_pos (show b.length > 0 from hb)]
    exact LclAlignPin.rows_true_glb rho sigma delta b a _ _ _ _ _
  have h1 := congrArg Prod.fst hfill
  have h2 := congrArg Prod.snd hfill
  simp only at h1 h2
  refine ⟨h2, h1, ?_⟩
  unfold LclAlignPin GlbAlign
  simp only [if_true]
  rw [if_neg (by omega), h2]
  congr 1
  ring

theorem parseCigar_nil : ∀ fuel, ([] : List Char).length ≤ fuel → parseCigar fuel [] = some [] := by
  intro fuel _; cases fuel <;> rfl

/-- Parsing the compact rendering gives the soft-clip tokens around the elements. -/
theorem CigarChars_parse (c : CCigar) (qstart qlen : Int)
    (hels : ∀ el ∈ c.m_elements, 0 < el.m_len ∧ el.KindOK) :
    ∀ fuel, (c.CigarChars qstart qlen).length ≤ fuel →
      parseCigar fuel (c.CigarChars qstart qlen) = some (c.cigarTokens qstart qlen) := by
  have hS : ('S' : Char).isDigit = false := by decide
  unfold CCigar.CigarChars CCigar.cigarTokens softClip
  simp only
  by_cases h1 : qstart + c.m_qfrom > 0 <;> by_cases h2 : qlen - 1 - c.m_qto - qstart > 0
  · rw [if_pos h1, if_pos h2, if_pos h1, if_pos h2]
    have hend := parseCigar_token _ h2 'S' hS [] [] parseCigar_nil
    have hmid := parseCigar_elementChars c.m_elements hels _ _ hend
    have hall := parseCigar_token _ h1 'S' hS _ _ hmid
    intro fuel hf
    have := hall fuel (by simpa using hf)
    simpa using this
  · rw [if_pos h1, if_neg h2, if_pos h1, if_neg h2]
    have hmid := parseCigar_elementChars c.m_elements hels [] [] parseCigar_nil
    have hall := parseCigar_token _ h1 'S' hS _ _ hmid
    intro fuel hf
    have := hall fuel (by simpa using hf)
    simpa using this
  · rw [if_neg h1, if_pos h2, if_neg h1, if_pos h2]
    have hend := parseCigar_token _ h2 'S' hS [] [] parseCigar_nil
    have hmid := parseCigar_elementChars c.m_elements hels _ _ hend
    intro fuel hf
    have := hmid fuel (by simpa using hf)
    simpa using this
  · rw [if_neg h1, if_neg h2, if_neg h1, if_neg h2]
    have hmid := parseCigar_elementChars c.m_elements hels [] [] parseCigar_nil
    intro fuel hf
    have := hmid fuel (by simpa using hf)
    simpa using this

/-- Elements of kind `M`, `I`, `D` hold no soft clip: their `S`, `M`, `I` lengths
are their `M`, `I` lengths. -/
theorem sumLen_SMI (l : List SElement) (h : ∀ el ∈ l, el.KindOK) :
    sumLen (fun t => t = 'S' || t = 'M' || t = 'I') l = sumMI l := by
  induction l with
  | nil => rfl
  | cons e r ih =>
    have hk := h e (List.mem_cons_self _ _)
    have := ih (fun x hx => h x (List.mem_cons_of_mem _ hx))
    unfold sumMI at this ⊢
    simp only [sumLen, this]
    rcases hk with hk | hk | hk <;> rw [hk] <;> simp +decide

theorem sumLen_softClip (p : Char → Bool) (hp : p 'S' = true) (n : Int) (hn : 0 ≤ n) :
    sumLen p (softClip n) = n := by
  unfold softClip
  split_ifs with h
  · simp [sumLen, hp]
  · simp only [sumLen]; omega

theorem elementChars_append (l r : List SElement) :
    CCigar.elementChars (l ++ r) = CCigar.elementChars l ++ CCigar.elementChars r := by
  induction l with
  | nil => rfl
  | cons e l ih => simp [CCigar.elementChars, ih]

theorem elementChars_softClip (n : Int) :
    CCigar.elementChars (softClip n) = if n > 0 then to_string n ++ ['S'] else [] := by
  unfold softClip
  split_ifs <;> simp [CCigar.elementChars]

/-- The inner loop of `DetailedCigarString` writes the tokens `runTokens` lists. -/
theorem detailedRun_tokens (query subject : List Nat) :
    ∀ (n : Nat) (q s : Int) (cigar : List Char) (is_match : Bool) (len : Int),
      (CCigar.detailedRun query subject n q s cigar is_match len).map
          (fun r => r.1 ++ (to_string r.2.2 ++ [if r.2.1 then '=' else 'X'])) =
        (runTokens query subject n q s is_match len).map
          (fun t => cigar ++ CCigar.elementChars t) := by
  intro n
  induction n with
  | zero =>
    intro q s cigar im len
    simp [CCigar.detailedRun, runTokens, CCigar.elementChars, runSym]
  | succ n ih =>
    intro q s cigar im len
    simp only [CCigar.detailedRun, runTokens]
    cases hx : deref query q with
    | none => simp
    | some x =>
      cases hy : deref subject s with
      | none => simp
      | some y =>
        simp only
        by_cases h : decide (x = y) = im
        · rw [if_pos h, if_pos h]
          exact ih _ _ _ _ _
        · rw [if_neg h, if_neg h, ih, Option.map_map]
          congr 1
          funext t
          simp [CCigar.elementChars, runSym, List.append_assoc]

/-- The element loop of `DetailedCigarString` writes the tokens `detailedTokens` lists. -/
theorem detailedLoop_tokens (query subject : List Nat) :
    ∀ (els : List SElement) (q s : Int) (cigar : List Char),
      CCigar.detailedLoop query subject els q s cigar =
        (detailedTokens query subject els q s).map (fun t => cigar ++ CCigar.elementChars t) := by
  intro els
  induction els with
  | nil => intro q s cigar; simp [CCigar.detailedLoop, detailedTokens, CCigar.elementChars]
  | cons el rest ih =>
    intro q s cigar
    simp only [CCigar.detailedLoop, detailedTokens]
    by_cases hM : el.m_type = 'M'
    · rw [if_pos hM, if_pos hM]
      cases hx : deref query q with
      | none => simp
      | some x =>
        cases hy : deref subject s with
        | none => simp
        | some y =>
          simp only
          have hrun := detailedRun_tokens query subject el.m_len.toNat q s cigar (decide (x = y)) 0
          cases hr : CCigar.detailedRun query subject el.m_len.toNat q s cigar (decide (x = y)) 0 with
          | none =>
            rw [hr] at hrun
            cases ht : runTokens query subject el.m_len.toNat q s (decide (x = y)) 0 with
            | none => simp
            | some t => rw [ht] at hrun; simp at hrun
          | some r =>
            obtain ⟨c1, im, len⟩ := r
            rw [hr] at hrun
            cases ht : runTokens query subject el.m_len.toNat q s (decide (x = y)) 0 with
            | none => rw [ht] at hrun; simp at hrun
            | some t =>
              rw [ht] at hrun
              simp only [Option.map_some', Option.some.injEq] at hrun
              simp only
              rw [hrun, ih]
              cases hd : detailedTokens query subject rest (q + el.m_len.toNat)
                  (s + el.m_len.toNat) with
              | none => simp
              | some r => simp [elementChars_append, List.append_assoc]
    · rw [if_neg hM, if_neg hM]
      by_cases hD : el.m_type = 'D'
      · rw [if_pos hD, if_pos hD, ih, Option.map_map]
        congr 1
        funext t
        simp [CCigar.elementChars, List.append_assoc]
      · rw [if_neg hD, if_neg hD, ih, Option.map_map]
        congr 1
        funext t
        simp [CCigar.elementChars, List.append_assoc]

/-- `DetailedCigarString` renders the tokens of its elements between the two
soft-clip tokens. -/
theorem DetailedCigarString_tokens (c : CCigar) (qstart qlen : Int) (query subject : List Nat) :
    c.DetailedCigarString qstart qlen query subject =
      (detailedTokens query subject c.m_elements c.m_qfrom c.m_sfrom).map
        (fun t => String.mk (CCigar.elementChars
          (softClip (qstart + c.m_qfrom) ++ t ++ softClip (qlen - 1 - c.m_qto - qstart)))) := by
  unfold CCigar.DetailedCigarString
  rw [detailedLoop_tokens]
  cases detailedTokens query subject c.m_elements c.m_qfrom c.m_sfrom with
  | none => rfl
  | some t =>
    simp only [Option.map_some', List.nil_append, elementChars_append, elementChars_softClip]
    congr 2
    split_ifs <;> simp

theorem CigarChars_tokens (c : CCigar) (qstart qlen : Int) :
    c.CigarChars qstart qlen = CCigar.elementChars (c.cigarTokens qstart qlen) := by
  unfold CCigar.CigarChars CCigar.cigarTokens
  simp only [elementChars_append, elementChars_softClip]
  split_ifs <;> simp

theorem parseCigar_tokens (els : List SElement)
    (hels : ∀ el ∈ els, 0 < el.m_len ∧ el.m_type.isDigit = false) (tail : List Char)
    (toks : List SElement)
    (htail : ∀ fuel, tail.length ≤ fuel → parseCigar fuel tail = some toks) :
    ∀ fuel, (CCigar.elementChars els ++ tail).length ≤ fuel →
      parseCigar fuel (CCigar.elementChars els ++ tail) = some (els ++ toks) := by
  induction els with
  | nil => simpa [CCigar.elementChars] using htail
  | cons el rest ih =>
    have hel := hels el (List.mem_cons_self _ _)
    have := parseCigar_token el.m_len hel.1 el.m_type hel.2 (CCigar.elementChars rest ++ tail)
      (rest ++ toks) (ih (fun e he => hels e (List.mem_cons_of_mem _ he)))
    simpa [CCigar.elementChars] using this

/-- The tokens of the rest of an `M` element, against the loops of `Matches` and
`Distance` over the same positions; `k` is the number of positions whose bases
differ. -/
theorem runTokens_spec (query subject : List Nat) :
    ∀ (n : Nat) (q s : Int) (is_match : Bool) (len : Int),
      0 ≤ q → q + n ≤ query.length → 0 ≤ s → s + n ≤ subject.length → 1 ≤ len →
      ∃ (t : List SElement) (k : Int),
        runTokens query subject n q s is_match len = some t ∧
        (∀ am, CCigar.matchesRun query subject n q s am = some (am + (n - k))) ∧
        (∀ ad, CCigar.distanceRun query subject n q s ad = some (ad + k)) ∧
        sumKind '=' t = (if is_match = true then len else 0) + (n - k) ∧
        sumLen (fun c => c = 'X' || c = 'I' || c = 'D') t =
          (if is_match = true then 0 else len) + k ∧
        (∀ e ∈ t, (e.m_type = '=' ∨ e.m_type = 'X') ∧ 0 < e.m_len) ∧ t ≠ [] ∧
        sumAll t = len + n := by
  intro n
  induction n with
  | zero =>
    intro q s im len _ _ _ _ hlen
    refine ⟨[⟨len, runSym im⟩], 0, rfl, fun _ => by simp [CCigar.matchesRun],
      fun _ => by simp [CCigar.distanceRun], ?_, ?_, ?_, by simp, by simp [sumAll, sumLen]⟩
    · cases im <;> simp +decide [sumKind, sumLen, runSym]
    · cases im <;> simp +decide [sumLen, runSym]
    · intro e he
      rw [List.mem_singleton] at he
      subst he
      refine ⟨?_, by simpa using hlen⟩
      cases im
      · right; rfl
      · left; rfl
  | succ n ih =>
    intro q s im len hq0 hq1 hs0 hs1 hlen
    obtain ⟨x, hx⟩ := deref_some query q hq0 (by push_cast at hq1; omega)
    obtain ⟨y, hy⟩ := deref_some subject s hs0 (by push_cast at hs1; omega)
    simp only [runTokens, CCigar.matchesRun, CCigar.distanceRun, hx, hy]
    by_cases h : decide (x = y) = im
    · rw [if_pos h]
      obtain ⟨t, k, ht, hm, hd, he, hxs, hty, hne, hall⟩ := ih (q + 1) (s + 1) im (len + 1)
        (by omega) (by push_cast at hq1; omega) (by omega) (by push_cast at hs1; omega)
        (by omega)
      by_cases hxy : x = y
      · have him : im = true := by rw [← h]; simp [hxy]
        refine ⟨t, k, ht, fun am => ?_, fun ad => ?_, ?_, ?_, hty, hne, ?_⟩
        · rw [if_pos hxy, hm]; congr 1; push_cast; ring
        · rw [if_neg (by simp [hxy]), hd]
        · rw [he, him]; simp only [if_true]; push_cast; ring
        · rw [hxs, him]; simp
        · rw [hall]; push_cast; ring
      · have him : im = false := by rw [← h]; simp [hxy]
        refine ⟨t, k + 1, ht, fun am => ?_, fun ad => ?_, ?_, ?_, hty, hne, ?_⟩
        · rw [if_neg hxy, hm]; congr 1; push_cast; ring
        · rw [if_pos hxy, hd]; congr 1; ring
        · rw [he, him]; simp only [Bool.false_eq_true, if_false]; push_cast; ring
        · rw [hxs, him]; simp only [Bool.false_eq_true, if_false]; ring
        · rw [hall]; push_cast; ring
    · rw [if_neg h]
      obtain ⟨t, k, ht, hm, hd, he, hxs, hty, hne, hall⟩ := ih (q + 1) (s + 1) (!im) 1
        (by omega) (by push_cast at hq1; omega) (by omega) (by push_cast at hs1; omega)
        (le_refl _)
      rw [ht]
      by_cases hxy : x = y
      · have him : im = false := by
          cases im
          · rfl
          · exact absurd (by simp [hxy]) h
        subst him
        refine ⟨_, k, rfl, fun am => ?_, fun ad => ?_, ?_, ?_, ?_, by simp, ?_⟩
        · rw [if_pos hxy, hm]; congr 1; push_cast; ring
        · rw [if_neg (by simp [hxy]), hd]
        · simp +decide only [sumKind, sumLen, runSym, Bool.false_eq_true, if_false] at he ⊢
          rw [he]; simp; ring
        · simp +decide only [sumLen, runSym, Bool.false_eq_true, if_false] at hxs ⊢
          rw [hxs]; simp
        · intro e he'
          rcases List.mem_cons.1 he' with h1 | h1
          · subst h1; exact ⟨Or.inr rfl, by simpa using hlen⟩
          · exact hty e h1
        · simp only [sumAll, sumLen] at hall ⊢
          rw [hall]; simp; ring
      · have him : im = true := by
          cases im
          · exact absurd (by simp [hxy]) h
          · rfl
        subst him
        refine ⟨_, k + 1, rfl, fun am => ?_, fun ad => ?_, ?_, ?_, ?_, by simp, ?_⟩
        · rw [if_neg hxy, hm]; congr 1; push_cast; ring
        · rw [if_pos hxy, hd]; congr 1; ring
        · simp +decide only [sumKind, sumLen, runSym, if_true] at he ⊢
          rw [he]; simp
        · simp +decide only [sumLen, runSym, if_true] at hxs ⊢
          rw [hxs]; simp; ring
        · intro e he'
          rcases List.mem_cons.1 he' with h1 | h1
          · subst h1; exact ⟨Or.inl rfl, by simpa using hlen⟩
          · exact hty e h1
        · simp only [sumAll, sumLen] at hall ⊢
          rw [hall]; simp; ring

theorem sumMI_nonneg (l : List SElement) (h : ∀ el ∈ l, 0 < el.m_len) : 0 ≤ sumMI l := by
  induction l with
  | nil => simp [sumMI, sumLen]
  | cons e r ih =>
    have h1 := h e (List.mem_cons_self _ _)
    have h2 := ih (fun x hx => h x (List.mem_cons_of_mem _ hx))
    simp only [sumMI, sumLen] at h2 ⊢
    split_ifs <;> omega

theorem sumMD_nonneg (l : List SElement) (h : ∀ el ∈ l, 0 < el.m_len) : 0 ≤ sumMD l := by
  induction l with
  | nil => simp [sumMD, sumLen]
  | cons e r ih =>
    have h1 := h e (List.mem_cons_self _ _)
    have h2 := ih (fun x hx => h x (List.mem_cons_of_mem _ hx))
    simp only [sumMD, sumLen] at h2 ⊢
    split_ifs <;> omega

/-- The tokens of a whole `M` element of length `m ≥ 1`. -/
theorem runTokens_element (query subject : List Nat) (m : Nat) (hm : 1 ≤ m) (q s : Int)
    (x y : Nat) (hx : deref query q = some x) (hy : deref subject s = some y)
    (hq0 : 0 ≤ q) (hq1 : q + m ≤ query.length) (hs0 : 0 ≤ s) (hs1 : s + m ≤ subject.length) :
    ∃ (t : List SElement) (k : Int),
      runTokens query subject m q s (decide (x = y)) 0 = some t ∧
      (∀ am, CCigar.matchesRun query subject m q s am = some (am + (m - k))) ∧
      (∀ ad, CCigar.distanceRun query subject m q s ad = some (ad + k)) ∧
      sumKind '=' t = m - k ∧
      sumLen (fun c => c = 'X' || c = 'I' || c = 'D') t = k ∧
      (∀ e ∈ t, (e.m_type = '=' ∨ e.m_type = 'X') ∧ 0 < e.m_len) ∧ t ≠ [] ∧
      sumAll t = m := by
  obtain ⟨n, rfl⟩ : ∃ n, m = n + 1 := ⟨m - 1, by omega⟩
  obtain ⟨t, k, ht, hmr, hdr, he, hxs, hty, hne, hall⟩ := runTokens_spec query subject n (q + 1)
    (s + 1) (decide (x = y)) 1 (by omega) (by push_cast at hq1; omega) (by omega)
    (by push_cast at hs1; omega) (le_refl _)
  simp only [runTokens, CCigar.matchesRun, CCigar.distanceRun, hx, hy, if_true, zero_add]
  by_cases hxy : x = y
  · refine ⟨t, k, ht, fun am => ?_, fun ad => ?_, ?_, ?_, hty, hne, ?_⟩
    · rw [if_pos hxy, hmr]; congr 1; push_cast; ring
    · rw [if_neg (by simp [hxy]), hdr]
    · rw [he]; simp [hxy]; ring
    · rw [hxs]; simp [hxy]
    · rw [hall]; push_cast; ring
  · refine ⟨t, k + 1, ht, fun am => ?_, fun ad => ?_, ?_, ?_, hty, hne, ?_⟩
    · rw [if_neg hxy, hmr]; congr 1; push_cast; ring
    · rw [if_pos hxy, hdr]; congr 1; ring
    · rw [he]; simp [hxy]
    · rw [hxs]; simp [hxy]; ring
    · rw [hall]; push_cast; ring

theorem mergeStep_other (t : SElement) (acc : List SElement) (h : t.m_type ≠ 'M') :
    mergeStep t acc = t :: acc := by
  cases acc with
  | nil => rfl
  | cons a r => simp [mergeStep, h]

/-- Merging the tokens of one `M` element in front of a list that does not start
with an `M` token leaves one `M` token of the total length. -/
theorem mergeStep_run (L : List SElement) (hL : ∀ h, L.head? = some h → h.m_type ≠ 'M') :
    ∀ (t : List SElement), (∀ e ∈ t, e.m_type = '=' ∨ e.m_type = 'X') → t ≠ [] →
      List.foldr mergeStep L (t.map replaceEqX) = ⟨sumAll t, 'M'⟩ :: L := by
  intro t
  induction t with
  | nil => intro _ h; exact absurd rfl h
  | cons a r ih =>
    intro hty _
    have ha : replaceEqX a = ⟨a.m_len, 'M'⟩ := by
      unfold replaceEqX; rw [if_pos (hty a (List.mem_cons_self _ _))]
    rw [List.map_cons, List.foldr_cons, ha]
    cases r with
    | nil =>
      simp only [List.map_nil, List.foldr_nil, sumAll, sumLen, if_true, add_zero]
      cases L with
      | nil => rfl
      | cons h rest =>
        have := hL h rfl
        simp [mergeStep, this]
    | cons b r' =>
      rw [ih (fun e he => hty e (List.mem_cons_of_mem _ he)) (by simp)]
      simp [mergeStep, sumAll, sumLen]

theorem sumKind_append (c : Char) (l r : List SElement) :
    sumKind c (l ++ r) = sumKind c l + sumKind c r := by
  unfold sumKind; exact sumLen_append _ _ _

/-- The tokens of `DetailedCigarString` for the elements of a Cigar: their `=`
lengths are what `Matches` counts, their `X`, `I`, `D` lengths what `Distance`
counts, and putting `M` for `=` and `X` and merging gives back the elements. -/
theorem detailedTokens_spec (query subject : List Nat) :
    ∀ (els : List SElement) (q s : Int), (∀ el ∈ els, 0 < el.m_len ∧ el.KindOK) →
      0 ≤ q → q + sumMI els ≤ query.length → 0 ≤ s → s + sumMD els ≤ subject.length →
      ∃ toks, detailedTokens query subject els q s = some toks ∧
        (∀ am, CCigar.matchesLoop query subject els q s am = some (am + sumKind '=' toks)) ∧
        (∀ ad, CCigar.distanceLoop query subject els q s ad =
          some (ad + sumLen (fun c => c = 'X' || c = 'I' || c = 'D') toks)) ∧
        (∀ e ∈ toks, 0 < e.m_len ∧ e.m_type.isDigit = false) ∧
        (NoAdjacent els → ∀ L : List SElement, (∀ h, L.head? = some h → h.m_type ≠ 'M') →
          List.foldr mergeStep L (toks.map replaceEqX) = els ++ L) := by
  intro els
  induction els with
  | nil =>
    intro q s _ _ _ _ _
    exact ⟨[], rfl, fun am => by simp [CCigar.matchesLoop, sumKind, sumLen],
      fun ad => by simp [CCigar.distanceLoop, sumLen], fun e he => absurd he (List.not_mem_nil _),
      fun _ L _ => rfl⟩
  | cons el rest ih =>
    intro q s hall hq0 hq1 hs0 hs1
    obtain ⟨hlen, hk⟩ := hall el (List.mem_cons_self _ _)
    have hrest : ∀ e ∈ rest, 0 < e.m_len ∧ e.KindOK :=
      fun e he => hall e (List.mem_cons_of_mem _ he)
    have hnnI := sumMI_nonneg rest (fun e he => (hrest e he).1)
    have hnnD := sumMD_nonneg rest (fun e he => (hrest e he).1)
    have htn : (el.m_len.toNat : Int) = el.m_len := Int.toNat_of_nonneg (le_of_lt hlen)
    rcases hk with hM | hI | hD
    · -- an `M` element
      have eI : sumMI (el :: rest) = el.m_len + sumMI rest := by simp [sumMI, sumLen, hM]
      have eD : sumMD (el :: rest) = el.m_len + sumMD rest := by simp [sumMD, sumLen, hM]
      rw [eI] at hq1
      rw [eD] at hs1
      obtain ⟨x, hx⟩ := deref_some query q hq0 (by omega)
      obtain ⟨y, hy⟩ := deref_some subject s hs0 (by omega)
      obtain ⟨t, k, ht, hmr, hdr, he, hxs, hty, hne, hsum⟩ := runTokens_element query subject
        el.m_len.toNat (by omega) q s x y hx hy hq0 (by omega) hs0 (by omega)
      obtain ⟨r, hr, hml, hdl, hpos, hmerge⟩ := ih (q + el.m_len.toNat) (s + el.m_len.toNat)
        hrest (by omega) (by omega) (by omega) (by omega)
      refine ⟨t ++ r, ?_, fun am => ?_, fun ad => ?_, ?_, ?_⟩
      · simp only [detailedTokens, if_pos hM, hx, hy, ht, hr]
      · simp only [CCigar.matchesLoop, if_pos hM, hmr, hml, sumKind_append, he]
        congr 1; ring
      · simp only [CCigar.distanceLoop, if_pos hM, hdr, hdl, sumLen_append, hxs]
        congr 1; ring
      · intro e he'
        rcases List.mem_append.1 he' with h1 | h1
        · obtain ⟨h2, h3⟩ := hty e h1
          refine ⟨h3, ?_⟩
          rcases h2 with h2 | h2 <;> rw [h2] <;> decide
        · exact hpos e h1
      · intro hadj L hL
        have hadj' : NoAdjacent rest := by
          unfold NoAdjacent at hadj ⊢
          exact List.Chain'.tail hadj
        rw [List.map_append, List.foldr_append, hmerge hadj' L hL,
          mergeStep_run _ ?_ t (fun e he' => (hty e he').1) hne]
        · have : (⟨sumAll t, 'M'⟩ : SElement) = el := by
            rw [hsum, htn, ← hM]
          rw [this]; rfl
        · intro h hh
          cases rest with
          | nil => exact hL h hh
          | cons b rest' =>
            simp only [List.cons_append, List.head?_cons, Option.some.injEq] at hh
            unfold NoAdjacent at hadj
            have := (List.chain'_cons.1 hadj).1
            rw [hM] at this
            rw [← hh]; exact fun e => this e.symm
    · -- an `I` element
      have eI : sumMI (el :: rest) = el.m_len + sumMI rest := by simp [sumMI, sumLen, hI]
      have eD : sumMD (el :: rest) = sumMD rest := by simp +decide [sumMD, sumLen, hI]
      rw [eI] at hq1
      rw [eD] at hs1
      have hnM : el.m_type ≠ 'M' := by rw [hI]; decide
      have hnD : el.m_type ≠ 'D' := by rw [hI]; decide
      obtain ⟨r, hr, hml, hdl, hpos, hmerge⟩ := ih (q + el.m_len) s hrest (by omega) (by omega)
        hs0 hs1
      refine ⟨el :: r, ?_, fun am => ?_, fun ad => ?_, ?_, ?_⟩
      · simp only [detailedTokens, if_neg hnM, if_neg hnD, hr, Option.map_some']
      · simp only [CCigar.matchesLoop, if_neg hnM, if_neg hnD, hml, sumKind, sumLen, hI]
        simp +decide
      · simp only [CCigar.distanceLoop, if_neg hnM, if_neg hnD, hdl, sumLen, hI]
        simp +decide
        ring
      · intro e he'
        rcases List.mem_cons.1 he' with h1 | h1
        · subst h1; exact ⟨hlen, by rw [hI]; decide⟩
        · exact hpos e h1
      · intro hadj L hL
        have hadj' : NoAdjacent rest := by
          unfold NoAdjacent at hadj ⊢
          exact List.Chain'.tail hadj
        have hrep : replaceEqX el = el := by
          unfold replaceEqX; rw [if_neg (by rw [hI]; decide)]
        rw [List.map_cons, List.foldr_cons, hmerge hadj' L hL, hrep, mergeStep_other _ _ hnM]
        rfl
    · -- a `D` element
      have eI : sumMI (el :: rest) = sumMI rest := by simp +decide [sumMI, sumLen, hD]
      have eD : sumMD (el :: rest) = el.m_len + sumMD rest := by simp [sumMD, sumLen, hD]
      rw [eI] at hq1
      rw [eD] at hs1
      have hnM : el.m_type ≠ 'M' := by rw [hD]; decide
      obtain ⟨r, hr, hml, hdl, hpos, hmerge⟩ := ih q (s + el.m_len) hrest hq0 hq1 (by omega)
        (by omega)
      refine ⟨el :: r, ?_, fun am => ?_, fun ad => ?_, ?_, ?_⟩
      · simp only [detailedTokens, if_neg hnM, if_pos hD, hr, Option.map_some']
      · simp only [CCigar.matchesLoop, if_neg hnM, if_pos hD, hml, sumKind, sumLen, hD]
        simp +decide
      · simp only [CCigar.distanceLoop, if_neg hnM, if_pos hD, hdl, sumLen, hD]
        simp +decide
        ring
      · intro e he'
        rcases List.mem_cons.1 he' with h1 | h1
        · subst h1; exact ⟨hlen, by rw [hD]; decide⟩
        · exact hpos e h1
      · intro hadj L hL
        have hadj' : NoAdjacent rest := by
          unfold NoAdjacent at hadj ⊢
          exact List.Chain'.tail hadj
        have hrep : replaceEqX el = el := by
          unfold replaceEqX; rw [if_neg (by rw [hD]; decide)]
        rw [List.map_cons, List.foldr_cons, hmerge hadj' L hL, hrep, mergeStep_other _ _ hnM]
        rfl

theorem alignRow_replicate_gap (gap : Char) (U : List Char) (src : List Nat) (n : Nat) :
    alignRow gap (List.replicate n gap ++ U) src = List.replicate n 45 ++ alignRow gap U src := by
  induction n with
  | zero => rfl
  | succ n ih =>
    rw [List.replicate_succ, List.cons_append, alignRow, if_pos rfl, ih]
    rfl

theorem alignRow_replicate_other (gap op : Char) (hop : op ≠ gap) (U : List Char) :
    ∀ (n : Nat) (src : List Nat), n ≤ src.length →
      alignRow gap (List.replicate n op ++ U) src =
        src.take n ++ alignRow gap U (src.drop n) := by
  intro n
  induction n with
  | zero => intro src _; rfl
  | succ n ih =>
    intro src h
    cases src with
    | nil => simp at h
    | cons x xs =>
      rw [List.replicate_succ, List.cons_append, alignRow, if_neg hop]
      simp only [List.take_succ_cons, List.drop_succ_cons, List.cons_append, List.headD_cons,
        List.tail_cons]
      rw [ih xs (by simpa using h)]

theorem alignRow_length (gap : Char) :
    ∀ (U : List Char) (src : List Nat), (alignRow gap U src).length = U.length := by
  intro U
  induction U with
  | nil => intro src; rfl
  | cons op U ih =>
    intro src
    rw [alignRow]
    split_ifs <;> simp [ih]

/-- A row holds `'-'` at every column of the gap kind. -/
theorem alignRow_gap (gap : Char) :
    ∀ (U : List Char) (src : List Nat) (p : Nat), U[p]? = some gap →
      (alignRow gap U src)[p]? = some 45 := by
  intro U
  induction U with
  | nil => intro src p hp; simp at hp
  | cons op U ih =>
    intro src p hp
    rw [alignRow]
    cases p with
    | zero =>
      simp only [List.getElem?_cons_zero, Option.some.injEq] at hp
      rw [if_pos hp]; simp
    | succ p =>
      simp only [List.getElem?_cons_succ] at hp
      split_ifs
      · simp only [List.getElem?_cons_succ]; exact ih src p hp
      · simp only [List.getElem?_cons_succ]; exact ih _ p hp

/-- The bytes of a row at the columns that are not of the gap kind spell the
source in order. -/
theorem alignRow_spells (gap : Char) :
    ∀ (U : List Char) (src : List Nat), src.length = (U.filter (fun op => op ≠ gap)).length →
      ((U.zip (alignRow gap U src)).filter (fun x => x.1 ≠ gap)).map Prod.snd = src := by
  intro U
  induction U with
  | nil =>
    intro src h
    simp only [List.filter_nil, List.length_nil, List.length_eq_zero] at h
    rw [h]; rfl
  | cons op U ih =>
    intro src h
    rw [alignRow]
    by_cases hg : op = gap
    · rw [if_pos hg]
      simp only [List.zip_cons_cons, List.filter_cons, hg, ne_eq, not_true_eq_false,
        decide_False, Bool.false_eq_true, if_false]
      exact ih src (by simpa [hg] using h)
    · cases src with
      | nil => simp [hg] at h
      | cons x xs =>
        rw [if_neg hg]
        simp only [List.zip_cons_cons, List.filter_cons, ne_eq, hg, not_false_eq_true,
          decide_True, if_true, List.map_cons, List.headD_cons, List.tail_cons]
        rw [ih xs (by simpa [hg] using h)]

/-- When the source holds no `'-'`, a row holds `'-'` exactly at the columns of
the gap kind. -/
theorem alignRow_gap_iff (gap : Char) :
    ∀ (U : List Char) (src : List Nat), src.length = (U.filter (fun op => op ≠ gap)).length →
      45 ∉ src → ∀ p : Nat, (alignRow gap U src)[p]? = some 45 ↔ U[p]? = some gap := by
  intro U
  induction U with
  | nil => intro src _ _ p; simp [alignRow]
  | cons op U ih =>
    intro src h hno p
    rw [alignRow]
    by_cases hg : op = gap
    · rw [if_pos hg]
      cases p with
      | zero => simp [hg]
      | succ p =>
        simp only [List.getElem?_cons_succ]
        exact ih src (by simpa [hg] using h) hno p
    · cases src with
      | nil => simp [hg] at h
      | cons x xs =>
        rw [if_neg hg]
        cases p with
        | zero =>
          simp only [List.getElem?_cons_zero, Option.some.injEq, List.headD_cons]
          constructor
          · intro hx; exact absurd (hx ▸ List.mem_cons_self _ _) hno
          · intro hx; exact absurd hx hg
        | succ p =>
          simp only [List.getElem?_cons_succ, List.tail_cons]
          exact ih xs (by simpa [hg] using h) (fun hm => hno (List.mem_cons_of_mem _ hm)) p

theorem filter_notD_length (U : List Char) :
    (U.filter (fun op => op ≠ 'D')).length = rowsOf U := by
  induction U with
  | nil => rfl
  | cons op U ih =>
    by_cases h : op = 'D'
    · simpa [List.filter_cons, h, rowsOf, dq] using ih
    · simp only [List.filter_cons, h, rowsOf, dq, ne_eq, not_false_eq_true, decide_True, if_true,
        if_false, List.length_cons, ih]
      omega

theorem filter_notI_length (U : List Char) (hU : PathOK U) :
    (U.filter (fun op => op ≠ 'I')).length = colsOf U := by
  induction U with
  | nil => rfl
  | cons op U ih =>
    have ih' := ih (fun x hx => hU x (List.mem_cons_of_mem _ hx))
    rcases hU op (List.mem_cons_self _ _) with h | h | h
    · simp +decide only [List.filter_cons, h, colsOf, ds, ne_eq, not_false_eq_true, decide_True,
        if_true, if_false, List.length_cons, ih', true_or, or_true]
      omega
    · simpa +decide [List.filter_cons, h, colsOf, ds] using ih'
    · simp +decide only [List.filter_cons, h, colsOf, ds, ne_eq, not_false_eq_true, decide_True,
        if_true, if_false, List.length_cons, ih', true_or, or_true]
      omega

theorem expand_length (l : List SElement) (hpos : ∀ e ∈ l, 0 < e.m_len) :
    ((expand l).length : Int) = sumAll l := by
  induction l with
  | nil => rfl
  | cons e rest ih =>
    have he := hpos e (List.mem_cons_self _ _)
    have := ih (fun x hx => hpos x (List.mem_cons_of_mem _ hx))
    simp only [expand, List.length_append, List.length_replicate, sumAll, sumLen, if_true] at this ⊢
    push_cast
    rw [this]
    omega

theorem take_split (l : List Nat) (qn m k : Nat) (h : qn + m + k ≤ l.length) :
    ((l.drop qn).take (m + k)).take m = (l.drop qn).take m ∧
      ((l.drop qn).take (m + k)).drop m = (l.drop (qn + m)).take k ∧
      m ≤ ((l.drop qn).take (m + k)).length := by
  refine ⟨?_, ?_, ?_⟩
  · rw [List.take_take, Nat.min_eq_left (Nat.le_add_right m k)]
  · rw [List.drop_take, List.drop_drop, Nat.add_sub_cancel_left]
  · rw [List.length_take, List.length_drop]; omega

theorem slice_some (buf : List Nat) (p n : Int) (hp : 0 ≤ p) (hn : 0 ≤ n)
    (h : p + n ≤ buf.length) : slice buf p n = some ((buf.drop p.toNat).take n.toNat) := by
  unfold slice; rw [if_pos ⟨hp, hn, h⟩]

/-- The element loop of `ToAlign` appends the two rows of the alignment. -/
theorem toAlignLoop_spec (query subject : List Nat) :
    ∀ (els : List SElement) (q s : Int) (acc : List Nat × List Nat),
      (∀ el ∈ els, 0 < el.m_len ∧ el.KindOK) →
      0 ≤ q → q + sumMI els ≤ query.length → 0 ≤ s → s + sumMD els ≤ subject.length →
      CCigar.toAlignLoop query subject els q s acc =
        some (acc.1 ++ alignRow 'D' (expand els)
            ((query.drop q.toNat).take (sumMI els).toNat),
          acc.2 ++ alignRow 'I' (expand els)
            ((subject.drop s.toNat).take (sumMD els).toNat)) := by
  intro els
  induction els with
  | nil =>
    intro q s acc _ _ _ _ _
    simp [CCigar.toAlignLoop, expand, alignRow]
  | cons el rest ih =>
    intro q s acc hall hq0 hq1 hs0 hs1
    obtain ⟨hlen, hk⟩ := hall el (List.mem_cons_self _ _)
    have hrest : ∀ e ∈ rest, 0 < e.m_len ∧ e.KindOK :=
      fun e he => hall e (List.mem_cons_of_mem _ he)
    have hnnI := sumMI_nonneg rest (fun e he => (hrest e he).1)
    have hnnD := sumMD_nonneg rest (fun e he => (hrest e he).1)
    obtain ⟨m, hm⟩ : ∃ m : Nat, el.m_len = (m : Int) := ⟨el.m_len.toNat, by omega⟩
    obtain ⟨kI, hkI⟩ : ∃ k : Nat, sumMI rest = (k : Int) := ⟨(sumMI rest).toNat, by omega⟩
    obtain ⟨kD, hkD⟩ : ∃ k : Nat, sumMD rest = (k : Int) := ⟨(sumMD rest).toNat, by omega⟩
    obtain ⟨qn, hqn⟩ : ∃ k : Nat, q = (k : Int) := ⟨q.toNat, by omega⟩
    obtain ⟨sn, hsn⟩ : ∃ k : Nat, s = (k : Int) := ⟨s.toNat, by omega⟩
    have em : el.m_len.toNat = m := by omega
    rcases hk with hM | hI | hD
    · have eI : sumMI (el :: rest) = el.m_len + sumMI rest := by simp [sumMI, sumLen, hM]
      have eD : sumMD (el :: rest) = el.m_len + sumMD rest := by simp [sumMD, sumLen, hM]
      rw [eI] at hq1 ⊢
      rw [eD] at hs1 ⊢
      obtain ⟨a1, a2, a3⟩ := take_split query qn m kI (by omega)
      obtain ⟨b1, b2, b3⟩ := take_split subject sn m kD (by omega)
      simp only [CCigar.toAlignLoop, if_pos hM,
        slice_some query q el.m_len hq0 (le_of_lt hlen) (by omega),
        slice_some subject s el.m_len hs0 (le_of_lt hlen) (by omega)]
      rw [ih _ _ _ hrest (by omega) (by omega) (by omega) (by omega)]
      simp only [expand, em, hM]
      have e1 : (el.m_len + sumMI rest).toNat = m + kI := by omega
      have e2 : (el.m_len + sumMD rest).toNat = m + kD := by omega
      have e3 : (q + el.m_len).toNat = qn + m := by omega
      have e4 : (s + el.m_len).toNat = sn + m := by omega
      have e5 : q.toNat = qn := by omega
      have e6 : s.toNat = sn := by omega
      have e7 : (sumMI rest).toNat = kI := by omega
      have e8 : (sumMD rest).toNat = kD := by omega
      rw [e1, e2, e3, e4, e5, e6, e7, e8,
        alignRow_replicate_other 'D' 'M' (by decide) _ m _ a3,
        alignRow_replicate_other 'I' 'M' (by decide) _ m _ b3, a1, a2, b1, b2]
      simp only [List.append_assoc]
    · have eI : sumMI (el :: rest) = el.m_len + sumMI rest := by simp [sumMI, sumLen, hI]
      have eD : sumMD (el :: rest) = sumMD rest := by simp +decide [sumMD, sumLen, hI]
      rw [eI] at hq1 ⊢
      rw [eD] at hs1 ⊢
      obtain ⟨a1, a2, a3⟩ := take_split query qn m kI (by omega)
      simp only [CCigar.toAlignLoop, if_neg (show el.m_type ≠ 'M' from by rw [hI]; decide),
        if_neg (show el.m_type ≠ 'D' from by rw [hI]; decide),
        slice_some query q el.m_len hq0 (le_of_lt hlen) (by omega)]
      rw [ih _ _ _ hrest (by omega) (by omega) (by omega) (by omega)]
      simp only [expand, em, hI]
      have e1 : (el.m_len + sumMI rest).toNat = m + kI := by omega
      have e3 : (q + el.m_len).toNat = qn + m := by omega
      have e5 : q.toNat = qn := by omega
      have e7 : (sumMI rest).toNat = kI := by omega
      rw [e1, e3, e5, e7, alignRow_replicate_other 'D' 'I' (by decide) _ m _ a3,
        alignRow_replicate_gap, a1, a2]
      simp only [List.append_assoc]
    · have eI : sumMI (el :: rest) = sumMI rest := by simp +decide [sumMI, sumLen, hD]
      have eD : sumMD (el :: rest) = el.m_len + sumMD rest := by simp [sumMD, sumLen, hD]
      rw [eI] at hq1 ⊢
      rw [eD] at hs1 ⊢
      obtain ⟨b1, b2, b3⟩ := take_split subject sn m kD (by omega)
      simp only [CCigar.toAlignLoop, if_neg (show el.m_type ≠ 'M' from by rw [hD]; decide),
        if_pos hD, slice_some subject s el.m_len hs0 (le_of_lt hlen) (by omega)]
      rw [ih _ _ _ hrest (by omega) (by omega) (by omega) (by omega)]
      simp only [expand, em, hD]
      have e2 : (el.m_len + sumMD rest).toNat = m + kD := by omega
      have e4 : (s + el.m_len).toNat = sn + m := by omega
      have e6 : s.toNat = sn := by omega
      have e8 : (sumMD rest).toNat = kD := by omega
      rw [e2, e4, e6, e8, alignRow_replicate_other 'I' 'D' (by decide) _ m _ b3,
        alignRow_replicate_gap, b1, b2]
      simp only [List.append_assoc]

theorem isACGT_lt (r : List Nat) (k : Nat) (h : isACGT (r.getD k 0) = true) : k < r.length := by
  by_contra hk
  rw [List.getD_eq_default _ _ (by omega)] at h
  exact absurd h (by decide)

theorem getD_drop_add (s : List Nat) (pos k : Nat) :
    (s.drop pos).getD k 0 = s.getD (pos + k) 0 := by
  rw [List.getD_eq_getElem?_getD, List.getD_eq_getElem?_getD, List.getElem?_drop]

theorem findAt_spec (p : Nat → Bool) :
    ∀ (l : List Nat) (i : Nat),
      (findAt p l i = npos ∧ ∀ k, k < l.length → p (l.getD k 0) = false) ∨
      (∃ k, k < l.length ∧ findAt p l i = i + k ∧ p (l.getD k 0) = true ∧
        ∀ j, j < k → p (l.getD j 0) = false) := by
  intro l
  induction l with
  | nil => intro i; left; exact ⟨rfl, fun k hk => absurd hk (Nat.not_lt_zero _)⟩
  | cons c cs ih =>
    intro i
    rw [findAt]
    by_cases hc : p c = true
    · right
      rw [if_pos hc]
      exact ⟨0, by simp, rfl, by simpa using hc, fun j hj => absurd hj (Nat.not_lt_zero _)⟩
    · rw [if_neg hc]
      have hc' : p c = false := by simpa using hc
      rcases ih (i + 1) with ⟨h1, h2⟩ | ⟨k, h1, h2, h3, h4⟩
      · left
        refine ⟨h1, fun k hk => ?_⟩
        cases k with
        | zero => simpa using hc'
        | succ k =>
          rw [List.getD_cons_succ]
          exact h2 k (by simpa using hk)
      · right
        refine ⟨k + 1, by simpa using h1, by rw [h2]; omega, by rw [List.getD_cons_succ]; exact h3,
          fun j hj => ?_⟩
        cases j with
        | zero => simpa using hc'
        | succ j =>
          rw [List.getD_cons_succ]
          exact h4 j (by omega)

theorem findFrom_spec (p : Nat → Bool) (s : List Nat) (pos : Nat) (hpos : pos ≤ s.length) :
    (findAt p (s.drop pos) pos = npos ∧
      ∀ k, pos ≤ k → k < s.length → p (s.getD k 0) = false) ∨
    (pos ≤ findAt p (s.drop pos) pos ∧ findAt p (s.drop pos) pos < s.length ∧
      p (s.getD (findAt p (s.drop pos) pos) 0) = true ∧
      ∀ k, pos ≤ k → k < findAt p (s.drop pos) pos → p (s.getD k 0) = false) := by
  rcases findAt_spec p (s.drop pos) pos with ⟨h1, h2⟩ | ⟨k, h1, h2, h3, h4⟩
  · left
    refine ⟨h1, fun k hk1 hk2 => ?_⟩
    have := h2 (k - pos) (by rw [List.length_drop]; omega)
    rwa [getD_drop_add, Nat.add_sub_cancel' hk1] at this
  · right
    rw [List.length_drop] at h1
    rw [getD_drop_add] at h3
    rw [h2]
    refine ⟨by omega, by omega, h3, fun j hj1 hj2 => ?_⟩
    have := h4 (j - pos) (by omega)
    rwa [getD_drop_add, Nat.add_sub_cancel' hj1] at this

/-- The end of the stretch that starts at `start`. -/
theorem stop_spec (r : List Nat) (start : Nat) (hs : start < r.length)
    (hlen : r.length < 2147483648) :
    start ≤ min r.length (find_first_not_of isACGT r start) ∧
      min r.length (find_first_not_of isACGT r start) ≤ r.length ∧
      (∀ k, start ≤ k → k < min r.length (find_first_not_of isACGT r start) →
        isACGT (r.getD k 0) = true) ∧
      isACGT (r.getD (min r.length (find_first_not_of isACGT r start)) 0) = false := by
  unfold find_first_not_of
  rcases findFrom_spec (fun c => !isACGT c) r start (le_of_lt hs) with ⟨h1, h2⟩ | ⟨h1, h2, h3, h4⟩
  · rw [h1, Nat.min_eq_left (by unfold npos; omega)]
    refine ⟨le_of_lt hs, le_refl _, fun k hk1 hk2 => ?_, ?_⟩
    · simpa using h2 k hk1 hk2
    · rw [List.getD_eq_default _ _ (le_refl _)]; decide
  · rw [Nat.min_eq_right (le_of_lt h2)]
    refine ⟨h1, le_of_lt h2, fun k hk1 hk2 => ?_, ?_⟩
    · simpa using h4 k hk1 hk2
    · simpa using h3

/-- The start of the next stretch after `stop`. -/
theorem next_spec (r : List Nat) (stop : Nat) (hs : stop ≤ r.length)
    (hlen : r.length < 2147483648) :
    stop ≤ find_first_of isACGT r stop ∧
      (∀ k, stop ≤ k → k < find_first_of isACGT r stop → isACGT (r.getD k 0) = false) ∧
      (find_first_of isACGT r stop < r.length →
        isACGT (r.getD (find_first_of isACGT r stop) 0) = true) ∧
      (find_first_of isACGT r stop < r.length ∨ find_first_of isACGT r stop = npos) := by
  unfold find_first_of
  rcases findFrom_spec isACGT r stop hs with ⟨h1, h2⟩ | ⟨h1, h2, h3, h4⟩
  · rw [h1]
    refine ⟨by unfold npos; omega, fun k hk1 _ => ?_, fun h => ?_, Or.inr rfl⟩
    · by_cases hk : k < r.length
      · exact h2 k hk1 hk
      · rw [List.getD_eq_default _ _ (by omega)]; decide
    · unfold npos at h; omega
  · exact ⟨h1, h4, fun _ => h3, Or.inl h2⟩

/-- A stretch that ends before the next start but not before `start` lies between
`start` and `stop`. -/
theorem run_between (r : List Nat) (start stop start1 j m : Nat)
    (hb : start ≤ r.length → start = 0 ∨ isACGT (r.getD (start - 1) 0) = false)
    (hs : start < r.length)
    (hgap : ∀ k, stop ≤ k → k < start1 → isACGT (r.getD k 0) = false)
    (hm : 0 < m) (h1 : j + m ≤ start1) (h2 : ¬ j + m ≤ start) (hrun : AllACGT r j m) :
    start ≤ j ∧ j + m ≤ stop := by
  constructor
  · by_contra hj
    rcases hb (le_of_lt hs) with h0 | h0
    · omega
    · have := hrun (start - 1) (by omega) (by omega)
      rw [h0] at this
      exact absurd this (by decide)
  · by_contra hj
    have := hrun (j + m - 1) (by omega) (by omega)
    rw [hgap (j + m - 1) (by omega) (by omega)] at this
    exact absurd this (by decide)

theorem toInt32_len (stop start : Nat) (h1 : start ≤ stop) (h2 : stop < 2147483648) :
    toInt32 (((stop : Int) - (start : Int)) % 18446744073709551616) = ((stop - start : Nat) : Int) := by
  unfold toInt32
  omega

/-- One turn of the loop of `InsertRead` keeps what the loop knows and moves
`start` forward. -/
theorem InsertRead.Inv_step (r : List Nat) (start bs : Nat) (bl : Int)
    (hlen : r.length < 2147483648) (hs : start < r.length) (hinv : InsertRead.Inv r start bs bl) :
    start < find_first_of isACGT r (min r.length (find_first_not_of isACGT r start)) ∧
      InsertRead.Inv r (find_first_of isACGT r (min r.length (find_first_not_of isACGT r start)))
        (if toInt32 ((((min r.length (find_first_not_of isACGT r start) : Nat) : Int) -
            (start : Int)) % 18446744073709551616) > bl then start else bs)
        (if toInt32 ((((min r.length (find_first_not_of isACGT r start) : Nat) : Int) -
            (start : Int)) % 18446744073709551616) > bl then
          toInt32 ((((min r.length (find_first_not_of isACGT r start) : Nat) : Int) -
            (start : Int)) % 18446744073709551616) else bl) := by
  obtain ⟨s1, s2, s3, s4⟩ := stop_spec r start hs hlen
  generalize min r.length (find_first_not_of isACGT r start) = stop at s1 s2 s3 s4 ⊢
  obtain ⟨n1, n2, n3, n4⟩ := next_spec r stop s2 hlen
  generalize find_first_of isACGT r stop = start1 at n1 n2 n3 n4 ⊢
  rw [toInt32_len stop start s1 (by omega)]
  obtain ⟨i1, i2, i3, i4⟩ := hinv
  have hlt : start < start1 := by
    by_cases hc : isACGT (r.getD start 0) = true
    · have : stop ≠ start := by
        intro h; rw [h, hc] at s4; exact absurd s4 (by decide)
      omega
    · have : start1 ≠ start := by
        intro h
        rcases n4 with h4 | h4
        · exact hc (h ▸ n3 h4)
        · unfold npos at h4; omega
      omega
  refine ⟨hlt, ?_, ?_, ?_, ?_⟩
  · intro h
    right
    have h1 : start1 < r.length := by
      rcases n4 with h4 | h4
      · exact h4
      · unfold npos at h4; omega
    have h2 : stop ≠ start1 := by
      intro h3; rw [h3, n3 h1] at s4; exact absurd s4 (by decide)
    exact n2 (start1 - 1) (by omega) (by omega)
  · split_ifs <;> omega
  · intro hpos
    split_ifs at hpos ⊢ with hc
    · rw [Int.toNat_ofNat]
      refine ⟨by omega, fun k hk1 hk2 => s3 k hk1 (by omega), i1 (le_of_lt hs), ?_⟩
      rw [Nat.add_sub_cancel' s1]
      exact s4
    · obtain ⟨a1, a2, a3, a4⟩ := i3 hpos
      exact ⟨by omega, a2, a3, a4⟩
  · intro j m hm hjm hrun
    by_cases hold : j + m ≤ start
    · obtain ⟨b1, b2⟩ := i4 j m hm hold hrun
      split_ifs with hc
      · exact ⟨by omega, fun h => by omega⟩
      · exact ⟨b1, b2⟩
    · obtain ⟨c1, c2⟩ := run_between r start stop start1 j m i1 hs n2 hm hjm hold hrun
      split_ifs with hc
      · exact ⟨by omega, fun _ => c1⟩
      · refine ⟨by omega, fun h => ?_⟩
        have hbl : 0 < bl := by omega
        have := (i3 hbl).1
        omega

/-- With enough fuel the loop of `InsertRead` ends, and what it knows then holds
for a `start` past the end of the read. -/
theorem InsertRead.loop_spec (r : List Nat) (hlen : r.length < 2147483648) :
    ∀ (fuel start bs : Nat) (bl : Int), r.length - start < fuel → InsertRead.Inv r start bs bl →
      ∃ bs1 bl1 start1, InsertRead.loop r fuel start bs bl = some (bs1, bl1) ∧
        r.length ≤ start1 ∧ InsertRead.Inv r start1 bs1 bl1 := by
  intro fuel
  induction fuel with
  | zero => intro start bs bl h; omega
  | succ fuel ih =>
    intro start bs bl hf hinv
    rw [InsertRead.loop]
    by_cases hs : start < r.length
    · rw [if_pos hs]
      obtain ⟨hlt, hnext⟩ := InsertRead.Inv_step r start bs bl hlen hs hinv
      simp only []
      split_ifs with hc
      · rw [if_pos hc, if_pos hc] at hnext
        exact ih _ _ _ (by omega) hnext
      · rw [if_neg hc, if_neg hc] at hnext
        exact ih _ _ _ (by omega) hnext
    · rw [if_neg hs]
      exact ⟨bs, bl, start, rfl, by omega, hinv⟩

theorem InsertRead.Inv_zero (r : List Nat) : InsertRead.Inv r 0 0 0 := by
  refine ⟨fun _ => Or.inl rfl, le_refl _, fun h => absurd h (lt_irrefl _), fun j m hm hjm _ => ?_⟩
  omega

/-- A read passes the check of `InsertRead` exactly when all its bytes are of
`ACGTYRWSKMDVHBXN-`. -/
theorem valid_iff (r : List Nat) (hlen : r.length < 2147483648) :
    find_first_not_of isReadChar r 0 = npos ↔ ∀ c ∈ r, isReadChar c = true := by
  unfold find_first_not_of
  rcases findFrom_spec (fun c => !isReadChar c) r 0 (Nat.zero_le _) with ⟨h1, h2⟩ | ⟨h1, h2, h3, h4⟩
  · rw [h1]
    refine ⟨fun _ c hc => ?_, fun _ => rfl⟩
    obtain ⟨k, hk, rfl⟩ := List.getElem_of_mem hc
    have := h2 k (Nat.zero_le _) hk
    rw [List.getD_eq_getElem _ _ hk] at this
    simpa using this
  · constructor
    · intro h; unfold npos at h; omega
    · intro h
      have := h _ (List.getElem_mem h2)
      rw [List.getD_eq_getElem _ _ h2] at h3
      rw [this] at h3
      exact absurd h3 (by decide)

theorem take_set_succ {α : Type} (l : List α) (k : Nat) (v : α) (h : k < l.length) :
    (l.set k v).take (k + 1) = l.take k ++ [v] := by
  induction l generalizing k with
  | nil => simp at h
  | cons x xs ih =>
    cases k with
    | zero => simp
    | succ k =>
      simp only [List.set_cons_succ, List.take_succ_cons, List.cons_append]
      rw [ih k (by simpa using h)]

theorem drop_set_lt {α : Type} (l : List α) (k i : Nat) (v : α) (h : k < i) :
    (l.set k v).drop i = l.drop i := by
  induction l generalizing k i with
  | nil => simp
  | cons x xs ih =>
    cases i with
    | zero => omega
    | succ i =>
      cases k with
      | zero => simp
      | succ k =>
        simp only [List.set_cons_succ, List.drop_succ_cons]
        exact ih k i (by omega)

theorem take_set_ge {α : Type} (l : List α) (k i : Nat) (v : α) (h : i ≤ k) :
    (l.set k v).take i = l.take i := by
  induction l generalizing k i with
  | nil => simp
  | cons x xs ih =>
    cases i with
    | zero => simp
    | succ i =>
      cases k with
      | zero => omega
      | succ k =>
        simp only [List.set_cons_succ, List.take_succ_cons]
        rw [ih k i (by omega)]

theorem drop_eq_getD_cons {α : Type} (l : List α) (k : Nat) (d : α) (h : k < l.length) :
    l.drop k = l.getD k d :: l.drop (k + 1) := by
  induction l generalizing k with
  | nil => simp at h
  | cons x xs ih =>
    cases k with
    | zero => simp
    | succ k =>
      simp only [List.drop_succ_cons, List.getD_cons_succ]
      exact ih k (by simpa using h)

/-- The inner loop of `VariBandAlign` over the columns from `j` to the end of `b`
fills the buffers with what the inner loop of `LclAlign` returns for the rest of
the row. -/
theorem VariBandAlign.cols_full (rsa rsb sigma : Int) (matrix : Nat → Int) (b : List Nat)
    (sm : List Int) (hsm : sm.length = b.length + 1) :
    ∀ (n j : Nat) (s gapb : List Int) (mtrx : List Nat) (gapa : Int) (mx : MaxState) (m : Nat),
      j + n = b.length → s.length = b.length + 1 → gapb.length = b.length + 1 →
      m + 1 + n ≤ mtrx.length →
      VariBandAlign.cols rsa rsb sigma matrix b sm n j s gapb mtrx gapa mx m =
        (s.take (j + 1) ++ (LclAlign.cols rsa rsb sigma matrix (b.drop j) (sm.drop j)
            (gapb.drop (j + 1)) (s.getD j 0) gapa mx m).1,
          gapb.take (j + 1) ++ (LclAlign.cols rsa rsb sigma matrix (b.drop j) (sm.drop j)
            (gapb.drop (j + 1)) (s.getD j 0) gapa mx m).2.1,
          mtrx.take (m + 1) ++ (LclAlign.cols rsa rsb sigma matrix (b.drop j) (sm.drop j)
            (gapb.drop (j + 1)) (s.getD j 0) gapa mx m).2.2.1 ++ mtrx.drop (m + 1 + n),
          (LclAlign.cols rsa rsb sigma matrix (b.drop j) (sm.drop j)
            (gapb.drop (j + 1)) (s.getD j 0) gapa mx m).2.2.2) := by
  intro n
  induction n with
  | zero =>
    intro j s gapb mtrx gapa mx m hj hs hg hm
    have hj' : j = b.length := by omega
    rw [VariBandAlign.cols, hj', List.drop_length, LclAlign.cols]
    swap
    · intro bj bs smj smj1 sms gbj gbs h; exact absurd h (List.noConfusion)
    simp only [List.append_nil, Nat.add_zero, List.take_append_drop]
    rw [List.take_of_length_le (by omega), List.take_of_length_le (by omega)]
  | succ n ih =>
    intro j s gapb mtrx gapa mx m hj hs hg hm
    have e1 : b.drop j = b.getD j 0 :: b.drop (j + 1) := drop_eq_getD_cons b j 0 (by omega)
    have e2 : sm.drop j = sm.getD j 0 :: sm.getD (j + 1) 0 :: sm.drop (j + 2) := by
      rw [drop_eq_getD_cons sm j 0 (by omega), drop_eq_getD_cons sm (j + 1) 0 (by omega)]
    have e3 : gapb.drop (j + 1) = gapb.getD (j + 1) 0 :: gapb.drop (j + 2) :=
      drop_eq_getD_cons gapb (j + 1) 0 (by omega)
    have e4 : sm.getD (j + 1) 0 :: sm.drop (j + 2) = sm.drop (j + 1) :=
      (drop_eq_getD_cons sm (j + 1) 0 (by omega)).symm
    rw [VariBandAlign.cols, e1, e2, e3, LclAlign.cols]
    simp only []
    rw [ih (j + 1) _ _ _ _ _ (m + 1) (by omega) (by rw [List.length_set]; exact hs)
      (by rw [List.length_set]; exact hg) (by rw [List.length_set]; omega)]
    rw [drop_set_lt gapb (j + 1) (j + 1 + 1) _ (by omega), getD_set_self _ _ _ _ (by omega),
      take_set_succ s (j + 1) _ (by omega), take_set_succ gapb (j + 1) _ (by omega),
      take_set_succ mtrx (m + 1) _ (by omega), drop_set_lt mtrx (m + 1) (m + 1 + 1 + n) _ (by omega),
      e4]
    simp only [List.append_assoc, List.singleton_append, Nat.add_assoc, Nat.add_comm 1 n]

theorem LclAlign.cols_lengths (rsa rsb sigma : Int) (matrix : Nat → Int) :
    ∀ (bs : List Nat) (sm gapb : List Int) (sp gapa : Int) (mx : MaxState) (m : Nat),
      sm.length = bs.length + 1 → gapb.length = bs.length →
      (LclAlign.cols rsa rsb sigma matrix bs sm gapb sp gapa mx m).1.length = bs.length ∧
      (LclAlign.cols rsa rsb sigma matrix bs sm gapb sp gapa mx m).2.1.length = bs.length ∧
      (LclAlign.cols rsa rsb sigma matrix bs sm gapb sp gapa mx m).2.2.1.length = bs.length := by
  intro bs
  induction bs with
  | nil => intro sm gapb sp gapa mx m _ _; rw [LclAlign.cols_nil]; exact ⟨rfl, rfl, rfl⟩
  | cons bj bs ih =>
    intro sm gapb sp gapa mx m h1 h2
    match sm, gapb, h1, h2 with
    | smj :: smj1 :: sms, gbj :: gbs, h1, h2 =>
      rw [LclAlign.cols]
      obtain ⟨a1, a2, a3⟩ := ih (smj1 :: sms) gbs
        (LclAlign.cell rsa rsb sigma (matrix bj) smj smj1 sp gapa gbj mx (m + 1)).1.sp
        (LclAlign.cell rsa rsb sigma (matrix bj) smj smj1 sp gapa gbj mx (m + 1)).1.gapa
        (LclAlign.cell rsa rsb sigma (matrix bj) smj smj1 sp gapa gbj mx (m + 1)).2 (m + 1)
        (by simpa using h1) (by simpa using h2)
      simp only [List.length_cons, a1, a2, a3, and_self]

theorem fillFrom_zero {α : Type} (v : α) (k : Nat) (l : List α) : fillFrom v 0 k l = l := rfl

theorem fillFrom_one {α : Type} (v : α) (k : Nat) (l : List α) :
    fillFrom v 1 k l = l.set k v := rfl

/-- One row of `VariBandAlign` with the full band, from the start of the row. -/
theorem VariBandAlign.row_full (rsa rsb sigma : Int) (matrix : Nat → Int) (b : List Nat)
    (s sm gapb gapbL : List Int) (mtrxL rest : List Nat) (mx : MaxState) (M : Nat)
    (hs : s.length = b.length + 1) (hsm : sm.length = b.length + 1)
    (hg : gapb.length = b.length + 1) (htail : gapb.tail = gapbL.tail)
    (hrest : b.length + 1 ≤ rest.length) (hM : mtrxL.length = M) :
    VariBandAlign.cols rsa rsb sigma matrix b sm b.length 0 (s.set 0 CScore.zero) gapb
        ((mtrxL ++ rest).set M Zero) CScore.zero mx M =
      (CScore.zero :: (LclAlign.cols rsa rsb sigma matrix b sm gapbL.tail CScore.zero
          CScore.zero mx M).1,
        gapb.take 1 ++ (LclAlign.cols rsa rsb sigma matrix b sm gapbL.tail CScore.zero
          CScore.zero mx M).2.1,
        (mtrxL ++ Zero :: (LclAlign.cols rsa rsb sigma matrix b sm gapbL.tail CScore.zero
          CScore.zero mx M).2.2.1) ++ rest.drop (b.length + 1),
        (LclAlign.cols rsa rsb sigma matrix b sm gapbL.tail CScore.zero
          CScore.zero mx M).2.2.2) := by
  have hcols := VariBandAlign.cols_full rsa rsb sigma matrix b sm hsm b.length 0
    (s.set 0 CScore.zero) gapb ((mtrxL ++ rest).set M Zero) CScore.zero mx M (by omega)
    (by rw [List.length_set]; exact hs) hg
    (by rw [List.length_set, List.length_append]; omega)
  have e1 : (s.set 0 CScore.zero).getD 0 0 = CScore.zero := getD_set_self _ _ _ _ (by omega)
  have e2 : (s.set 0 CScore.zero).take (0 + 1) = [CScore.zero] := by
    rw [take_set_succ s 0 _ (by omega)]; rfl
  have e3 : gapb.drop (0 + 1) = gapbL.tail := by
    rw [← htail]; cases gapb <;> rfl
  have e4 : ((mtrxL ++ rest).set M Zero).take (M + 1) = mtrxL ++ [Zero] := by
    rw [take_set_succ _ _ _ (by rw [List.length_append]; omega), ← hM, List.take_left]
  have e5 : ((mtrxL ++ rest).set M Zero).drop (M + 1 + b.length) = rest.drop (b.length + 1) := by
    rw [drop_set_lt _ _ _ _ (by omega),
      show M + 1 + b.length = mtrxL.length + (b.length + 1) from by omega, List.drop_append]
  rw [List.drop_zero, List.drop_zero, e1, e2, e3, e4, e5] at hcols
  rw [hcols]
  simp only [List.append_assoc, List.singleton_append]

/-- With the full band in every row the outer loop of `VariBandAlign` returns what
the outer loop of `LclAlign` returns: the bitmap of `VariBandAlign` is the one
`LclAlign` has written so far, followed by the rows not yet written. -/
theorem VariBandAlign.rows_full (rsa rsb sigma : Int) (delta : Nat → Nat → Int) (b : List Nat)
    (hb : 1 ≤ b.length) :
    ∀ (as : List Nat) (bl : List (Nat × Nat)) (s sm gapb gapbL : List Int)
      (mtrxL rest : List Nat) (mx : MaxState) (m : Nat),
      (∀ i, i < as.length → bl[i]? = some (0, b.length - 1)) →
      s.length = b.length + 1 → sm.length = b.length + 1 → gapb.length = b.length + 1 →
      gapbL.length = b.length + 1 → gapb.tail = gapbL.tail →
      rest.length = as.length * (b.length + 1) → mtrxL.length = m + 1 →
      VariBandAlign.rows rsa rsb sigma delta b as bl s sm gapb (mtrxL ++ rest) mx m =
        LclAlign.rows rsa rsb sigma delta b as sm gapbL mx mtrxL := by
  intro as
  induction as with
  | nil =>
    intro bl s sm gapb gapbL mtrxL rest mx m _ _ _ _ _ _ hrest _
    have : rest = [] := List.length_eq_zero.1 (by simpa using hrest)
    rw [VariBandAlign.rows, LclAlign.rows, this, List.append_nil]
    intro ai as1 bleft bright bl1 h; exact absurd h List.noConfusion
  | cons ai as ih =>
    intro bl s sm gapb gapbL mtrxL rest mx m hbl hs hsm hg hgL htail hrest hm
    have h0 := hbl 0 (by simp)
    match bl, h0, hbl with
    | (bleft, bright) :: bl1, h0, hbl =>
      simp only [List.getElem?_cons_zero, Option.some.injEq, Prod.mk.injEq] at h0
      obtain ⟨hl, hr⟩ := h0
      subst hl
      subst hr
      have hrl : (ai :: as).length * (b.length + 1) = b.length + 1 + as.length * (b.length + 1) := by
        rw [List.length_cons]; ring
      rw [hrl] at hrest
      have hrow := VariBandAlign.row_full rsa rsb sigma (delta ai) b s sm gapb gapbL mtrxL rest mx
        (m + 1) hs hsm hg htail (by omega) hm
      obtain ⟨l1, l2, l3⟩ := LclAlign.cols_lengths rsa rsb sigma (delta ai) b sm gapbL.tail
        CScore.zero CScore.zero mx (m + 1) hsm (by rw [List.length_tail]; omega)
      cases as with
      | nil =>
        have hd : rest.drop (b.length + 1) = [] :=
          List.drop_eq_nil_of_le (by rw [hrest]; simp)
        simp only [VariBandAlign.rows, LclAlign.rows, Nat.sub_add_cancel hb, Nat.add_zero,
          Nat.sub_zero]
        rw [hm, hrow, hd, List.append_nil]
      | cons a2 as2 =>
        have h1 := hbl 1 (by simp)
        match bl1, h1, hbl with
        | (nl, nr) :: bl2, h1, hbl =>
          simp only [List.getElem?_cons_succ, List.getElem?_cons_zero, Option.some.injEq,
            Prod.mk.injEq] at h1
          obtain ⟨hl, hr⟩ := h1
          subst hl
          subst hr
          rw [VariBandAlign.rows, LclAlign.rows]
          simp only [Nat.sub_self, Nat.sub_add_cancel hb, Nat.zero_add, Nat.add_zero, fillFrom_zero,
            fillFrom_one, Nat.sub_zero]
          rw [hm, hrow]
          generalize LclAlign.cols rsa rsb sigma (delta ai) b sm gapbL.tail CScore.zero CScore.zero
            mx (m + 1) = L at l1 l2 l3 ⊢
          have hset : ((mtrxL ++ Zero :: L.2.2.1) ++ rest.drop (b.length + 1)).set (m + 1) Zero
              = (mtrxL ++ Zero :: L.2.2.1) ++ rest.drop (b.length + 1) := by
            rw [List.append_assoc, List.set_append_right _ _ (by omega), hm, Nat.sub_self]
            rfl
          simp only []
          rw [hset]
          exact ih ((0, b.length - 1) :: bl2) sm ((CScore.zero :: L.1).set 0 CScore.zero)
            ((gapb.take 1 ++ L.2.1).set 0 CScore.zero) (gapbL.take 1 ++ L.2.1)
            (mtrxL ++ Zero :: L.2.2.1) (rest.drop (b.length + 1)) L.2.2.2 (m + 1 + b.length)
            (fun i hi => by
              have := hbl (i + 1) (by simpa using hi)
              simpa using this)
            hsm (by simp [l1]) (by simp [l2, hg]; omega) (by simp [l2, hgL]; omega)
            (by
              cases gapb with
              | nil => simp at hg
              | cons g gs =>
                cases gapbL with
                | nil => simp at hgL
                | cons g2 gs2 => simp)
            (by rw [List.length_drop, hrest]; simp)
            (by simp [l3, hm]; omega)

theorem JointTraced.extendJ {mL mP : List Nat} {nb r c : Nat} (h : JointTraced mL mP nb r c)
    (x y : List Nat) : JointTraced (mL ++ x) (mP ++ y) nb r c := by
  intro e1 e2 fuel T
  rw [List.append_assoc, List.append_assoc]
  exact h _ _ fuel T

theorem JointGapA.extendJA {mL mP : List Nat} {nb r c : Nat} (h : JointGapA mL mP nb r c)
    (x y : List Nat) : JointGapA (mL ++ x) (mP ++ y) nb r c := by
  obtain ⟨k, hk, hT, hwL, hwP⟩ := h
  refine ⟨k, hk, hT.extendJ x y, ?_, ?_⟩
  · intro e fuel L hf; rw [List.append_assoc]; exact hwL _ _ _ hf
  · intro e fuel L hf; rw [List.append_assoc]; exact hwP _ _ _ hf

theorem JointGapB.extendJB {mL mP : List Nat} {nb r c : Nat} (h : JointGapB mL mP nb r c)
    (x y : List Nat) : JointGapB (mL ++ x) (mP ++ y) nb r c := by
  obtain ⟨k, hk, hT, hwL, hwP⟩ := h
  refine ⟨k, hk, hT.extendJ x y, ?_, ?_⟩
  · intro e fuel L hf; rw [List.append_assoc]; exact hwL _ _ _ hf
  · intro e fuel L hf; rw [List.append_assoc]; exact hwP _ _ _ hf

/-- A gap in the first sequence opened at the new cell. -/
theorem jointGapA_open (mL mP : List Nat) (nb r c : Nat) (bL bP : Nat)
    (hL : (mL.length : Int) = idx nb r (c + 1)) (hP : (mP.length : Int) = idx nb r (c + 1))
    (hT : JointTraced mL mP nb r c) (hbL : bL &&& Astart ≠ 0) (hbP : bP &&& Astart ≠ 0) :
    JointGapA (mL ++ [bL]) (mP ++ [bP]) nb r (c + 1) := by
  refine ⟨c, Nat.lt_succ_self c, hT.extendJ _ _, ?_, ?_⟩
  · intro e fuel L hf
    cases fuel with
    | zero => omega
    | succ f =>
      rw [BackTrack.walk, deref_at_length mL bL e _ hL]
      simp only [hbL, ne_eq, not_false_eq_true, if_true]
      congr 2; push_cast; ring
  · intro e fuel L hf
    cases fuel with
    | zero => omega
    | succ f =>
      rw [BackTrack.walk, deref_at_length mP bP e _ hP]
      simp only [hbP, ne_eq, not_false_eq_true, if_true]
      congr 2; push_cast; ring

/-- A gap in the first sequence extended over the new cell. -/
theorem jointGapA_extend (mL mP : List Nat) (nb r c : Nat) (bL bP : Nat)
    (hL : (mL.length : Int) = idx nb r (c + 1)) (hP : (mP.length : Int) = idx nb r (c + 1))
    (hA : JointGapA mL mP nb r c) (hbL : bL &&& Astart = 0) (hbP : bP &&& Astart = 0) :
    JointGapA (mL ++ [bL]) (mP ++ [bP]) nb r (c + 1) := by
  obtain ⟨k, hk, hT, hwL, hwP⟩ := hA
  refine ⟨k, by omega, hT.extendJ _ _, ?_, ?_⟩
  · intro e fuel L hf
    cases fuel with
    | zero => omega
    | succ f =>
      rw [BackTrack.walk, deref_at_length mL bL e _ hL]
      simp only [hbL, ne_eq, not_true_eq_false, if_false]
      rw [idx_left, List.append_assoc, hwL _ f (L + 1) (by omega)]
      congr 2; push_cast; ring
  · intro e fuel L hf
    cases fuel with
    | zero => omega
    | succ f =>
      rw [BackTrack.walk, deref_at_length mP bP e _ hP]
      simp only [hbP, ne_eq, not_true_eq_false, if_false]
      rw [idx_left, List.append_assoc, hwP _ f (L + 1) (by omega)]
      congr 2; push_cast; ring

/-- A gap in the second sequence opened at the new cell. -/
theorem jointGapB_open (mL mP : List Nat) (nb r c : Nat) (bL bP : Nat)
    (hL : (mL.length : Int) = idx nb (r + 1) c) (hP : (mP.length : Int) = idx nb (r + 1) c)
    (hT : JointTraced mL mP nb r c) (hbL : bL &&& Bstart ≠ 0) (hbP : bP &&& Bstart ≠ 0) :
    JointGapB (mL ++ [bL]) (mP ++ [bP]) nb (r + 1) c := by
  refine ⟨r, Nat.lt_succ_self r, hT.extendJ _ _, ?_, ?_⟩
  · intro e fuel L hf
    cases fuel with
    | zero => omega
    | succ f =>
      rw [BackTrack.walk, deref_at_length mL bL e _ hL]
      simp only [hbL, ne_eq, not_false_eq_true, if_true]
      congr 2; push_cast; ring
  · intro e fuel L hf
    cases fuel with
    | zero => omega
    | succ f =>
      rw [BackTrack.walk, deref_at_length mP bP e _ hP]
      simp only [hbP, ne_eq, not_false_eq_true, if_true]
      congr 2; push_cast; ring

/-- A gap in the second sequence extended over the new cell. -/
theorem jointGapB_extend (mL mP : List Nat) (nb r c : Nat) (bL bP : Nat)
    (hL : (mL.length : Int) = idx nb (r + 1) c) (hP : (mP.length : Int) = idx nb (r + 1) c)
    (hB : JointGapB mL mP nb r c) (hbL : bL &&& Bstart = 0) (hbP : bP &&& Bstart = 0) :
    JointGapB (mL ++ [bL]) (mP ++ [bP]) nb (r + 1) c := by
  obtain ⟨k, hk, hT, hwL, hwP⟩ := hB
  refine ⟨k, by omega, hT.extendJ _ _, ?_, ?_⟩
  · intro e fuel L hf
    cases fuel with
    | zero => omega
    | succ f =>
      rw [BackTrack.walk, deref_at_length mL bL e _ hL]
      simp only [hbL, ne_eq, not_true_eq_false, if_false]
      rw [idx_up, List.append_assoc, hwL _ f (L + 1) (by omega)]
      congr 2; push_cast; ring
  · intro e fuel L hf
    cases fuel with
    | zero => omega
    | succ f =>
      rw [BackTrack.walk, deref_at_length mP bP e _ hP]
      simp only [hbP, ne_eq, not_true_eq_false, if_false]
      rw [idx_up, List.append_assoc, hwP _ f (L + 1) (by omega)]
      congr 2; push_cast; ring

/-- The tracebacks from a new cell of two bitmaps agree when the cell is marked
`Zero` in both or in neither, and in the latter case the gap flags agree, the
walks of a flagged gap agree, and the tracebacks from the diagonal cell agree. -/
theorem jointTraced_step (mL mP : List Nat) (nb r c : Nat) (bL bP : Nat)
    (hL : (mL.length : Int) = idx nb (r + 1) (c + 1))
    (hP : (mP.length : Int) = idx nb (r + 1) (c + 1))
    (hZ : bL &&& Zero ≠ 0 ↔ bP &&& Zero ≠ 0)
    (hAg : bL &&& Zero = 0 → (bL &&& Agap ≠ 0 ↔ bP &&& Agap ≠ 0))
    (hBg : bL &&& Zero = 0 → bL &&& Agap = 0 → (bL &&& Bgap ≠ 0 ↔ bP &&& Bgap ≠ 0))
    (hA : bL &&& Zero = 0 → bL &&& Agap ≠ 0 →
      JointGapA (mL ++ [bL]) (mP ++ [bP]) nb (r + 1) (c + 1))
    (hB : bL &&& Zero = 0 → bL &&& Agap = 0 → bL &&& Bgap ≠ 0 →
      JointGapB (mL ++ [bL]) (mP ++ [bP]) nb (r + 1) (c + 1))
    (hD : JointTraced mL mP nb r c) :
    JointTraced (mL ++ [bL]) (mP ++ [bP]) nb (r + 1) (c + 1) := by
  have hia : ((r + 1 : Nat) : Int) - 1 ≥ 0 ∨ ((c + 1 : Nat) : Int) - 1 ≥ 0 := by
    left; push_cast; omega
  intro e1 e2 fuel T
  cases fuel with
  | zero => rfl
  | succ f =>
    rw [BackTrack.loop, BackTrack.loop, if_pos hia, if_pos hia, deref_at_length mL _ e1 _ hL,
      deref_at_length mP _ e2 _ hP]
    by_cases hz : bL &&& Zero ≠ 0
    · have hz2 := hZ.1 hz
      simp only [hz, hz2, ne_eq, not_false_eq_true, if_true]
    · have hz1 : bL &&& Zero = 0 := by simpa using hz
      have hz2 : bP &&& Zero = 0 := by
        by_contra h; exact hz (hZ.2 h)
      by_cases ha : bL &&& Agap ≠ 0
      · have ha2 := (hAg hz1).1 ha
        obtain ⟨k, hk, hT, hwL, hwP⟩ := hA hz1 ha
        have hfuel : c + 1 - k ≤ (idx nb (r + 1) (c + 1)).toNat + 1 := by
          have := idx_ge nb (r + 1) (c + 1)
          omega
        simp only [hz1, hz2, ha, ha2, ne_eq, not_true_eq_false, not_false_eq_true, if_true,
          if_false]
        rw [hwL e1 _ 1 hfuel, hwP e2 _ 1 hfuel]
        simp only
        rw [idx_left]
        have e3 : ((c + 1 : Nat) : Int) - 1 - (1 + (((c + 1 : Nat) : Int) - (k : Int) - 1)) =
            (k : Int) - 1 := by omega
        rw [e3]
        exact hT e1 e2 f _
      · have ha1 : bL &&& Agap = 0 := by simpa using ha
        have ha2 : bP &&& Agap = 0 := by
          by_contra h; exact ha ((hAg hz1).2 h)
        by_cases hb : bL &&& Bgap ≠ 0
        · have hb2 := (hBg hz1 ha1).1 hb
          obtain ⟨k, hk, hT, hwL, hwP⟩ := hB hz1 ha1 hb
          have hfuel : r + 1 - k ≤ (idx nb (r + 1) (c + 1)).toNat + 1 := by
            have := idx_ge nb (r + 1) (c + 1)
            omega
          simp only [hz1, hz2, ha1, ha2, hb, hb2, ne_eq, not_true_eq_false, not_false_eq_true,
            if_true, if_false]
          rw [hwL e1 _ 1 hfuel, hwP e2 _ 1 hfuel]
          simp only
          rw [idx_up]
          have e3 : ((r + 1 : Nat) : Int) - 1 - (1 + (((r + 1 : Nat) : Int) - (k : Int) - 1)) =
              (k : Int) - 1 := by omega
          rw [e3]
          exact hT e1 e2 f _
        · have hb1 : bL &&& Bgap = 0 := by simpa using hb
          have hb2 : bP &&& Bgap = 0 := by
            by_contra h; exact hb ((hBg hz1 ha1).2 h)
          simp only [hz1, hz2, ha1, ha2, hb1, hb2, ne_eq, not_true_eq_false, if_false]
          rw [idx_diag]
          have e1' : ((r + 1 : Nat) : Int) - 1 - 1 = (r : Int) - 1 := by omega
          have e2' : ((c + 1 : Nat) : Int) - 1 - 1 = (c : Int) - 1 := by omega
          rw [e1', e2', List.append_assoc, List.append_assoc]
          exact hD _ _ f _

/-- The tracebacks from a cell that both bitmaps mark `Zero` agree. -/
theorem jointTraced_zero (mL mP : List Nat) (nb r c : Nat) (bL bP : Nat)
    (hL : (mL.length : Int) = idx nb r c) (hP : (mP.length : Int) = idx nb r c)
    (hbL : bL &&& Zero ≠ 0) (hbP : bP &&& Zero ≠ 0) :
    JointTraced (mL ++ [bL]) (mP ++ [bP]) nb r c := by
  intro e1 e2 fuel T
  cases fuel with
  | zero => rfl
  | succ f =>
    rw [BackTrack.loop, BackTrack.loop]
    split_ifs with hg
    · rw [deref_at_length mL _ e1 _ hL, deref_at_length mP _ e2 _ hP]
      simp only [hbL, hbP, ne_eq, not_false_eq_true, if_true]
    · rfl

/-- The tracebacks from the corner cell `(0, 0)` agree: they stop at once. -/
theorem jointTraced_origin (mL mP : List Nat) (nb : Nat) : JointTraced mL mP nb 0 0 := by
  intro e1 e2 fuel T
  cases fuel with
  | zero => rfl
  | succ f =>
    rw [BackTrack.loop, BackTrack.loop, if_neg (by simp), if_neg (by simp)]

/-- What the body of the inner loop of `LclAlign` leaves behind, value by value
and flag by flag. -/
theorem LclAlign.cell_pick (rsa rsb sigma d smj smj1 sp gapa gapbj : Int) (mx : MaxState)
    (m : Nat) (GA GB W : Int)
    (hGA : GA = if sp + rsa > gapa + CScore.mk2 (-sigma) 0 then sp + rsa
      else gapa + CScore.mk2 (-sigma) 0)
    (hGB : GB = if smj1 + rsb > gapbj + CScore.mk2 (-sigma) 1 then smj1 + rsb
      else gapbj + CScore.mk2 (-sigma) 1)
    (hW : W = if GA > GB then (if smj + CScore.mk2 d 1 > GA then smj + CScore.mk2 d 1 else GA)
      else (if smj + CScore.mk2 d 1 > GB then smj + CScore.mk2 d 1 else GB)) :
    (LclAlign.cell rsa rsb sigma d smj smj1 sp gapa gapbj mx m).1.gapa = GA ∧
    ((LclAlign.cell rsa rsb sigma d smj smj1 sp gapa gapbj mx m).1.bits &&& Astart ≠ 0 ↔
      sp + rsa > gapa + CScore.mk2 (-sigma) 0) ∧
    (LclAlign.cell rsa rsb sigma d smj smj1 sp gapa gapbj mx m).1.gapbj = GB ∧
    ((LclAlign.cell rsa rsb sigma d smj smj1 sp gapa gapbj mx m).1.bits &&& Bstart ≠ 0 ↔
      smj1 + rsb > gapbj + CScore.mk2 (-sigma) 1) ∧
    (LclAlign.cell rsa rsb sigma d smj smj1 sp gapa gapbj mx m).1.sp =
      (if CScore.Score W ≤ 0 then 0 else W) ∧
    ((LclAlign.cell rsa rsb sigma d smj smj1 sp gapa gapbj mx m).1.bits &&& Zero ≠ 0 ↔
      CScore.Score W ≤ 0) ∧
    ((LclAlign.cell rsa rsb sigma d smj smj1 sp gapa gapbj mx m).1.bits &&& Agap ≠ 0 ↔
      GA > GB ∧ ¬ smj + CScore.mk2 d 1 > GA) ∧
    ((LclAlign.cell rsa rsb sigma d smj smj1 sp gapa gapbj mx m).1.bits &&& Bgap ≠ 0 ↔
      ¬ GA > GB ∧ ¬ smj + CScore.mk2 d 1 > GB) ∧
    (LclAlign.cell rsa rsb sigma d smj smj1 sp gapa gapbj mx m).2 =
      (if (W = smj + CScore.mk2 d 1 ∧ smj + CScore.mk2 d 1 > GA ∧ smj + CScore.mk2 d 1 > GB) ∧
          smj + CScore.mk2 d 1 > mx.max_score
        then ⟨smj + CScore.mk2 d 1, m⟩ else mx) := by
  unfold LclAlign.cell
  simp only
  generalize smj + CScore.mk2 d 1 = ss at *
  generalize sp + rsa = oa at *
  generalize gapa + CScore.mk2 (-sigma) 0 = ea at *
  generalize smj1 + rsb = ob at *
  generalize gapbj + CScore.mk2 (-sigma) 1 = eb at *
  subst hW
  subst hGA
  subst hGB
  by_cases h1 : oa > ea <;> by_cases h2 : ob > eb <;>
    simp only [h1, h2, if_true, if_false] <;>
    [(by_cases h3 : oa > ob <;> simp only [h3, if_true, if_false] <;>
      [by_cases h4 : ss > oa; by_cases h4 : ss > ob]);
     (by_cases h3 : oa > eb <;> simp only [h3, if_true, if_false] <;>
      [by_cases h4 : ss > oa; by_cases h4 : ss > eb]);
     (by_cases h3 : ea > ob <;> simp only [h3, if_true, if_false] <;>
      [by_cases h4 : ss > ea; by_cases h4 : ss > ob]);
     (by_cases h3 : ea > eb <;> simp only [h3, if_true, if_false] <;>
      [by_cases h4 : ss > ea; by_cases h4 : ss > eb])] <;>
    simp only [h4, if_true, if_false] <;>
    split_ifs <;>
    simp_all +decide [Astart, Bstart, Agap, Bgap, Zero, CScore.zero] <;>
    omega

theorem gap_pair_arith (ext oa gL gP XL XP : Int) (hext : ext < 0)
    (h : gL = gP ∨ (gL ≤ 0 ∧ gP ≤ 0))
    (hL : XL = if oa > gL + ext then oa else gL + ext)
    (hP : XP = if oa > gP + ext then oa else gP + ext) :
    (XL = XP ∧ oa > gL + ext ∧ oa > gP + ext) ∨
      (XL = XP ∧ gL = gP ∧ 0 < gL ∧ ¬ oa > gL + ext ∧ ¬ oa > gP + ext) ∨ (XL < 0 ∧ XP < 0) := by
  rw [hL, hP]; split_ifs <;> omega

theorem win_pair_arith (ss GAL GBL GAP GBP WL WP : Int)
    (hga : GAL = GAP ∨ (GAL < 0 ∧ GAP < 0)) (hgb : GBL = GBP ∨ (GBL < 0 ∧ GBP < 0))
    (lW : WL = if GAL > GBL then (if ss > GAL then ss else GAL)
      else (if ss > GBL then ss else GBL))
    (pW : WP = if GAP > GBP then (if ss > GAP then ss else GAP)
      else (if ss > GBP then ss else GBP)) :
    ((0 ≤ WL ∨ 0 ≤ WP) → WL = WP ∧
      ((GAL > GBL ∧ ¬ ss > GAL) ↔ (GAP > GBP ∧ ¬ ss > GAP)) ∧
      ((¬ GAL > GBL ∧ ¬ ss > GBL) ↔ (¬ GAP > GBP ∧ ¬ ss > GBP)) ∧
      ((WL = ss ∧ ss > GAL ∧ ss > GBL) ↔ (WP = ss ∧ ss > GAP ∧ ss > GBP))) ∧
      (WL < 0 ↔ WP < 0) ∧ ss ≤ WL ∧ ss ≤ WP ∧
      (GAL > GBL ∧ ¬ ss > GAL → WL = GAL) ∧ (¬ GAL > GBL ∧ ¬ ss > GBL → WL = GBL) := by
  rw [lW, pW]; split_ifs <;> omega

theorem reset_pair_arith (WL WP : Int) (h1 : (0 ≤ WL ∨ 0 ≤ WP) → WL = WP)
    (h2 : WL < 0 ↔ WP < 0) :
    (WL / 4294967296 ≤ 0 ↔ WP / 4294967296 ≤ 0) ∧
      (if WL / 4294967296 ≤ 0 then 0 else WL) = (if WP / 4294967296 ≤ 0 then 0 else WP) ∧
      (¬ WL / 4294967296 ≤ 0 → 0 < WL) := by
  refine ⟨by omega, ?_, by omega⟩
  split_ifs <;> omega

/-- The arithmetic of one cell computed from two pairs of incoming gap scores. -/
theorem pair_arith (sigma ss oa ob gaL gbL gaP gbP : Int) (mx : MaxState) (m : Nat)
    (cL cP : CellOut × MaxState) (hsig : 0 < sigma)
    (hA : gaL = gaP ∨ (gaL ≤ 0 ∧ gaP ≤ 0)) (hB : gbL = gbP ∨ (gbL ≤ 0 ∧ gbP ≤ 0))
    (hmx : 0 ≤ mx.max_score) (WL WP : Int)
    (l1 : cL.1.gapa = if oa > gaL + -sigma * 4294967296 then oa else gaL + -sigma * 4294967296)
    (l2 : cL.1.bits &&& Astart ≠ 0 ↔ oa > gaL + -sigma * 4294967296)
    (l3 : cL.1.gapbj = if ob > gbL + (-sigma * 4294967296 + 1) then ob
      else gbL + (-sigma * 4294967296 + 1))
    (l4 : cL.1.bits &&& Bstart ≠ 0 ↔ ob > gbL + (-sigma * 4294967296 + 1))
    (lW : WL = if cL.1.gapa > cL.1.gapbj then (if ss > cL.1.gapa then ss else cL.1.gapa)
      else (if ss > cL.1.gapbj then ss else cL.1.gapbj))
    (l5 : cL.1.sp = if WL / 4294967296 ≤ 0 then 0 else WL)
    (l6 : cL.1.bits &&& Zero ≠ 0 ↔ WL / 4294967296 ≤ 0)
    (l7 : cL.1.bits &&& Agap ≠ 0 ↔ cL.1.gapa > cL.1.gapbj ∧ ¬ ss > cL.1.gapa)
    (l8 : cL.1.bits &&& Bgap ≠ 0 ↔ ¬ cL.1.gapa > cL.1.gapbj ∧ ¬ ss > cL.1.gapbj)
    (l9 : cL.2 = if (WL = ss ∧ ss > cL.1.gapa ∧ ss > cL.1.gapbj) ∧ ss > mx.max_score
      then ⟨ss, m⟩ else mx)
    (p1 : cP.1.gapa = if oa > gaP + -sigma * 4294967296 then oa else gaP + -sigma * 4294967296)
    (p2 : cP.1.bits &&& Astart ≠ 0 ↔ oa > gaP + -sigma * 4294967296)
    (p3 : cP.1.gapbj = if ob > gbP + (-sigma * 4294967296 + 1) then ob
      else gbP + (-sigma * 4294967296 + 1))
    (p4 : cP.1.bits &&& Bstart ≠ 0 ↔ ob > gbP + (-sigma * 4294967296 + 1))
    (pW : WP = if cP.1.gapa > cP.1.gapbj then (if ss > cP.1.gapa then ss else cP.1.gapa)
      else (if ss > cP.1.gapbj then ss else cP.1.gapbj))
    (p5 : cP.1.sp = if WP / 4294967296 ≤ 0 then 0 else WP)
    (p6 : cP.1.bits &&& Zero ≠ 0 ↔ WP / 4294967296 ≤ 0)
    (p7 : cP.1.bits &&& Agap ≠ 0 ↔ cP.1.gapa > cP.1.gapbj ∧ ¬ ss > cP.1.gapa)
    (p8 : cP.1.bits &&& Bgap ≠ 0 ↔ ¬ cP.1.gapa > cP.1.gapbj ∧ ¬ ss > cP.1.gapbj)
    (p9 : cP.2 = if (WP = ss ∧ ss > cP.1.gapa ∧ ss > cP.1.gapbj) ∧ ss > mx.max_score
      then ⟨ss, m⟩ else mx) :
    cL.1.sp = cP.1.sp ∧ cL.2 = cP.2 ∧ 0 ≤ cL.2.max_score ∧
    (cL.1.bits &&& Zero ≠ 0 ↔ cP.1.bits &&& Zero ≠ 0) ∧
    (cL.1.bits &&& Zero = 0 →
      (cL.1.bits &&& Agap ≠ 0 ↔ cP.1.bits &&& Agap ≠ 0) ∧
      (cL.1.bits &&& Bgap ≠ 0 ↔ cP.1.bits &&& Bgap ≠ 0) ∧
      (cL.1.bits &&& Agap ≠ 0 → 0 < cL.1.gapa) ∧
      (cL.1.bits &&& Agap = 0 → cL.1.bits &&& Bgap ≠ 0 → 0 < cL.1.gapbj)) ∧
    ((cL.1.gapa = cP.1.gapa ∧ cL.1.bits &&& Astart ≠ 0 ∧ cP.1.bits &&& Astart ≠ 0) ∨
      (cL.1.gapa = cP.1.gapa ∧ gaL = gaP ∧ 0 < gaL ∧
        cL.1.bits &&& Astart = 0 ∧ cP.1.bits &&& Astart = 0) ∨
      (cL.1.gapa < 0 ∧ cP.1.gapa < 0)) ∧
    ((cL.1.gapbj = cP.1.gapbj ∧ cL.1.bits &&& Bstart ≠ 0 ∧ cP.1.bits &&& Bstart ≠ 0) ∨
      (cL.1.gapbj = cP.1.gapbj ∧ gbL = gbP ∧ 0 < gbL ∧
        cL.1.bits &&& Bstart = 0 ∧ cP.1.bits &&& Bstart = 0) ∨
      (cL.1.gapbj < 0 ∧ cP.1.gapbj < 0)) := by
  have hga := gap_pair_arith (-sigma * 4294967296) oa gaL gaP _ _ (by omega) hA l1 p1
  have hgb := gap_pair_arith (-sigma * 4294967296 + 1) ob gbL gbP _ _ (by omega) hB l3 p3
  have hga' : cL.1.gapa = cP.1.gapa ∨ (cL.1.gapa < 0 ∧ cP.1.gapa < 0) := by
    rcases hga with h | h | h
    · exact Or.inl h.1
    · exact Or.inl h.1
    · exact Or.inr h
  have hgb' : cL.1.gapbj = cP.1.gapbj ∨ (cL.1.gapbj < 0 ∧ cP.1.gapbj < 0) := by
    rcases hgb with h | h | h
    · exact Or.inl h.1
    · exact Or.inl h.1
    · exact Or.inr h
  obtain ⟨hw1, hw2, hw3, hw4, hw5, hw6⟩ := win_pair_arith ss _ _ _ _ WL WP hga' hgb' lW pW
  obtain ⟨hZ, hsp, hpos⟩ := reset_pair_arith WL WP (fun h => (hw1 h).1) hw2
  refine ⟨?_, ?_, ?_, ?_, ?_, ?_, ?_⟩
  · rw [l5, p5]; exact hsp
  · rw [l9, p9]
    by_cases hss : ss > mx.max_score
    · have := hw1 (Or.inl (le_trans hmx (le_trans (le_of_lt hss) hw3)))
      simp only [hss, and_true]
      by_cases hc : WL = ss ∧ ss > cL.1.gapa ∧ ss > cL.1.gapbj
      · rw [if_pos hc, if_pos (this.2.2.2.1 hc)]
      · rw [if_neg hc, if_neg (fun h => hc (this.2.2.2.2 h))]
    · simp only [hss, and_false, if_false]
  · rw [l9]; split_ifs with h
    · exact le_trans hmx (le_of_lt h.2)
    · exact hmx
  · rw [l6, p6]; exact hZ
  · intro hz
    have hnz : ¬ WL / 4294967296 ≤ 0 := by
      intro h; exact (l6.2 h) hz
    have hWpos := hpos hnz
    have := hw1 (Or.inl (le_of_lt hWpos))
    refine ⟨by rw [l7, p7]; exact this.2.1, by rw [l8, p8]; exact this.2.2.1, ?_, ?_⟩
    · intro ha
      rw [← hw5 (l7.1 ha)]; exact hWpos
    · intro _ hb
      rw [← hw6 (l8.1 hb)]; exact hWpos
  · rcases hga with h | h | h
    · exact Or.inl ⟨h.1, l2.2 h.2.1, p2.2 h.2.2⟩
    · refine Or.inr (Or.inl ⟨h.1, h.2.1, h.2.2.1, ?_, ?_⟩)
      · by_contra hc; exact h.2.2.2.1 (l2.1 hc)
      · by_contra hc; exact h.2.2.2.2 (p2.1 hc)
    · exact Or.inr (Or.inr h)
  · rcases hgb with h | h | h
    · exact Or.inl ⟨h.1, l4.2 h.2.1, p4.2 h.2.2⟩
    · refine Or.inr (Or.inl ⟨h.1, h.2.1, h.2.2.1, ?_, ?_⟩)
      · by_contra hc; exact h.2.2.2.1 (l4.1 hc)
      · by_contra hc; exact h.2.2.2.2 (p4.1 hc)
    · exact Or.inr (Or.inr h)

/-- The same cell computed from two pairs of incoming gap scores that are equal
or both not positive: the stored score and the maximum are equal, the cell is
reset in both or in neither, a cell that is not reset has the same winner, a gap
that wins is positive, and each outgoing gap score is equal in both (opened in
both, or continued in both from equal positive scores) or negative in both. -/
theorem LclAlign.cell_pair (rsa rsb sigma d smj smj1 sp gaL gbL gaP gbP : Int) (mx : MaxState)
    (m : Nat) (hsig : 0 < sigma) (hA : gaL = gaP ∨ (gaL ≤ 0 ∧ gaP ≤ 0))
    (hB : gbL = gbP ∨ (gbL ≤ 0 ∧ gbP ≤ 0)) (hmx : 0 ≤ mx.max_score) :
    (LclAlign.cell rsa rsb sigma d smj smj1 sp gaL gbL mx m).1.sp =
      (LclAlign.cell rsa rsb sigma d smj smj1 sp gaP gbP mx m).1.sp ∧
    (LclAlign.cell rsa rsb sigma d smj smj1 sp gaL gbL mx m).2 =
      (LclAlign.cell rsa rsb sigma d smj smj1 sp gaP gbP mx m).2 ∧
    0 ≤ (LclAlign.cell rsa rsb sigma d smj smj1 sp gaL gbL mx m).2.max_score ∧
    ((LclAlign.cell rsa rsb sigma d smj smj1 sp gaL gbL mx m).1.bits &&& Zero ≠ 0 ↔
      (LclAlign.cell rsa rsb sigma d smj smj1 sp gaP gbP mx m).1.bits &&& Zero ≠ 0) ∧
    ((LclAlign.cell rsa rsb sigma d smj smj1 sp gaL gbL mx m).1.bits &&& Zero = 0 →
      ((LclAlign.cell rsa rsb sigma d smj smj1 sp gaL gbL mx m).1.bits &&& Agap ≠ 0 ↔
        (LclAlign.cell rsa rsb sigma d smj smj1 sp gaP gbP mx m).1.bits &&& Agap ≠ 0) ∧
      ((LclAlign.cell rsa rsb sigma d smj smj1 sp gaL gbL mx m).1.bits &&& Bgap ≠ 0 ↔
        (LclAlign.cell rsa rsb sigma d smj smj1 sp gaP gbP mx m).1.bits &&& Bgap ≠ 0) ∧
      ((LclAlign.cell rsa rsb sigma d smj smj1 sp gaL gbL mx m).1.bits &&& Agap ≠ 0 →
        0 < (LclAlign.cell rsa rsb sigma d smj smj1 sp gaL gbL mx m).1.gapa) ∧
      ((LclAlign.cell rsa rsb sigma d smj smj1 sp gaL gbL mx m).1.bits &&& Agap = 0 →
        (LclAlign.cell rsa rsb sigma d smj smj1 sp gaL gbL mx m).1.bits &&& Bgap ≠ 0 →
        0 < (LclAlign.cell rsa rsb sigma d smj smj1 sp gaL gbL mx m).1.gapbj)) ∧
    (((LclAlign.cell rsa rsb sigma d smj smj1 sp gaL gbL mx m).1.gapa =
          (LclAlign.cell rsa rsb sigma d smj smj1 sp gaP gbP mx m).1.gapa ∧
        (LclAlign.cell rsa rsb sigma d smj smj1 sp gaL gbL mx m).1.bits &&& Astart ≠ 0 ∧
        (LclAlign.cell rsa rsb sigma d smj smj1 sp gaP gbP mx m).1.bits &&& Astart ≠ 0) ∨
      ((LclAlign.cell rsa rsb sigma d smj smj1 sp gaL gbL mx m).1.gapa =
          (LclAlign.cell rsa rsb sigma d smj smj1 sp gaP gbP mx m).1.gapa ∧
        gaL = gaP ∧ 0 < gaL ∧
        (LclAlign.cell rsa rsb sigma d smj smj1 sp gaL gbL mx m).1.bits &&& Astart = 0 ∧
        (LclAlign.cell rsa rsb sigma d smj smj1 sp gaP gbP mx m).1.bits &&& Astart = 0) ∨
      ((LclAlign.cell rsa rsb sigma d smj smj1 sp gaL gbL mx m).1.gapa < 0 ∧
        (LclAlign.cell rsa rsb sigma d smj smj1 sp gaP gbP mx m).1.gapa < 0)) ∧
    (((LclAlign.cell rsa rsb sigma d smj smj1 sp gaL gbL mx m).1.gapbj =
          (LclAlign.cell rsa rsb sigma d smj smj1 sp gaP gbP mx m).1.gapbj ∧
        (LclAlign.cell rsa rsb sigma d smj smj1 sp gaL gbL mx m).1.bits &&& Bstart ≠ 0 ∧
        (LclAlign.cell rsa rsb sigma d smj smj1 sp gaP gbP mx m).1.bits &&& Bstart ≠ 0) ∨
      ((LclAlign.cell rsa rsb sigma d smj smj1 sp gaL gbL mx m).1.gapbj =
          (LclAlign.cell rsa rsb sigma d smj smj1 sp gaP gbP mx m).1.gapbj ∧
        gbL = gbP ∧ 0 < gbL ∧
        (LclAlign.cell rsa rsb sigma d smj smj1 sp gaL gbL mx m).1.bits &&& Bstart = 0 ∧
        (LclAlign.cell rsa rsb sigma d smj smj1 sp gaP gbP mx m).1.bits &&& Bstart = 0) ∨
      ((LclAlign.cell rsa rsb sigma d smj smj1 sp gaL gbL mx m).1.gapbj < 0 ∧
        (LclAlign.cell rsa rsb sigma d smj smj1 sp gaP gbP mx m).1.gapbj < 0)) := by
  have eA : CScore.mk2 (-sigma) 0 = -sigma * 4294967296 := by unfold CScore.mk2; ring
  have eB : CScore.mk2 (-sigma) 1 = -sigma * 4294967296 + 1 := by unfold CScore.mk2; ring
  obtain ⟨l1, l2, l3, l4, l5, l6, l7, l8, l9⟩ :=
    LclAlign.cell_pick rsa rsb sigma d smj smj1 sp gaL gbL mx m _ _ _ rfl rfl rfl
  obtain ⟨p1, p2, p3, p4, p5, p6, p7, p8, p9⟩ :=
    LclAlign.cell_pick rsa rsb sigma d smj smj1 sp gaP gbP mx m _ _ _ rfl rfl rfl
  rw [eA] at l1 l2 p1 p2
  rw [eB] at l3 l4 p3 p4
  unfold CScore.Score at l5 l6 p5 p6
  exact pair_arith sigma (smj + CScore.mk2 d 1) (sp + rsa) (smj1 + rsb) gaL gbL gaP gbP mx m _ _
    hsig hA hB hmx _ _ l1 l2 l3 l4 (by rw [l1, l3, eA, eB]) l5 l6
    (by rw [l7, l1, l3, eA, eB]) (by rw [l8, l1, l3, eA, eB]) (by rw [l9, l1, l3, eA, eB])
    p1 p2 p3 p4 (by rw [p1, p3, eA, eB]) p5 p6
    (by rw [p7, p1, p3, eA, eB]) (by rw [p8, p1, p3, eA, eB]) (by rw [p9, p1, p3, eA, eB])

theorem JointMax.extendJM {mL mP : List Nat} {nb : Nat} {mx : MaxState}
    (h : JointMax mL mP nb mx) (x y : List Nat) : JointMax (mL ++ x) (mP ++ y) nb mx := by
  obtain ⟨h0, r, c, h1, h2, h3⟩ := h
  exact ⟨h0, r, c, h1, h2, h3.extendJ x y⟩

theorem LclAlign.cell_max_ptr (rsa rsb sigma d smj smj1 sp gapa gapbj : Int) (mx : MaxState)
    (m : Nat) :
    (LclAlign.cell rsa rsb sigma d smj smj1 sp gapa gapbj mx m).2 = mx ∨
      (LclAlign.cell rsa rsb sigma d smj smj1 sp gapa gapbj mx m).2.max_ptr = m := by
  rw [LclAlign.cell_eq_aux]
  simp only
  split_ifs
  · right; rfl
  · left; rfl

/-- One row of the local kernel run from two sets of gap scores that are equal
with agreeing walks, or not positive in both: the scores and the maximum are the
same, and the tracebacks from every new cell of the two bitmaps agree. -/
theorem LclAlign.cols_pair (rsa rsb sigma : Int) (hsig : 0 < sigma) (matrix : Nat → Int)
    (nb r : Nat) :
    ∀ (bs : List Nat) (j : Nat) (sm gbL gbP : List Int) (sp gaL gaP : Int) (mx : MaxState)
      (m : Nat) (ML MP : List Nat),
      j + bs.length = nb →
      (ML.length : Int) = idx nb (r + 1) (j + 1) → (MP.length : Int) = idx nb (r + 1) (j + 1) →
      m + 1 = ML.length →
      sm.length = bs.length + 1 → gbL.length = bs.length → gbP.length = bs.length →
      (∀ i, i ≤ bs.length → JointTraced ML MP nb r (j + i)) →
      (∀ i gL gP, gbL[i]? = some gL → gbP[i]? = some gP →
        (gL = gP ∧ JointGapB ML MP nb r (j + 1 + i)) ∨ (gL ≤ 0 ∧ gP ≤ 0)) →
      JointTraced ML MP nb (r + 1) j →
      ((gaL = gaP ∧ JointGapA ML MP nb (r + 1) j) ∨ (gaL ≤ 0 ∧ gaP ≤ 0)) →
      JointMax ML MP nb mx →
      (LclAlign.cols rsa rsb sigma matrix bs sm gbL sp gaL mx m).1 =
        (LclAlign.cols rsa rsb sigma matrix bs sm gbP sp gaP mx m).1 ∧
      (LclAlign.cols rsa rsb sigma matrix bs sm gbL sp gaL mx m).2.2.2 =
        (LclAlign.cols rsa rsb sigma matrix bs sm gbP sp gaP mx m).2.2.2 ∧
      (∀ i, i < bs.length →
        JointTraced (ML ++ (LclAlign.cols rsa rsb sigma matrix bs sm gbL sp gaL mx m).2.2.1)
          (MP ++ (LclAlign.cols rsa rsb sigma matrix bs sm gbP sp gaP mx m).2.2.1)
          nb (r + 1) (j + 1 + i)) ∧
      (∀ i gL gP, (LclAlign.cols rsa rsb sigma matrix bs sm gbL sp gaL mx m).2.1[i]? = some gL →
        (LclAlign.cols rsa rsb sigma matrix bs sm gbP sp gaP mx m).2.1[i]? = some gP →
        (gL = gP ∧
          JointGapB (ML ++ (LclAlign.cols rsa rsb sigma matrix bs sm gbL sp gaL mx m).2.2.1)
            (MP ++ (LclAlign.cols rsa rsb sigma matrix bs sm gbP sp gaP mx m).2.2.1)
            nb (r + 1) (j + 1 + i)) ∨ (gL ≤ 0 ∧ gP ≤ 0)) ∧
      JointMax (ML ++ (LclAlign.cols rsa rsb sigma matrix bs sm gbL sp gaL mx m).2.2.1)
        (MP ++ (LclAlign.cols rsa rsb sigma matrix bs sm gbP sp gaP mx m).2.2.1) nb
        (LclAlign.cols rsa rsb sigma matrix bs sm gbL sp gaL mx m).2.2.2 := by
  intro bs
  induction bs with
  | nil =>
    intro j sm gbL gbP sp gaL gaP mx m ML MP _ _ _ _ _ _ _ _ _ _ _ hmx
    simp only [LclAlign.cols_nil, List.append_nil, List.length_nil, List.getElem?_nil]
    exact ⟨trivial, trivial, fun i hi => absurd hi (Nat.not_lt_zero _),
      fun i gL gP h => absurd h (by simp), hmx⟩
  | cons bj bs ih =>
    intro j sm gbL gbP sp gaL gaP mx m ML MP hj hL hP hm hsm hgL hgP hT hB hl hA hmx
    match sm, gbL, gbP, hsm, hgL, hgP, hB with
    | smj :: smj1 :: sms, gL0 :: gLs, gP0 :: gPs, hsm, hgL, hgP, hB =>
      have hAn : gaL = gaP ∨ (gaL ≤ 0 ∧ gaP ≤ 0) := by
        rcases hA with h | h
        · exact Or.inl h.1
        · exact Or.inr h
      have hB0 := hB 0 gL0 gP0 (by simp) (by simp)
      have hBn : gL0 = gP0 ∨ (gL0 ≤ 0 ∧ gP0 ≤ 0) := by
        rcases hB0 with h | h
        · exact Or.inl h.1
        · exact Or.inr h
      obtain ⟨c1, c2, c3, c4, c5, c6, c7⟩ := LclAlign.cell_pair rsa rsb sigma (matrix bj) smj smj1
        sp gaL gL0 gaP gP0 mx (m + 1) hsig hAn hBn hmx.1
      have c8 := LclAlign.cell_max_ptr rsa rsb sigma (matrix bj) smj smj1 sp gaL gL0 mx (m + 1)
      rw [LclAlign.cols, LclAlign.cols]
      generalize LclAlign.cell rsa rsb sigma (matrix bj) smj smj1 sp gaL gL0 mx (m + 1) = cL
        at c1 c2 c3 c4 c5 c6 c7 c8 ⊢
      generalize LclAlign.cell rsa rsb sigma (matrix bj) smj smj1 sp gaP gP0 mx (m + 1) = cP
        at c1 c2 c3 c4 c5 c6 c7 ⊢
      simp only
      -- the gap in the first sequence after the new cell
      have hA1 : (cL.1.gapa = cP.1.gapa ∧
          JointGapA (ML ++ [cL.1.bits]) (MP ++ [cP.1.bits]) nb (r + 1) (j + 1)) ∨
          (cL.1.gapa ≤ 0 ∧ cP.1.gapa ≤ 0) := by
        rcases c6 with h | h | h
        · exact Or.inl ⟨h.1, jointGapA_open ML MP nb (r + 1) j _ _ hL hP hl h.2.1 h.2.2⟩
        · rcases hA with hA | hA
          · exact Or.inl ⟨h.1, jointGapA_extend ML MP nb (r + 1) j _ _ hL hP hA.2 h.2.2.2.1
              h.2.2.2.2⟩
          · exact absurd hA.1 (not_le.2 h.2.2.1)
        · exact Or.inr ⟨le_of_lt h.1, le_of_lt h.2⟩
      -- the gap in the second sequence after the new cell
      have hB1 : (cL.1.gapbj = cP.1.gapbj ∧
          JointGapB (ML ++ [cL.1.bits]) (MP ++ [cP.1.bits]) nb (r + 1) (j + 1)) ∨
          (cL.1.gapbj ≤ 0 ∧ cP.1.gapbj ≤ 0) := by
        rcases c7 with h | h | h
        · exact Or.inl ⟨h.1, jointGapB_open ML MP nb r (j + 1) _ _ hL hP (hT 1 (by simp)) h.2.1
            h.2.2⟩
        · rcases hB0 with hB0 | hB0
          · exact Or.inl ⟨h.1, jointGapB_extend ML MP nb r (j + 1) _ _ hL hP hB0.2 h.2.2.2.1
              h.2.2.2.2⟩
          · exact absurd hB0.1 (not_le.2 h.2.2.1)
        · exact Or.inr ⟨le_of_lt h.1, le_of_lt h.2⟩
      -- the new cell
      have hT1 : JointTraced (ML ++ [cL.1.bits]) (MP ++ [cP.1.bits]) nb (r + 1) (j + 1) := by
        refine jointTraced_step ML MP nb r j _ _ hL hP c4 (fun hz => (c5 hz).1)
          (fun hz _ => (c5 hz).2.1) ?_ ?_ (by simpa using hT 0 (Nat.zero_le _))
        · intro hz ha
          rcases hA1 with h | h
          · exact h.2
          · exact absurd h.1 (not_le.2 ((c5 hz).2.2.1 ha))
        · intro hz ha hb
          rcases hB1 with h | h
          · exact h.2
          · exact absurd h.1 (not_le.2 ((c5 hz).2.2.2 ha hb))
      have hmx1 : JointMax (ML ++ [cL.1.bits]) (MP ++ [cP.1.bits]) nb cL.2 := by
        refine ⟨c3, ?_⟩
        rcases c8 with h | h
        · rw [h]; exact (hmx.extendJM _ _).2
        · exact ⟨r + 1, j + 1, by rw [h, ← hL, ← hm], by simp at hj; omega, hT1⟩
      have hlen1 : ∀ M : List Nat, ∀ x : Nat, (M.length : Int) = idx nb (r + 1) (j + 1) →
          ((M ++ [x]).length : Int) = idx nb (r + 1) (j + 1 + 1) := by
        intro M x h
        rw [List.length_append, List.length_singleton, idx_succ, ← h]; push_cast; rfl
      obtain ⟨i1, i2, i3, i4, i5⟩ := ih (j + 1) (smj1 :: sms) gLs gPs cL.1.sp cL.1.gapa cP.1.gapa
        cL.2 (m + 1) (ML ++ [cL.1.bits]) (MP ++ [cP.1.bits])
        (by simp at hj; omega) (hlen1 ML _ hL) (hlen1 MP _ hP)
        (by rw [List.length_append, List.length_singleton, hm])
        (by simpa using hsm) (by simpa using hgL) (by simpa using hgP)
        (fun i hi => by
          have := (hT (i + 1) (by simp; omega)).extendJ [cL.1.bits] [cP.1.bits]
          rwa [show j + (i + 1) = j + 1 + i from by omega] at this)
        (fun i gL gP h1 h2 => by
          rcases hB (i + 1) gL gP (by simpa using h1) (by simpa using h2) with h | h
          · left
            refine ⟨h.1, ?_⟩
            have := h.2.extendJB [cL.1.bits] [cP.1.bits]
            rwa [show j + 1 + (i + 1) = j + 1 + 1 + i from by omega] at this
          · exact Or.inr h)
        hT1 hA1 hmx1
      rw [← c1, ← c2]
      have eL : ∀ X : List Nat, ML ++ cL.1.bits :: X = ML ++ [cL.1.bits] ++ X := by
        intro X; simp
      have eP : ∀ X : List Nat, MP ++ cP.1.bits :: X = MP ++ [cP.1.bits] ++ X := by
        intro X; simp
      refine ⟨by rw [i1], i2, ?_, ?_, ?_⟩
      · intro i hi
        rw [eL, eP]
        cases i with
        | zero => exact hT1.extendJ _ _
        | succ i =>
          have := i3 i (by simpa using hi)
          rwa [show j + 1 + 1 + i = j + 1 + (i + 1) from by omega] at this
      · intro i gL gP h1 h2
        rw [eL, eP]
        cases i with
        | zero =>
          simp only [List.getElem?_cons_zero, Option.some.injEq] at h1 h2
          rw [← h1, ← h2]
          rcases hB1 with h | h
          · exact Or.inl ⟨h.1, h.2.extendJB _ _⟩
          · exact Or.inr h
        | succ i =>
          simp only [List.getElem?_cons_succ] at h1 h2
          have := i4 i gL gP h1 h2
          rwa [show j + 1 + 1 + i = j + 1 + (i + 1) from by omega] at this
      · rw [eL, eP]; exact i5

/-- Without a pinned left end the inner loop of the semi-global kernel is the one
of the local kernel. -/
theorem LclAlignPin.cols_false (rsa rsb sigma : Int) (matrix : Nat → Int) :
    ∀ (bs : List Nat) (sm gapb : List Int) (sp gapa : Int) (mx : MaxState) (m : Nat),
      LclAlignPin.cols false rsa rsb sigma matrix bs sm gapb sp gapa mx m =
        LclAlign.cols rsa rsb sigma matrix bs sm gapb sp gapa mx m := by
  intro bs
  induction bs with
  | nil => intro sm gapb sp gapa mx m; rw [LclAlign.cols_nil, LclAlignPin.cols_nil_pin]
  | cons bj bs ih =>
    intro sm gapb sp gapa mx m
    match sm, gapb with
    | [], _ => simp [LclAlign.cols, LclAlignPin.cols]
    | [_], _ => simp [LclAlign.cols, LclAlignPin.cols]
    | _ :: _ :: _, [] => simp [LclAlign.cols, LclAlignPin.cols]
    | smj :: smj1 :: sms, gbj :: gbs =>
      rw [LclAlign.cols, LclAlignPin.cols]
      simp only [LclAlignPin.cell_false, ih]

theorem jointRow_init (nb : Nat) :
    JointRow nb 0 (List.replicate (nb + 1) CScore.zero) (List.replicate (nb + 1) CScore.zero)
      (List.replicate (nb + 1) bignegative) (List.replicate (nb + 1) Zero)
      (0 :: List.replicate nb Zero) := by
  refine ⟨by simp [idx], by simp [idx], by simp, by simp, by simp, ?_, ?_⟩
  · intro c hc
    cases c with
    | zero => exact jointTraced_origin _ _ nb
    | succ c =>
      have h1 : List.replicate (nb + 1) Zero =
          (List.replicate (c + 1) Zero ++ [Zero]) ++ List.replicate (nb - (c + 1)) Zero := by
        rw [← List.replicate_succ', ← List.replicate_add]
        congr 1; omega
      have h2 : 0 :: List.replicate nb Zero =
          ((0 :: List.replicate c Zero) ++ [Zero]) ++ List.replicate (nb - (c + 1)) Zero := by
        rw [List.cons_append, List.cons_append, ← List.replicate_succ', ← List.replicate_add]
        congr 2; omega
      rw [h1, h2]
      exact (jointTraced_zero _ _ nb 0 (c + 1) Zero Zero (by simp [idx]) (by simp [idx])
        (by decide) (by decide)).extendJ _ _
  · intro c gL gP _ h1 h2
    right
    rw [List.getElem?_replicate] at h1 h2
    split_ifs at h1 h2
    simp only [Option.some.injEq] at h1 h2
    rw [← h1, ← h2]
    exact ⟨le_refl _, by decide⟩

/-- The rows of the local kernel and of the semi-global kernel with both ends
free, from states that agree: the same maximum at the same cell, and agreeing
tracebacks from that cell. -/
theorem LclAlignPin.rows_pair (rsa rsb sigma : Int) (hsig : 0 < sigma) (delta : Nat → Nat → Int)
    (b : List Nat) :
    ∀ (as : List Nat) (r : Nat) (sm gbL gbP : List Int) (mx : MaxState) (ML MP : List Nat),
      JointRow b.length r sm gbL gbP ML MP → JointMax ML MP b.length mx →
      (LclAlignPin.rows false rsa rsb sigma delta b as sm CScore.zero gbP mx MP).2.1 =
        (LclAlign.rows rsa rsb sigma delta b as sm gbL mx ML).1 ∧
      JointMax (LclAlign.rows rsa rsb sigma delta b as sm gbL mx ML).2
        (LclAlignPin.rows false rsa rsb sigma delta b as sm CScore.zero gbP mx MP).2.2 b.length
        (LclAlign.rows rsa rsb sigma delta b as sm gbL mx ML).1 := by
  intro as
  induction as with
  | nil =>
    intro r sm gbL gbP mx ML MP _ hmx
    rw [LclAlign.rows, LclAlignPin.rows]
    exact ⟨rfl, hmx⟩
  | cons ai as ih =>
    intro r sm gbL gbP mx ML MP hrow hmx
    obtain ⟨hL, hP, hsm, hgL, hgP, hT, hB⟩ := hrow
    have hlen : MP.length = ML.length := by omega
    rw [LclAlign.rows, LclAlignPin.rows]
    simp only [Bool.false_eq_true, if_false, LclAlignPin.cols_false, hlen]
    have hL1 : ((ML ++ [Zero]).length : Int) = idx b.length (r + 1) (0 + 1) := by
      rw [List.length_append, List.length_singleton, idx_succ, ← hL]; push_cast; rfl
    have hP1 : ((MP ++ [Zero]).length : Int) = idx b.length (r + 1) (0 + 1) := by
      rw [List.length_append, List.length_singleton, idx_succ, ← hP]; push_cast; rfl
    have hfirst : JointTraced (ML ++ [Zero]) (MP ++ [Zero]) b.length (r + 1) 0 :=
      jointTraced_zero ML MP b.length (r + 1) 0 Zero Zero hL hP (by decide) (by decide)
    obtain ⟨c1, c2, c3, c4, c5⟩ := LclAlign.cols_pair rsa rsb sigma hsig (delta ai) b.length r b 0
      sm gbL.tail gbP.tail CScore.zero CScore.zero bignegative mx ML.length (ML ++ [Zero])
      (MP ++ [Zero]) (Nat.zero_add _) hL1 hP1
      (by rw [List.length_append, List.length_singleton])
      hsm (by rw [List.length_tail, hgL]; rfl) (by rw [List.length_tail, hgP]; rfl)
      (fun i hi => by
        have := (hT i hi).extendJ [Zero] [Zero]
        rwa [Nat.zero_add])
      (fun i gL gP h1 h2 => by
        rw [List.getElem?_tail] at h1 h2
        rcases hB (i + 1) gL gP (by omega) h1 h2 with h | h
        · left
          refine ⟨h.1, ?_⟩
          have := h.2.extendJB [Zero] [Zero]
          rwa [show 0 + 1 + i = i + 1 from by omega]
        · exact Or.inr h)
      hfirst (Or.inr ⟨le_refl _, by decide⟩) (hmx.extendJM _ _)
    obtain ⟨l1, l2, l3⟩ := LclAlign.cols_lengths rsa rsb sigma (delta ai) b sm gbL.tail
      CScore.zero CScore.zero mx ML.length hsm (by rw [List.length_tail, hgL]; rfl)
    obtain ⟨q1, q2, q3⟩ := LclAlign.cols_lengths rsa rsb sigma (delta ai) b sm gbP.tail
      CScore.zero bignegative mx ML.length hsm (by rw [List.length_tail, hgP]; rfl)
    generalize LclAlign.cols rsa rsb sigma (delta ai) b sm gbL.tail CScore.zero CScore.zero mx
      ML.length = RL at c1 c2 c3 c4 c5 l1 l2 l3 ⊢
    generalize LclAlign.cols rsa rsb sigma (delta ai) b sm gbP.tail CScore.zero bignegative mx
      ML.length = RP at c1 c2 c3 c4 c5 q1 q2 q3 ⊢
    have eL : ML ++ Zero :: RL.2.2.1 = ML ++ [Zero] ++ RL.2.2.1 := by simp
    have eP : MP ++ Zero :: RP.2.2.1 = MP ++ [Zero] ++ RP.2.2.1 := by simp
    rw [← c1, ← c2, eL, eP]
    refine ih (r + 1) _ _ _ _ _ _ ⟨?_, ?_, ?_, ?_, ?_, ?_, ?_⟩ c5
    · rw [List.length_append, Nat.cast_add, hL1, l3]; unfold idx; push_cast; ring
    · rw [List.length_append, Nat.cast_add, hP1, q3]; unfold idx; push_cast; ring
    · rw [List.length_cons, l1]
    · rw [List.length_append, List.length_take, l2, hgL]; omega
    · rw [List.length_append, List.length_take, q2, hgP]; omega
    · intro c hc
      cases c with
      | zero => exact hfirst.extendJ _ _
      | succ c =>
        have := c3 c (by omega)
        rwa [show 0 + 1 + c = c + 1 from by omega] at this
    · intro c gL gP hc h1 h2
      obtain ⟨c', rfl⟩ : ∃ c', c = c' + 1 := ⟨c - 1, by omega⟩
      rw [List.getElem?_append_right (by rw [List.length_take, hgL]; omega)] at h1
      rw [List.getElem?_append_right (by rw [List.length_take, hgP]; omega)] at h2
      have e1 : c' + 1 - (List.take 1 gbL).length = c' := by
        rw [List.length_take, hgL]; omega
      have e2 : c' + 1 - (List.take 1 gbP).length = c' := by
        rw [List.length_take, hgP]; omega
      rw [e1] at h1
      rw [e2] at h2
      have := c4 c' gL gP h1 h2
      rwa [show 0 + 1 + c' = c' + 1 from by omega] at this

theorem add64_eq (x y : Nat) (h : x + y < 18446744073709551616) : add64 x y = x + y := by
  unfold add64; omega

theorem sub64_eq (x y : Nat) (h : y ≤ x) (hx : x < 18446744073709551616) :
    sub64 x y = x - y := by
  unfold sub64; omega

theorem vecAt_nat {α : Type} (v : List α) (k : Nat) : vecAt v (k : Int) = v[k]? := by
  unfold vecAt
  rw [if_neg (by omega), Int.toNat_ofNat]

theorem toInt32_succ (k : Nat) (h : k + 1 < 2147483648) :
    toInt32 ((k : Int) + 1) = ((k + 1 : Nat) : Int) := by
  unfold toInt32; omega

theorem sum_drop_lt (l : List Nat) (k : Nat) (x : Nat) (h : l[k]? = some x) :
    (l.drop k).sum = x + (l.drop (k + 1)).sum := by
  have hk : k < l.length := by
    by_contra hc
    rw [List.getElem?_eq_none (by omega)] at h
    exact absurd h (by simp)
  rw [drop_eq_getD_cons l k 0 hk, List.sum_cons, List.getD_eq_getElem?_getD, h]
  rfl

theorem sum_drop_le (l : List Nat) (k : Nat) : (l.drop k).sum ≤ l.sum := by
  induction l generalizing k with
  | nil => simp
  | cons x xs ih =>
    cases k with
    | zero => simp
    | succ k =>
      simp only [List.drop_succ_cons, List.sum_cons]
      have := ih k
      omega

theorem zip_drop_cons (names : List String) (lens : List Nat) (k : Nat) (name : String)
    (flen : Nat) (h1 : names[k]? = some name) (h2 : lens[k]? = some flen) :
    (names.zip lens).drop k = (name, flen) :: (names.zip lens).drop (k + 1) := by
  have h : (names.zip lens)[k]? = some (name, flen) := by
    rw [List.getElem?_zip_eq_some]; exact ⟨h1, h2⟩
  have hk : k < (names.zip lens).length := by
    by_contra hc
    rw [List.getElem?_eq_none (by omega)] at h
    exact absurd h (by simp)
  rw [List.drop_eq_getElem_cons hk]
  congr 1
  rw [List.getElem?_eq_getElem hk] at h
  exact Option.some.inj h

theorem jobReads_cons (s : TSlice) (job : TReadJob) :
    jobReads (s :: job) = sliceReads s + jobReads job := by
  unfold jobReads; simp

theorem jobReads_nil : jobReads [] = 0 := rfl

theorem JobInv.lt_iff {total_length : Nat} {file_length : List Nat} {a k o : Nat}
    (h : JobInv total_length file_length a k o) :
    a < total_length ↔ k < file_length.length := by
  obtain ⟨h1, h2, h3, h4⟩ := h
  constructor
  · intro ha
    by_contra hk
    rw [List.drop_eq_nil_of_le (by omega)] at h2
    simp at h2
    omega
  · intro hk
    have hx := h3 _ (List.getElem?_eq_getElem hk)
    rw [sum_drop_lt file_length k _ (List.getElem?_eq_getElem hk)] at h2
    omega

/-- The inner loop of `ReadJobInputs` ends and fills the job up to `job_length`
reads, or with all the reads that are left; the slices it adds continue the cover
of the files. -/
theorem ReadJobInputs.inner_spec (total_length job_length : Nat) (file_list : List String)
    (file_length : List Nat) (hlen : file_list.length = file_length.length)
    (hn : file_length.length < 2147483648) (hpos : ∀ x ∈ file_length, 1 ≤ x)
    (hsz : ∀ x ∈ file_length, x < 18446744073709551616)
    (htot : total_length < 18446744073709551616)
    (hjob : job_length < 18446744073709551616) :
    ∀ (fuel a k o c : Nat) (job : TReadJob),
      JobInv total_length file_length a k o → c ≤ a → c ≤ job_length →
      (file_length.drop k).sum - o < fuel →
      ∃ (a1 k1 o1 : Nat) (added : TReadJob),
        ReadJobInputs.inner total_length job_length file_list file_length fuel a (k : Int) o c
          job = some (a1, (k1 : Int), o1, job ++ added) ∧
        JobInv total_length file_length a1 k1 o1 ∧ a1 = a + jobReads added ∧
        c + jobReads added ≤ job_length ∧
        (a1 < total_length → c + jobReads added = job_length) ∧
        (c < job_length → a < total_length → 1 ≤ jobReads added) ∧
        ∀ rest, Covers ((file_list.zip file_length).drop k1) o1 rest →
          Covers ((file_list.zip file_length).drop k) o (added ++ rest) := by
  intro fuel
  induction fuel with
  | zero => intro a k o c job _ _ _ h; omega
  | succ fuel ih =>
    intro a k o c job hinv hca hcj hfuel
    rw [ReadJobInputs.inner]
    by_cases hcond : c < job_length ∧ a < total_length
    · rw [if_pos hcond]
      have hk : k < file_length.length := hinv.lt_iff.1 hcond.2
      have hfl : file_length[k]? = some file_length[k] := List.getElem?_eq_getElem hk
      have hk2 : k < file_list.length := by omega
      have hnm : file_list[k]? = some file_list[k] := List.getElem?_eq_getElem hk2
      generalize file_length[k] = flen at hfl
      generalize file_list[k] = name at hnm
      obtain ⟨h1, h2, h3, h4⟩ := hinv
      have ho := h3 flen hfl
      have hflen : flen < 18446744073709551616 :=
        hsz flen (List.mem_iff_getElem?.2 ⟨_, hfl⟩)
      have hsum := sum_drop_lt file_length k flen hfl
      have hdrop := zip_drop_cons file_list file_length k name flen hnm hfl
      have hnext : ∀ x, file_length[k + 1]? = some x → 0 < x := by
        intro x hx
        exact hpos x (List.mem_iff_getElem?.2 ⟨_, hx⟩)
      rw [vecAt_nat, vecAt_nat, hfl, hnm]
      simp only
      have e1 : sub64 flen o = flen - o := sub64_eq flen o (by omega) (by omega)
      have e2 : add64 c (flen - o) = c + (flen - o) := add64_eq _ _ (by omega)
      rw [e1, e2]
      by_cases hfit : c + (flen - o) ≤ job_length
      · rw [if_pos hfit, add64_eq a (flen - o) (by omega), toInt32_succ k (by omega),
          sub64_eq flen 1 (by omega) (by omega)]
        obtain ⟨a1, k1, o1, added, heq, hinv1, ha1, hc1, hfull, -, hcov⟩ :=
          ih (a + (flen - o)) (k + 1) 0 (c + (flen - o)) (job ++ [(name, o, flen - 1)])
            ⟨by omega, by omega, hnext, fun _ => rfl⟩ (by omega) hfit (by omega)
        have hs : sliceReads (name, o, flen - 1) = flen - o := by
          unfold sliceReads; simp only; omega
        refine ⟨a1, k1, o1, (name, o, flen - 1) :: added, ?_, hinv1, ?_, ?_, ?_, ?_, ?_⟩
        · rw [heq, List.append_assoc, List.singleton_append]
        · rw [jobReads_cons, hs]; omega
        · rw [jobReads_cons, hs]; omega
        · intro h; rw [jobReads_cons, hs]; have := hfull h; omega
        · intro _ _; rw [jobReads_cons, hs]; omega
        · intro rest hrest
          rw [hdrop, List.cons_append]
          exact ⟨rfl, rfl, by omega, by omega, Or.inl ⟨by omega, hcov rest hrest⟩⟩
      · rw [if_neg hfit]
        have e3 : sub64 job_length c = job_length - c := sub64_eq _ _ (by omega) hjob
        rw [e3, add64_eq a (job_length - c) (by omega),
          add64_eq o (job_length - c) (by omega),
          sub64_eq (o + (job_length - c)) 1 (by omega) (by omega)]
        obtain ⟨a1, k1, o1, added, heq, hinv1, ha1, hc1, hfull, -, hcov⟩ :=
          ih (a + (job_length - c)) k (o + (job_length - c)) job_length
            (job ++ [(name, o, o + (job_length - c) - 1)])
            ⟨h1, by omega,
              fun x hx => by rw [hfl] at hx; cases hx; omega, fun h => by omega⟩
            (by omega) (le_refl _) (by omega)
        have hs : sliceReads (name, o, o + (job_length - c) - 1) = job_length - c := by
          unfold sliceReads; simp only; omega
        refine ⟨a1, k1, o1, (name, o, o + (job_length - c) - 1) :: added, ?_, hinv1, ?_, ?_,
          ?_, ?_, ?_⟩
        · rw [heq, List.append_assoc, List.singleton_append]
        · rw [jobReads_cons, hs]; omega
        · rw [jobReads_cons, hs]; omega
        · intro h; rw [jobReads_cons, hs]; have := hfull h; omega
        · intro _ _; rw [jobReads_cons, hs]; omega
        · intro rest hrest
          rw [hdrop, List.cons_append]
          refine ⟨rfl, rfl, by omega, by omega, Or.inr ⟨by omega, ?_⟩⟩
          rw [← hdrop, show o + (job_length - c) - 1 + 1 = o + (job_length - c) from by omega]
          exact hcov rest hrest
    · rw [if_neg hcond]
      refine ⟨a, k, o, [], by rw [List.append_nil], hinv, by rw [jobReads_nil]; rfl,
        by rw [jobReads_nil]; omega, ?_, ?_, fun rest h => h⟩
      · intro h; rw [jobReads_nil]; omega
      · intro h1 h2; exact absurd ⟨h1, h2⟩ hcond

theorem Covers_nil (files : List (String × Nat)) (o : Nat) :
    Covers files o [] ↔ files = [] ∧ o = 0 := by
  cases files <;> simp [Covers]

/-- The outer loop of `ReadJobInputs` ends and appends jobs that cover the files
that are left; every job holds between one and `job_length` reads and every job
but the last holds `job_length`. -/
theorem ReadJobInputs.outer_spec (total_length job_length : Nat) (file_list : List String)
    (file_length : List Nat) (hlen : file_list.length = file_length.length)
    (hn : file_length.length < 2147483648) (hpos : ∀ x ∈ file_length, 1 ≤ x)
    (hsz : ∀ x ∈ file_length, x < 18446744073709551616)
    (htot : total_length < 18446744073709551616) (hjob1 : 1 ≤ job_length)
    (hjob : job_length < 18446744073709551616) :
    ∀ (fuel a k o : Nat) (acc : List TReadJob),
      JobInv total_length file_length a k o → (file_length.drop k).sum - o < fuel →
      ∃ jobs : List TReadJob,
        ReadJobInputs.outer total_length job_length file_list file_length fuel a (k : Int) o
          acc = some (acc ++ jobs) ∧
        Covers ((file_list.zip file_length).drop k) o jobs.flatten ∧
        (∀ job ∈ jobs, 1 ≤ jobReads job ∧ jobReads job ≤ job_length) ∧
        (∀ i job, i + 1 < jobs.length → jobs[i]? = some job → jobReads job = job_length) ∧
        (¬ a < total_length → jobs = []) := by
  intro fuel
  induction fuel with
  | zero => intro a k o acc _ h; omega
  | succ fuel ih =>
    intro a k o acc hinv hfuel
    rw [ReadJobInputs.outer]
    by_cases ha : a < total_length
    · rw [if_pos ha]
      have hR : (file_length.drop k).sum - o < total_length + 1 := by
        have := hinv.2.1; omega
      obtain ⟨a1, k1, o1, added, heq, hinv1, ha1, hc1, hfull, hprog, hcov⟩ :=
        ReadJobInputs.inner_spec total_length job_length file_list file_length hlen hn hpos hsz
          htot hjob (total_length + 1) a k o 0 [] hinv (Nat.zero_le _) (Nat.zero_le _) hR
      have hp := hprog (by omega) ha
      rw [heq]
      simp only [List.nil_append]
      obtain ⟨jobs, hout, hcj, hsize, hfullj, hlast⟩ := ih a1 k1 o1 (acc ++ [added]) hinv1
        (by have h1 := hinv.2.1; have h2 := hinv1.2.1; omega)
      refine ⟨added :: jobs, ?_, ?_, ?_, ?_, fun h => absurd ha h⟩
      · rw [hout, List.append_assoc, List.singleton_append]
      · rw [List.flatten_cons]; exact hcov _ hcj
      · intro job hj
        rcases List.mem_cons.1 hj with h | h
        · rw [h]; exact ⟨hp, by omega⟩
        · exact hsize job h
      · intro i job hi hj
        cases i with
        | zero =>
          simp only [List.getElem?_cons_zero, Option.some.injEq] at hj
          rw [← hj]
          have hne : jobs ≠ [] := by
            intro h; rw [h] at hi; simp at hi
          have : a1 < total_length := by
            by_contra hc; exact hne (hlast hc)
          have := hfull this
          omega
        | succ i =>
          simp only [List.getElem?_cons_succ] at hj
          exact hfullj i job (by simpa using hi) hj
    · rw [if_neg ha]
      refine ⟨[], by rw [List.append_nil], ?_, fun job h => absurd h (List.not_mem_nil _),
        fun i job hi => absurd hi (by simp), fun _ => rfl⟩
      have hk : file_length.length ≤ k := by
        by_contra hc; exact ha (hinv.lt_iff.2 (by omega))
      rw [List.flatten_nil, Covers_nil]
      exact ⟨List.drop_eq_nil_of_le (by rw [List.length_zip, hlen]; simpa using hk),
        hinv.2.2.2 hk⟩

theorem drop_range_one (o : Nat) : ∀ (s n : Nat),
    (List.range' s n).drop o = List.range' (s + o) (n - o) := by
  induction o with
  | zero => intro s n; rfl
  | succ o ih =>
    intro s n
    cases n with
    | zero => simp
    | succ n =>
      rw [List.range'_succ, List.drop_succ_cons, ih]
      congr 1 <;> omega

theorem fileIdx_drop (n : String) (len : Nat) (fs : List (String × Nat)) (o : Nat)
    (ho : o ≤ len) :
    (fileIdx ((n, len) :: fs)).drop o =
      (List.range' o (len - o)).map (fun i => (n, i)) ++ fileIdx fs := by
  unfold fileIdx
  rw [List.flatMap_cons, List.drop_append_of_le_length (by simp; exact ho), ← List.map_drop,
    List.range_eq_range', drop_range_one, Nat.zero_add]

/-- Slices that cover the files from read `o` on enumerate, in order, the reads of
the files from read `o` on, each once. -/
theorem Covers_reads : ∀ (S : List TSlice) (files : List (String × Nat)) (o : Nat),
    Covers files o S → S.flatMap sliceIdx = (fileIdx files).drop o := by
  intro S
  induction S with
  | nil =>
    intro files o h
    rw [Covers_nil] at h
    rw [h.1, h.2]; rfl
  | cons s rest ih =>
    intro files o h
    obtain ⟨name, f, t⟩ := s
    match files, h with
    | (n, len) :: fs, h =>
      simp only [Covers] at h
      obtain ⟨h1, h2, h3, h4, h5⟩ := h
      subst h1
      subst h2
      rw [List.flatMap_cons, fileIdx_drop name len fs f (by omega)]
      have hs : sliceIdx (name, f, t) = (List.range' f (t + 1 - f)).map (fun i => (name, i)) := rfl
      rw [hs]
      rcases h5 with ⟨h6, h7⟩ | ⟨h6, h7⟩
      · rw [ih fs 0 h7, List.drop_zero, h6]
      · rw [ih _ (t + 1) h7, fileIdx_drop name len fs (t + 1) (by omega), ← List.append_assoc,
          ← List.map_append]
        congr 2
        have := List.range'_append_1 f (t + 1 - f) (len - (t + 1))
        rw [show f + (t + 1 - f) = t + 1 from by omega] at this
        rw [this]
        congr 1; omega

theorem mem_lt_of_sum_lt (l : List Nat) (B : Nat) (h : l.sum < B) : ∀ x ∈ l, x < B :=
  fun _ hx => lt_of_le_of_lt (List.le_sum_of_mem hx) h

/-- Every slice of a cover has `from ≤ to`. -/
theorem Covers_from_le : ∀ (S : List TSlice) (files : List (String × Nat)) (o : Nat),
    Covers files o S → ∀ s ∈ S, s.2.1 ≤ s.2.2 := by
  intro S
  induction S with
  | nil => intro files o _ s hs; exact absurd hs (List.not_mem_nil _)
  | cons s0 rest ih =>
    intro files o h s hs
    obtain ⟨name, f, t⟩ := s0
    match files, h with
    | (n, len) :: fs, h =>
      simp only [Covers] at h
      obtain ⟨-, -, h3, -, h5⟩ := h
      rcases List.mem_cons.1 hs with h | h
      · rw [h]; exact h3
      · rcases h5 with ⟨-, h7⟩ | ⟨-, h7⟩
        · exact ih _ _ h7 s h
        · exact ih _ _ h7 s h

theorem int32_some (x y : Int) (h : int32 x = some y) :
    y = x ∧ -2147483648 ≤ x ∧ x ≤ 2147483647 := by
  unfold int32 at h
  split_ifs at h with hc
  simp only [Option.some.injEq] at h
  exact ⟨h.symm, hc.1, hc.2⟩

theorem int32_of_range (x : Int) (h1 : -2147483648 ≤ x) (h2 : x ≤ 2147483647) :
    int32 x = some x := by
  unfold int32
  rw [if_pos ⟨h1, h2⟩]

/-- A run of `M` columns summed in `int` has the value of the exact sum. -/
theorem scoreRun32_sound (query subject : List Nat) (delta : Nat → Nat → Int) :
    ∀ (n : Nat) (q s acc t : Int),
      CCigar.scoreRun32 query subject delta n q s acc = some t →
      CCigar.scoreRun query subject delta n q s acc = some t := by
  intro n
  induction n with
  | zero => intro q s acc t h; exact h
  | succ n ih =>
    intro q s acc t h
    unfold CCigar.scoreRun32 at h
    unfold CCigar.scoreRun
    cases hq : deref query q with
    | none => rw [hq] at h; simp at h
    | some x =>
      cases hs : deref subject s with
      | none => rw [hq, hs] at h; simp at h
      | some y =>
        rw [hq, hs] at h
        simp only at h ⊢
        cases h32 : int32 (acc + delta x y) with
        | none => rw [h32] at h; simp at h
        | some acc1 =>
          rw [h32] at h
          simp only at h
          obtain ⟨e, -, -⟩ := int32_some _ _ h32
          rw [← e]
          exact ih _ _ _ _ h

theorem gapStep32_sound (gopen gapextend len acc t : Int)
    (h : CCigar.gapStep32 gopen gapextend len acc = some t) :
    t = acc - (gopen + gapextend * len) := by
  unfold CCigar.gapStep32 at h
  cases h1 : int32 (gapextend * len) with
  | none => rw [h1] at h; simp at h
  | some e =>
    rw [h1] at h
    simp only at h
    cases h2 : int32 (gopen + e) with
    | none => rw [h2] at h; simp at h
    | some g =>
      rw [h2] at h
      simp only at h
      obtain ⟨e1, -, -⟩ := int32_some _ _ h1
      obtain ⟨e2, -, -⟩ := int32_some _ _ h2
      obtain ⟨e3, -, -⟩ := int32_some _ _ h
      rw [e3, e2, e1]

/-- The element loop in `int` has the value of the exact loop. -/
theorem scoreLoop32_sound (query subject : List Nat) (gopen gapextend : Int)
    (delta : Nat → Nat → Int) :
    ∀ (els : List SElement) (q s acc t : Int),
      CCigar.scoreLoop32 query subject gopen gapextend delta els q s acc = some t →
      CCigar.scoreLoop query subject gopen gapextend delta els q s acc = some t := by
  intro els
  induction els with
  | nil => intro q s acc t h; exact h
  | cons el rest ih =>
    intro q s acc t h
    unfold CCigar.scoreLoop32 at h
    unfold CCigar.scoreLoop
    by_cases hM : el.m_type = 'M'
    · rw [if_pos hM] at h ⊢
      cases hr : CCigar.scoreRun32 query subject delta el.m_len.toNat q s acc with
      | none => rw [hr] at h; simp at h
      | some acc1 =>
        rw [hr] at h
        simp only at h
        rw [scoreRun32_sound _ _ _ _ _ _ _ _ hr]
        exact ih _ _ _ _ h
    · rw [if_neg hM] at h ⊢
      by_cases hD : el.m_type = 'D'
      · rw [if_pos hD] at h ⊢
        cases hg : CCigar.gapStep32 gopen gapextend el.m_len acc with
        | none => rw [hg] at h; simp at h
        | some acc1 =>
          rw [hg] at h
          simp only at h
          rw [← gapStep32_sound _ _ _ _ _ hg]
          exact ih _ _ _ _ h
      · rw [if_neg hD] at h ⊢
        cases hg : CCigar.gapStep32 gopen gapextend el.m_len acc with
        | none => rw [hg] at h; simp at h
        | some acc1 =>
          rw [hg] at h
          simp only at h
          rw [← gapStep32_sound _ _ _ _ _ hg]
          exact ih _ _ _ _ h

/-- When `Score` in `int` has a value, it is the exact score. -/
theorem Score32_sound (c : CCigar) (query subject : List Nat) (gopen gapextend : Int)
    (delta : Nat → Nat → Int) (t : Int)
    (h : c.Score32 query subject gopen gapextend delta = some t) :
    c.Score query subject gopen gapextend delta = some t :=
  scoreLoop32_sound query subject gopen gapextend delta _ _ _ _ _ h

/-- With entries of `char` size a run of `n` columns moves the sum by at most
`128*n`, and summed in `int` it has the exact value when that range fits. -/
theorem scoreRun32_complete (query subject : List Nat) (delta : Nat → Nat → Int)
    (hd : ∀ x y, -128 ≤ delta x y ∧ delta x y ≤ 127) :
    ∀ (n : Nat) (q s acc t : Int),
      CCigar.scoreRun query subject delta n q s acc = some t →
      -2147483648 ≤ acc - 128 * (n : Int) → acc + 128 * (n : Int) ≤ 2147483647 →
      CCigar.scoreRun32 query subject delta n q s acc = some t ∧
        acc - 128 * (n : Int) ≤ t ∧ t ≤ acc + 128 * (n : Int) := by
  intro n
  induction n with
  | zero =>
    intro q s acc t h _ _
    unfold CCigar.scoreRun at h
    simp only [Option.some.injEq] at h
    subst h
    exact ⟨rfl, by simp, by simp⟩
  | succ n ih =>
    intro q s acc t h h1 h2
    unfold CCigar.scoreRun at h
    unfold CCigar.scoreRun32
    cases hq : deref query q with
    | none => rw [hq] at h; simp at h
    | some x =>
      cases hs : deref subject s with
      | none => rw [hq, hs] at h; simp at h
      | some y =>
        rw [hq, hs] at h
        simp only at h ⊢
        have hxy := hd x y
        push_cast at h1 h2
        rw [int32_of_range (acc + delta x y) (by omega) (by omega)]
        simp only
        obtain ⟨e, l, u⟩ := ih (q + 1) (s + 1) (acc + delta x y) t h (by omega) (by omega)
        refine ⟨e, ?_, ?_⟩
        · push_cast; omega
        · push_cast; omega

theorem gapStep32_complete (gopen gapextend len acc : Int) (hgo : 0 ≤ gopen)
    (hge : 0 ≤ gapextend) (hlen : 0 ≤ len)
    (h1 : -2147483648 ≤ acc - (gopen + gapextend * len))
    (h2 : acc + (gopen + gapextend * len) ≤ 2147483647) :
    CCigar.gapStep32 gopen gapextend len acc = some (acc - (gopen + gapextend * len)) := by
  have he : 0 ≤ gapextend * len := mul_nonneg hge hlen
  unfold CCigar.gapStep32
  rw [int32_of_range (gapextend * len) (by omega) (by omega)]
  simp only
  rw [int32_of_range (gopen + gapextend * len) (by omega) (by omega)]
  simp only
  exact int32_of_range _ h1 (by omega)

theorem scoreWeight_nonneg (gopen gapextend : Int) (hgo : 0 ≤ gopen) (hge : 0 ≤ gapextend) :
    ∀ (els : List SElement), (∀ e ∈ els, 0 ≤ e.m_len) → 0 ≤ scoreWeight gopen gapextend els := by
  intro els
  induction els with
  | nil => intro _; exact le_refl _
  | cons el rest ih =>
    intro h
    unfold scoreWeight
    have h0 := h el (List.mem_cons_self _ _)
    have hr := ih (fun e he => h e (List.mem_cons_of_mem _ he))
    have he : 0 ≤ gapextend * el.m_len := mul_nonneg hge h0
    split_ifs <;> omega

/-- With entries of `char` size and non-negative penalties the element loop in
`int` has the exact value when the weight of the element list fits around the
sum so far. -/
theorem scoreLoop32_complete (query subject : List Nat) (gopen gapextend : Int)
    (delta : Nat → Nat → Int) (hd : ∀ x y, -128 ≤ delta x y ∧ delta x y ≤ 127)
    (hgo : 0 ≤ gopen) (hge : 0 ≤ gapextend) :
    ∀ (els : List SElement) (q s acc t : Int), (∀ e ∈ els, 0 ≤ e.m_len) →
      CCigar.scoreLoop query subject gopen gapextend delta els q s acc = some t →
      -2147483648 ≤ acc - scoreWeight gopen gapextend els →
      acc + scoreWeight gopen gapextend els ≤ 2147483647 →
      CCigar.scoreLoop32 query subject gopen gapextend delta els q s acc = some t := by
  intro els
  induction els with
  | nil => intro q s acc t _ h _ _; exact h
  | cons el rest ih =>
    intro q s acc t hpos h h1 h2
    have h0 := hpos el (List.mem_cons_self _ _)
    have hrest : ∀ e ∈ rest, 0 ≤ e.m_len := fun e he => hpos e (List.mem_cons_of_mem _ he)
    have hw := scoreWeight_nonneg gopen gapextend hgo hge rest hrest
    have he : 0 ≤ gapextend * el.m_len := mul_nonneg hge h0
    unfold CCigar.scoreLoop at h
    unfold CCigar.scoreLoop32
    unfold scoreWeight at h1 h2
    by_cases hM : el.m_type = 'M'
    · rw [if_pos hM] at h h1 h2 ⊢
      have hn : ((el.m_len.toNat : Nat) : Int) = el.m_len := Int.toNat_of_nonneg h0
      cases hr : CCigar.scoreRun query subject delta el.m_len.toNat q s acc with
      | none => rw [hr] at h; simp at h
      | some acc1 =>
        rw [hr] at h
        simp only at h
        obtain ⟨e, l, u⟩ := scoreRun32_complete query subject delta hd _ _ _ _ _ hr
          (by rw [hn]; omega) (by rw [hn]; omega)
        rw [hn] at l u
        rw [e]
        simp only
        exact ih _ _ _ _ hrest h (by omega) (by omega)
    · rw [if_neg hM] at h h1 h2 ⊢
      have hg := gapStep32_complete gopen gapextend el.m_len acc hgo hge h0 (by omega) (by omega)
      by_cases hD : el.m_type = 'D'
      · rw [if_pos hD] at h ⊢
        rw [hg]
        simp only
        exact ih _ _ _ _ hrest h (by omega) (by omega)
      · rw [if_neg hD] at h ⊢
        rw [hg]
        simp only
        exact ih _ _ _ _ hrest h (by omega) (by omega)

/-- The exact score is the `int` score when the weight of the elements fits. -/
theorem Score32_complete (c : CCigar) (query subject : List Nat) (gopen gapextend : Int)
    (delta : Nat → Nat → Int) (hd : ∀ x y, -128 ≤ delta x y ∧ delta x y ≤ 127)
    (hgo : 0 ≤ gopen) (hge : 0 ≤ gapextend) (hpos : ∀ e ∈ c.m_elements, 0 ≤ e.m_len) (t : Int)
    (h : c.Score query subject gopen gapextend delta = some t)
    (hw : scoreWeight gopen gapextend c.m_elements ≤ 2147483647) :
    c.Score32 query subject gopen gapextend delta = some t := by
  have hw0 := scoreWeight_nonneg gopen gapextend hgo hge c.m_elements hpos
  exact scoreLoop32_complete query subject gopen gapextend delta hd hgo hge _ _ _ _ _ hpos h
    (by omega) (by omega)

/-- The weight of an element list of positive lengths against the bases it
consumes. -/
theorem scoreWeight_le_sums (gopen gapextend : Int) (hgo : 0 ≤ gopen) (hge : 0 ≤ gapextend) :
    ∀ (els : List SElement), (∀ e ∈ els, 0 < e.m_len) → (∀ e ∈ els, e.KindOK) →
      scoreWeight gopen gapextend els ≤ (gopen + gapextend + 128) * (sumMI els + sumMD els) := by
  intro els
  induction els with
  | nil => intro _ _; simp [scoreWeight, sumMI, sumMD, sumLen]
  | cons el rest ih =>
    intro hpos hkind
    have h0 := hpos el (List.mem_cons_self _ _)
    have hk := hkind el (List.mem_cons_self _ _)
    have hr := ih (fun e he => hpos e (List.mem_cons_of_mem _ he))
      (fun e he => hkind e (List.mem_cons_of_mem _ he))
    have e1 : 0 ≤ gopen * (el.m_len - 1) := mul_nonneg hgo (by omega)
    have e2 : 0 ≤ gopen * el.m_len := mul_nonneg hgo (by omega)
    have e3 : 0 ≤ gapextend * el.m_len := mul_nonneg hge (by omega)
    unfold scoreWeight
    unfold sumMI sumMD at hr ⊢
    unfold sumLen
    rcases hk with hk | hk | hk
    · rw [hk]
      simp only [decide_True, Bool.true_or, Bool.or_true, if_true]
      nlinarith
    · rw [hk]
      simp +decide only [if_true, if_false, Bool.or_true, Bool.or_false, Bool.false_or]
      nlinarith
    · rw [hk]
      simp +decide only [if_true, if_false, Bool.or_true, Bool.or_false, Bool.false_or]
      nlinarith

/-- One more column in front of an element list adds at most one gap opening, one
gap extension or one matrix entry to its weight. -/
theorem scoreWeight_pushFront (gopen gapextend : Int) (hgo : 0 ≤ gopen) (hge : 0 ≤ gapextend)
    (op : Char) (L : List SElement) :
    scoreWeight gopen gapextend (pushFrontList ⟨1, op⟩ L) ≤
      scoreWeight gopen gapextend L + (gopen + gapextend + 128) := by
  cases L with
  | nil =>
    unfold pushFrontList scoreWeight
    simp only [scoreWeight]
    split_ifs <;> omega
  | cons f rest =>
    have e : gapextend * (f.m_len + 1) = gapextend * f.m_len + gapextend := by ring
    simp only [pushFrontList]
    split_ifs with hc
    · simp only [scoreWeight]
      split_ifs <;> omega
    · simp only [scoreWeight, e]
      split_ifs <;> omega

theorem pushFrontList_pos (op : Char) (L : List SElement) (h : ∀ e ∈ L, 0 < e.m_len) :
    ∀ e ∈ pushFrontList ⟨1, op⟩ L, 0 < e.m_len := by
  cases L with
  | nil =>
    intro e he
    unfold pushFrontList at he
    rw [List.mem_singleton] at he
    rw [he]
    exact Int.one_pos
  | cons f rest =>
    have hf := h f (List.mem_cons_self _ _)
    intro e he
    simp only [pushFrontList] at he
    split_ifs at he with hc
    · rcases List.mem_cons.mp he with he | he
      · rw [he]; exact Int.one_pos
      · exact h e he
    · rcases List.mem_cons.mp he with he | he
      · rw [he]
        show 0 < f.m_len + 1
        omega
      · exact h e (List.mem_cons_of_mem _ he)

/-- The elements of the run-length encoding of a path have positive lengths. -/
theorem rle_pos : ∀ (U : List Char), ∀ e ∈ rle U, 0 < e.m_len := by
  intro U
  induction U with
  | nil => intro e he; exact absurd he (List.not_mem_nil _)
  | cons op U ih =>
    rw [rle_cons]
    exact pushFrontList_pos op (rle U) ih

/-- The weight of the run-length encoding of a path against its rows and columns. -/
theorem scoreWeight_rle (gopen gapextend : Int) (hgo : 0 ≤ gopen) (hge : 0 ≤ gapextend) :
    ∀ (U : List Char), scoreWeight gopen gapextend (rle U) ≤
      (gopen + gapextend + 128) * ((rowsOf U : Int) + (colsOf U : Int)) := by
  intro U
  induction U with
  | nil => simp [rle, scoreWeight, rowsOf, colsOf]
  | cons op U ih =>
    rw [rle_cons]
    have h1 := scoreWeight_pushFront gopen gapextend hgo hge op (rle U)
    have h2 : 1 ≤ dq op + ds op := by
      unfold dq ds
      by_cases hD : op = 'D'
      · rw [if_pos hD, if_pos (Or.inr hD)]
      · rw [if_neg hD]; omega
    have h3 : ((rowsOf (op :: U) : Nat) : Int) + ((colsOf (op :: U) : Nat) : Int) =
        ((dq op + ds op : Nat) : Int) + ((rowsOf U : Int) + (colsOf U : Int)) := by
      simp only [rowsOf, colsOf]
      push_cast
      ring
    rw [h3]
    have h4 : (1 : Int) ≤ ((dq op + ds op : Nat) : Int) := by exact_mod_cast h2
    have hK : 0 ≤ gopen + gapextend + 128 := by omega
    nlinarith

/-- Every entry of the DNA table is a `char` value. -/
theorem SMatrix.dna_range (mtch mismatch : Int) (x y : Nat) :
    -128 ≤ SMatrix.dna mtch mismatch x y ∧ SMatrix.dna mtch mismatch x y ≤ 127 := by
  unfold SMatrix.dna
  simp only
  split_ifs <;> unfold toInt8 <;> omega

/-! ## Main theorems -/

/-- C1 (counterexample). With `a = "A"`, `b = "CC"`, the DNA matrix (match 1,
mismatch 2), `rho = 2^30 - 2` and `sigma = 1`, every compound score `GlbAlign`
holds or forms has a 32-bit score part, and yet the traceback follows a `Bgap`
whose `Bstart` was never set, leaves the bitmap, and no Cigar is returned. -/
theorem GlbAlign_sentinel_counterexample :
    (∀ x ∈ GlbAlign.sums [65] [67, 67] 1073741822 1 (SMatrix.dna 1 2), CScore.InRange x) ∧
      GlbAlign [65] [67, 67] 1073741822 1 (SMatrix.dna 1 2) = none := by
  decide

/-- C1 (amended). For `nb ≥ 1`, every scoring matrix and `rho > 0`, `sigma > 0` with
`2*rho + sigma*(na + nb) < 2^30` (no score comes near the `INT_MIN/2` sentinel), the
Cigar `GlbAlign` returns spans both sequences end to end: `qfrom = 0`, `sfrom = 0`,
`qto = na-1`, `sto = nb-1`. -/
theorem GlbAlign_spans_both (a b : List Nat) (rho sigma : Int) (delta : Nat → Nat → Int)
    (hb : 1 ≤ b.length) (hrho : 0 < rho) (hsig : 0 < sigma)
    (hmag : 2 * rho + sigma * ((a.length : Int) + (b.length : Int)) < 1073741824) :
    ∃ C, GlbAlign a b rho sigma delta = some C ∧ C.m_qfrom = 0 ∧ C.m_sfrom = 0 ∧
      C.m_qto = (a.length : Int) - 1 ∧ C.m_sto = (b.length : Int) - 1 := by
  obtain ⟨U, hC, hr, hc, -⟩ := GlbAlign_traced a b rho sigma delta hb (le_of_lt hrho) hsig hmag
  refine ⟨_, hC, ?_, ?_, ?_, ?_⟩
  · rw [pushOps_qfrom, hr]; simp [CCigar.init]
  · rw [pushOps_sfrom, hc]; simp [CCigar.init]
  · rw [pushOps_qto]; rfl
  · rw [pushOps_sto]; rfl

/-- C1 (witness). `GATTACA` against `GCATGCU` with the protein matrix, `rho = 11`,
`sigma = 1`. -/
theorem GlbAlign_spans_both_witness :
    ∃ C, GlbAlign [71, 65, 84, 84, 65, 67, 65] [71, 67, 65, 84, 71, 67, 85] 11 1
        SMatrix.protein = some C ∧
      C.m_qfrom = 0 ∧ C.m_sfrom = 0 ∧
      C.m_qto = (([71, 65, 84, 84, 65, 67, 65] : List Nat).length : Int) - 1 ∧
      C.m_sto = (([71, 67, 65, 84, 71, 67, 85] : List Nat).length : Int) - 1 :=
  GlbAlign_spans_both [71, 65, 84, 84, 65, 67, 65] [71, 67, 65, 84, 71, 67, 85] 11 1
    SMatrix.protein (by decide) (by decide) (by decide) (by decide)

/-- C2. `LclAlign` (no pin flags) returns a best scoring sub-alignment: for
`rho > 0`, `sigma > 0` and `na < 2^32`, it returns a Cigar, and every Cigar `C'` of
`M`, `I`, `D` elements with positive lengths, no two adjacent elements of the same
kind and a span inside `a` and `b` scores at most what the returned Cigar scores. -/
theorem LclAlign_optimal (a b : List Nat) (rho sigma : Int) (delta : Nat → Nat → Int)
    (hrho : 0 < rho) (hsig : 0 < sigma) (hna : a.length < 4294967296)
    (C' : CCigar) (hpos : ∀ e ∈ C'.m_elements, 0 < e.m_len)
    (hkind : ∀ e ∈ C'.m_elements, e.KindOK) (hadj : NoAdjacent C'.m_elements)
    (hcov : C'.Covered a b) :
    ∃ C s s', LclAlign a b rho sigma delta = some C ∧
      C.Score a b rho sigma delta = some s ∧ C'.Score a b rho sigma delta = some s' ∧
      s' ≤ s := by
  obtain ⟨C, hC, hs⟩ := LclAlign_score_eq a b rho sigma delta hrho hsig hna
  obtain ⟨s', hs', hle⟩ := LclAlign_max_bound a b rho sigma delta hrho hsig C' hpos hkind hadj hcov
  exact ⟨C, _, s', hC, hs, hs', hle⟩

/-- C2 (witness). `AAACCCGGG` against `CCC` with the DNA matrix (match 1,
mismatch 2), `rho = 3`, `sigma = 1`, and the Cigar `2M` laid at query 3, subject 0. -/
theorem LclAlign_optimal_witness :
    ∃ C s s', LclAlign [65, 65, 65, 67, 67, 67, 71, 71, 71] [67, 67, 67] 3 1
        (SMatrix.dna 1 2) = some C ∧
      C.Score [65, 65, 65, 67, 67, 67, 71, 71, 71] [67, 67, 67] 3 1 (SMatrix.dna 1 2) = some s ∧
      CCigar.Score ⟨[⟨2, 'M'⟩], 3, 4, 0, 1⟩ [65, 65, 65, 67, 67, 67, 71, 71, 71] [67, 67, 67]
        3 1 (SMatrix.dna 1 2) = some s' ∧
      s' ≤ s :=
  LclAlign_optimal [65, 65, 65, 67, 67, 67, 71, 71, 71] [67, 67, 67] 3 1 (SMatrix.dna 1 2)
    (by decide) (by decide) (by decide) ⟨[⟨2, 'M'⟩], 3, 4, 0, 1⟩ (by decide)
    (by simp [SElement.KindOK]) (by simp [NoAdjacent])
    (by simp +decide [CCigar.Covered, sumMI, sumMD, sumLen])

/-- C3 (counterexample). With `a = "A"`, `b = "GG"`, the DNA matrix (match 1,
mismatch 2), `rho = 2^30 - 2` and `sigma = 1`, every compound score `GlbAlign`
holds or forms has a 32-bit score part and the terminal cell holds the score
`-2^30 - 1`, but no Cigar is returned whose score could equal it. -/
theorem GlbAlign_score_counterexample :
    (∀ x ∈ GlbAlign.sums [65] [71, 71] 1073741822 1 (SMatrix.dna 1 2), CScore.InRange x) ∧
      GlbAlign.terminalScore [65] [71, 71] 1073741822 1 (SMatrix.dna 1 2) =
        some (-1073741825) ∧
      GlbAlign [65] [71, 71] 1073741822 1 (SMatrix.dna 1 2) = none := by
  decide

/-- C3 (amended). For `GlbAlign` with `na ≥ 1`, `nb ≥ 1`, `rho > 0`, `sigma > 0` and
`2*rho + sigma*(na + nb) < 2^30`, the score recomputed from the returned Cigar equals
the score component of `sm[nb]` after the last row swap. -/
theorem GlbAlign_score (a b : List Nat) (rho sigma : Int) (delta : Nat → Nat → Int)
    (ha : 1 ≤ a.length) (hb : 1 ≤ b.length) (hrho : 0 < rho) (hsig : 0 < sigma)
    (hmag : 2 * rho + sigma * ((a.length : Int) + (b.length : Int)) < 1073741824) :
    ∃ C s, GlbAlign a b rho sigma delta = some C ∧
      C.Score a b rho sigma delta = some s ∧
      GlbAlign.terminalScore a b rho sigma delta = some s := by
  obtain ⟨U, hC, hr, hc, hs⟩ := GlbAlign_traced a b rho sigma delta hb (le_of_lt hrho) hsig hmag
  refine ⟨_, pathScore a b rho sigma delta 0 0 U, hC, ?_, ?_⟩
  · have := Score_pushOps a b rho sigma delta U a.length b.length (by omega) (by omega)
      (le_refl _) (le_refl _)
    rw [hr, hc, Nat.sub_self, Nat.sub_self] at this
    exact this
  · unfold GlbAlign.terminalScore
    rw [hs]
    simp only [Option.map_some', Option.some.injEq]
    have hna : (0 : Int) ≤ (a.length : Int) := by positivity
    have hnb : (0 : Int) ≤ (b.length : Int) := by positivity
    exact Score_mk2 _ _ hna (by nlinarith)

/-- C3 (witness). `ACGT` against `ACGT` with the DNA matrix (match 1, mismatch 2),
`rho = 3`, `sigma = 1`: the Cigar is `4M` and both scores are 4. -/
theorem GlbAlign_score_witness :
    (∃ C s, GlbAlign [65, 67, 71, 84] [65, 67, 71, 84] 3 1 (SMatrix.dna 1 2) = some C ∧
      C.Score [65, 67, 71, 84] [65, 67, 71, 84] 3 1 (SMatrix.dna 1 2) = some s ∧
      GlbAlign.terminalScore [65, 67, 71, 84] [65, 67, 71, 84] 3 1 (SMatrix.dna 1 2) = some s) ∧
    (GlbAlign [65, 67, 71, 84] [65, 67, 71, 84] 3 1 (SMatrix.dna 1 2)).map
      (fun C => C.CigarString 0 4) = some "4M" ∧
    GlbAlign.terminalScore [65, 67, 71, 84] [65, 67, 71, 84] 3 1 (SMatrix.dna 1 2) = some 4 :=
  ⟨GlbAlign_score [65, 67, 71, 84] [65, 67, 71, 84] 3 1 (SMatrix.dna 1 2)
    (by decide) (by decide) (by decide) (by decide) (by decide), by decide, by decide⟩

/-- C4. For `LclAlign` (no pin flags) with `rho > 0`, `sigma > 0` and `na < 2^32`, the
score recomputed from the returned Cigar equals `max_score.Score()`, the score
component of the maximum the kernel tracked. -/
theorem LclAlign_score (a b : List Nat) (rho sigma : Int) (delta : Nat → Nat → Int)
    (hrho : 0 < rho) (hsig : 0 < sigma) (hna : a.length < 4294967296) :
    ∃ C, LclAlign a b rho sigma delta = some C ∧
      C.Score a b rho sigma delta =
        some (CScore.Score (LclAlign.fill a b rho sigma delta).1.max_score) :=
  LclAlign_score_eq a b rho sigma delta hrho hsig hna

set_option maxRecDepth 100000 in
/-- C4 (witness). `AAACCCGGG` against `CCC` with the DNA matrix (match 1,
mismatch 2), `rho = 3`, `sigma = 1`: the tracked maximum is 3. -/
theorem LclAlign_score_witness :
    (∃ C, LclAlign [65, 65, 65, 67, 67, 67, 71, 71, 71] [67, 67, 67] 3 1
        (SMatrix.dna 1 2) = some C ∧
      C.Score [65, 65, 65, 67, 67, 67, 71, 71, 71] [67, 67, 67] 3 1 (SMatrix.dna 1 2) =
        some (CScore.Score (LclAlign.fill [65, 65, 65, 67, 67, 67, 71, 71, 71] [67, 67, 67]
          3 1 (SMatrix.dna 1 2)).1.max_score)) ∧
    CScore.Score (LclAlign.fill [65, 65, 65, 67, 67, 67, 71, 71, 71] [67, 67, 67]
      3 1 (SMatrix.dna 1 2)).1.max_score = 3 :=
  ⟨LclAlign_score [65, 65, 65, 67, 67, 67, 71, 71, 71] [67, 67, 67] 3 1 (SMatrix.dna 1 2)
    (by decide) (by decide) (by decide), by decide⟩

/-- C5 (counterexample). With `a = "A"`, `b = "C"`, the DNA matrix (match 1,
mismatch 100), `rho = 3` and `sigma = 1`, both orders of the sequences give the
Cigar `1D1I`, so neither is the other with `I` and `D` exchanged. -/
theorem GlbAlign_roles_counterexample :
    GlbAlign [65] [67] 3 1 (SMatrix.dna 1 100) = some ⟨[⟨1, 'D'⟩, ⟨1, 'I'⟩], 0, 0, 0, 0⟩ ∧
      GlbAlign [67] [65] 3 1 (SMatrix.dna 1 100) = some ⟨[⟨1, 'D'⟩, ⟨1, 'I'⟩], 0, 0, 0, 0⟩ ∧
      GlbAlign [65] [67] 3 1 (SMatrix.dna 1 100) ≠
        (GlbAlign [67] [65] 3 1 (SMatrix.dna 1 100)).map CCigar.reverseRole := by
  decide

/-- C5 (amended). Under DNA scoring, for sequences of bytes below 128 (the bytes a
plain `char` index finds inside the table), `na ≥ 1`, `nb ≥ 1`, `rho > 0`,
`sigma > 0` and `2*rho + sigma*(na + nb) < 2^30`, `GlbAlign(a, b)` and
`GlbAlign(b, a)` have the query and subject coordinates exchanged and the same
score; the element lists may differ where gaps tie. -/
theorem GlbAlign_roles_exchanged (a b : List Nat) (mtch mismatch rho sigma : Int)
    (hbytea : ∀ x ∈ a, x < 128) (hbyteb : ∀ x ∈ b, x < 128)
    (ha : 1 ≤ a.length) (hb : 1 ≤ b.length) (hrho : 0 < rho) (hsig : 0 < sigma)
    (hmag : 2 * rho + sigma * ((a.length : Int) + (b.length : Int)) < 1073741824) :
    ∃ C D s, GlbAlign a b rho sigma (SMatrix.dna mtch mismatch) = some C ∧
      GlbAlign b a rho sigma (SMatrix.dna mtch mismatch) = some D ∧
      C.m_qfrom = D.reverseRole.m_qfrom ∧ C.m_qto = D.reverseRole.m_qto ∧
      C.m_sfrom = D.reverseRole.m_sfrom ∧ C.m_sto = D.reverseRole.m_sto ∧
      C.Score a b rho sigma (SMatrix.dna mtch mismatch) = some s ∧
      D.Score b a rho sigma (SMatrix.dna mtch mismatch) = some s := by
  obtain ⟨C, D, s, hC, hD, hs1, hs2, c1, c2, c3, c4, d1, d2, d3, d4⟩ :=
    GlbAlign_score_symm a b rho sigma (SMatrix.dna mtch mismatch)
      (fun x y => SMatrix.dna_symm mtch mismatch x y) ha hb hrho hsig hmag
  refine ⟨C, D, s, hC, hD, ?_, ?_, ?_, ?_, hs1, hs2⟩
  · show C.m_qfrom = D.m_sfrom
    rw [c1, d2]
  · show C.m_qto = D.m_sto
    rw [c3, d4]
  · show C.m_sfrom = D.m_qfrom
    rw [c2, d1]
  · show C.m_sto = D.m_qto
    rw [c4, d3]

/-- C5 (witness). `A` against `C` with the DNA matrix (match 1, mismatch 100),
`rho = 3`, `sigma = 1`. -/
theorem GlbAlign_roles_exchanged_witness :
    ∃ C D s, GlbAlign [65] [67] 3 1 (SMatrix.dna 1 100) = some C ∧
      GlbAlign [67] [65] 3 1 (SMatrix.dna 1 100) = some D ∧
      C.m_qfrom = D.reverseRole.m_qfrom ∧ C.m_qto = D.reverseRole.m_qto ∧
      C.m_sfrom = D.reverseRole.m_sfrom ∧ C.m_sto = D.reverseRole.m_sto ∧
      C.Score [65] [67] 3 1 (SMatrix.dna 1 100) = some s ∧
      D.Score [67] [65] 3 1 (SMatrix.dna 1 100) = some s :=
  GlbAlign_roles_exchanged [65] [67] 1 100 3 1 (by decide) (by decide) (by decide) (by decide)
    (by decide) (by decide) (by decide)

/-- C7. Span invariant of `CCigar`: from the fresh Cigar for `(ia, ib)`, after any
sequence of `PushFront` and `PushBack` calls with elements of positive length and
kind `M`, `I` or `D`, the `M` and `I` lengths sum to `qto - qfrom + 1` and the `M`
and `D` lengths to `sto - sfrom + 1`; `PushFront` leaves the `to` coordinates and
`PushBack` the `from` coordinates unchanged; and the invariant holds for every
Cigar `BackTrack` returns, which is what every kernel returns. -/
theorem CCigar_span_invariant (ia ib : Int) (ops : List Push)
    (hops : ∀ op ∈ ops, op.el.KindOK ∧ 0 < op.el.m_len) :
    ((CCigar.init ia ib).pushAll ops).SpanOK ∧
    (∀ (c : CCigar) (el : SElement),
      (c.PushFront el).m_qto = c.m_qto ∧ (c.PushFront el).m_sto = c.m_sto ∧
      (c.PushBack el).m_qfrom = c.m_qfrom ∧ (c.PushBack el).m_sfrom = c.m_sfrom) ∧
    (∀ (mtrx : List Nat) (m nb : Int) (C : CCigar),
      BackTrack ia ib mtrx m nb = some C → C.SpanOK) ∧
    (∀ (a b : List Nat) (rho sigma : Int) (delta : Nat → Nat → Int) (C : CCigar),
      (GlbAlign a b rho sigma delta = some C → C.SpanOK) ∧
      (LclAlign a b rho sigma delta = some C → C.SpanOK)) := by
  refine ⟨pushAll_span ops _ (fun op h => (hops op h).1) (init_span ia ib), ?_, ?_, ?_⟩
  · intro c el
    exact ⟨rfl, rfl, rfl, rfl⟩
  · intro mtrx m nb C h
    exact (BackTrack_wf ia ib mtrx m nb C h).1
  · intro a b rho sigma delta C
    exact ⟨fun h => (GlbAlign_wf a b rho sigma delta C h).1,
      fun h => (LclAlign_wf a b rho sigma delta C h).1⟩

/-- C7 (witness). The calls `PushFront(2M)`, `PushBack(1I)`, `PushFront(3D)`,
`PushBack(1I)` on the fresh Cigar for `(4, 7)`. -/
theorem CCigar_span_invariant_witness :
    ((CCigar.init 4 7).pushAll
      [.front ⟨2, 'M'⟩, .back ⟨1, 'I'⟩, .front ⟨3, 'D'⟩, .back ⟨1, 'I'⟩]).SpanOK :=
  (CCigar_span_invariant 4 7 [.front ⟨2, 'M'⟩, .back ⟨1, 'I'⟩, .front ⟨3, 'D'⟩, .back ⟨1, 'I'⟩]
    (by simp [Push.el, SElement.KindOK])).1

/-- C8. Merge invariant of `CCigar`: if no two adjacent elements of a Cigar have
the same kind, the same holds after `PushFront(el)` and after `PushBack(el)` for
every element `el`; hence for every Cigar built from a fresh one by `PushFront`
and `PushBack`, and for every Cigar `BackTrack` returns, which is what every
kernel returns. -/
theorem CCigar_merge_invariant (c : CCigar) (el : SElement) (h : NoAdjacent c.m_elements) :
    NoAdjacent (c.PushFront el).m_elements ∧ NoAdjacent (c.PushBack el).m_elements ∧
    (∀ (ia ib : Int) (ops : List Push), NoAdjacent ((CCigar.init ia ib).pushAll ops).m_elements) ∧
    (∀ (ia ib : Int) (mtrx : List Nat) (m nb : Int) (C : CCigar),
      BackTrack ia ib mtrx m nb = some C → NoAdjacent C.m_elements) ∧
    (∀ (a b : List Nat) (rho sigma : Int) (delta : Nat → Nat → Int) (C : CCigar),
      (GlbAlign a b rho sigma delta = some C → NoAdjacent C.m_elements) ∧
      (LclAlign a b rho sigma delta = some C → NoAdjacent C.m_elements)) := by
  refine ⟨pushFrontList_noAdjacent el _ h, pushBackList_noAdjacent el _ h, ?_, ?_, ?_⟩
  · intro ia ib ops
    exact pushAll_noAdjacent ops _ (by simp [NoAdjacent, CCigar.init])
  · intro ia ib mtrx m nb C hC
    exact (BackTrack_wf ia ib mtrx m nb C hC).2.1
  · intro a b rho sigma delta C
    exact ⟨fun hC => (GlbAlign_wf a b rho sigma delta C hC).2.1,
      fun hC => (LclAlign_wf a b rho sigma delta C hC).2.1⟩

/-- C8 (witness). `PushFront(2M)` and `PushBack(4I)` on the Cigar `3M1I`: the
pushed element is merged into its neighbour. -/
theorem CCigar_merge_invariant_witness :
    (NoAdjacent (CCigar.PushFront ⟨[⟨3, 'M'⟩, ⟨1, 'I'⟩], 2, 5, 0, 2⟩ ⟨2, 'M'⟩).m_elements ∧
      NoAdjacent (CCigar.PushBack ⟨[⟨3, 'M'⟩, ⟨1, 'I'⟩], 2, 5, 0, 2⟩ ⟨4, 'I'⟩).m_elements) ∧
    (CCigar.PushFront ⟨[⟨3, 'M'⟩, ⟨1, 'I'⟩], 2, 5, 0, 2⟩ ⟨2, 'M'⟩).m_elements =
      [⟨5, 'M'⟩, ⟨1, 'I'⟩] ∧
    (CCigar.PushBack ⟨[⟨3, 'M'⟩, ⟨1, 'I'⟩], 2, 5, 0, 2⟩ ⟨4, 'I'⟩).m_elements =
      [⟨3, 'M'⟩, ⟨5, 'I'⟩] :=
  ⟨⟨(CCigar_merge_invariant ⟨[⟨3, 'M'⟩, ⟨1, 'I'⟩], 2, 5, 0, 2⟩ ⟨2, 'M'⟩
      (by simp [NoAdjacent])).1,
    (CCigar_merge_invariant ⟨[⟨3, 'M'⟩, ⟨1, 'I'⟩], 2, 5, 0, 2⟩ ⟨4, 'I'⟩
      (by simp [NoAdjacent])).2.1⟩, by decide, by decide⟩

/-- C9. For every Cigar of `M`, `I`, `D` elements with non-negative lengths and every
query and subject long enough to cover its span, `Matches` and `Distance` return,
`Matches` plus the number of `M` positions whose bases differ is the sum of the `M`
lengths, `Distance` is that number plus the `I` lengths plus the `D` lengths, and
`Matches + Distance` is the sum of all element lengths. -/
theorem Matches_Distance (C : CCigar) (query subject : List Nat)
    (hels : ∀ el ∈ C.m_elements, 0 ≤ el.m_len ∧ el.KindOK) (hcov : C.Covered query subject) :
    ∃ m d, C.Matches query subject = some m ∧ C.Distance query subject = some d ∧
      m + C.mismatchesInM query subject = sumKind 'M' C.m_elements ∧
      d = C.mismatchesInM query subject + sumKind 'I' C.m_elements +
        sumKind 'D' C.m_elements ∧
      m + d = sumAll C.m_elements := by
  obtain ⟨hq0, hq1, hs0, hs1⟩ := hcov
  obtain ⟨k, hm, hd, hk⟩ := matches_distance_loop query subject C.m_elements C.m_qfrom
    C.m_sfrom 0 0 hels hq0 hq1 hs0 hs1
  have hall := sumAll_kinds C.m_elements (fun e he => (hels e he).2)
  refine ⟨_, _, hm, hd, ?_, ?_, ?_⟩
  · unfold CCigar.mismatchesInM; rw [hk]; ring
  · unfold CCigar.mismatchesInM; rw [hk]; ring
  · rw [hall]; ring

/-- C9 (witness). The Cigar `2M1I2M` laid at query 1, subject 0 of `TACCGT` and
`ACGA`: three matches, one mismatch in `M`, distance two. -/
theorem Matches_Distance_witness :
    (∃ m d, CCigar.Matches ⟨[⟨2, 'M'⟩, ⟨1, 'I'⟩, ⟨2, 'M'⟩], 1, 5, 0, 3⟩
        [84, 65, 67, 67, 71, 84] [65, 67, 71, 65] = some m ∧
      CCigar.Distance ⟨[⟨2, 'M'⟩, ⟨1, 'I'⟩, ⟨2, 'M'⟩], 1, 5, 0, 3⟩
        [84, 65, 67, 67, 71, 84] [65, 67, 71, 65] = some d ∧
      m + CCigar.mismatchesInM ⟨[⟨2, 'M'⟩, ⟨1, 'I'⟩, ⟨2, 'M'⟩], 1, 5, 0, 3⟩
        [84, 65, 67, 67, 71, 84] [65, 67, 71, 65] =
          sumKind 'M' [⟨2, 'M'⟩, ⟨1, 'I'⟩, ⟨2, 'M'⟩] ∧
      d = CCigar.mismatchesInM ⟨[⟨2, 'M'⟩, ⟨1, 'I'⟩, ⟨2, 'M'⟩], 1, 5, 0, 3⟩
        [84, 65, 67, 67, 71, 84] [65, 67, 71, 65] + sumKind 'I' [⟨2, 'M'⟩, ⟨1, 'I'⟩, ⟨2, 'M'⟩] +
          sumKind 'D' [⟨2, 'M'⟩, ⟨1, 'I'⟩, ⟨2, 'M'⟩] ∧
      m + d = sumAll [⟨2, 'M'⟩, ⟨1, 'I'⟩, ⟨2, 'M'⟩]) ∧
    CCigar.Matches ⟨[⟨2, 'M'⟩, ⟨1, 'I'⟩, ⟨2, 'M'⟩], 1, 5, 0, 3⟩
      [84, 65, 67, 67, 71, 84] [65, 67, 71, 65] = some 3 ∧
    CCigar.Distance ⟨[⟨2, 'M'⟩, ⟨1, 'I'⟩, ⟨2, 'M'⟩], 1, 5, 0, 3⟩
      [84, 65, 67, 67, 71, 84] [65, 67, 71, 65] = some 2 :=
  ⟨Matches_Distance ⟨[⟨2, 'M'⟩, ⟨1, 'I'⟩, ⟨2, 'M'⟩], 1, 5, 0, 3⟩
      [84, 65, 67, 67, 71, 84] [65, 67, 71, 65] (by simp [SElement.KindOK])
      (by simp +decide [CCigar.Covered, sumMI, sumMD, sumLen]), by decide, by decide⟩

/-- C15 (counterexample). With `mismatch = -128`, which is in the range of a signed
8-bit entry, `-mismatch = 128` is not: the entry for `A` against `C` is `-128`; and
with `match = -128` too (`match ≠ -mismatch`) that entry equals `match` although
the bases differ. -/
theorem SMatrix_dna_counterexample :
    SMatrix.dna 1 (-128) 65 67 = -128 ∧ SMatrix.dna 1 (-128) 65 67 ≠ -(-128) ∧
      SMatrix.dna (-128) (-128) 65 67 = -128 ∧ toupper 65 ≠ toupper 67 := by
  decide

/-- C15 (amended). The DNA constructor `SMatrix(match, mismatch)`, for `match` and
`-mismatch` in the range of a signed 8-bit entry and `match ≠ -mismatch`: the entry
`[i][j]` is `match` if and only if `upper(i) = upper(j)` and `upper(i)` is not `N`,
and it is `-mismatch` otherwise; the table is symmetric and case-insensitive. -/
theorem SMatrix_dna_entries (mtch mismatch : Int) (i j : Nat)
    (hm0 : -128 ≤ mtch) (hm1 : mtch ≤ 127) (hmm0 : -128 ≤ -mismatch) (hmm1 : -mismatch ≤ 127)
    (hne : mtch ≠ -mismatch) :
    (SMatrix.dna mtch mismatch i j = mtch ↔ (toupper i = toupper j ∧ toupper i ≠ 78)) ∧
    (¬ (toupper i = toupper j ∧ toupper i ≠ 78) → SMatrix.dna mtch mismatch i j = -mismatch) ∧
    SMatrix.dna mtch mismatch j i = SMatrix.dna mtch mismatch i j ∧
    SMatrix.dna mtch mismatch (toupper i) (toupper j) = SMatrix.dna mtch mismatch i j ∧
    SMatrix.dna mtch mismatch (tolower i) (tolower j) = SMatrix.dna mtch mismatch i j := by
  have e1 : toInt8 mtch = mtch := by unfold toInt8; omega
  have e2 : toInt8 (-mismatch) = -mismatch := by unfold toInt8; omega
  refine ⟨?_, ?_, SMatrix.dna_symm mtch mismatch i j,
    SMatrix.dna_upper mtch mismatch i j _ _ (toupper_toupper i) (toupper_toupper j),
    SMatrix.dna_upper mtch mismatch i j _ _ (toupper_tolower i) (toupper_tolower j)⟩
  · unfold SMatrix.dna
    simp only [e1, e2]
    by_cases h : toupper i ≠ 78 ∧ toupper i = toupper j
    · rw [if_pos h]; exact ⟨fun _ => ⟨h.2, h.1⟩, fun _ => rfl⟩
    · rw [if_neg h]
      exact ⟨fun e => absurd e.symm hne, fun hh => absurd ⟨hh.2, hh.1⟩ h⟩
  · intro h
    unfold SMatrix.dna
    simp only [e1, e2]
    rw [if_neg (fun hh => h ⟨hh.2, hh.1⟩)]

/-- C15 (witness). The DNA matrix (match 1, mismatch 2) at `a` against `A`. -/
theorem SMatrix_dna_entries_witness :
    (SMatrix.dna 1 2 97 65 = 1 ↔ (toupper 97 = toupper 65 ∧ toupper 97 ≠ 78)) ∧
    (¬ (toupper 97 = toupper 65 ∧ toupper 97 ≠ 78) → SMatrix.dna 1 2 97 65 = -2) ∧
    SMatrix.dna 1 2 65 97 = SMatrix.dna 1 2 97 65 ∧
    SMatrix.dna 1 2 (toupper 97) (toupper 65) = SMatrix.dna 1 2 97 65 ∧
    SMatrix.dna 1 2 (tolower 97) (tolower 65) = SMatrix.dna 1 2 97 65 :=
  SMatrix_dna_entries 1 2 97 65 (by decide) (by decide) (by decide) (by decide) (by decide)

/-- C16. The protein constructor `SMatrix()` produces a symmetric table:
`matrix[i][j] = matrix[j][i]` for all `i`, `j`, and the embedded 24x24 array is
symmetric, `scores[num*j+i] = scores[num*i+j]`. -/
theorem SMatrix_protein_symmetric (i j : Nat) :
    SMatrix.protein i j = SMatrix.protein j i ∧
      ∀ k < 24, ∀ l < 24,
        SMatrix.scores.getD (SMatrix.aa.length * l + k) 0 =
          SMatrix.scores.getD (SMatrix.aa.length * k + l) 0 :=
  ⟨SMatrix.protein_symm i j, fun k hk l hl => SMatrix.scores_symm k hk l hl⟩

/-- C17. In the table of the protein constructor, for the letters `c = aa[k]` and
`d = aa[l]` of the alphabet `ARNDCQEGHILKMFPSTWYVBZX*` the four entries
`[c][d]`, `[lower(c)][d]`, `[c][lower(d)]`, `[lower(c)][lower(d)]` are the score of
`(c, d)` in the embedded array (row `k`, column `l`, which is also what the
constructor reads at `num*l+k`), and the entry `[i][j]` is `0` when `i` or `j` is
neither a letter of the alphabet nor the lower case of one. -/
theorem SMatrix_protein_entries (k l : Nat) (hk : k < 24) (hl : l < 24) :
    SMatrix.protein (SMatrix.aa.getD k 0) (SMatrix.aa.getD l 0) =
      SMatrix.scores.getD (24 * k + l) 0 ∧
    SMatrix.protein (tolower (SMatrix.aa.getD k 0)) (SMatrix.aa.getD l 0) =
      SMatrix.scores.getD (24 * k + l) 0 ∧
    SMatrix.protein (SMatrix.aa.getD k 0) (tolower (SMatrix.aa.getD l 0)) =
      SMatrix.scores.getD (24 * k + l) 0 ∧
    SMatrix.protein (tolower (SMatrix.aa.getD k 0)) (tolower (SMatrix.aa.getD l 0)) =
      SMatrix.scores.getD (24 * k + l) 0 ∧
    SMatrix.scores.getD (24 * k + l) 0 = SMatrix.scores.getD (24 * l + k) 0 ∧
    ∀ i j : Nat,
      ((∀ n < 24, i ≠ SMatrix.aa.getD n 0 ∧ i ≠ tolower (SMatrix.aa.getD n 0)) ∨
        (∀ n < 24, j ≠ SMatrix.aa.getD n 0 ∧ j ≠ tolower (SMatrix.aa.getD n 0))) →
      SMatrix.protein i j = 0 := by
  obtain ⟨k1, k2⟩ := SMatrix.aaIndex_letters k hk
  obtain ⟨l1, l2⟩ := SMatrix.aaIndex_letters l hl
  have hs := SMatrix.scores_symm k hk l hl
  refine ⟨?_, ?_, ?_, ?_, hs.symm, ?_⟩
  · rw [SMatrix.protein_entry _ _ k l k1 l1, hs]
  · rw [SMatrix.protein_entry _ _ k l k2 l1, hs]
  · rw [SMatrix.protein_entry _ _ k l k1 l2, hs]
  · rw [SMatrix.protein_entry _ _ k l k2 l2, hs]
  · intro i j h
    rw [SMatrix.protein_closed]
    unfold SMatrix.proteinClosed
    rcases h with h | h
    · rw [SMatrix.aaIndex_none i h]
    · rw [SMatrix.aaIndex_none j h]
      cases SMatrix.aaIndex i <;> rfl

set_option maxRecDepth 100000 in
/-- C17 (witness). The letters `W` (`aa[17]`) and `Y` (`aa[18]`): the score is 2, and
the entry of `1` against `W` is `0`. -/
theorem SMatrix_protein_entries_witness :
    (SMatrix.protein 87 89 = 2 ∧ SMatrix.protein 119 89 = 2 ∧ SMatrix.protein 87 121 = 2 ∧
      SMatrix.protein 119 121 = 2) ∧ SMatrix.protein 49 87 = 0 := by
  have h := SMatrix_protein_entries 17 18 (by decide) (by decide)
  have e : SMatrix.scores.getD (24 * 17 + 18) 0 = 2 := by decide
  rw [e] at h
  refine ⟨⟨h.1, h.2.1, h.2.2.1, h.2.2.2.1⟩, h.2.2.2.2.2 49 87 (Or.inl ?_)⟩
  decide

set_option maxRecDepth 100000 in
/-- C19 (counterexample). Scenario 3: `CigarString(0, 9)` of the Cigar `LclAlign`
returns for `AAACCCGGG` against `CCC` is not `3M`. -/
theorem scenario3_counterexample :
    (LclAlign [65, 65, 65, 67, 67, 67, 71, 71, 71] [67, 67, 67] 3 1 (SMatrix.dna 1 2)).map
      (fun C => C.CigarString 0 9) ≠ some "3M" := by
  decide

set_option maxRecDepth 100000 in
/-- C19 (amended). Scenario 3: with the DNA matrix (match 1, mismatch 2), `rho = 3`,
`sigma = 1`, `a = AAACCCGGG` and `b = CCC`, the Cigar `LclAlign` returns has the
single element `3M` at query 3..5 and subject 0..2, its `CigarString(0, 9)` is
`3S3M3S` (the unaligned ends of the query are soft clips) and its score is 3. -/
theorem scenario3 :
    ∃ C, LclAlign [65, 65, 65, 67, 67, 67, 71, 71, 71] [67, 67, 67] 3 1 (SMatrix.dna 1 2) =
        some C ∧
      C = ⟨[⟨3, 'M'⟩], 3, 5, 0, 2⟩ ∧ C.CigarString 0 9 = "3S3M3S" ∧
      C.Score [65, 65, 65, 67, 67, 67, 71, 71, 71] [67, 67, 67] 3 1 (SMatrix.dna 1 2) = some 3 :=
  ⟨⟨[⟨3, 'M'⟩], 3, 5, 0, 2⟩, by decide, rfl, by decide, by decide⟩

/-- C20 (counterexample). Scenario 5: `DetailedCigarString(0, 4, a, b)` of the Cigar
`GlbAlign` returns for `ACGT` against `AGGT` is not `1M1X2M`. -/
theorem scenario5_counterexample :
    (GlbAlign [65, 67, 71, 84] [65, 71, 71, 84] 3 1 (SMatrix.dna 1 2)).bind
      (fun C => C.DetailedCigarString 0 4 [65, 67, 71, 84] [65, 71, 71, 84]) ≠
        some "1M1X2M" := by
  decide

/-- C20 (amended). Scenario 5: with the DNA matrix (match 1, mismatch 2), `rho = 3`,
`sigma = 1`, `a = ACGT` and `b = AGGT`, the Cigar `GlbAlign` returns has
`DetailedCigarString(0, 4, a, b)` equal to `1=1X2=` (matching runs are rendered
with `=`), `CigarString(0, 4)` equal to `4M`, and score 1. -/
theorem scenario5 :
    ∃ C, GlbAlign [65, 67, 71, 84] [65, 71, 71, 84] 3 1 (SMatrix.dna 1 2) = some C ∧
      C.DetailedCigarString 0 4 [65, 67, 71, 84] [65, 71, 71, 84] = some "1=1X2=" ∧
      C.CigarString 0 4 = "4M" ∧
      C.Score [65, 67, 71, 84] [65, 71, 71, 84] 3 1 (SMatrix.dna 1 2) = some 1 :=
  ⟨⟨[⟨4, 'M'⟩], 0, 3, 0, 3⟩, by decide, by decide, by decide, by decide⟩

/-- C13 (counterexample). With `na = 0` the global kernel returns the Cigar `3D`
for `b = CCC`, and with `nb = 0` the semi-global kernel with both ends pinned
returns `2I` for `a = AA`: neither has an empty element list. -/
theorem kernels_empty_counterexample :
    GlbAlign [] [67, 67, 67] 3 1 (SMatrix.dna 1 2) = some ⟨[⟨3, 'D'⟩], 0, -1, 0, 2⟩ ∧
      LclAlignPin [65, 65] [] 3 1 true true (SMatrix.dna 1 2) =
        some ⟨[⟨2, 'I'⟩], 0, 1, 0, -1⟩ := by
  decide

/-- C13 (amended). When `na = 0` or `nb = 0`: `LclAlign`, and `LclAlign` with pin
flags unless both ends are pinned and a sequence is not empty, return a Cigar
with no element; a Cigar with no element renders as soft clips only. An end to
end alignment of an empty sequence is all gap instead: for `na = 0`, `nb ≥ 1`,
`GlbAlign` and the kernel with both ends pinned return the single element
`D` of length `nb`, and for `nb = 0`, `na ≥ 1` the kernel with both ends pinned
returns the single element `I` of length `na`. -/
theorem kernels_empty_sequence (a b : List Nat) (rho sigma : Int) (delta : Nat → Nat → Int)
    (h : a = [] ∨ b = []) :
    (∃ C, LclAlign a b rho sigma delta = some C ∧ C.m_elements = []) ∧
    (∀ pinleft pinright : Bool, (¬ (pinleft = true ∧ pinright = true) ∨ (a = [] ∧ b = [])) →
      ∃ C, LclAlignPin a b rho sigma pinleft pinright delta = some C ∧ C.m_elements = []) ∧
    (a = [] → 1 ≤ b.length →
      GlbAlign a b rho sigma delta =
        some ⟨[⟨(b.length : Int), 'D'⟩], 0, -1, 0, (b.length : Int) - 1⟩ ∧
      LclAlignPin a b rho sigma true true delta =
        some ⟨[⟨(b.length : Int), 'D'⟩], 0, -1, 0, (b.length : Int) - 1⟩) ∧
    (b = [] → 1 ≤ a.length →
      LclAlignPin a b rho sigma true true delta =
        some ⟨[⟨(a.length : Int), 'I'⟩], 0, (a.length : Int) - 1, 0, -1⟩) ∧
    (∀ (C : CCigar) (qstart qlen : Int), C.m_elements = [] →
      C.CigarString qstart qlen = String.mk
        ((if qstart + C.m_qfrom > 0 then to_string (qstart + C.m_qfrom) ++ ['S'] else []) ++
          (if qlen - 1 - C.m_qto - qstart > 0 then
            to_string (qlen - 1 - C.m_qto - qstart) ++ ['S'] else []))) := by
  refine ⟨⟨_, LclAlign_empty a b rho sigma delta h, rfl⟩, ?_, ?_, ?_, ?_⟩
  · intro pinleft pinright hp
    cases pinright with
    | false => exact ⟨_, LclAlignPin_empty_free a b rho sigma pinleft delta h, rfl⟩
    | true =>
      cases pinleft with
      | false => exact ⟨_, LclAlignPin_empty_right a b rho sigma delta h, rfl⟩
      | true =>
        rcases hp with hp | ⟨ha, hb⟩
        · exact absurd ⟨rfl, rfl⟩ hp
        · subst ha; subst hb
          refine ⟨CCigar.init (-1) (-1), ?_, rfl⟩
          unfold LclAlignPin
          simp only [if_true, List.length_nil, Nat.cast_zero, zero_sub]
          exact BackTrack_origin _ _ _
  · intro ha hb
    subst ha
    exact ⟨GlbAlign_empty_a b rho sigma delta hb, LclAlignPin_empty_a b rho sigma delta hb⟩
  · intro hb ha
    subst hb
    exact LclAlignPin_empty_b a rho sigma delta ha
  · intro C qstart qlen hC
    unfold CCigar.CigarString
    rw [CigarChars_empty C qstart qlen hC]

/-- C13 (witness). An empty `a` against `CCC` with the DNA matrix (match 1,
mismatch 2), `rho = 3`, `sigma = 1`: the local kernel returns no element, and
rendered for a query of length 0 the Cigar is the empty string. -/
theorem kernels_empty_sequence_witness :
    (∃ C, LclAlign [] [67, 67, 67] 3 1 (SMatrix.dna 1 2) = some C ∧ C.m_elements = []) ∧
      (LclAlign [] [67, 67, 67] 3 1 (SMatrix.dna 1 2)).map (fun C => C.CigarString 0 0) =
        some "" :=
  ⟨(kernels_empty_sequence [] [67, 67, 67] 3 1 (SMatrix.dna 1 2) (Or.inl rfl)).1, by decide⟩

set_option maxRecDepth 100000 in
/-- With a negative extension penalty the traceback of `LclAlign` can leave the
bitmap, which no test in the kernel precedes: `CCC` against `CCC` with the DNA
matrix (match 1, mismatch 2), `rho = 3` and `sigma = -1` has no value. -/
theorem LclAlign_negative_sigma_unchecked :
    LclAlign [67, 67, 67] [67, 67, 67] 3 (-1) (SMatrix.dna 1 2) = none := by
  decide

set_option maxRecDepth 100000 in
/-- Outside the contract `sigma > 0` of the kernel the containment in the table is
lost: with `sigma = -1` and a full band the traceback of "ACA" against "AGGA"
walks from row 2 back into row 1, and the returned Cigar `1M7D1M` starts at
subject position `-5`. -/
theorem VariBandAlign_negative_sigma :
    VariBandAlign [65, 67, 65] [65, 71, 71, 65] 3 (-1) (SMatrix.dna 5 2)
        [(0, 3), (0, 3), (0, 3)] (List.replicate 15 0) =
      some ⟨[⟨1, 'M'⟩, ⟨7, 'D'⟩, ⟨1, 'M'⟩], 1, 2, -5, 3⟩ := by
  decide

/-- C26. `CScore(score, tiebreak)` behaves as the pair `(score, tiebreak)`: for
32-bit `s1`, `s2` and `0 ≤ t1, t2 < 2^31` the packed value fits a signed 64-bit
word, `CScore(s1, t1) > CScore(s2, t2)` holds if and only if `s1 > s2`, or
`s1 = s2` and `t1 > t2`, and `CScore(s1, t1).Score() = s1`. -/
theorem CScore_lexicographic (s1 s2 t1 t2 : Int)
    (hs1 : -2147483648 ≤ s1 ∧ s1 ≤ 2147483647) (hs2 : -2147483648 ≤ s2 ∧ s2 ≤ 2147483647)
    (ht1 : 0 ≤ t1 ∧ t1 < 2147483648) (ht2 : 0 ≤ t2 ∧ t2 < 2147483648) :
    (CScore.mk2 s1 t1 > CScore.mk2 s2 t2 ↔ (s1 > s2 ∨ (s1 = s2 ∧ t1 > t2))) ∧
      CScore.Score (CScore.mk2 s1 t1) = s1 ∧
      (-9223372036854775808 ≤ CScore.mk2 s1 t1 ∧ CScore.mk2 s1 t1 ≤ 9223372036854775807) ∧
      (-9223372036854775808 ≤ CScore.mk2 s2 t2 ∧ CScore.mk2 s2 t2 ≤ 9223372036854775807) := by
  unfold CScore.mk2 CScore.Score
  refine ⟨⟨fun h => ?_, fun h => ?_⟩, by omega, by omega, by omega⟩
  · omega
  · rcases h with h | ⟨h1, h2⟩
    · omega
    · omega

/-- C26, instance: `CScore(-3, 5)` against `CScore(-3, 4)`. -/
theorem CScore_lexicographic_witness :
    (CScore.mk2 (-3) 5 > CScore.mk2 (-3) 4 ↔ ((-3 : Int) > -3 ∨ ((-3 : Int) = -3 ∧ (5 : Int) > 4))) ∧
      CScore.Score (CScore.mk2 (-3) 5) = -3 ∧
      (-9223372036854775808 ≤ CScore.mk2 (-3) 5 ∧ CScore.mk2 (-3) 5 ≤ 9223372036854775807) ∧
      (-9223372036854775808 ≤ CScore.mk2 (-3) 4 ∧ CScore.mk2 (-3) 4 ≤ 9223372036854775807) :=
  CScore_lexicographic (-3) (-3) 5 4 (by decide) (by decide) (by decide) (by decide)

set_option maxRecDepth 100000 in
/-- C25, failing input: `ACAA` against `CAA` with the DNA matrix (match 1,
mismatch 2), `rho = 3`, `sigma = 1` and the limits (0,2), (0,2), (0,0), (0,2). The
last row reads at column 2 of `sm` the score 1 that the first row left in that
buffer; the kernel tracks the maximum 2, and the Cigar it returns, `1M` at
query 3 and subject 2, scores 1. -/
theorem VariBandAlign_stale_scores :
    VariBandAlign [65, 67, 65, 65] [67, 65, 65] 3 1 (SMatrix.dna 1 2)
        [(0, 2), (0, 2), (0, 0), (0, 2)] (List.replicate 16 0) =
      some ⟨[⟨1, 'M'⟩], 3, 3, 2, 2⟩ ∧
    CCigar.Score ⟨[⟨1, 'M'⟩], 3, 3, 2, 2⟩ [65, 67, 65, 65] [67, 65, 65] 3 1 (SMatrix.dna 1 2) =
      some 1 ∧
    CScore.Score (VariBandAlign.fill [65, 67, 65, 65] [67, 65, 65] 3 1 (SMatrix.dna 1 2)
      [(0, 2), (0, 2), (0, 0), (0, 2)] (List.replicate 16 0)).1.max_score = 2 := by
  decide

set_option maxRecDepth 100000 in
/-- C29 (counterexample). With `a = "C"`, `b = "AT"`, the DNA matrix (match 1,
mismatch 2), `rho = 2^30 - 2` and `sigma = 1` every score `GlbAlign` forms has a
32-bit score part, but the traceback leaves the bitmap: there is no returned
Cigar whose score could bound the score of `1M1D`. -/
theorem GlbAlign_optimal_counterexample :
    (∀ x ∈ GlbAlign.sums [67] [65, 84] 1073741822 1 (SMatrix.dna 1 2), CScore.InRange x) ∧
      GlbAlign [67] [65, 84] 1073741822 1 (SMatrix.dna 1 2) = none ∧
      CCigar.Score ⟨[⟨1, 'M'⟩, ⟨1, 'D'⟩], 0, 0, 0, 1⟩ [67] [65, 84] 1073741822 1
        (SMatrix.dna 1 2) = some (-1073741825) := by
  decide

/-- C29 (amended). For `na ≥ 1`, `nb ≥ 1`, `rho > 0`, `sigma > 0` and
`2*rho + sigma*(na + nb) < 2^30`, `GlbAlign` returns a Cigar, and for every Cigar
`C'` of `M`, `I`, `D` elements with positive lengths, no two adjacent elements of
the same kind, `qfrom = sfrom = 0`, `qto = na-1`, `sto = nb-1` and length sums
that agree with its span: the exact affine score of `C'` is at most that of the
returned Cigar; whenever `Score`, computed in `int`, overflows for neither of the
two, the `int` score of `C'` is at most that of the returned Cigar; and neither
overflows when the matrix entries are `char` values and
`(rho + sigma + 128)*(na + nb) < 2^31`. -/
theorem GlbAlign_optimal (a b : List Nat) (rho sigma : Int) (delta : Nat → Nat → Int)
    (ha : 1 ≤ a.length) (hb : 1 ≤ b.length) (hrho : 0 < rho) (hsig : 0 < sigma)
    (hmag : 2 * rho + sigma * ((a.length : Int) + (b.length : Int)) < 1073741824)
    (C' : CCigar) (hpos : ∀ e ∈ C'.m_elements, 0 < e.m_len)
    (hkind : ∀ e ∈ C'.m_elements, e.KindOK) (hadj : NoAdjacent C'.m_elements)
    (hq : C'.m_qfrom = 0) (hs : C'.m_sfrom = 0) (hqto : C'.m_qto = (a.length : Int) - 1)
    (hsto : C'.m_sto = (b.length : Int) - 1) (hspan : C'.SpanOK) :
    ∃ C s s', GlbAlign a b rho sigma delta = some C ∧
      C.Score a b rho sigma delta = some s ∧ C'.Score a b rho sigma delta = some s' ∧
      s' ≤ s ∧
      (∀ t t', C.Score32 a b rho sigma delta = some t →
        C'.Score32 a b rho sigma delta = some t' → t' ≤ t) ∧
      ((∀ x y, -128 ≤ delta x y ∧ delta x y ≤ 127) →
        (rho + sigma + 128) * ((a.length : Int) + (b.length : Int)) ≤ 2147483647 →
        C.Score32 a b rho sigma delta = some s ∧ C'.Score32 a b rho sigma delta = some s') := by
  obtain ⟨U, hC, hrU, hcU, hsU⟩ :=
    GlbAlign_traced a b rho sigma delta hb (le_of_lt hrho) hsig hmag
  have hCs := Score_pushOps a b rho sigma delta U a.length b.length (by omega) (by omega)
    (le_refl _) (le_refl _)
  rw [hrU, hcU, Nat.sub_self, Nat.sub_self] at hCs
  obtain ⟨h1, h2⟩ := hspan
  have hcov : C'.Covered a b := by
    unfold CCigar.Covered
    rw [h1, h2, hq, hs, hqto, hsto]
    omega
  have hr := rowsOf_expand _ hpos hkind
  have hc := colsOf_expand _ hpos hkind
  obtain ⟨t, ht, hle⟩ := GlbAlign_terminal_opt a b rho sigma delta hb (le_of_lt hrho)
    (le_of_lt hsig) (expand C'.m_elements) (PathOK_expand _ hkind)
    (by rw [h1, hq, hqto] at hr; omega) (by rw [h2, hs, hsto] at hc; omega)
  have hS' := Score_expand a b rho sigma delta C' hpos hkind hadj hcov
  rw [hsU] at ht
  simp only [Option.some.injEq] at ht
  have hna : (0 : Int) ≤ (a.length : Int) := by positivity
  have hnb : (0 : Int) ≤ (b.length : Int) := by positivity
  rw [← ht, Score_mk2 _ _ hna (by nlinarith)] at hle
  rw [hq, hs] at hS'
  simp only [Int.toNat_zero] at hS'
  refine ⟨_, _, _, hC, hCs, hS', hle, ?_, ?_⟩
  · intro u u' hu hu'
    have e1 := Score32_sound _ _ _ _ _ _ _ hu
    have e2 := Score32_sound _ _ _ _ _ _ _ hu'
    rw [hCs] at e1
    rw [hS'] at e2
    simp only [Option.some.injEq] at e1 e2
    rw [← e1, ← e2]
    exact hle
  · intro hd hfit
    have hel : (pushOps U (CCigar.init ((a.length : Int) - 1) ((b.length : Int) - 1))).m_elements =
        rle U := by
      rw [pushOps_elements]
      rfl
    constructor
    · refine Score32_complete _ a b rho sigma delta hd (le_of_lt hrho) (le_of_lt hsig) ?_ _ hCs ?_
      · rw [hel]
        exact fun e he => le_of_lt (rle_pos U e he)
      · rw [hel]
        have hw := scoreWeight_rle rho sigma (le_of_lt hrho) (le_of_lt hsig) U
        rw [hrU, hcU] at hw
        omega
    · refine Score32_complete C' a b rho sigma delta hd (le_of_lt hrho) (le_of_lt hsig)
        (fun e he => le_of_lt (hpos e he)) _ hS' ?_
      have hw := scoreWeight_le_sums rho sigma (le_of_lt hrho) (le_of_lt hsig) C'.m_elements
        hpos hkind
      rw [h1, h2, hq, hs, hqto, hsto] at hw
      have e : (a.length : Int) - 1 - 0 + 1 + ((b.length : Int) - 1 - 0 + 1) =
          (a.length : Int) + (b.length : Int) := by ring
      rw [e] at hw
      omega

set_option maxRecDepth 100000 in
/-- C29 (witness). `ACGT` against `AGT` with the DNA matrix (match 1, mismatch 2),
`rho = 3`, `sigma = 1`, and the competing Cigar `1M1I2M`: in `int` the returned
Cigar scores `-1` and the competing one `-3`. -/
theorem GlbAlign_optimal_witness :
    ∃ C s s', GlbAlign [65, 67, 71, 84] [65, 71, 84] 3 1 (SMatrix.dna 1 2) = some C ∧
      C.Score [65, 67, 71, 84] [65, 71, 84] 3 1 (SMatrix.dna 1 2) = some s ∧
      CCigar.Score ⟨[⟨1, 'M'⟩, ⟨1, 'I'⟩, ⟨2, 'M'⟩], 0, 3, 0, 2⟩ [65, 67, 71, 84] [65, 71, 84] 3 1
        (SMatrix.dna 1 2) = some s' ∧
      s' ≤ s ∧
      C.Score32 [65, 67, 71, 84] [65, 71, 84] 3 1 (SMatrix.dna 1 2) = some s ∧
      CCigar.Score32 ⟨[⟨1, 'M'⟩, ⟨1, 'I'⟩, ⟨2, 'M'⟩], 0, 3, 0, 2⟩ [65, 67, 71, 84] [65, 71, 84]
        3 1 (SMatrix.dna 1 2) = some s' := by
  obtain ⟨C, s, s', hC, hs, hs', hle, -, hfit⟩ :=
    GlbAlign_optimal [65, 67, 71, 84] [65, 71, 84] 3 1 (SMatrix.dna 1 2) (by decide) (by decide)
      (by decide) (by decide) (by decide) ⟨[⟨1, 'M'⟩, ⟨1, 'I'⟩, ⟨2, 'M'⟩], 0, 3, 0, 2⟩
      (by simp) (by simp [SElement.KindOK]) (by simp [NoAdjacent]) rfl rfl (by decide) (by decide)
      (by simp +decide [CCigar.SpanOK, sumMI, sumMD, sumLen])
  obtain ⟨h32, h32'⟩ := hfit (fun x y => SMatrix.dna_range 1 2 x y) (by decide)
  exact ⟨C, s, s', hC, hs, hs', hle, h32, h32'⟩

/-- C27. For a Cigar of the data model (elements of kind `M`, `I`, `D` with
positive lengths, no two adjacent elements of the same kind) and sequences that
cover its span, `DetailedCigarString(qstart, qlen, query, subject)` returns a
string that parses into tokens `dtoks` such that the lengths of the `=` tokens
sum to `Matches(query, subject)`, the lengths of the `X`, `I` and `D` tokens sum
to `Distance(query, subject)`, and putting `M` for every `=` and `X` token and
merging adjacent `M` tokens renders exactly `CigarString(qstart, qlen)`. -/
theorem DetailedCigarString_refines (c : CCigar) (qstart qlen : Int) (query subject : List Nat)
    (hels : ∀ el ∈ c.m_elements, 0 < el.m_len ∧ el.KindOK) (hadj : NoAdjacent c.m_elements)
    (hcov : c.Covered query subject) :
    ∃ (str : String) (dtoks : List SElement) (ms ds : Int),
      c.DetailedCigarString qstart qlen query subject = some str ∧
      parseCigar str.data.length str.data = some dtoks ∧
      c.Matches query subject = some ms ∧ c.Distance query subject = some ds ∧
      sumKind '=' dtoks = ms ∧
      sumLen (fun t => t = 'X' || t = 'I' || t = 'D') dtoks = ds ∧
      String.mk (CCigar.elementChars (mergeM (dtoks.map replaceEqX))) =
        c.CigarString qstart qlen := by
  obtain ⟨hq0, hq1, hs0, hs1⟩ := hcov
  obtain ⟨toks, ht, hm, hd, hpos, hmerge⟩ := detailedTokens_spec query subject c.m_elements
    c.m_qfrom c.m_sfrom hels hq0 hq1 hs0 hs1
  have hclip : ∀ n : Int, ∀ e ∈ softClip n, 0 < e.m_len ∧ e.m_type.isDigit = false := by
    intro n e he
    unfold softClip at he
    split_ifs at he with h
    · rw [List.mem_singleton] at he
      subst he
      exact ⟨h, show ('S' : Char).isDigit = false from by decide⟩
    · exact absurd he (List.not_mem_nil _)
  have hclipM : ∀ n : Int, ∀ h, (softClip n).head? = some h → h.m_type ≠ 'M' := by
    intro n h hh
    unfold softClip at hh
    split_ifs at hh
    · simp only [List.head?_cons, Option.some.injEq] at hh
      rw [← hh]
      exact show ('S' : Char) ≠ 'M' from by decide
    · simp at hh
  have hclipS : ∀ n : Int, ∀ K, List.foldr mergeStep K ((softClip n).map replaceEqX) =
      softClip n ++ K := by
    intro n K
    unfold softClip
    split_ifs
    · simp only [List.map_cons, List.map_nil, List.foldr_cons, List.foldr_nil]
      have hrep : replaceEqX ⟨n, 'S'⟩ = ⟨n, 'S'⟩ := by
        unfold replaceEqX
        rw [if_neg (show ¬ (('S' : Char) = '=' ∨ ('S' : Char) = 'X') from by decide)]
      rw [hrep]
      exact mergeStep_other _ _ (show ('S' : Char) ≠ 'M' from by decide)
    · rfl
  refine ⟨String.mk (CCigar.elementChars
      (softClip (qstart + c.m_qfrom) ++ toks ++ softClip (qlen - 1 - c.m_qto - qstart))),
    softClip (qstart + c.m_qfrom) ++ toks ++ softClip (qlen - 1 - c.m_qto - qstart),
    _, _, ?_, ?_, hm 0, hd 0, ?_, ?_, ?_⟩
  · rw [DetailedCigarString_tokens, ht]; rfl
  · have := parseCigar_tokens
      (softClip (qstart + c.m_qfrom) ++ toks ++ softClip (qlen - 1 - c.m_qto - qstart))
      (by
        intro e he
        rcases List.mem_append.1 he with h1 | h1
        · rcases List.mem_append.1 h1 with h2 | h2
          · exact hclip _ e h2
          · exact hpos e h2
        · exact hclip _ e h1) [] [] parseCigar_nil
    simp only [List.append_nil] at this
    exact this _ (le_refl _)
  · have hS : ∀ n : Int, sumKind '=' (softClip n) = 0 := by
      intro n; unfold softClip sumKind; split_ifs <;> simp +decide [sumLen]
    rw [sumKind_append, sumKind_append, hS, hS]; ring
  · have hS : ∀ n : Int, sumLen (fun t => t = 'X' || t = 'I' || t = 'D') (softClip n) = 0 := by
      intro n; unfold softClip; split_ifs <;> simp +decide [sumLen]
    rw [sumLen_append, sumLen_append, hS, hS]; ring
  · unfold CCigar.CigarString
    rw [CigarChars_tokens]
    congr 2
    unfold mergeM CCigar.cigarTokens
    rw [List.map_append, List.map_append, List.foldr_append, List.foldr_append,
      hclipS (qlen - 1 - c.m_qto - qstart) [], List.append_nil, hmerge hadj _ (hclipM _), hclipS,
      List.append_assoc]

/-- C27, instance: the Cigar `2M1I1M` of `ACGT` against `AGT`. -/
theorem DetailedCigarString_refines_witness :
    ∃ (str : String) (dtoks : List SElement) (ms ds : Int),
      CCigar.DetailedCigarString ⟨[⟨2, 'M'⟩, ⟨1, 'I'⟩, ⟨1, 'M'⟩], 0, 3, 0, 2⟩ 0 4
        [65, 67, 71, 84] [65, 71, 84] = some str ∧
      parseCigar str.data.length str.data = some dtoks ∧
      CCigar.Matches ⟨[⟨2, 'M'⟩, ⟨1, 'I'⟩, ⟨1, 'M'⟩], 0, 3, 0, 2⟩ [65, 67, 71, 84] [65, 71, 84] =
        some ms ∧
      CCigar.Distance ⟨[⟨2, 'M'⟩, ⟨1, 'I'⟩, ⟨1, 'M'⟩], 0, 3, 0, 2⟩ [65, 67, 71, 84] [65, 71, 84] =
        some ds ∧
      sumKind '=' dtoks = ms ∧
      sumLen (fun t => t = 'X' || t = 'I' || t = 'D') dtoks = ds ∧
      String.mk (CCigar.elementChars (mergeM (dtoks.map replaceEqX))) =
        CCigar.CigarString ⟨[⟨2, 'M'⟩, ⟨1, 'I'⟩, ⟨1, 'M'⟩], 0, 3, 0, 2⟩ 0 4 :=
  DetailedCigarString_refines ⟨[⟨2, 'M'⟩, ⟨1, 'I'⟩, ⟨1, 'M'⟩], 0, 3, 0, 2⟩ 0 4 [65, 67, 71, 84]
    [65, 71, 84] (by simp [SElement.KindOK]) (by simp [NoAdjacent])
    (by simp +decide [CCigar.Covered, sumMI, sumMD, sumLen])

/-- C28. The compact CIGAR accounts for the whole query: for a Cigar of the data
model (kinds `M`, `I`, `D`, positive lengths) whose `M` and `I` lengths sum to
`qto - qfrom + 1`, and `qstart`, `qlen` with `qstart + qfrom ≥ 0` and
`qto + qstart ≤ qlen - 1`, `CigarString(qstart, qlen)` parses into tokens whose
`S`, `M` and `I` lengths sum to `qlen`, with `S` tokens only first or last and
every token length positive. -/
theorem CigarString_accounts_query (c : CCigar) (qstart qlen : Int)
    (hels : ∀ el ∈ c.m_elements, 0 < el.m_len ∧ el.KindOK)
    (hspan : sumMI c.m_elements = c.m_qto - c.m_qfrom + 1)
    (h1 : 0 ≤ qstart + c.m_qfrom) (h2 : c.m_qto + qstart ≤ qlen - 1) :
    ∃ toks, parseCigar (c.CigarString qstart qlen).data.length (c.CigarString qstart qlen).data =
        some toks ∧
      sumLen (fun t => t = 'S' || t = 'M' || t = 'I') toks = qlen ∧
      (∀ i t, toks[i]? = some t → t.m_type = 'S' → i = 0 ∨ i + 1 = toks.length) ∧
      ∀ t ∈ toks, 0 < t.m_len := by
  refine ⟨c.cigarTokens qstart qlen, CigarChars_parse c qstart qlen hels _ (le_refl _), ?_, ?_, ?_⟩
  · unfold CCigar.cigarTokens
    rw [sumLen_append, sumLen_append, sumLen_softClip _ (by decide) _ h1,
      sumLen_softClip _ (by decide) _ (by omega),
      sumLen_SMI _ (fun e he => (hels e he).2), hspan]
    ring
  · intro i t hi hS
    unfold CCigar.cigarTokens at hi ⊢
    have hl1 : (softClip (qstart + c.m_qfrom)).length ≤ 1 := by
      unfold softClip; split_ifs <;> simp
    have hl2 : (softClip (qlen - 1 - c.m_qto - qstart)).length ≤ 1 := by
      unfold softClip; split_ifs <;> simp
    simp only [List.length_append]
    by_cases hi1 : i < (softClip (qstart + c.m_qfrom)).length
    · left; omega
    · by_cases hi2 : i < (softClip (qstart + c.m_qfrom)).length + c.m_elements.length
      · exfalso
        rw [List.getElem?_append_left (by rw [List.length_append]; exact hi2),
          List.getElem?_append_right (by omega)] at hi
        have hk := (hels t (List.mem_iff_getElem?.2 ⟨_, hi⟩)).2
        rcases hk with hk | hk | hk <;> rw [hk] at hS <;> exact absurd hS (by decide)
      · right
        have hlt : i < (softClip (qstart + c.m_qfrom) ++ c.m_elements ++
            softClip (qlen - 1 - c.m_qto - qstart)).length := by
          by_contra hge
          rw [List.getElem?_eq_none (by omega)] at hi
          exact absurd hi (by simp)
        simp only [List.length_append] at hlt
        omega
  · intro t ht
    unfold CCigar.cigarTokens at ht
    rcases List.mem_append.1 ht with h | h
    · rcases List.mem_append.1 h with h | h
      · unfold softClip at h
        split_ifs at h with hp
        · rw [List.mem_singleton] at h; subst h; exact hp
        · exact absurd h (List.not_mem_nil _)
      · exact (hels t h).1
    · unfold softClip at h
      split_ifs at h with hp
      · rw [List.mem_singleton] at h; subst h; exact hp
      · exact absurd h (List.not_mem_nil _)

/-- C28, instance: the Cigar `3M` at query 3..5 rendered for a query of length 9. -/
theorem CigarString_accounts_query_witness :
    ∃ toks, parseCigar (CCigar.CigarString ⟨[⟨3, 'M'⟩], 3, 5, 0, 2⟩ 0 9).data.length
        (CCigar.CigarString ⟨[⟨3, 'M'⟩], 3, 5, 0, 2⟩ 0 9).data = some toks ∧
      sumLen (fun t => t = 'S' || t = 'M' || t = 'I') toks = 9 ∧
      (∀ i t, toks[i]? = some t → t.m_type = 'S' → i = 0 ∨ i + 1 = toks.length) ∧
      ∀ t ∈ toks, 0 < t.m_len :=
  CigarString_accounts_query ⟨[⟨3, 'M'⟩], 3, 5, 0, 2⟩ 0 9 (by simp [SElement.KindOK])
    (by simp +decide [sumMI, sumLen]) (by decide) (by decide)

/-- C21. For a Cigar with positive element lengths (kinds `M`, `I`, `D`) and a
query and subject covering its span, `ToAlign(query, subject)` returns two byte
strings whose common length is the sum of all element lengths. Reading the
elements as one column per unit (`expand`), the first string holds `'-'` at every
column of a `D` element and its other columns spell, in order, the query from
`qfrom` over `sum(M) + sum(I)` bytes; the second holds `'-'` at every column of an
`I` element and its other columns spell the subject from `sfrom` over
`sum(M) + sum(D)` bytes. When the spelled bytes hold no `'-'` themselves, the
`'-'` columns are exactly the `D` (respectively `I`) columns. -/
theorem ToAlign_rows (c : CCigar) (query subject : List Nat)
    (hels : ∀ el ∈ c.m_elements, 0 < el.m_len ∧ el.KindOK)
    (hcov : c.Covered query subject) :
    ∃ A B : List Nat, c.ToAlign query subject = some (A, B) ∧
      (A.length : Int) = sumAll c.m_elements ∧ (B.length : Int) = sumAll c.m_elements ∧
      (∀ p : Nat, (expand c.m_elements)[p]? = some 'D' → A[p]? = some 45) ∧
      (((expand c.m_elements).zip A).filter (fun x => x.1 ≠ 'D')).map Prod.snd =
        (query.drop c.m_qfrom.toNat).take (sumMI c.m_elements).toNat ∧
      (∀ p : Nat, (expand c.m_elements)[p]? = some 'I' → B[p]? = some 45) ∧
      (((expand c.m_elements).zip B).filter (fun x => x.1 ≠ 'I')).map Prod.snd =
        (subject.drop c.m_sfrom.toNat).take (sumMD c.m_elements).toNat ∧
      (45 ∉ (query.drop c.m_qfrom.toNat).take (sumMI c.m_elements).toNat →
        ∀ p : Nat, A[p]? = some 45 ↔ (expand c.m_elements)[p]? = some 'D') ∧
      (45 ∉ (subject.drop c.m_sfrom.toNat).take (sumMD c.m_elements).toNat →
        ∀ p : Nat, B[p]? = some 45 ↔ (expand c.m_elements)[p]? = some 'I') := by
  obtain ⟨hq0, hq1, hs0, hs1⟩ := hcov
  have hpos : ∀ e ∈ c.m_elements, 0 < e.m_len := fun e he => (hels e he).1
  have hkind : ∀ e ∈ c.m_elements, e.KindOK := fun e he => (hels e he).2
  have hI := sumMI_nonneg c.m_elements hpos
  have hD := sumMD_nonneg c.m_elements hpos
  have hr := rowsOf_expand c.m_elements hpos hkind
  have hc := colsOf_expand c.m_elements hpos hkind
  have hlenA : ((query.drop c.m_qfrom.toNat).take (sumMI c.m_elements).toNat).length =
      ((expand c.m_elements).filter (fun op => op ≠ 'D')).length := by
    rw [filter_notD_length, List.length_take, List.length_drop]; omega
  have hlenB : ((subject.drop c.m_sfrom.toNat).take (sumMD c.m_elements).toNat).length =
      ((expand c.m_elements).filter (fun op => op ≠ 'I')).length := by
    rw [filter_notI_length _ (PathOK_expand c.m_elements hkind), List.length_take,
      List.length_drop]; omega
  refine ⟨alignRow 'D' (expand c.m_elements)
      ((query.drop c.m_qfrom.toNat).take (sumMI c.m_elements).toNat),
    alignRow 'I' (expand c.m_elements)
      ((subject.drop c.m_sfrom.toNat).take (sumMD c.m_elements).toNat),
    ?_, ?_, ?_, ?_, ?_, ?_, ?_, ?_, ?_⟩
  · unfold CCigar.ToAlign
    rw [toAlignLoop_spec query subject c.m_elements c.m_qfrom c.m_sfrom ([], []) hels hq0 hq1
      hs0 hs1]
    simp only [List.nil_append]
  · rw [alignRow_length]; exact expand_length c.m_elements hpos
  · rw [alignRow_length]; exact expand_length c.m_elements hpos
  · exact fun p hp => alignRow_gap 'D' _ _ p hp
  · exact alignRow_spells 'D' _ _ hlenA
  · exact fun p hp => alignRow_gap 'I' _ _ p hp
  · exact alignRow_spells 'I' _ _ hlenB
  · exact fun hno p => alignRow_gap_iff 'D' _ _ hlenA hno p
  · exact fun hno p => alignRow_gap_iff 'I' _ _ hlenB hno p

/-- Witness for C21: the Cigar `1M1D1M1I` over query `ACG` and subject `ATC`. -/
theorem ToAlign_rows_witness :
    ∃ A B : List Nat,
      (⟨[⟨1, 'M'⟩, ⟨1, 'D'⟩, ⟨1, 'M'⟩, ⟨1, 'I'⟩], 0, 2, 0, 2⟩ : CCigar).ToAlign
        [65, 67, 71] [65, 84, 67] = some (A, B) ∧
      A = [65, 45, 67, 71] ∧ B = [65, 84, 67, 45] := by
  obtain ⟨A, B, h, _⟩ := ToAlign_rows
    (⟨[⟨1, 'M'⟩, ⟨1, 'D'⟩, ⟨1, 'M'⟩, ⟨1, 'I'⟩], 0, 2, 0, 2⟩ : CCigar)
    [65, 67, 71] [65, 84, 67]
    (by simp +decide [SElement.KindOK])
    (by simp +decide [CCigar.Covered, sumMI, sumMD, sumLen])
  refine ⟨A, B, h, ?_⟩
  have h2 : (⟨[⟨1, 'M'⟩, ⟨1, 'D'⟩, ⟨1, 'M'⟩, ⟨1, 'I'⟩], 0, 2, 0, 2⟩ : CCigar).ToAlign
      [65, 67, 71] [65, 84, 67] = some ([65, 45, 67, 71], [65, 84, 67, 45]) := by decide
  rw [h2] at h
  simp only [Option.some.injEq, Prod.mk.injEq] at h
  exact ⟨h.1.symm, h.2.symm⟩

/-- C24. The kernel `LclAlign(…, pinleft = true, pinright = true, …)` is the global
kernel: for `nb ≥ 1`, `rho > 0`, `sigma > 0` the two kernels fill the same
traceback bitmap and the same last score row, and they return the same result;
when `2*rho + sigma*(na+nb) < 2^30` that result is a Cigar. -/
theorem LclAlignPin_both_pinned_is_GlbAlign (a b : List Nat) (rho sigma : Int)
    (delta : Nat → Nat → Int) (hb : 1 ≤ b.length) (hrho : 0 < rho) (hsig : 0 < sigma) :
    (LclAlignPin.fill a b rho sigma true delta).2.2 = (GlbAlign.fill a b rho sigma delta).2 ∧
      (LclAlignPin.fill a b rho sigma true delta).1 = (GlbAlign.fill a b rho sigma delta).1 ∧
      LclAlignPin a b rho sigma true true delta = GlbAlign a b rho sigma delta ∧
      (2 * rho + sigma * ((a.length : Int) + (b.length : Int)) < 1073741824 →
        ∃ C, LclAlignPin a b rho sigma true true delta = some C ∧
          GlbAlign a b rho sigma delta = some C) := by
  obtain ⟨h1, h2, h3⟩ := LclAlignPin_both_glb a b rho sigma delta hb
  refine ⟨h1, h2, h3, fun hmag => ?_⟩
  obtain ⟨U, hC, -⟩ := GlbAlign_traced a b rho sigma delta hb (le_of_lt hrho) hsig hmag
  exact ⟨_, h3.trans hC, hC⟩

/-- Witness for C24: `ACGT` against `AGT` with the DNA matrix (match 1, mismatch
2), `rho = 3`, `sigma = 1`; both kernels return `1M1I2M`. -/
theorem LclAlignPin_both_pinned_is_GlbAlign_witness :
    LclAlignPin [65, 67, 71, 84] [65, 71, 84] 3 1 true true (SMatrix.dna 1 2) =
        GlbAlign [65, 67, 71, 84] [65, 71, 84] 3 1 (SMatrix.dna 1 2) ∧
      (LclAlignPin.fill [65, 67, 71, 84] [65, 71, 84] 3 1 true (SMatrix.dna 1 2)).2.2 =
        (GlbAlign.fill [65, 67, 71, 84] [65, 71, 84] 3 1 (SMatrix.dna 1 2)).2 :=
  ⟨(LclAlignPin_both_pinned_is_GlbAlign [65, 67, 71, 84] [65, 71, 84] 3 1 (SMatrix.dna 1 2)
      (by decide) (by decide) (by decide)).2.2.1,
    (LclAlignPin_both_pinned_is_GlbAlign [65, 67, 71, 84] [65, 71, 84] 3 1 (SMatrix.dna 1 2)
      (by decide) (by decide) (by decide)).1⟩

/-- C22. `InsertRead` stores the leftmost longest unambiguous stretch. For a read
of fewer than `2^31` bytes (the stretch length is an `int`), with `up` the
upper-cased read: when every byte of `up` is of `ACGTYRWSKMDVHBXN-`, the function
returns normally after one `PushBack` on the holder, of the `n` bytes of `up` from
index `i`, where these bytes are all of `ACGT`, the stretch is maximal when it is
not empty (a byte not of `ACGT`, or an end of the read, on either side), every
non-empty stretch of `ACGT` bytes at any index `j` of any length `m` has `m ≤ n`
and, when `m = n`, `i ≤ j`, and `n = 0` (the empty string) when `up` has no byte of
`ACGT`; when some byte of `up` is not of `ACGTYRWSKMDVHBXN-`, the function throws
`runtime_error("Invalid sequence in " + source_name)` and the holder is as
before. -/
theorem InsertRead_leftmost_longest {H : Type} (PushBack : H → List Nat → H) (read : List Nat)
    (rholder : H) (source_name : String) (hlen : read.length < 2147483648) :
    ((∀ c ∈ read.map toupper, isReadChar c = true) →
      ∃ i n, InsertRead PushBack read rholder source_name =
          some (read.map toupper, PushBack rholder (((read.map toupper).drop i).take n), .ok ()) ∧
        AllACGT (read.map toupper) i n ∧
        (0 < n → (i = 0 ∨ isACGT ((read.map toupper).getD (i - 1) 0) = false) ∧
          isACGT ((read.map toupper).getD (i + n) 0) = false) ∧
        (∀ j m, 0 < m → AllACGT (read.map toupper) j m → m ≤ n ∧ (m = n → i ≤ j)) ∧
        ((∀ c ∈ read.map toupper, isACGT c = false) → n = 0)) ∧
    ((¬ ∀ c ∈ read.map toupper, isReadChar c = true) →
      InsertRead PushBack read rholder source_name =
        some (read.map toupper, rholder, .error ("Invalid sequence in " ++ source_name))) := by
  have hlen1 : (read.map toupper).length < 2147483648 := by rw [List.length_map]; exact hlen
  generalize hup : read.map toupper = up at hlen1
  have hv := valid_iff up hlen1
  constructor
  · intro hall
    obtain ⟨bs, bl, start1, hloop, hend, h1, h2, h3, h4⟩ :=
      InsertRead.loop_spec up hlen1 (up.length + 1) 0 0 0 (by omega) (InsertRead.Inv_zero up)
    have hfin : ∀ j m, 0 < m → AllACGT up j m → (m : Int) ≤ bl ∧ ((m : Int) = bl → bs ≤ j) := by
      intro j m hm hrun
      have := isACGT_lt up (j + m - 1) (hrun (j + m - 1) (by omega) (by omega))
      exact h4 j m hm (by omega) hrun
    unfold InsertRead
    simp only [hup]
    rw [if_neg (by rw [hv.2 hall]; exact fun h => h rfl), hloop]
    simp only []
    by_cases hpos : bl > 0
    · obtain ⟨a1, a2, a3, a4⟩ := h3 hpos
      have hb1 : bs + bl.toNat - 1 < up.length :=
        isACGT_lt up _ (a2 (bs + bl.toNat - 1) (by omega) (by omega))
      have hmod : (bl % 18446744073709551616).toNat = bl.toNat := by omega
      have hsub : substr up bs bl.toNat = .ok ((up.drop bs).take bl.toNat) := by
        unfold substr; rw [if_neg (by omega)]
      rw [if_pos hpos, hmod, hsub]
      refine ⟨bs, bl.toNat, rfl, a2, fun _ => ⟨a3, a4⟩, fun j m hm hrun => ?_, fun hno => ?_⟩
      · obtain ⟨c1, c2⟩ := hfin j m hm hrun
        exact ⟨by omega, fun h => c2 (by omega)⟩
      · have hk := a2 bs (le_refl _) (by omega)
        have hlt := isACGT_lt up bs hk
        rw [List.getD_eq_getElem _ _ hlt, hno _ (List.getElem_mem hlt)] at hk
        exact absurd hk (by decide)
    · rw [if_neg hpos]
      refine ⟨bs, 0, by rw [List.take_zero], fun k hk1 hk2 => by omega,
        fun h => absurd h (lt_irrefl _), fun j m hm hrun => ?_, fun _ => rfl⟩
      have := (hfin j m hm hrun).1
      omega
  · intro hbad
    unfold InsertRead
    simp only [hup]
    rw [if_pos (fun h => hbad (hv.1 h))]

/-- Witness for C22: the read `acNgtaNgcc` is stored as `GTA`, the first of its
two stretches of length three, and the read `acU` is refused. -/
theorem InsertRead_leftmost_longest_witness :
    (∃ i n, InsertRead (fun (h : List (List Nat)) s => h ++ [s])
          [97, 99, 78, 103, 116, 97, 78, 103, 99, 99] [] "reads" =
          some ([65, 67, 78, 71, 84, 65, 78, 71, 67, 67],
            [] ++ [(([65, 67, 78, 71, 84, 65, 78, 71, 67, 67] : List Nat).drop i).take n],
            .ok ()) ∧
        AllACGT [65, 67, 78, 71, 84, 65, 78, 71, 67, 67] i n ∧
        (0 < n → (i = 0 ∨
            isACGT (([65, 67, 78, 71, 84, 65, 78, 71, 67, 67] : List Nat).getD (i - 1) 0) = false) ∧
          isACGT (([65, 67, 78, 71, 84, 65, 78, 71, 67, 67] : List Nat).getD (i + n) 0) = false) ∧
        (∀ j m, 0 < m → AllACGT [65, 67, 78, 71, 84, 65, 78, 71, 67, 67] j m →
          m ≤ n ∧ (m = n → i ≤ j)) ∧
        ((∀ c ∈ ([65, 67, 78, 71, 84, 65, 78, 71, 67, 67] : List Nat), isACGT c = false) →
          n = 0)) ∧
      InsertRead (fun (h : List (List Nat)) s => h ++ [s]) [97, 99, 85] [] "reads" =
        some ([65, 67, 85], [], .error "Invalid sequence in reads") :=
  ⟨(InsertRead_leftmost_longest (fun (h : List (List Nat)) s => h ++ [s])
      [97, 99, 78, 103, 116, 97, 78, 103, 99, 99] [] "reads" (by decide)).1 (by decide),
    (InsertRead_leftmost_longest (fun (h : List (List Nat)) s => h ++ [s])
      [97, 99, 85] [] "reads" (by decide)).2 (by decide)⟩

/-- C30. With a full band the variable-band kernel is the local kernel: for
`na ≥ 1`, `nb ≥ 1`, every matrix and every `rho`, `sigma`, if `blimits[i]` is
`(0, nb-1)` for every row `i`, then whatever the bitmap of `(na+1)*(nb+1)` bytes
holds at first beyond its first row, `VariBandAlign` fills the bitmap of
`LclAlign`, finds the same maximum at the same cell and returns the same result;
for `rho ≥ 0` and `sigma > 0` that result is a Cigar. -/
theorem VariBandAlign_full_band (a b : List Nat) (rho sigma : Int) (delta : Nat → Nat → Int)
    (blimits : List (Nat × Nat)) (junk : List Nat) (ha : 1 ≤ a.length) (hb : 1 ≤ b.length)
    (hbl : ∀ i, i < a.length → blimits[i]? = some (0, b.length - 1))
    (hjunk : junk.length = a.length * (b.length + 1)) :
    VariBandAlign.fill a b rho sigma delta blimits junk = LclAlign.fill a b rho sigma delta ∧
      VariBandAlign a b rho sigma delta blimits junk = LclAlign a b rho sigma delta ∧
      (0 ≤ rho → 0 < sigma →
        ∃ C, VariBandAlign a b rho sigma delta blimits junk = some C ∧
          LclAlign a b rho sigma delta = some C) := by
  have hfill : VariBandAlign.fill a b rho sigma delta blimits junk =
      LclAlign.fill a b rho sigma delta := by
    unfold VariBandAlign.fill LclAlign.fill
    exact VariBandAlign.rows_full _ _ sigma delta b hb a blimits _ _ _ _ _ junk _ b.length hbl
      (List.length_replicate _ _) (List.length_replicate _ _) (List.length_replicate _ _)
      (List.length_replicate _ _) rfl hjunk (List.length_replicate _ _)
  have hlen : ¬ (a.length = 0 ∨ blimits.length < a.length) := by
    intro h
    rcases h with h | h
    · omega
    · have := hbl (a.length - 1) (by omega)
      have h2 : blimits[a.length - 1]? = none := List.getElem?_eq_none (by omega)
      rw [h2] at this
      exact absurd this (by simp)
  have hres : VariBandAlign a b rho sigma delta blimits junk = LclAlign a b rho sigma delta := by
    unfold VariBandAlign LclAlign
    rw [if_neg hlen, hfill]
  refine ⟨hfill, hres, fun hrho hsig => ?_⟩
  obtain ⟨r, c, v, U, -, -, -, -, -, -, hC⟩ := LclAlign_traced a b rho sigma delta hrho hsig
  exact ⟨_, hres.trans hC, hC⟩

/-- Witness for C30: `ACGT` against `AGT` with the DNA matrix (match 1, mismatch
2), `rho = 3`, `sigma = 1`, the band `(0, 2)` in all four rows and a bitmap that
holds `255` beyond its first row. -/
theorem VariBandAlign_full_band_witness :
    VariBandAlign [65, 67, 71, 84] [65, 71, 84] 3 1 (SMatrix.dna 1 2)
        [(0, 2), (0, 2), (0, 2), (0, 2)] (List.replicate 16 255) =
      LclAlign [65, 67, 71, 84] [65, 71, 84] 3 1 (SMatrix.dna 1 2) :=
  (VariBandAlign_full_band [65, 67, 71, 84] [65, 71, 84] 3 1 (SMatrix.dna 1 2)
    [(0, 2), (0, 2), (0, 2), (0, 2)] (List.replicate 16 255) (by decide) (by decide)
    (by decide) (by decide)).2.1

/-- C23. The semi-global kernel with both ends free is the local kernel: for every
`a`, `b`, matrix and `rho > 0`, `sigma > 0`, `LclAlign(…, pinleft = false,
pinright = false, …)` tracks the same maximum at the same cell as `LclAlign` and
returns the same Cigar (elements and `qfrom`, `qto`, `sfrom`, `sto`), although it
starts `gapa` and `gapb` from the big negative score where `LclAlign` starts them
from zero. -/
theorem LclAlignPin_both_free (a b : List Nat) (rho sigma : Int) (delta : Nat → Nat → Int)
    (hrho : 0 < rho) (hsig : 0 < sigma) :
    (LclAlignPin.fill a b rho sigma false delta).2.1 = (LclAlign.fill a b rho sigma delta).1 ∧
      LclAlignPin a b rho sigma false false delta = LclAlign a b rho sigma delta ∧
      ∃ C, LclAlignPin a b rho sigma false false delta = some C ∧
        LclAlign a b rho sigma delta = some C := by
  have hsm : LclAlignPin.sm0 false b.length (CScore.mk2 (-rho - sigma) 0) sigma =
      List.replicate (b.length + 1) CScore.zero := by
    unfold LclAlignPin.sm0
    simp only [Bool.false_eq_true, if_false, List.replicate_succ]
  have hm0 : LclAlignPin.mtrx0 false b.length = 0 :: List.replicate b.length Zero := by
    unfold LclAlignPin.mtrx0
    simp only [Bool.false_eq_true, if_false]
  have hpair := LclAlignPin.rows_pair (CScore.mk2 (-rho - sigma) 0) (CScore.mk2 (-rho - sigma) 1)
    sigma hsig delta b a 0 _ _ _ ⟨CScore.zero, 0⟩ _ _ (jointRow_init b.length)
    ⟨le_refl _, 0, 0, by simp [idx], Nat.zero_le _, jointTraced_origin _ _ _⟩
  have hfP : LclAlignPin.fill a b rho sigma false delta =
      LclAlignPin.rows false (CScore.mk2 (-rho - sigma) 0) (CScore.mk2 (-rho - sigma) 1) sigma
        delta b a (List.replicate (b.length + 1) CScore.zero) CScore.zero
        (List.replicate (b.length + 1) bignegative) ⟨CScore.zero, 0⟩
        (0 :: List.replicate b.length Zero) := by
    unfold LclAlignPin.fill
    simp only [hsm, hm0, Bool.false_eq_true, if_false]
  have hfL : LclAlign.fill a b rho sigma delta =
      LclAlign.rows (CScore.mk2 (-rho - sigma) 0) (CScore.mk2 (-rho - sigma) 1) sigma delta b a
        (List.replicate (b.length + 1) CScore.zero) (List.replicate (b.length + 1) CScore.zero)
        ⟨CScore.zero, 0⟩ (List.replicate (b.length + 1) Zero) := rfl
  rw [← hfP, ← hfL] at hpair
  obtain ⟨hmax, -, r, c, hp, hc, hT⟩ := hpair
  have hres : LclAlignPin a b rho sigma false false delta = LclAlign a b rho sigma delta := by
    unfold LclAlignPin LclAlign BackTrack
    simp only [Bool.false_eq_true, if_false]
    rw [hmax, hp, idx_div _ _ _ hc, idx_mod _ _ _ hc]
    have := hT [] [] ((idx b.length r c).toNat + 2) (CCigar.init ((r : Int) - 1) ((c : Int) - 1))
    rw [List.append_nil, List.append_nil] at this
    exact this.symm
  obtain ⟨r', c', v, U, -, -, -, -, -, -, hC⟩ :=
    LclAlign_traced a b rho sigma delta (le_of_lt hrho) hsig
  exact ⟨hmax, hres, _, hres.trans hC, hC⟩

/-- Witness for C23: `ACGT` against `AGT` with the DNA matrix (match 1, mismatch
2), `rho = 3`, `sigma = 1`. -/
theorem LclAlignPin_both_free_witness :
    LclAlignPin [65, 67, 71, 84] [65, 71, 84] 3 1 false false (SMatrix.dna 1 2) =
      LclAlign [65, 67, 71, 84] [65, 71, 84] 3 1 (SMatrix.dna 1 2) :=
  (LclAlignPin_both_free [65, 67, 71, 84] [65, 71, 84] 3 1 (SMatrix.dna 1 2) (by decide)
    (by decide)).2.1

/-- C32. `ReadJobInputs` partitions the reads into jobs: for run names and run
sizes of the same number (fewer than `2^31` runs, `file_num` being an `int`), all
sizes at least one, `total_length` their sum (a `size_t`) and `job_length ≥ 1`,
the function returns with jobs appended to `job_inputs` whose slices
`(name, from, to)`, read in order across the jobs, cover each run's indices
`0 .. file_length-1` exactly once, contiguously and in run order with
`from ≤ to` (they enumerate, in order, the pairs of run name and index of all
runs); every job holds between one and `job_length` reads and every job except
the last holds exactly `job_length`. -/
theorem ReadJobInputs_partitions (total_length job_length : Nat) (file_list : List String)
    (file_length : List Nat) (job_inputs : List TReadJob)
    (hlen : file_list.length = file_length.length) (hn : file_length.length < 2147483648)
    (hpos : ∀ x ∈ file_length, 1 ≤ x) (hsum : total_length = file_length.sum)
    (htot : total_length < 18446744073709551616) (hjob1 : 1 ≤ job_length)
    (hjob : job_length < 18446744073709551616) :
    ∃ jobs : List TReadJob,
      ReadJobInputs total_length job_length file_list file_length job_inputs =
        some (job_inputs ++ jobs) ∧
      Covers (file_list.zip file_length) 0 jobs.flatten ∧
      jobs.flatten.flatMap sliceIdx = fileIdx (file_list.zip file_length) ∧
      (∀ s ∈ jobs.flatten, s.2.1 ≤ s.2.2) ∧
      (∀ job ∈ jobs, 1 ≤ jobReads job ∧ jobReads job ≤ job_length) ∧
      (∀ i job, i + 1 < jobs.length → jobs[i]? = some job → jobReads job = job_length) := by
  have hsz := mem_lt_of_sum_lt file_length _ (hsum ▸ htot)
  have hinv : JobInv total_length file_length 0 0 0 :=
    ⟨Nat.zero_le _, by rw [List.drop_zero, hsum]; omega,
      fun x hx => hpos x (List.mem_iff_getElem?.2 ⟨_, hx⟩), fun _ => rfl⟩
  obtain ⟨jobs, hout, hcov, hsize, hfull, -⟩ :=
    ReadJobInputs.outer_spec total_length job_length file_list file_length hlen hn hpos hsz htot
      hjob1 hjob (total_length + 1) 0 0 0 job_inputs hinv
      (by rw [List.drop_zero, ← hsum]; omega)
  rw [List.drop_zero] at hcov
  refine ⟨jobs, hout, hcov, ?_, ?_, hsize, hfull⟩
  · rw [Covers_reads _ _ _ hcov, List.drop_zero]
  · exact Covers_from_le _ _ _ hcov

/-- Witness for C32: runs `a`, `b`, `c` of 3, 5 and 2 reads in jobs of 4 reads,
which gives the jobs `a 0-2, b 0-0`, then `b 1-4`, then `c 0-1`. -/
theorem ReadJobInputs_partitions_witness :
    ∃ jobs : List TReadJob,
      ReadJobInputs 10 4 ["a", "b", "c"] [3, 5, 2] [] = some ([] ++ jobs) ∧
      Covers (["a", "b", "c"].zip [3, 5, 2]) 0 jobs.flatten ∧
      jobs.flatten.flatMap sliceIdx = fileIdx (["a", "b", "c"].zip [3, 5, 2]) ∧
      (∀ s ∈ jobs.flatten, s.2.1 ≤ s.2.2) ∧
      (∀ job ∈ jobs, 1 ≤ jobReads job ∧ jobReads job ≤ 4) ∧
      (∀ i job, i + 1 < jobs.length → jobs[i]? = some job → jobReads job = 4) :=
  ReadJobInputs_partitions 10 4 ["a", "b", "c"] [3, 5, 2] [] (by decide) (by decide)
    (by decide) (by decide) (by decide) (by decide) (by decide)

end DeBruijn
